import Mathlib

/-!
# The single-processor computer simulator (`src/06`)

A shallow embedding of the assembler, the bounds-checked memory, the
instruction set, the processes, the schedulers, the CPU, the operating system
and the computer of the simulator, followed by the properties proved about
them.

Conventions of the embedding.

* A C++ `std::string` is a `List Char`; `std::isspace` and `isdigit` are the
  predicates of the "C" locale.
* `int32_t` values (`number_type`, `register_type`, `memory_type`) are `Int`s;
  a conversion into `int32_t` is `wrap32`, reduction modulo `2^32` into
  `[-2^31, 2^31)`.  `uintmax_t` values are `Nat`s reduced modulo `2^64`.
* A C++ exception is a value of `Fault`.  A function that may throw and has no
  state returns `Except Fault _`; a member function that may throw and mutates
  an object returns the pair of its outcome and the object as the call leaves
  it, so that the state after a throw can be talked about.
* The `Process` objects made so far are the list `processes`; a `ProcessPtr` is
  a position in that list, an iterator of a `std::list` a position in the list
  (its length for `end()`).
* A `Computer`, its CPU, its RAM and the `OS` objects made for it refer to one
  another through `shared_ptr`s; the objects pointed to are kept in a `World`
  and a pointer is the position of its object there.
* The loop of `CPU::awaken` is run for a bounded number of passes and gives
  `none` when they do not suffice; what a run does is stated for every bound
  from some bound on.
-/

namespace Computer

/-! ## Exceptions (`common.h`) -/

/-- The exception classes of `common.h`, with what their constructors receive.
`generalProtectionFault` is the `std::logic_error` thrown by `CPU::requireLevel`,
`badFunctionCall` the `std::bad_function_call` of an empty `std::function`. -/
inductive Fault where
  | illegalArgument (what : String)
  | unknownInstruction (instruction : List Char)
  | invalidRegister (reg : Int)
  | invalidAddress (reg : Int)
  | divisionByZero
  | noRAM
  | noCPU
  | parserException (cause : String) (line : List Char) (position : Nat)
  | illegalChange
  | generalProtectionFault
  | badFunctionCall
  deriving DecidableEq, Repr

/-- Whether the fault is a `ParserException`. -/
def Fault.isParserException : Fault → Bool
  | .parserException _ _ _ => true
  | _ => false

deriving instance DecidableEq for Except

/-! ## Machine integers -/

/-- The value `std::numeric_limits<int32_t>::max()`. -/
def INT32_MAX : Nat := 2147483647

/-- Conversion of an integer to `int32_t`: the representative of its class
modulo `2^32` lying in `[-2^31, 2^31)`. -/
def wrap32 (x : Int) : Int := (x + 2147483648) % 4294967296 - 2147483648

/-- Whether an integer is a value of `int32_t`. -/
def isInt32 (x : Int) : Prop := -2147483648 ≤ x ∧ x < 2147483648

instance (x : Int) : Decidable (isInt32 x) := by unfold isInt32; infer_instance

/-- Reduction of a natural number to `uintmax_t` (64 bits). -/
def wrapUMax (x : Nat) : Nat := x % 18446744073709551616

/-! ## Instructions (`instruction.h`) -/

/-- The eight instruction classes with their constructor arguments, in the
order the constructors take them. -/
inductive Instruction where
  | set (reg : Int) (val : Int)
  | load (dest : Int) (src : Int)
  | store (dest : Int) (src : Int)
  | add (dest : Int) (src : Int)
  | sub (dest : Int) (src : Int)
  | mul (dest : Int) (src : Int)
  | div (dest : Int) (src : Int)
  | println (reg : Int)
  deriving DecidableEq, Repr

/-! ## The assembler (`assembler.cc`) -/

/-- The predicate `std::isspace` in the "C" locale: space, `\t`, `\n`, `\v`,
`\f`, `\r`. -/
def isspace (c : Char) : Bool :=
  c.toNat == 32 || (9 ≤ c.toNat && c.toNat ≤ 13)

/-- The predicate `isdigit`: the characters `0` to `9`. -/
def isdigit (c : Char) : Bool :=
  48 ≤ c.toNat && c.toNat ≤ 57

/-- The method `Parser::removeTrailingDOSEndline`: drops one trailing `\r`. -/
def removeTrailingDOSEndline (line : List Char) : List Char :=
  if line ≠ [] ∧ line.getLast? = some '\r' then line.dropLast else line

/-- The state of an `Assembler::Parser`: the line and the read position. -/
structure Parser where
  line : List Char
  pos : Nat
  deriving DecidableEq, Repr

namespace Parser

/-- The constructor `Parser::Parser(line)`. -/
def new (line : List Char) : Parser :=
  { line := removeTrailingDOSEndline line, pos := 0 }

/-- The characters not yet read, `line[pos..]`. -/
def rest (p : Parser) : List Char := p.line.drop p.pos

/-- The method `Parser::require`: throws `ParserException(why, line, pos)` unless
the condition holds. -/
def require (p : Parser) (condition : Bool) (why : String) : Except Fault Unit :=
  if condition then .ok () else .error (.parserException why p.line p.pos)

/-- The method `Parser::hasNext`. -/
def hasNext (p : Parser) : Bool := decide (p.line.length > p.pos)

/-- The method `Parser::getNext`: the character at `pos`, and `pos` advanced. -/
def getNext (p : Parser) : Except Fault (Char × Parser) :=
  match p.require p.hasNext "Unexpected end of line" with
  | .error f => .error f
  | .ok _ => .ok (p.line.getD p.pos default, { p with pos := p.pos + 1 })

/-- The loop of `Parser::skipSpaces` run over the unread characters: the
position of the first unread character that is not a space. -/
def skipSpacesFrom : List Char → Nat → Nat
  | [], pos => pos
  | c :: cs, pos => if isspace c then skipSpacesFrom cs (pos + 1) else pos

/-- The method `Parser::skipSpaces`. -/
def skipSpaces (p : Parser) : Parser :=
  { p with pos := skipSpacesFrom p.rest p.pos }

/-- The local variables of `parseIntegral` when its loop is left, and the
parser position then. -/
structure IntegralLoop where
  res : Nat
  negative : Bool
  len : Nat
  pos : Nat
  deriving DecidableEq, Repr

/-- The `for` loop of `Parser::parseIntegral<T>`, run over the unread
characters `line[pos..]`; `max` is `numeric_limits<T>::max()` and `signed` is
`numeric_limits<T>::is_signed`.  Every `getNext` advances `pos` before the
checks that follow it, so a fault carries the advanced position. -/
def parseIntegralLoop (max : Nat) (signed : Bool) (line : List Char) :
    List Char → IntegralLoop → Except Fault IntegralLoop
  | [], st => .ok st
  | c :: cs, st =>
    if st.res < max then
      if isspace c then
        .ok { st with pos := st.pos + 1 }
      else if c = '-' then
        if st.len ≠ 0 then
          .error (.parserException "Minus sign should not appear inside a number"
            line (st.pos + 1))
        else if !signed then
          .error (.parserException "No sign expected" line (st.pos + 1))
        else
          parseIntegralLoop max signed line cs
            { st with negative := true, len := st.len + 1, pos := st.pos + 1 }
      else if !isdigit c then
        .error (.parserException ("Expected a digit, got ".push c) line (st.pos + 1))
      else
        parseIntegralLoop max signed line cs
          { st with res := wrapUMax (st.res * 10 + (c.toNat - 48)),
                    len := st.len + 1, pos := st.pos + 1 }
    else
      .ok st

/-- The method `Parser::parseIntegral<T>`. -/
def parseIntegral (max : Nat) (signed : Bool) (p : Parser) : Except Fault (Int × Parser) :=
  match parseIntegralLoop max signed p.line p.rest
      { res := 0, negative := false, len := 0, pos := p.pos } with
  | .error f => .error f
  | .ok st =>
    let q : Parser := { p with pos := st.pos }
    if st.negative then
      match q.require (decide (st.len > 1)) "Expected a number" with
      | .error f => .error f
      | .ok _ =>
        match q.require (decide (wrapUMax (st.res + 1) < max)) "Number is too big" with
        | .error f => .error f
        | .ok _ => .ok (-(st.res : Int), q)
    else
      match q.require (decide (st.len > 0)) "Expected a number" with
      | .error f => .error f
      | .ok _ =>
        match q.require (decide (st.res < max)) "Number is too big" with
        | .error f => .error f
        | .ok _ => .ok ((st.res : Int), q)

/-- The instance `parseIntegral<int32_t>`, the one every operand uses
(`register_type`, `memory_type` and `number_type` are all `int32_t`). -/
def parseInt32 (p : Parser) : Except Fault (Int × Parser) :=
  parseIntegral INT32_MAX true p

/-- The method `Parser::parseRegister`. -/
def parseRegister (p : Parser) : Except Fault (Int × Parser) :=
  match p.skipSpaces.getNext with
  | .error f => .error f
  | .ok (c, q) =>
    match q.require (c == 'R') "Expected a register" with
    | .error f => .error f
    | .ok _ => q.parseInt32

/-- The method `Parser::parseAddress`. -/
def parseAddress (p : Parser) : Except Fault (Int × Parser) :=
  match p.skipSpaces.getNext with
  | .error f => .error f
  | .ok (c, q) =>
    match q.require (c == 'M') "Expected a memory address" with
    | .error f => .error f
    | .ok _ => q.parseInt32

/-- The method `Parser::parseNumber`. -/
def parseNumber (p : Parser) : Except Fault (Int × Parser) :=
  p.skipSpaces.parseInt32

/-- The method `Parser::end`. -/
def «end» (p : Parser) : Except Fault Unit :=
  p.skipSpaces.require (decide (p.skipSpaces.pos = p.line.length)) "Trailing characters"

/-- The method `Parser::getWord`: the characters from the first non-space one
up to the next space, and the parser left at that space. -/
def getWord (p : Parser) : List Char × Parser :=
  let q := p.skipSpaces
  let result := q.rest.takeWhile (fun c => !isspace c)
  (result, { q with pos := q.pos + result.length })

end Parser

/-- The function `Assembler::compileLine`: the instruction of a line, nothing for
a line of spaces only. -/
def compileLine (line : List Char) : Except Fault (Option Instruction) :=
  let parser := Parser.new line
  let (op, parser) := parser.getWord
  if op = "SET".toList then
    match parser.parseRegister with
    | .error f => .error f
    | .ok (reg, parser) =>
      match parser.parseNumber with
      | .error f => .error f
      | .ok (val, parser) =>
        match parser.end with
        | .error f => .error f
        | .ok _ => .ok (some (.set reg val))
  else if op = "LOAD".toList then
    match parser.parseRegister with
    | .error f => .error f
    | .ok (reg, parser) =>
      match parser.parseAddress with
      | .error f => .error f
      | .ok (mem, parser) =>
        match parser.end with
        | .error f => .error f
        | .ok _ => .ok (some (.load reg mem))
  else if op = "STORE".toList then
    match parser.parseAddress with
    | .error f => .error f
    | .ok (mem, parser) =>
      match parser.parseRegister with
      | .error f => .error f
      | .ok (reg, parser) =>
        match parser.end with
        | .error f => .error f
        | .ok _ => .ok (some (.store mem reg))
  else if op = "ADD".toList then
    match parser.parseRegister with
    | .error f => .error f
    | .ok (lhs, parser) =>
      match parser.parseRegister with
      | .error f => .error f
      | .ok (rhs, parser) =>
        match parser.end with
        | .error f => .error f
        | .ok _ => .ok (some (.add lhs rhs))
  else if op = "SUB".toList then
    match parser.parseRegister with
    | .error f => .error f
    | .ok (lhs, parser) =>
      match parser.parseRegister with
      | .error f => .error f
      | .ok (rhs, parser) =>
        match parser.end with
        | .error f => .error f
        | .ok _ => .ok (some (.sub lhs rhs))
  else if op = "MUL".toList then
    match parser.parseRegister with
    | .error f => .error f
    | .ok (lhs, parser) =>
      match parser.parseRegister with
      | .error f => .error f
      | .ok (rhs, parser) =>
        match parser.end with
        | .error f => .error f
        | .ok _ => .ok (some (.mul lhs rhs))
  else if op = "DIV".toList then
    match parser.parseRegister with
    | .error f => .error f
    | .ok (lhs, parser) =>
      match parser.parseRegister with
      | .error f => .error f
      | .ok (rhs, parser) =>
        match parser.end with
        | .error f => .error f
        | .ok _ => .ok (some (.div lhs rhs))
  else if op = "PRINTLN".toList then
    match parser.parseRegister with
    | .error f => .error f
    | .ok (reg, parser) =>
      match parser.end with
      | .error f => .error f
      | .ok _ => .ok (some (.println reg))
  else if op = [] then
    .ok none
  else
    .error (.unknownInstruction op)

/-- The lines that successive calls of `std::getline` extract from a stream
holding `code`: the pieces between the `\n` characters, without a last empty
piece (at the end of the stream `getline` extracts nothing and fails).  `line`
holds the characters of the current line read so far, last one first. -/
def getlinesFrom : List Char → List Char → List (List Char)
  | [], line => if line = [] then [] else [line.reverse]
  | c :: cs, line =>
    if c = '\n' then line.reverse :: getlinesFrom cs [] else getlinesFrom cs (c :: line)

/-- The lines of a program text, as the loop of `Assembler::compile` reads
them. -/
def getlines (code : List Char) : List (List Char) := getlinesFrom code []

/-- A program: the instructions in order (`Program` of `process.h`). -/
abbrev Program := List Instruction

/-- The loop of `Assembler::compile` over the lines still to read, `compiled`
being the program built so far. -/
def compileLines : List (List Char) → Program → Except Fault Program
  | [], compiled => .ok compiled
  | line :: lines, compiled =>
    match compileLine line with
    | .error f => .error f
    | .ok (some instruction) => compileLines lines (compiled ++ [instruction])
    | .ok none => compileLines lines compiled

/-- The function `Assembler::compile`. -/
def compile (code : List Char) : Except Fault Program :=
  compileLines (getlines code) []

/-! ## Memory (`memory.h`) -/

/-- The class template `Memory<From, Index, Value, Exception>` at
`Index = Value = int32_t`: the vector of its cells.  The template arguments
`From` and `Exception` are passed to each method. -/
structure Memory where
  mem : List Int
  deriving DecidableEq, Repr

namespace Memory

/-- The constructor `Memory(size)`: `size` cells holding zero. -/
def new (size : Int) : Except Fault Memory :=
  if size ≤ 0 then .error (.illegalArgument "Negative size provided")
  else .ok { mem := List.replicate size.toNat 0 }

/-- The method `Memory::get`: the position in `mem` of the cell `idx` names.
`idx - From` is computed in `unsigned` and converted back to `int32_t`, and
`mem.size()` is converted to `int32_t`. -/
def get (From : Nat) (exc : Int → Fault) (m : Memory) (idx : Int) : Except Fault Nat :=
  let aligned := wrap32 (idx - From)
  if aligned < 0 ∨ aligned ≥ wrap32 m.mem.length then .error (exc idx)
  else .ok aligned.toNat

/-- The method `Memory::store`: its outcome and the memory afterwards. -/
def store (From : Nat) (exc : Int → Fault) (m : Memory) (idx val : Int) :
    Except Fault Unit × Memory :=
  match get From exc m idx with
  | .error f => (.error f, m)
  | .ok a => (.ok (), { mem := m.mem.set a val })

/-- The method `Memory::load`: its outcome and the memory afterwards. -/
def load (From : Nat) (exc : Int → Fault) (m : Memory) (idx : Int) :
    Except Fault Int × Memory :=
  match get From exc m idx with
  | .error f => (.error f, m)
  | .ok a => (.ok (m.mem.getD a 0), m)

/-- The method `Memory::clear`. -/
def clear (m : Memory) : Memory := { mem := m.mem.map (fun _ => 0) }

end Memory

/-- The methods of `RegisterSet = Memory<1, int32_t, int32_t, InvalidRegisterException>`. -/
def RegisterSet.store (m : Memory) (idx val : Int) : Except Fault Unit × Memory :=
  Memory.store 1 Fault.invalidRegister m idx val

/-- The method `RegisterSet::load`. -/
def RegisterSet.load (m : Memory) (idx : Int) : Except Fault Int × Memory :=
  Memory.load 1 Fault.invalidRegister m idx

/-- The methods of `RAM = Memory<0, int32_t, int32_t, InvalidAddressException>`. -/
def RAM.store (m : Memory) (idx val : Int) : Except Fault Unit × Memory :=
  Memory.store 0 Fault.invalidAddress m idx val

/-- The method `RAM::load`. -/
def RAM.load (m : Memory) (idx : Int) : Except Fault Int × Memory :=
  Memory.load 0 Fault.invalidAddress m idx

/-! ## Execution of instructions (`instruction.h`, `instruction.cc`) -/

/-- What an instruction acts on: the register file and the RAM it is handed, and
the lines written to `std::cout` so far (each `PRINTLN` writes one number). -/
structure Machine where
  regs : Memory
  ram : Memory
  out : List Int
  deriving DecidableEq, Repr

/-- The operation classes `std::plus`, `std::minus`, `std::multiplies` and
`divides` at `long_number_type`. -/
inductive Op where
  | plus
  | minus
  | multiplies
  | divides
  deriving DecidableEq, Repr

/-- The call `operation(lhs, rhs)` on 64-bit operands.  Both operands come from
`int32_t` registers, so no 64-bit result overflows and the exact integer is
the 64-bit value; `/` truncates toward zero. -/
def Op.apply : Op → Int → Int → Except Fault Int
  | .plus, lhs, rhs => .ok (lhs + rhs)
  | .minus, lhs, rhs => .ok (lhs - rhs)
  | .multiplies, lhs, rhs => .ok (lhs * rhs)
  | .divides, lhs, rhs => if rhs = 0 then .error .divisionByZero else .ok (Int.tdiv lhs rhs)

/-- The method `ArithmeticInstruction<Op>::execute`: `src` is loaded first, then
`dest`; the 64-bit result is narrowed to `int32_t` and stored in `dest`. -/
def executeArithmetic (op : Op) (dest src : Int) (m : Machine) : Except Fault Unit × Machine :=
  match RegisterSet.load m.regs src with
  | (.error f, regs) => (.error f, { m with regs := regs })
  | (.ok rhs, regs) =>
    match RegisterSet.load regs dest with
    | (.error f, regs) => (.error f, { m with regs := regs })
    | (.ok lhs, regs) =>
      match op.apply lhs rhs with
      | .error f => (.error f, { m with regs := regs })
      | .ok res =>
        match RegisterSet.store regs dest (wrap32 res) with
        | (r, regs) => (r, { m with regs := regs })

/-- The method `execute` of each instruction class: its outcome and the machine
afterwards. -/
def Instruction.execute : Instruction → Machine → Except Fault Unit × Machine
  | .set reg val, m =>
    match RegisterSet.store m.regs reg val with
    | (r, regs) => (r, { m with regs := regs })
  | .load dest src, m =>
    match RAM.load m.ram src with
    | (.error f, ram) => (.error f, { m with ram := ram })
    | (.ok val, ram) =>
      match RegisterSet.store m.regs dest val with
      | (r, regs) => (r, { m with regs := regs, ram := ram })
  | .store dest src, m =>
    match RegisterSet.load m.regs src with
    | (.error f, regs) => (.error f, { m with regs := regs })
    | (.ok val, regs) =>
      match RAM.store m.ram dest val with
      | (r, ram) => (r, { m with regs := regs, ram := ram })
  | .add dest src, m => executeArithmetic .plus dest src m
  | .sub dest src, m => executeArithmetic .minus dest src m
  | .mul dest src, m => executeArithmetic .multiplies dest src m
  | .div dest src, m => executeArithmetic .divides dest src m
  | .println reg, m =>
    match RegisterSet.load m.regs reg with
    | (.error f, regs) => (.error f, { m with regs := regs })
    | (.ok val, regs) => (.ok (), { m with regs := regs, out := m.out ++ [val] })

/-! ## The grammar of a line, in the words of the specification

These definitions say what a line looks like; none of them is used by the
assembler above. -/

namespace Spec

/-- The value of a string of decimal digits read from the left, continuing
from the value `acc`. -/
def digitsValue (ds : List Char) (acc : Nat) : Nat :=
  ds.foldl (fun r c => r * 10 + (c.toNat - 48)) acc

/-- One or more digits `0` to `9`. -/
def isDigits (ds : List Char) : Bool := !ds.isEmpty && ds.all isdigit

/-- A signed-integer literal: an optional leading `-`, then one or more digits. -/
def isLiteral : List Char → Bool
  | [] => false
  | c :: ds => if c = '-' then isDigits ds else isDigits (c :: ds)

/-- The decimal value of a signed-integer literal. -/
def decimalValue : List Char → Int
  | [] => 0
  | c :: ds => if c = '-' then -(digitsValue ds 0 : Int) else (digitsValue (c :: ds) 0 : Int)

/-- The operand token at the head of the unread characters: the characters up
to the next whitespace or the end of the line. -/
def token (r : List Char) : List Char := r.takeWhile (fun c => !isspace c)

/-- The first whitespace-delimited word of a line. -/
def firstWord (line : List Char) : List Char := token (line.dropWhile isspace)

/-- A string of whitespace only. -/
def allSpace (s : List Char) : Bool := s.all isspace

/-- The decimal digits of a natural number, most significant first; `fuel`
bounds the number of digits. -/
def showNatFuel : Nat → Nat → List Char
  | 0, n => [Char.ofNat (48 + n % 10)]
  | fuel + 1, n =>
    if n < 10 then [Char.ofNat (48 + n)]
    else showNatFuel fuel (n / 10) ++ [Char.ofNat (48 + n % 10)]

/-- The decimal literal of an integer, with a leading `-` when it is negative. -/
def showInt (v : Int) : List Char :=
  if v < 0 then '-' :: showNatFuel v.natAbs v.natAbs else showNatFuel v.natAbs v.natAbs

/-- The three kinds of operand of the grammar: `R<int>`, `M<int>`, `<int>`. -/
inductive OperandKind where
  | register
  | address
  | number
  deriving DecidableEq, Repr

/-- The letter an operand of each kind starts with. -/
def OperandKind.letter : OperandKind → List Char
  | .register => ['R']
  | .address => ['M']
  | .number => []

/-- The opcode keyword of an instruction. -/
def mnemonic : Instruction → List Char
  | .set _ _ => "SET".toList
  | .load _ _ => "LOAD".toList
  | .store _ _ => "STORE".toList
  | .add _ _ => "ADD".toList
  | .sub _ _ => "SUB".toList
  | .mul _ _ => "MUL".toList
  | .div _ _ => "DIV".toList
  | .println _ => "PRINTLN".toList

/-- The operands of an instruction in the order the grammar writes them. -/
def operands : Instruction → List (OperandKind × Int)
  | .set reg val => [(.register, reg), (.number, val)]
  | .load dest src => [(.register, dest), (.address, src)]
  | .store dest src => [(.address, dest), (.register, src)]
  | .add dest src => [(.register, dest), (.register, src)]
  | .sub dest src => [(.register, dest), (.register, src)]
  | .mul dest src => [(.register, dest), (.register, src)]
  | .div dest src => [(.register, dest), (.register, src)]
  | .println reg => [(.register, reg)]

/-- The operands written out, the `k`-th one (counted from `k`) preceded by the
separator `sep k`. -/
def writeOperands : List (OperandKind × Int) → (Nat → List Char) → Nat → List Char
  | [], _, _ => []
  | (kind, v) :: rest, sep, k =>
    sep k ++ kind.letter ++ showInt v ++ writeOperands rest sep (k + 1)

/-- The line of an instruction written per the grammar: leading whitespace, the
opcode, the operands each after its separator, trailing whitespace. -/
def writeLine (lead : List Char) (i : Instruction) (sep : Nat → List Char)
    (trail : List Char) : List Char :=
  lead ++ mnemonic i ++ writeOperands (operands i) sep 0 ++ trail

/-- The eight opcode keywords. -/
def opcodes : List (List Char) :=
  ["SET".toList, "LOAD".toList, "STORE".toList, "ADD".toList, "SUB".toList,
   "MUL".toList, "DIV".toList, "PRINTLN".toList]

end Spec

/-! ## Devices of the proofs about the assembler -/

/-- The parser that has read `pre` and has `r` left to read. -/
def Parser.after (pre r : List Char) : Parser := { line := pre ++ r, pos := pre.length }

/-- What may follow an operand token: the end of the line or a whitespace. -/
def endsToken : List Char → Bool
  | [] => true
  | c :: _ => isspace c

/-- Unread characters that do not start with a whitespace. -/
def startsToken : List Char → Bool
  | [] => true
  | c :: _ => !isspace c

/-- The values `parseIntegral<int32_t>` returns: from `-2147483645` to
`2147483646`. -/
def accepted (v : Int) : Prop := -2147483645 ≤ v ∧ v ≤ 2147483646

instance (v : Int) : Decidable (accepted v) := by unfold accepted; infer_instance

/-- The parsing method of each kind of operand. -/
def Parser.parseOperand : Spec.OperandKind → Parser → Except Fault (Int × Parser)
  | .register, p => p.parseRegister
  | .address, p => p.parseAddress
  | .number, p => p.parseNumber

/-- Operands parsed one after the other. -/
def Parser.parseOperands : List Spec.OperandKind → Parser → Except Fault (List Int × Parser)
  | [], p => .ok ([], p)
  | k :: ks, p =>
    match p.parseOperand k with
    | .error f => .error f
    | .ok (v, q) =>
      match q.parseOperands ks with
      | .error f => .error f
      | .ok (vs, q1) => .ok (v :: vs, q1)

/-- The operand kinds each opcode of `compileLine` parses, and the instruction
it builds from their values. -/
def decode (op : List Char) : Option (List Spec.OperandKind × (List Int → Instruction)) :=
  if op = "SET".toList then
    some ([.register, .number], fun vs => .set (vs.getD 0 0) (vs.getD 1 0))
  else if op = "LOAD".toList then
    some ([.register, .address], fun vs => .load (vs.getD 0 0) (vs.getD 1 0))
  else if op = "STORE".toList then
    some ([.address, .register], fun vs => .store (vs.getD 0 0) (vs.getD 1 0))
  else if op = "ADD".toList then
    some ([.register, .register], fun vs => .add (vs.getD 0 0) (vs.getD 1 0))
  else if op = "SUB".toList then
    some ([.register, .register], fun vs => .sub (vs.getD 0 0) (vs.getD 1 0))
  else if op = "MUL".toList then
    some ([.register, .register], fun vs => .mul (vs.getD 0 0) (vs.getD 1 0))
  else if op = "DIV".toList then
    some ([.register, .register], fun vs => .div (vs.getD 0 0) (vs.getD 1 0))
  else if op = "PRINTLN".toList then
    some ([.register], fun vs => .println (vs.getD 0 0))
  else none

/-- The body of `compileLine` after `getWord`, with the eight branches folded
into `decode`. -/
def compileWord (op : List Char) (parser : Parser) : Except Fault (Option Instruction) :=
  match decode op with
  | some (kinds, build) =>
    match parser.parseOperands kinds with
    | .error f => .error f
    | .ok (vs, parser) =>
      match parser.end with
      | .error f => .error f
      | .ok _ => .ok (some (build vs))
  | none => if op = [] then .ok none else .error (.unknownInstruction op)

/-- The parsers `p` and `q` are at the same place of a line and of that line
extended by `e`: both have read `pre`, or `p` is at the end of its line and `q`
has read one character more. -/
def Extends (e : List Char) (p q : Parser) : Prop :=
  ∃ pre r, p = Parser.after pre r ∧
    (q = Parser.after pre (r ++ e) ∨ (r = [] ∧ q = Parser.after (pre ++ e.take 1) (e.drop 1)))

/-! ## Processes (`process.h`, `process.cc`) -/

/-- The class `Process`: the program and the position of `instruction_pointer`
in it (`text.length` is `cend()`). -/
structure Process where
  text : Program
  instruction_pointer : Nat
  deriving DecidableEq, Repr

namespace Process

/-- The constructor `Process(text)`. -/
def new (text : Program) : Process := { text := text, instruction_pointer := 0 }

/-- The method `Process::hasNext`. -/
def hasNext (p : Process) : Bool := decide (p.instruction_pointer ≠ p.text.length)

/-- The method `Process::program`. -/
def program (p : Process) : Program := p.text

/-- The method `Process::next`: the instruction under the pointer (nothing
defined at `cend()`), and the process with the pointer advanced. -/
def next (p : Process) : Option Instruction × Process :=
  (p.text[p.instruction_pointer]?, { p with instruction_pointer := p.instruction_pointer + 1 })

end Process

/-! ## Schedulers (`scheduler.h`, `scheduler.cc`)

Processes are shared between the scheduler and the CPU through `ProcessPtr`.
The `Process` objects live in a list `processes`, and a `ProcessPtr` is the
position of its object in that list. -/

/-- The constant `SchedulingAlgorithm::WITHOUT_TIMER`. -/
def WITHOUT_TIMER : Int := 0

/-- The three classes derived from `Scheduler`; `rr` holds its `quantum`. -/
inductive Strategy where
  | fcfs
  | rr (quantum : Int)
  | sjf
  deriving DecidableEq, Repr

/-- The state of a `Scheduler`: its class, the list `active` and the iterator
`current`, a position in `active` (`active.length` is `end()`). -/
structure Scheduler where
  strategy : Strategy
  active : List Nat
  current : Nat
  deriving DecidableEq, Repr

/-- The call `p->hasNext()` through a `ProcessPtr`. -/
def hasNextAt (processes : List Process) (p : Nat) : Bool :=
  match processes[p]? with
  | some q => q.hasNext
  | none => false

/-- The function `SJFScheduler::length`. -/
def SJFScheduler.length (processes : List Process) (p : Nat) : Nat :=
  match processes[p]? with
  | some q => q.program.length
  | none => 0

/-- The function `SJFScheduler::compare`. -/
def SJFScheduler.compare (processes : List Process) (lhs rhs : Nat) : Bool :=
  decide (SJFScheduler.length processes lhs < SJFScheduler.length processes rhs)

namespace Scheduler

/-- The method `listChanged`: `SJFScheduler` sorts `active` with
`std::list::sort(compare)`, the stable sort of the standard library, which puts
`a` before `b` unless `compare(b, a)`; the other classes do nothing. -/
def listChanged (processes : List Process) (s : Scheduler) : Scheduler :=
  match s.strategy with
  | .sjf =>
    { s with active :=
        s.active.insertionSort (fun a b => SJFScheduler.compare processes b a = false) }
  | _ => s

/-- The method `Scheduler::setList`. -/
def setList (processes : List Process) (s : Scheduler) (list : List Nat) : Scheduler :=
  let s := listChanged processes { s with active := list }
  let current := s.active.length
  { s with current := if current ≠ 0 then current - 1 else current }

/-- The `while` loop of `Scheduler::schedule` run over the elements of `active`
from `current` on: the elements left from `current` on, and `deleted`. -/
def eraseLoop (processes : List Process) : List Nat → Bool → List Nat × Bool
  | [], deleted => ([], deleted)
  | p :: rest, deleted =>
    if !hasNextAt processes p then eraseLoop processes rest true else (p :: rest, deleted)

/-- The method `pickProcess` of the three classes: `*current` and the quantum. -/
def pickProcess (s : Scheduler) : Option Nat × Int :=
  match s.strategy with
  | .fcfs => (s.active[s.current]?, WITHOUT_TIMER)
  | .rr quantum => (s.active[s.current]?, quantum)
  | .sjf => (s.active[s.current]?, WITHOUT_TIMER)

/-- The method `Scheduler::schedule`: the response and the scheduler afterwards.
An erased element leaves `current` at the same position. -/
def schedule (processes : List Process) (s : Scheduler) : (Option Nat × Int) × Scheduler :=
  let (rest, deleted) := eraseLoop processes (s.active.drop s.current) false
  let active := s.active.take s.current ++ rest
  let current := s.current
  let current := if !deleted && current ≠ active.length then current + 1 else current
  let current := if current = active.length then 0 else current
  let s := { s with active := active, current := current }
  if active.isEmpty then ((none, WITHOUT_TIMER), s) else (s.pickProcess, s)

end Scheduler

/-! ## The CPU (`cpu.h`, `cpu.cc`) -/

/-- The enumeration `CPU::ProtectionLevel`. -/
inductive ProtectionLevel where
  | RING0
  | RING3
  deriving DecidableEq, Repr

/-- The value of an enumerator. -/
def ProtectionLevel.toNat : ProtectionLevel → Nat
  | .RING0 => 0
  | .RING3 => 1

/-- The class `CPU`.  Its RAM is the field `ram` of `System`;
`interrupt_handler` tells whether the handler of `OS::executePrograms` is
installed (the only handler ever installed) or the function object is empty. -/
structure CPU where
  registers : Memory
  timer : Int
  timer_active : Bool
  interrupt_handler : Bool
  job : Option Nat
  awake : Bool
  current_level : ProtectionLevel
  deriving DecidableEq, Repr

namespace CPU

/-- The constructor `CPU(register_count, ram)`. -/
def new (register_count : Int) : Except Fault CPU :=
  match Memory.new register_count with
  | .error f => .error f
  | .ok registers =>
    .ok { registers := registers, timer := 0, timer_active := false,
          interrupt_handler := false, job := none, awake := false, current_level := .RING0 }

/-- The method `CPU::requireLevel`. -/
def requireLevel (c : CPU) (level : ProtectionLevel) : Except Fault Unit :=
  if level.toNat < c.current_level.toNat then .error .generalProtectionFault else .ok ()

/-- The method `CPU::clearRegisters`. -/
def clearRegisters (c : CPU) : CPU := { c with registers := c.registers.clear }

/-- The method `CPU::setInterruptHandler`. -/
def setInterruptHandler (c : CPU) (handler : Bool) : Except Fault Unit × CPU :=
  match c.requireLevel .RING0 with
  | .error f => (.error f, c)
  | .ok _ => (.ok (), { c with interrupt_handler := handler })

/-- The method `CPU::sleep`. -/
def sleep (c : CPU) : Except Fault Unit × CPU :=
  match c.requireLevel .RING0 with
  | .error f => (.error f, c)
  | .ok _ => (.ok (), { c with awake := false })

/-- The method `CPU::setJob`. -/
def setJob (c : CPU) (process : Option Nat) : Except Fault Unit × CPU :=
  match c.requireLevel .RING0 with
  | .error f => (.error f, c)
  | .ok _ => (.ok (), { c with job := process })

/-- The method `CPU::setTimer`. -/
def setTimer (c : CPU) (left : Int) : Except Fault Unit × CPU :=
  match c.requireLevel .RING0 with
  | .error f => (.error f, c)
  | .ok _ => (.ok (), { c with timer_active := true, timer := left })

/-- The method `CPU::disableTimer`. -/
def disableTimer (c : CPU) : Except Fault Unit × CPU :=
  match c.requireLevel .RING0 with
  | .error f => (.error f, c)
  | .ok _ => (.ok (), { c with timer_active := false })

/-- The destructor `CPU::restorer::~restorer`. -/
def restorer (c : CPU) : CPU :=
  { c with awake := false, current_level := .RING0, timer_active := false }

end CPU

/-! ## The operating system (`os.h`, `os.cc`) and the run loop of the CPU -/

/-- What a run of `OS::executePrograms` acts on: the CPU and its RAM, the
scheduler of the OS, the `Process` objects created so far, the numbers written
to `std::cout`, and `executed`, a record of every call
`job->next()->execute(registers, ram)` made so far (the `ProcessPtr` and the
instruction), kept to state properties and read by nothing. -/
structure System where
  cpu : CPU
  ram : Memory
  scheduler : Scheduler
  processes : List Process
  out : List Int
  executed : List (Nat × Instruction)
  deriving DecidableEq, Repr

namespace System

/-- The registers, the RAM and the output as an instruction sees them. -/
def machine (s : System) : Machine := { regs := s.cpu.registers, ram := s.ram, out := s.out }

/-- The system after an instruction left the machine `m`. -/
def setMachine (s : System) (m : Machine) : System :=
  { s with cpu := { s.cpu with registers := m.regs }, ram := m.ram, out := m.out }

/-- The interrupt handler of `OS::executePrograms`, the lambda `schedule`. -/
def schedule (s : System) : Except Fault Unit × System :=
  let (ret, scheduler) := s.scheduler.schedule s.processes
  let s := { s with scheduler := scheduler }
  match ret.1 with
  | none =>
    let (r, cpu) := s.cpu.sleep
    (r, { s with cpu := cpu })
  | some process =>
    let quantum := ret.2
    let (r, cpu) := if quantum ≠ WITHOUT_TIMER then s.cpu.setTimer quantum else s.cpu.disableTimer
    match r with
    | .error f => (.error f, { s with cpu := cpu })
    | .ok _ =>
      let (r, cpu) := cpu.setJob (some process)
      (r, { s with cpu := cpu })

/-- The method `CPU::interrupt`; calling an empty handler throws
`std::bad_function_call`. -/
def interrupt (s : System) : Except Fault Unit × System :=
  let s := { s with cpu := { s.cpu with current_level := .RING0 } }
  if !s.cpu.interrupt_handler then (.error .badFunctionCall, s)
  else
    match s.schedule with
    | (.error f, s) => (.error f, s)
    | (.ok _, s) => (.ok (), { s with cpu := { s.cpu with current_level := .RING3 } })

/-- The method `CPU::timerTick`; `--timer` wraps in 32 bits. -/
def timerTick (s : System) : Except Fault Unit × System :=
  if s.cpu.timer_active then
    let s := { s with cpu := { s.cpu with timer := wrap32 (s.cpu.timer - 1) } }
    if s.cpu.timer = 0 then
      interrupt { s with cpu := { s.cpu with timer_active := false } }
    else (.ok (), s)
  else (.ok (), s)

/-- The body of the `while` loop of `CPU::awaken`; nothing is defined when
`job` points to no process or `next` is called at the end of the program. -/
def awakenBody (s : System) : Option (Except Fault Unit × System) :=
  match s.cpu.job with
  | none => some s.interrupt
  | some job =>
    match s.processes[job]? with
    | none => none
    | some process =>
      if !process.hasNext then some s.interrupt
      else
        match process.next with
        | (none, _) => none
        | (some instruction, process) =>
          let s := { s with processes := s.processes.set job process,
                            executed := s.executed ++ [(job, instruction)] }
          match instruction.execute s.machine with
          | (.error f, m) => some (.error f, s.setMachine m)
          | (.ok _, m) => some (s.setMachine m).timerTick

/-- The `while(awake)` loop of `CPU::awaken`, for at most `fuel` passes; the
result is `none` when the passes do not suffice. -/
def awakenLoop : Nat → System → Option (Except Fault Unit × System)
  | 0, _ => none
  | fuel + 1, s =>
    if !s.cpu.awake then some (.ok (), s)
    else
      match s.awakenBody with
      | none => none
      | some (.error f, s) => some (.error f, s)
      | some (.ok _, s) => awakenLoop fuel s

/-- The method `CPU::awaken`; the `restorer` runs however the loop is left. -/
def awaken (fuel : Nat) (s : System) : Option (Except Fault Unit × System) :=
  match s.cpu.requireLevel .RING0 with
  | .error f => some (.error f, s)
  | .ok _ =>
    match awakenLoop fuel { s with cpu := { s.cpu with awake := true } } with
    | none => none
    | some (r, s) => some (r, { s with cpu := s.cpu.restorer })

/-- The programs of `OS::makeProcess` applied to each text in turn; the first
compilation fault is thrown. -/
def makeProcesses : List (List Char) → Except Fault (List Process)
  | [] => .ok []
  | code :: programs =>
    match compile code with
    | .error f => .error f
    | .ok text =>
      match makeProcesses programs with
      | .error f => .error f
      | .ok list => .ok (Process.new text :: list)

/-- The method `OS::executePrograms`, its loop run for at most `fuel` passes. -/
def executePrograms (fuel : Nat) (s : System) (programs : List (List Char)) :
    Option (Except Fault Unit × System) :=
  match makeProcesses programs with
  | .error f => some (.error f, s)
  | .ok list =>
    let pointers := (List.range list.length).map (fun i => s.processes.length + i)
    let s := { s with processes := s.processes ++ list }
    let s := { s with scheduler := s.scheduler.setList s.processes pointers }
    match s.cpu.disableTimer with
    | (.error f, cpu) => some (.error f, { s with cpu := cpu })
    | (.ok _, cpu) =>
      match cpu.setInterruptHandler true with
      | (.error f, cpu) => some (.error f, { s with cpu := cpu })
      | (.ok _, cpu) =>
        match System.schedule { s with cpu := cpu } with
        | (.error f, s) => some (.error f, s)
        | (.ok _, s) =>
          match s.awaken fuel with
          | none => none
          | some (.error f, s) => some (.error f, s)
          | some (.ok _, s) =>
            match s.cpu.setInterruptHandler false with
            | (r, cpu) => some (r, { s with cpu := cpu })

/-- The OS that `installOS` returns on a computer of `register_count` registers
and `size` cells of RAM: cleared memories, a halted CPU, nothing run yet. -/
def fresh (register_count size : Nat) (strategy : Strategy) : System :=
  { cpu := { registers := { mem := List.replicate register_count 0 }, timer := 0,
             timer_active := false, interrupt_handler := false, job := none,
             awake := false, current_level := .RING0 },
    ram := { mem := List.replicate size 0 },
    scheduler := { strategy := strategy, active := [], current := 0 },
    processes := [], out := [], executed := [] }

end System

/-! ## Devices of the proofs about scheduling -/

/-- A process without a next instruction, seen through its `ProcessPtr`. -/
def exhausted (processes : List Process) (p : Nat) : Bool := !hasNextAt processes p

/-- The instructions a process has not run yet. -/
def leftAt (processes : List Process) (p : Nat) : List Instruction :=
  match processes[p]? with
  | some q => q.text.drop q.instruction_pointer
  | none => []

/-- The list `l` read cyclically from position `c`. -/
def rotated (l : List Nat) (c : Nat) : List Nat := l.drop c ++ l.take c

/-- Every instruction pointer is inside its program or at its end. -/
def pointersValid (processes : List Process) : Prop :=
  ∀ (p : Nat) (q : Process), processes[p]? = some q → q.instruction_pointer ≤ q.text.length

/-- The order `setList` leaves a list in: sorted by program length under
`SJFScheduler`, as given under the other two. -/
def strategyOrder (processes : List Process) (strategy : Strategy) (list : List Nat) :
    List Nat :=
  (Scheduler.listChanged processes { strategy := strategy, active := list, current := 0 }).active

namespace Spec

/-- The number of instructions of a slice: all that is left without a timer,
at most the quantum with one. -/
def sliceLength (quantum : Option Nat) (left : Nat) : Nat :=
  match quantum with
  | none => left
  | some q => min q left

/-- The order in which instructions run when the processes of `queue`, each
with the instructions it has left, take slices in turn: the first process runs
a slice and, if it has instructions left, goes to the back of the queue.
`fuel` bounds the number of slices. -/
def roundRobin (quantum : Option Nat) :
    Nat → List (Nat × List Instruction) → List (Nat × Instruction)
  | 0, _ => []
  | _ + 1, [] => []
  | fuel + 1, (p, left) :: queue =>
    (left.take (sliceLength quantum left.length)).map (fun i => (p, i)) ++
      roundRobin quantum fuel
        (if (left.drop (sliceLength quantum left.length)).isEmpty then queue
         else queue ++ [(p, left.drop (sliceLength quantum left.length))])

/-- The instructions of a list of turns, each with the process of its turn. -/
def flatten (turns : List (Nat × List Instruction)) : List (Nat × Instruction) :=
  turns.flatMap (fun e => e.2.map (fun i => (e.1, i)))

/-- The programs that are not empty, in list order, each with its position in
the list, counted from `base`. -/
def initialQueue (base : Nat) (programs : List Program) : List (Nat × List Instruction) :=
  (programs.enumFrom base).filter (fun e => !e.2.isEmpty)

/-- The concatenation of the programs in list order, each instruction with the
position of its program in the list, counted from `base`. -/
def inTurn (base : Nat) (programs : List Program) : List (Nat × Instruction) :=
  flatten (programs.enumFrom base)

/-- Instructions executed one after the other on a machine up to the first
fault: the outcome, the machine left, and the instructions executed, the
faulting one included. -/
def replay : List (Nat × Instruction) → Machine →
    Except Fault Unit × Machine × List (Nat × Instruction)
  | [], m => (.ok (), m, [])
  | (p, i) :: rest, m =>
    match i.execute m with
    | (.error f, m1) => (.error f, m1, [(p, i)])
    | (.ok _, m1) =>
      match replay rest m1 with
      | (r, m2, done) => (r, m2, (p, i) :: done)

/-- The quantum a strategy runs its processes with: none without a timer. -/
def quantumOf : Strategy → Option Nat
  | .rr quantum => if quantum = WITHOUT_TIMER then none else some quantum.toNat
  | _ => none

/-- The processes of a list that have instructions left, each with them. -/
def queueOf (processes : List Process) (l : List Nat) : List (Nat × List Instruction) :=
  (l.map (fun p => (p, leftAt processes p))).filter (fun e => !e.2.isEmpty)

/-- The number of instructions in a queue. -/
def total (queue : List (Nat × List Instruction)) : Nat :=
  (queue.map (fun e => e.2.length)).sum

end Spec

/-- The state the handler `schedule` leaves when no CPU call of it throws. -/
def System.scheduled (s : System) : System :=
  match (s.scheduler.schedule s.processes).1 with
  | (none, _) =>
    { s with scheduler := (s.scheduler.schedule s.processes).2,
             cpu := { s.cpu with awake := false } }
  | (some process, quantum) =>
    { s with scheduler := (s.scheduler.schedule s.processes).2,
             cpu := { s.cpu with
               timer_active := decide (quantum ≠ WITHOUT_TIMER),
               timer := if quantum ≠ WITHOUT_TIMER then quantum else s.cpu.timer,
               job := some process } }

/-- The quantum `pickProcess` returns for each class of scheduler. -/
def Strategy.quantum : Strategy → Int
  | .rr quantum => quantum
  | _ => WITHOUT_TIMER

/-- The state `interrupt` leaves when the handler is installed. -/
def System.interrupted (s : System) : System :=
  { (System.scheduled { s with cpu := { s.cpu with current_level := .RING0 } }) with
    cpu := { (System.scheduled { s with cpu := { s.cpu with current_level := .RING0 } }).cpu with
      current_level := .RING3 } }

/-- The state after the job `r`, the process `pr`, ran the instruction `i`, which
left the machine `m`: the pointer of the process is advanced and the
instruction recorded. -/
def System.stepped (s : System) (r : Nat) (pr : Process) (i : Instruction) (m : Machine) :
    System :=
  System.setMachine
    { s with processes := s.processes.set r pr.next.2, executed := s.executed ++ [(r, i)] } m

/-- The state `t` is the state `s` after the job `r`, whose process was `pr`, ran
the `j` instructions recorded in `d` and left the machine `m`, the timer not
having expired. -/
def System.advanced (s : System) (r : Nat) (pr : Process) (j : Nat) (m : Machine)
    (d : List (Nat × Instruction)) (t : System) : Prop :=
  t.scheduler = s.scheduler ∧ t.cpu.awake = s.cpu.awake ∧
  t.cpu.interrupt_handler = s.cpu.interrupt_handler ∧ t.cpu.job = s.cpu.job ∧
  t.cpu.timer_active = s.cpu.timer_active ∧
  (t.cpu.timer_active = true → t.cpu.timer = s.cpu.timer - j) ∧
  t.machine = m ∧ t.executed = s.executed ++ d ∧
  t.processes.length = s.processes.length ∧
  (∀ p, p ≠ r → t.processes[p]? = s.processes[p]?) ∧
  t.processes[r]? = some { pr with instruction_pointer := pr.instruction_pointer + j }

/-- The loop of `awaken` started in `s` ends, with the outcome `x.1`, on the
machine `x.2.1`, after it executed `x.2.2`; when it ends without a fault the
active list is empty and the CPU asleep. -/
def System.runs (s : System) (x : Except Fault Unit × Machine × List (Nat × Instruction)) :
    Prop :=
  ∃ fuel t, System.awakenLoop fuel s = some (x.1, t) ∧ t.executed = s.executed ++ x.2.2 ∧
    t.machine = x.2.1 ∧ t.processes.length = s.processes.length ∧
    t.scheduler.strategy = s.scheduler.strategy ∧
    (x.1 = .ok () → t.scheduler.active = [] ∧ t.cpu.awake = false)

/-- The instructions of a turn of the job `r`: the next `n` of the process `pr`. -/
def turnOf (r : Nat) (pr : Process) (n : Nat) : List (Nat × Instruction) :=
  ((pr.text.drop pr.instruction_pointer).take n).map (fun i => (r, i))

/-- The loop started in `s` gives the job `r`, the process `pr`, a turn of `n`
instructions: either one of them faults and the loop ends there, or the loop
reaches an interrupt in a state `t` where they all ran, and goes on from the
state the interrupt leaves. -/
def System.turns (s : System) (r : Nat) (pr : Process) (n : Nat) : Prop :=
  ((Spec.replay (turnOf r pr n) s.machine).1 ≠ .ok () →
    s.runs (Spec.replay (turnOf r pr n) s.machine)) ∧
  ((Spec.replay (turnOf r pr n) s.machine).1 = .ok () →
    ∃ t : System, t.scheduler = s.scheduler ∧ t.cpu.awake = true ∧
      t.cpu.interrupt_handler = true ∧
      t.machine = (Spec.replay (turnOf r pr n) s.machine).2.1 ∧
      t.executed = s.executed ++ turnOf r pr n ∧
      t.processes.length = s.processes.length ∧
      (∀ p, p ≠ r → t.processes[p]? = s.processes[p]?) ∧
      t.processes[r]? =
        some { pr with instruction_pointer := pr.instruction_pointer + n } ∧
      ∀ x, t.interrupted.runs x → s.runs (x.1, x.2.1, turnOf r pr n ++ x.2.2))

/-- The timer as `schedule` sets it for the strategy of the scheduler. -/
def System.timerSet (s : System) : Prop :=
  match Spec.quantumOf s.scheduler.strategy with
  | none => s.cpu.timer_active = false
  | some q => s.cpu.timer_active = true ∧ s.cpu.timer = (q : Int)

/-- A strategy whose quantum is a non-negative 32-bit number. -/
def Strategy.valid : Strategy → Prop
  | .rr quantum => 0 ≤ quantum ∧ quantum < 2147483648
  | _ => True

/-- The scheduler and the `Process` objects fit together: pointers are valid
and distinct, the strategy is valid. -/
def System.sound (s : System) : Prop :=
  pointersValid s.processes ∧ s.scheduler.active.Nodup ∧
  (∀ p ∈ s.scheduler.active, p < s.processes.length) ∧ s.scheduler.strategy.valid

/-- The state at the head of the loop of `awaken` once `schedule` has returned
a process: the CPU is awake with its handler, the job is the process under
`current`, and the timer is set for the strategy. -/
def System.ready (s : System) : Prop :=
  s.sound ∧ s.cpu.awake = true ∧ s.cpu.interrupt_handler = true ∧
  s.scheduler.current < s.scheduler.active.length ∧
  s.cpu.job = s.scheduler.active[s.scheduler.current]? ∧ s.timerSet

/-- What bounds the passes of the loop: one more than the instructions left,
for each process of the active list. -/
def System.load (s : System) : Nat :=
  (s.scheduler.active.map (fun p => (leftAt s.processes p).length + 1)).sum

/-- A state in which `executePrograms` may be called: the CPU is at supervisor
level, the `Process` objects and the strategy are valid, and the job the CPU
holds, if any, has no instruction left. -/
def System.idle (s : System) : Prop :=
  s.cpu.current_level = .RING0 ∧ pointersValid s.processes ∧ s.scheduler.strategy.valid ∧
  ∀ r, s.cpu.job = some r → ∃ pr, s.processes[r]? = some pr ∧ pr.hasNext = false

/-- The state of `executePrograms` before it calls `schedule`: the processes
`list` are created and given to the scheduler, the timer is disabled, the
handler installed. -/
def System.loaded (s : System) (list : List Process) : System :=
  { s with
    processes := s.processes ++ list,
    scheduler := s.scheduler.setList (s.processes ++ list)
      ((List.range list.length).map (fun i => s.processes.length + i)),
    cpu := { s.cpu with timer_active := false, interrupt_handler := true } }

/-- The state in which the loop of `awaken` starts in `executePrograms`. -/
def System.started (s : System) (list : List Process) : System :=
  { (s.loaded list).scheduled with cpu := { (s.loaded list).scheduled.cpu with awake := true } }

/-- The instructions a run of `executePrograms` on the processes `list` is to
execute, with their `ProcessPtr`s: the processes in the order of the strategy
take turns of the length the strategy gives. -/
def System.expected (s : System) (list : List Process) : List (Nat × Instruction) :=
  Spec.roundRobin (Spec.quantumOf s.scheduler.strategy)
    (Spec.total (Spec.queueOf (s.processes ++ list)
      (strategyOrder (s.processes ++ list) s.scheduler.strategy
        ((List.range list.length).map (fun i => s.processes.length + i)))))
    (Spec.queueOf (s.processes ++ list)
      (strategyOrder (s.processes ++ list) s.scheduler.strategy
        ((List.range list.length).map (fun i => s.processes.length + i))))

/-! ## Devices of the proof that every run ends -/

/-- The state at the head of the loop of `awaken` with a job taken up, whatever
the strategy and the timer: the `Process` objects and the active list fit
together, the CPU is awake with its handler, and the job is the process under
`current`. -/
def System.wired (s : System) : Prop :=
  pointersValid s.processes ∧ s.scheduler.active.Nodup ∧
  (∀ p ∈ s.scheduler.active, p < s.processes.length) ∧
  s.cpu.awake = true ∧ s.cpu.interrupt_handler = true ∧
  s.scheduler.current < s.scheduler.active.length ∧
  s.cpu.job = s.scheduler.active[s.scheduler.current]?

/-- The loop of `awaken` started in `s` ends, and the record `d` of what it
executed, replayed on the machine of `s`, gives its outcome and the machine it
leaves. -/
def System.halts (s : System) : Prop :=
  ∃ d, (Spec.replay d s.machine).2.2 = d ∧ s.runs (Spec.replay d s.machine)

set_option linter.dupNamespace false

/-! ## The computer (`computer.h`, `computer.cc`)

A `Computer` and the `OS` objects made by its `installOS` share its CPU, and the
CPU shares the RAM with the `Computer`, through `shared_ptr`s.  The objects
pointed to live in a `World`; a pointer is the position of its object in the
list of the objects of its class, a null pointer is `none`, and `make_shared`
adds an object at the end of the list. -/

/-- A `CPU` object as a `shared_ptr` sees it: the state `CPU` above together with
the member `ram`, a `RAMPtr`. -/
structure CPUObject where
  cpu : CPU
  ram : Option Nat
  deriving DecidableEq, Repr

namespace CPUObject

/-- The copy constructor `CPU(const CPU&)`: the registers are copied; the copy
has no RAM, no handler and no job. -/
def copy (that : CPUObject) : CPUObject :=
  { cpu := { registers := that.cpu.registers, timer := 0, timer_active := false,
             interrupt_handler := false, job := none, awake := false,
             current_level := .RING0 },
    ram := none }

/-- The operator `CPU::operator=`: as the copy constructor, but the handler and
the job are kept. -/
def assign (c that : CPUObject) : CPUObject :=
  { cpu := { c.cpu with registers := that.cpu.registers, timer := 0, timer_active := false,
                        awake := false, current_level := .RING0 },
    ram := none }

/-- The method `CPU::setRAM`. -/
def setRAM (c : CPUObject) (ram : Option Nat) : CPUObject := { c with ram := ram }

end CPUObject

/-- The objects that `shared_ptr`s point to, the numbers written to `std::cout`,
and the record `executed` of `System`. -/
structure World where
  cpus : List CPUObject
  rams : List Memory
  schedulers : List Scheduler
  processes : List Process
  out : List Int
  executed : List (Nat × Instruction)
  deriving DecidableEq, Repr

/-- The class `Computer`: the flag `changes_disabled` and the pointers `cpu` and
`ram`. -/
structure Computer where
  changes_disabled : Bool
  cpu : Option Nat
  ram : Option Nat
  deriving DecidableEq, Repr

/-- The class `OS`: the pointers `cpu` and `scheduler`. -/
structure OS where
  cpu : Nat
  scheduler : Nat
  deriving DecidableEq, Repr

namespace Computer

/-- The constructor `Computer()`. -/
def new : Computer := { changes_disabled := false, cpu := none, ram := none }

/-- The operator `Computer::operator=`: its outcome, the objects and `*this`
afterwards.  Nothing is defined when a pointer of `that` points to no object,
which a `shared_ptr` never does. -/
def assign (w : World) (c that : Computer) : Option (Except Fault Unit × World × Computer) :=
  if c.changes_disabled then some (.error .illegalChange, w, c)
  else
    let made : Option (Option Nat × World) :=
      match that.cpu with
      | none => some (none, w)
      | some i =>
        match w.cpus[i]? with
        | none => none
        | some object => some (some w.cpus.length, { w with cpus := w.cpus ++ [object.copy] })
    match made with
    | none => none
    | some (newcpu, w) =>
      match that.ram with
      | none => some (.ok (), w, { c with cpu := newcpu, ram := none })
      | some r =>
        match w.rams[r]? with
        | none => none
        | some memory =>
          let newram := w.rams.length
          let w := { w with rams := w.rams ++ [memory] }
          let w :=
            match newcpu with
            | none => w
            | some i =>
              { w with cpus := w.cpus.modify (fun o => o.setRAM (some newram)) i }
          some (.ok (), w, { c with cpu := newcpu, ram := some newram })

/-- The copy constructor `Computer(const Computer&)`: `changes_disabled` is
initialised to `false`, then `*this = that`. -/
def copy (w : World) (that : Computer) : Option (Except Fault Unit × World × Computer) :=
  assign w new that

/-- The method `Computer::setCPU`. -/
def setCPU (w : World) (c : Computer) (numOfRegisters : Int) :
    Except Fault Unit × World × Computer :=
  if c.changes_disabled then (.error .illegalChange, w, c)
  else
    match CPU.new numOfRegisters with
    | .error f => (.error f, w, c)
    | .ok cpu =>
      (.ok (), { w with cpus := w.cpus ++ [{ cpu := cpu, ram := c.ram }] },
        { c with cpu := some w.cpus.length })

/-- The method `Computer::setRAM`. -/
def setRAM (w : World) (c : Computer) (size : Int) : Except Fault Unit × World × Computer :=
  if c.changes_disabled then (.error .illegalChange, w, c)
  else
    match Memory.new size with
    | .error f => (.error f, w, c)
    | .ok memory =>
      let ram := w.rams.length
      let w := { w with rams := w.rams ++ [memory] }
      let w :=
        match c.cpu with
        | none => w
        | some i => { w with cpus := w.cpus.modify (fun o => o.setRAM (some ram)) i }
      (.ok (), w, { c with ram := some ram })

/-- The method `Computer::installOS`; `alg` points to the scheduling algorithm. -/
def installOS (w : World) (c : Computer) (alg : Nat) : Except Fault OS × World × Computer :=
  match c.ram with
  | none => (.error .noRAM, w, c)
  | some r =>
    match c.cpu with
    | none => (.error .noCPU, w, c)
    | some i =>
      let cpus := w.cpus.modify (fun o => { o with cpu := o.cpu.clearRegisters }) i
      let w := { w with cpus := cpus }
      let w := { w with rams := w.rams.modify Memory.clear r }
      (.ok { cpu := i, scheduler := alg }, w, { c with changes_disabled := true })

end Computer

namespace World

/-- The world in which no object is made and nothing is written yet. -/
def empty : World :=
  { cpus := [], rams := [], schedulers := [], processes := [], out := [], executed := [] }

/-- The functions `createFCFSScheduling`, `createRRScheduling` and
`createSJFScheduling`: a scheduler of the class is made, with no list yet; the
pointer to it and the objects afterwards. -/
def createScheduling (w : World) (strategy : Strategy) : Nat × World :=
  (w.schedulers.length,
   { w with schedulers := w.schedulers ++ [{ strategy := strategy, active := [], current := 0 }] })

/-- What `executePrograms` of the OS `os` acts on: its CPU with the RAM of that
CPU, and its scheduler.  Nothing is defined for a CPU without RAM, which the CPU
of an OS never is. -/
def system (w : World) (os : OS) : Option System :=
  match w.cpus[os.cpu]? with
  | none => none
  | some object =>
    match object.ram with
    | none => none
    | some r =>
      match w.rams[r]?, w.schedulers[os.scheduler]? with
      | some memory, some scheduler =>
        some { cpu := object.cpu, ram := memory, scheduler := scheduler,
               processes := w.processes, out := w.out, executed := w.executed }
      | _, _ => none

/-- The objects after `executePrograms` of the OS `os` left the system `t`. -/
def update (w : World) (os : OS) (t : System) : World :=
  { cpus := w.cpus.modify (fun o => { o with cpu := t.cpu }) os.cpu,
    rams :=
      match w.cpus[os.cpu]? with
      | some object =>
        match object.ram with
        | some r => w.rams.set r t.ram
        | none => w.rams
      | none => w.rams,
    schedulers := w.schedulers.set os.scheduler t.scheduler,
    processes := t.processes, out := t.out, executed := t.executed }

/-- The registers of the CPU of a computer. -/
def registers (w : World) (c : Computer) : Option Memory :=
  match c.cpu with
  | none => none
  | some i => (w.cpus[i]?).map (fun o => o.cpu.registers)

/-- The RAM of a computer. -/
def memory (w : World) (c : Computer) : Option Memory :=
  match c.ram with
  | none => none
  | some r => w.rams[r]?

end World

/-- The method `OS::executePrograms` on the objects of a `World`, its loop run
for at most `fuel` passes. -/
def OS.executePrograms (fuel : Nat) (w : World) (os : OS) (programs : List (List Char)) :
    Option (Except Fault Unit × World) :=
  match w.system os with
  | none => none
  | some s =>
    match s.executePrograms fuel programs with
    | none => none
    | some (x, t) => some (x, w.update os t)

/-! ## Devices of the proofs about the computer -/

/-- The computer `c` is a computer of the world `w`: its pointers point to
objects of `w`, its CPU has the RAM of the computer as its RAM, and it is locked
only if it has a CPU and a RAM. -/
def World.holds (w : World) (c : Computer) : Prop :=
  (∀ i, c.cpu = some i → ∃ o, w.cpus[i]? = some o ∧ o.ram = c.ram) ∧
  (∀ r, c.ram = some r → r < w.rams.length) ∧
  (c.changes_disabled = true → c.cpu ≠ none ∧ c.ram ≠ none)

/-- The computers `c` and `d` share neither a CPU nor a RAM. -/
def Computer.apart (c d : Computer) : Prop :=
  (∀ i, c.cpu = some i → d.cpu ≠ some i) ∧ (∀ r, c.ram = some r → d.ram ≠ some r)

/-- A locked computer and the objects of its world: a computer given 2 cells of
RAM, then 3 registers, then an OS by `installOS`, in a world with one
scheduling algorithm. -/
def Computer.lockedExample : World × Computer :=
  let a := Computer.setRAM (World.empty.createScheduling .fcfs).2 Computer.new 2
  let b := Computer.setCPU a.2.1 a.2.2 3
  (Computer.installOS b.2.1 b.2.2 0).2

/-- A freshly installed OS: in a world with nothing but a scheduling algorithm
of the strategy, a new computer is given its registers with `setCPU`, then its
RAM with `setRAM`, then an OS with `installOS`. -/
def World.installed (strategy : Strategy) (numOfRegisters size : Int) :
    Except Fault OS × World × Computer :=
  let s := World.empty.createScheduling strategy
  let a := Computer.setCPU s.2 Computer.new numOfRegisters
  let b := Computer.setRAM a.2.1 a.2.2 size
  Computer.installOS b.2.1 b.2.2 s.1

/-- The calls that change a configured computer or run on it: `setCPU`, `setRAM`,
`installOS`, and `executePrograms` of an OS of the computer, one whose CPU is
the CPU of the computer. -/
inductive Action where
  | setCPU (numOfRegisters : Int)
  | setRAM (size : Int)
  | installOS (alg : Nat)
  | executePrograms (fuel : Nat) (alg : Nat) (programs : List (List Char))

/-- The objects and the computer after an action on the computer `c`, whether
the call raised or not; nothing when the call is not defined or the passes of
the loop do not suffice. -/
def Action.perform (w : World) (c : Computer) : Action → Option (World × Computer)
  | .setCPU numOfRegisters => some (Computer.setCPU w c numOfRegisters).2
  | .setRAM size => some (Computer.setRAM w c size).2
  | .installOS alg => some (Computer.installOS w c alg).2
  | .executePrograms fuel alg programs =>
    match c.cpu with
    | none => none
    | some i =>
      match OS.executePrograms fuel w { cpu := i, scheduler := alg } programs with
      | none => none
      | some (_, w) => some (w, c)

/-! ## Devices of the proofs about the cursor, the levels and the runs compared -/

/-- The cursor of a scheduler is valid: `current` is the position of an element
of `active`, or `active` is empty and `current` is its end, which is its
start. -/
def Scheduler.cursorValid (s : Scheduler) : Prop :=
  s.current < s.active.length ∨ (s.active = [] ∧ s.current = 0)

instance (s : Scheduler) : Decidable s.cursorValid := by
  unfold Scheduler.cursorValid; infer_instance

/-- Two classes of scheduler whose methods do the same: `pickProcess` returns
the same quantum, and both or neither sorts the list in `listChanged`.
`RRScheduler` with the quantum `WITHOUT_TIMER` is like `FCFSScheduler`. -/
def Strategy.alike (a b : Strategy) : Prop :=
  a.quantum = b.quantum ∧ (a = .sjf ↔ b = .sjf)

/-- A system seen from the `Process` object number `b`, the output line number
`o` and the executed instruction number `e` on, with a scheduler of the class
`st`: the `b` first `Process` objects are left out and a `ProcessPtr` is
counted from `b`, the `o` first lines of the output and the `e` first executed
instructions are left out. -/
def System.view (b o e : Nat) (st : Strategy) (s : System) : System :=
  { cpu := { s.cpu with job := s.cpu.job.map (fun p => p - b) },
    ram := s.ram,
    scheduler := { strategy := st,
                   active := s.scheduler.active.map (fun p => p - b),
                   current := s.scheduler.current },
    processes := s.processes.drop b,
    out := s.out.drop o,
    executed := (s.executed.drop e).map (fun x => (x.1 - b, x.2)) }

/-- The pointers of the system point to `Process` objects from number `b` on,
the output and the record of executed instructions have `o` lines and `e`
instructions at least, and the class of the scheduler is like `st`. -/
def System.above (b o e : Nat) (st : Strategy) (s : System) : Prop :=
  (∀ p, s.cpu.job = some p → b ≤ p) ∧ (∀ p ∈ s.scheduler.active, b ≤ p) ∧
  o ≤ s.out.length ∧ e ≤ s.executed.length ∧ st.alike s.scheduler.strategy

/-- The system with a scheduler of the class `st` in the same state. -/
def System.withStrategy (s : System) (st : Strategy) : System :=
  { s with scheduler := { s.scheduler with strategy := st } }

/-- The CPU holds no job, or a job with no instruction left. -/
def System.rested (s : System) : Prop :=
  ∀ r, s.cpu.job = some r → ∃ pr, s.processes[r]? = some pr ∧ pr.hasNext = false

/-- The cursor of the scheduler is in the active list or at its end, and a
running timer times the job, a process of the active list. -/
def System.timed (s : System) : Prop :=
  s.scheduler.current ≤ s.scheduler.active.length ∧
  (s.cpu.timer_active = true → ∃ r, s.cpu.job = some r ∧ r ∈ s.scheduler.active)

/-- A freshly configured computer: `setCPU(numOfRegisters)`, `setRAM(size)` and
`installOS(alg)` called in turn on the computer `c`; the outcome of
`installOS`, and the objects and the computer afterwards. -/
def Computer.configure (w : World) (c : Computer) (numOfRegisters size : Int) (alg : Nat) :
    Except Fault OS × World × Computer :=
  let a := Computer.setCPU w c numOfRegisters
  let b := Computer.setRAM a.2.1 a.2.2 size
  Computer.installOS b.2.1 b.2.2 alg

/-! ## Devices of the proof that a fault ends the run from every state -/

/-- Every pointer the CPU and the scheduler hold is one of the `Process`
objects, and every instruction pointer is inside its program or at its end. -/
def System.linked (s : System) : Prop :=
  pointersValid s.processes ∧ (∀ p ∈ s.scheduler.active, p < s.processes.length) ∧
  ∀ r, s.cpu.job = some r → r < s.processes.length

/-- The state of an OS between two calls of `executePrograms`: the CPU is at
supervisor level, as `restorer` leaves it, every instruction pointer is inside
its program or at its end, and the job of the CPU, if it has one, is one of the
`Process` objects. -/
def System.consistent (s : System) : Prop :=
  s.cpu.current_level = .RING0 ∧ pointersValid s.processes ∧
  ∀ r, s.cpu.job = some r → r < s.processes.length

/-- An OS after a run that a fault ended: on a computer with two registers and
one cell of RAM, under round-robin with the quantum -3, the program `SET R1 5`,
`DIV R1 R2`, `PRINTLN R1` was run and raised the division-by-zero fault at its
second instruction. -/
def System.faultedExample : System :=
  match (System.fresh 2 1 (.rr (-3))).executePrograms 20
      ["SET R1 5\nDIV R1 R2\nPRINTLN R1".toList] with
  | some (_, t) => t
  | none => System.fresh 2 1 (.rr (-3))

/-! # Properties

## Memory -/

theorem wrap32_isInt32 (x : Int) : isInt32 (wrap32 x) := by
  unfold isInt32 wrap32; omega

theorem wrap32_dvd (x : Int) : (4294967296 : Int) ∣ x - wrap32 x := by
  unfold wrap32; omega

/-- The bounds check of `Memory::get` on a 32-bit index, for the origins 0 and 1. -/
theorem Memory.get_eq (From : Nat) (exc : Int → Fault) (m : Memory) (i : Int)
    (hF : From ≤ 1) (hi : isInt32 i) :
    Memory.get From exc m i =
      if (From : Int) ≤ i ∧ i - From < wrap32 m.mem.length then .ok (i - From).toNat
      else .error (exc i) := by
  unfold isInt32 at hi
  have h0 : wrap32 (m.mem.length : Int) < 2147483648 := by unfold wrap32; omega
  unfold Memory.get
  by_cases h : (From : Int) ≤ i ∧ i - From < wrap32 m.mem.length
  · have h2 : wrap32 (i - From) = i - From := by unfold wrap32; omega
    simp only []
    rw [if_pos h, h2, if_neg (by omega)]
  · simp only []
    rw [if_neg h, if_pos]
    by_cases h3 : (From : Int) ≤ i
    · have h2 : wrap32 (i - From) = i - From := by unfold wrap32; omega
      rw [h2]; omega
    · have : wrap32 (i - From) < 0 ∨ wrap32 (i - From) = 2147483647 := by unfold wrap32; omega
      omega

theorem Memory.get_lt (From : Nat) (exc : Int → Fault) (m : Memory) (i : Int) (a : Nat)
    (h : Memory.get From exc m i = .ok a) : a < m.mem.length := by
  unfold Memory.get at h
  simp only [] at h
  split at h
  · cases h
  · injection h with h
    have : wrap32 (m.mem.length : Int) ≤ m.mem.length := by unfold wrap32; omega
    omega

theorem Memory.get_inj (From : Nat) (exc : Int → Fault) (m : Memory) (i j : Int) (a : Nat)
    (hF : From ≤ 1) (hi : isInt32 i) (hj : isInt32 j)
    (h1 : Memory.get From exc m i = .ok a) (h2 : Memory.get From exc m j = .ok a) : i = j := by
  rw [Memory.get_eq From exc m i hF hi] at h1
  rw [Memory.get_eq From exc m j hF hj] at h2
  split at h1 <;> split at h2 <;> simp at h1 h2
  omega

theorem Memory.get_set (From : Nat) (exc : Int → Fault) (m : Memory) (a : Nat) (v i : Int) :
    Memory.get From exc { mem := m.mem.set a v } i = Memory.get From exc m i := by
  simp [Memory.get]

theorem Memory.load_snd (From : Nat) (exc : Int → Fault) (m : Memory) (i : Int) :
    (Memory.load From exc m i).2 = m := by
  unfold Memory.load; split <;> rfl

theorem Memory.load_fst (From : Nat) (exc : Int → Fault) (m : Memory) (i : Int) :
    (Memory.load From exc m i).1 =
      match Memory.get From exc m i with
      | .error f => .error f
      | .ok a => .ok (m.mem.getD a 0) := by
  unfold Memory.load; split <;> simp [*]

theorem Memory.store_eq (From : Nat) (exc : Int → Fault) (m : Memory) (i v : Int) :
    Memory.store From exc m i v =
      match Memory.get From exc m i with
      | .error f => (.error f, m)
      | .ok a => (.ok (), { mem := m.mem.set a v }) := rfl

/-- Bounds of `load` and `store` for a memory of origin 0 or 1. -/
theorem Memory.bounds (From : Nat) (exc : Int → Fault) (hF : From ≤ 1) (n i v : Int)
    (m : Memory) (hn32 : isInt32 n) (hm : (m.mem.length : Int) = n)
    (hi : isInt32 i) :
    ((∃ x, (Memory.load From exc m i).1 = .ok x) ↔ ((From : Int) ≤ i ∧ i < From + n)) ∧
    ((Memory.store From exc m i v).1 = .ok () ↔ ((From : Int) ≤ i ∧ i < From + n)) ∧
    (¬ ((From : Int) ≤ i ∧ i < From + n) →
      (Memory.load From exc m i).1 = .error (exc i) ∧
      (Memory.store From exc m i v).1 = .error (exc i)) := by
  have hw : wrap32 (m.mem.length : Int) = n := by
    unfold isInt32 at hn32; unfold wrap32; omega
  have hg := Memory.get_eq From exc m i hF hi
  rw [hw] at hg
  by_cases h : (From : Int) ≤ i ∧ i < From + n
  · have h2 : (From : Int) ≤ i ∧ i - From < n := by omega
    rw [if_pos h2] at hg
    simp [Memory.load_fst, Memory.store_eq, hg, h]
  · have h2 : ¬ ((From : Int) ≤ i ∧ i - From < n) := by omega
    rw [if_neg h2] at hg
    simp [Memory.load_fst, Memory.store_eq, hg, h]

/-- C7: for a memory of `n > 0` cells and a 32-bit index `i`, `load(i)` and
`store(i, v)` succeed exactly when `low <= i < low + n` (`low` is 1 for the
register file, 0 for the RAM); outside that range they raise
`InvalidRegisterException(i)`, respectively `InvalidAddressException(i)`. -/
theorem memory_bounds (n i v : Int) (m : Memory) (hn : 0 < n) (hn32 : isInt32 n)
    (hm : (m.mem.length : Int) = n) (hi : isInt32 i) :
    (((∃ x, (RegisterSet.load m i).1 = .ok x) ↔ (1 ≤ i ∧ i < 1 + n)) ∧
     ((RegisterSet.store m i v).1 = .ok () ↔ (1 ≤ i ∧ i < 1 + n)) ∧
     (¬ (1 ≤ i ∧ i < 1 + n) →
       (RegisterSet.load m i).1 = .error (.invalidRegister i) ∧
       (RegisterSet.store m i v).1 = .error (.invalidRegister i))) ∧
    (((∃ x, (RAM.load m i).1 = .ok x) ↔ (0 ≤ i ∧ i < 0 + n)) ∧
     ((RAM.store m i v).1 = .ok () ↔ (0 ≤ i ∧ i < 0 + n)) ∧
     (¬ (0 ≤ i ∧ i < 0 + n) →
       (RAM.load m i).1 = .error (.invalidAddress i) ∧
       (RAM.store m i v).1 = .error (.invalidAddress i))) := by
  have _ := hn
  exact ⟨by simpa using Memory.bounds 1 Fault.invalidRegister (by omega) n i v m hn32 hm hi,
    by simpa using Memory.bounds 0 Fault.invalidAddress (by omega) n i v m hn32 hm hi⟩

theorem memory_bounds_witness :
    (0 : Int) < 3 ∧ isInt32 3 ∧ isInt32 4 ∧
    ((RegisterSet.store { mem := [7, 8, 9] } 4 5).1 = .ok () ↔ ((1 : Int) ≤ 4 ∧ (4 : Int) < 1 + 3)) := by
  refine ⟨by decide, by decide, by decide, ?_⟩
  exact (memory_bounds 3 4 5 { mem := [7, 8, 9] } (by decide) (by decide) rfl (by decide)).1.2.1

/-- Store then load, and the frame of `store` and `load`, for origin 0 or 1. -/
theorem Memory.store_load (From : Nat) (exc : Int → Fault) (hF : From ≤ 1) (m : Memory)
    (i j v : Int) (hi : isInt32 i) (hj : isInt32 j) :
    ((∃ x, (Memory.load From exc m i).1 = .ok x) →
      (Memory.store From exc m i v).1 = .ok () ∧
      (Memory.load From exc (Memory.store From exc m i v).2 i).1 = .ok v ∧
      (j ≠ i → (Memory.load From exc (Memory.store From exc m i v).2 j).1
        = (Memory.load From exc m j).1)) ∧
    (Memory.load From exc m i).2 = m ∧
    (∀ f, (Memory.load From exc m i).1 = .error f → (Memory.load From exc m i).2 = m) ∧
    (∀ f, (Memory.store From exc m i v).1 = .error f → (Memory.store From exc m i v).2 = m) := by
  refine ⟨?_, Memory.load_snd _ _ _ _, fun _ _ => Memory.load_snd _ _ _ _, ?_⟩
  · rintro ⟨x, hx⟩
    rw [Memory.load_fst] at hx
    cases hg : Memory.get From exc m i with
    | error f => rw [hg] at hx; cases hx
    | ok a =>
      have ha := Memory.get_lt From exc m i a hg
      simp only [Memory.store_eq, hg, Memory.load_fst, Memory.get_set]
      refine ⟨trivial, ?_, ?_⟩
      · simp [List.getD_eq_getElem?_getD, ha]
      · intro hji
        cases hg2 : Memory.get From exc m j with
        | error f => rfl
        | ok b =>
          have hab : a ≠ b := by
            intro hab
            subst hab
            exact hji (Memory.get_inj From exc m j i a hF hj hi hg2 hg)
          simp [List.getD_eq_getElem?_getD, List.getElem?_set, hab]
  · intro f hf
    rw [Memory.store_eq] at hf ⊢
    cases hg : Memory.get From exc m i with
    | error f => rfl
    | ok a => rw [hg] at hf; cases hf

/-- C8: on the register file (origin 1) and on the RAM (origin 0) of `n` cells,
for an in-range index `i`, `store(i, v)` succeeds, `load(i)` then returns `v`
and `load(j)` returns what it returned before for every other 32-bit index `j`;
`load` leaves the memory as it was, whether it raises or not, and so does a
`store` that raises. -/
theorem memory_store_load (m : Memory) (n i j v : Int) (hn32 : isInt32 n)
    (hm : (m.mem.length : Int) = n) (hi : isInt32 i) (hj : isInt32 j) :
    (((1 ≤ i ∧ i < 1 + n) →
        (RegisterSet.store m i v).1 = .ok () ∧
        (RegisterSet.load (RegisterSet.store m i v).2 i).1 = .ok v ∧
        (j ≠ i → (RegisterSet.load (RegisterSet.store m i v).2 j).1 = (RegisterSet.load m j).1)) ∧
      (RegisterSet.load m i).2 = m ∧
      (∀ f, (RegisterSet.load m i).1 = .error f → (RegisterSet.load m i).2 = m) ∧
      (∀ f, (RegisterSet.store m i v).1 = .error f → (RegisterSet.store m i v).2 = m)) ∧
    (((0 ≤ i ∧ i < 0 + n) →
        (RAM.store m i v).1 = .ok () ∧
        (RAM.load (RAM.store m i v).2 i).1 = .ok v ∧
        (j ≠ i → (RAM.load (RAM.store m i v).2 j).1 = (RAM.load m j).1)) ∧
      (RAM.load m i).2 = m ∧
      (∀ f, (RAM.load m i).1 = .error f → (RAM.load m i).2 = m) ∧
      (∀ f, (RAM.store m i v).1 = .error f → (RAM.store m i v).2 = m)) := by
  have hR := Memory.store_load 1 Fault.invalidRegister (by omega) m i j v hi hj
  have hM := Memory.store_load 0 Fault.invalidAddress (by omega) m i j v hi hj
  have bR := (Memory.bounds 1 Fault.invalidRegister (by omega) n i v m hn32 hm hi).1
  have bM := (Memory.bounds 0 Fault.invalidAddress (by omega) n i v m hn32 hm hi).1
  exact ⟨⟨fun h => hR.1 (bR.2 (by simpa using h)), hR.2⟩,
    ⟨fun h => hM.1 (bM.2 (by simpa using h)), hM.2⟩⟩

theorem memory_store_load_witness :
    (RegisterSet.load (RegisterSet.store { mem := [7, 8, 9] } 2 5).2 2).1 = .ok 5 :=
  ((memory_store_load { mem := [7, 8, 9] } 3 2 3 5 (by decide) rfl (by decide)
    (by decide)).1.1 (by decide)).2.1

/-- What `ArithmeticInstruction::execute` does when both registers are valid:
it fails with the fault of the operation and changes nothing, or stores the
narrowed result in `dest`. -/
theorem executeArithmetic_eq (op : Op) (m : Machine) (dest src a b : Int)
    (ha : (RegisterSet.load m.regs dest).1 = .ok a)
    (hb : (RegisterSet.load m.regs src).1 = .ok b) :
    executeArithmetic op dest src m =
      match op.apply a b with
      | .error f => (.error f, m)
      | .ok res => (.ok (), { m with regs := (RegisterSet.store m.regs dest (wrap32 res)).2 }) := by
  have hs2 : (RegisterSet.load m.regs src).2 = m.regs := Memory.load_snd _ _ _ _
  have hd2 : (RegisterSet.load m.regs dest).2 = m.regs := Memory.load_snd _ _ _ _
  have hs : RegisterSet.load m.regs src = (.ok b, m.regs) := Prod.ext hb hs2
  have hd : RegisterSet.load m.regs dest = (.ok a, m.regs) := Prod.ext ha hd2
  have hst : ∀ v, (RegisterSet.store m.regs dest v).1 = .ok () := by
    intro v
    have := ha
    unfold RegisterSet.load at this
    rw [Memory.load_fst] at this
    unfold RegisterSet.store
    rw [Memory.store_eq]
    cases hg : Memory.get 1 Fault.invalidRegister m.regs dest with
    | error f => rw [hg] at this; cases this
    | ok x => rfl
  unfold executeArithmetic
  simp only [hs, hd]
  cases hop : op.apply a b with
  | error f => rfl
  | ok res =>
    have := hst (wrap32 res)
    simp only []
    rw [← this]

/-- C9: with valid registers `dest` and `src` holding `a` and `b` (possibly the
same register), `ADD`, `SUB` and `MUL` succeed and leave in `dest` the 32-bit
value congruent modulo `2^32` to the exact `a + b`, `a - b`, `a * b`; every
other register, the RAM and the output are as before. -/
theorem arithmetic_wraparound (m : Machine) (dest src a b : Int)
    (hd : isInt32 dest)
    (ha : (RegisterSet.load m.regs dest).1 = .ok a)
    (hb : (RegisterSet.load m.regs src).1 = .ok b) :
    ∀ c ∈ [(Instruction.add dest src, a + b), (Instruction.sub dest src, a - b),
        (Instruction.mul dest src, a * b)],
      ∃ m1 r, c.1.execute m = (.ok (), m1) ∧
        (RegisterSet.load m1.regs dest).1 = .ok r ∧
        isInt32 r ∧ (4294967296 : Int) ∣ c.2 - r ∧
        (∀ k, isInt32 k → k ≠ dest →
          (RegisterSet.load m1.regs k).1 = (RegisterSet.load m.regs k).1) ∧
        m1.ram = m.ram ∧ m1.out = m.out := by
  have key : ∀ op res, op.apply a b = .ok res →
      ∃ m1 r, executeArithmetic op dest src m = (.ok (), m1) ∧
        (RegisterSet.load m1.regs dest).1 = .ok r ∧
        isInt32 r ∧ (4294967296 : Int) ∣ res - r ∧
        (∀ k, isInt32 k → k ≠ dest →
          (RegisterSet.load m1.regs k).1 = (RegisterSet.load m.regs k).1) ∧
        m1.ram = m.ram ∧ m1.out = m.out := by
    intro op res hop
    refine ⟨{ m with regs := (RegisterSet.store m.regs dest (wrap32 res)).2 }, wrap32 res,
      ?_, ?_, wrap32_isInt32 _, wrap32_dvd _, ?_, rfl, rfl⟩
    · rw [executeArithmetic_eq op m dest src a b ha hb, hop]
    · exact ((Memory.store_load 1 Fault.invalidRegister (by omega) m.regs dest dest
        (wrap32 res) hd hd).1 ⟨a, ha⟩).2.1
    · intro k hk hkd
      exact ((Memory.store_load 1 Fault.invalidRegister (by omega) m.regs dest k
        (wrap32 res) hd hk).1 ⟨a, ha⟩).2.2 hkd
  intro c hc
  simp only [List.mem_cons, List.mem_singleton, List.not_mem_nil, or_false] at hc
  rcases hc with rfl | rfl | rfl
  · exact key .plus _ rfl
  · exact key .minus _ rfl
  · exact key .multiplies _ rfl

theorem arithmetic_wraparound_witness :
    ∃ m1 r, (Instruction.mul 1 2).execute
        { regs := { mem := [65536, 65537] }, ram := { mem := [0] }, out := [] } = (.ok (), m1) ∧
      (RegisterSet.load m1.regs 1).1 = .ok r ∧
      isInt32 r ∧ (4294967296 : Int) ∣ 65536 * 65537 - r ∧
      (∀ k, isInt32 k → k ≠ 1 → (RegisterSet.load m1.regs k).1
        = (RegisterSet.load (Memory.mk [65536, 65537]) k).1) ∧
      m1.ram = { mem := [0] } ∧ m1.out = [] :=
  arithmetic_wraparound { regs := { mem := [65536, 65537] }, ram := { mem := [0] }, out := [] }
    1 2 65536 65537 (by decide) (by decide) (by decide) (Instruction.mul 1 2, 65536 * 65537)
    (by simp)

/-- C10: with valid registers `dest` and `src` holding `a` and `b`, `DIV` raises
`DivisionByZeroException` exactly when `b` is 0, raises nothing else, and when
it raises the registers, the RAM and the output are as before. -/
theorem division_by_zero_atomic (m : Machine) (dest src a b : Int)
    (ha : (RegisterSet.load m.regs dest).1 = .ok a)
    (hb : (RegisterSet.load m.regs src).1 = .ok b) :
    (((Instruction.div dest src).execute m).1 = .error .divisionByZero ↔ b = 0) ∧
    (b ≠ 0 → ((Instruction.div dest src).execute m).1 = .ok ()) ∧
    (∀ f, ((Instruction.div dest src).execute m).1 = .error f →
      f = .divisionByZero ∧ ((Instruction.div dest src).execute m).2 = m) := by
  have h : (Instruction.div dest src).execute m = executeArithmetic .divides dest src m := rfl
  rw [h, executeArithmetic_eq .divides m dest src a b ha hb]
  by_cases hz : b = 0
  · simp [Op.apply, hz]
  · simp [Op.apply, hz]

theorem division_by_zero_atomic_witness :
    ((Instruction.div 1 2).execute
        { regs := { mem := [5, 0] }, ram := { mem := [0] }, out := [] }).1
      = .error .divisionByZero ∧
    ((Instruction.div 1 2).execute
        { regs := { mem := [5, 0] }, ram := { mem := [0] }, out := [] }).2
      = { regs := { mem := [5, 0] }, ram := { mem := [0] }, out := [] } :=
  have h := division_by_zero_atomic
    { regs := { mem := [5, 0] }, ram := { mem := [0] }, out := [] } 1 2 5 0
    (by decide) (by decide)
  ⟨h.1.2 rfl, (h.2.2 _ (h.1.2 rfl)).2⟩

/-! ## The assembler -/

theorem parseOperands_two (k1 k2 : Spec.OperandKind) (p : Parser) :
    p.parseOperands [k1, k2] =
      match p.parseOperand k1 with
      | .error f => .error f
      | .ok (v1, q) =>
        match q.parseOperand k2 with
        | .error f => .error f
        | .ok (v2, q2) => .ok ([v1, v2], q2) := by
  simp only [Parser.parseOperands]
  cases p.parseOperand k1 with
  | error f => rfl
  | ok x =>
    obtain ⟨v1, q⟩ := x
    simp only []
    cases q.parseOperand k2 with
    | error f => rfl
    | ok y => rfl

theorem parseOperands_one (k1 : Spec.OperandKind) (p : Parser) :
    p.parseOperands [k1] =
      match p.parseOperand k1 with
      | .error f => .error f
      | .ok (v1, q) => .ok ([v1], q) := by
  simp only [Parser.parseOperands]

theorem compileLine_eq (line : List Char) :
    compileLine line =
      compileWord (Parser.new line).getWord.1 (Parser.new line).getWord.2 := by
  unfold compileLine compileWord decode
  simp only []
  generalize (Parser.new line).getWord.1 = op
  generalize (Parser.new line).getWord.2 = p
  split_ifs <;>
    simp only [parseOperands_two, parseOperands_one, Parser.parseOperand] <;>
    first
    | rfl
    | (cases p.parseRegister with
       | error f => rfl
       | ok x =>
         obtain ⟨v1, q⟩ := x
         simp only []
         first
         | (cases q.parseNumber with
            | error f => rfl
            | ok y => obtain ⟨v2, q2⟩ := y; simp only []; cases q2.end <;> rfl)
         | (cases q.parseAddress with
            | error f => rfl
            | ok y => obtain ⟨v2, q2⟩ := y; simp only []; cases q2.end <;> rfl)
         | (cases q.parseRegister with
            | error f => rfl
            | ok y => obtain ⟨v2, q2⟩ := y; simp only []; cases q2.end <;> rfl)
         | (cases q.end <;> rfl))
    | (cases p.parseAddress with
       | error f => rfl
       | ok x =>
         obtain ⟨v1, q⟩ := x
         simp only []
         cases q.parseRegister with
         | error f => rfl
         | ok y => obtain ⟨v2, q2⟩ := y; simp only []; cases q2.end <;> rfl)

theorem isdigit_not_isspace {c : Char} (h : isdigit c = true) : isspace c = false := by
  unfold isdigit at h
  unfold isspace
  simp only [Bool.and_eq_true, decide_eq_true_eq] at h
  simp only [Bool.or_eq_false_iff, Bool.and_eq_false_iff, beq_eq_false_iff_ne,
    decide_eq_false_iff_not]
  omega

theorem isdigit_ne_minus {c : Char} (h : isdigit c = true) : c ≠ '-' := by
  intro hc
  subst hc
  revert h
  decide

theorem isspace_minus : isspace '-' = false := by decide

theorem Parser.rest_after (pre r : List Char) : (Parser.after pre r).rest = r := by
  simp [Parser.after, Parser.rest]

theorem Parser.after_append (pre s r : List Char) :
    Parser.after pre (s ++ r) = { line := pre ++ s ++ r, pos := pre.length } := by
  simp [Parser.after]

theorem Parser.skipSpacesFrom_append (s r : List Char) (n : Nat)
    (hs : Spec.allSpace s = true) (hr : startsToken r = true) :
    Parser.skipSpacesFrom (s ++ r) n = n + s.length := by
  induction s generalizing n with
  | nil =>
    cases r with
    | nil => rfl
    | cons c t =>
      simp only [startsToken, Bool.not_eq_true'] at hr
      simp [Parser.skipSpacesFrom, hr]
  | cons c s ih =>
    simp only [Spec.allSpace, List.all_cons, Bool.and_eq_true] at hs
    show Parser.skipSpacesFrom (c :: (s ++ r)) n = _
    simp only [Parser.skipSpacesFrom, hs.1, if_true, List.length_cons]
    rw [ih (n + 1) hs.2]
    omega

theorem Parser.skipSpaces_after (pre s r : List Char)
    (hs : Spec.allSpace s = true) (hr : startsToken r = true) :
    (Parser.after pre (s ++ r)).skipSpaces = Parser.after (pre ++ s) r := by
  unfold Parser.skipSpaces
  rw [Parser.rest_after, Parser.skipSpacesFrom_append s r _ hs hr]
  simp [Parser.after]

/-- Every string splits into its leading whitespace and what follows. -/
theorem split_spaces (r : List Char) :
    ∃ s t, r = s ++ t ∧ Spec.allSpace s = true ∧ startsToken t = true := by
  induction r with
  | nil => exact ⟨[], [], rfl, rfl, rfl⟩
  | cons c r ih =>
    by_cases hc : isspace c = true
    · obtain ⟨s, t, rfl, hs, ht⟩ := ih
      exact ⟨c :: s, t, rfl, by simp [Spec.allSpace, hc] at hs ⊢; exact hs, ht⟩
    · exact ⟨[], c :: r, rfl, rfl, by simpa [startsToken] using hc⟩

/-- Every string splits into its leading token and what follows. -/
theorem split_token (r : List Char) :
    ∃ w t, r = w ++ t ∧ (∀ c ∈ w, isspace c = false) ∧ endsToken t = true ∧
      Spec.token r = w := by
  induction r with
  | nil => exact ⟨[], [], rfl, by simp, rfl, rfl⟩
  | cons c r ih =>
    by_cases hc : isspace c = true
    · exact ⟨[], c :: r, rfl, by simp, by simpa [endsToken] using hc, by simp [Spec.token, hc]⟩
    · obtain ⟨w, t, hr, hw, ht, htok⟩ := ih
      simp only [Bool.not_eq_true] at hc
      refine ⟨c :: w, t, by rw [hr]; rfl, ?_, ht, ?_⟩
      · intro d hd
        rcases List.mem_cons.1 hd with rfl | hd
        · exact hc
        · exact hw d hd
      · simp only [Spec.token] at htok ⊢
        simp [List.takeWhile_cons, hc, htok]

theorem token_append (w t : List Char) (hw : ∀ c ∈ w, isspace c = false)
    (ht : endsToken t = true) : Spec.token (w ++ t) = w := by
  induction w with
  | nil =>
    cases t with
    | nil => rfl
    | cons c t => simp only [endsToken] at ht; simp [Spec.token, ht]
  | cons c w ih =>
    have hc := hw c (List.mem_cons_self _ _)
    have := ih (fun d hd => hw d (List.mem_cons_of_mem _ hd))
    simp only [Spec.token] at this ⊢
    simp [List.takeWhile_cons, hc, this]

theorem getD_append_cons (pre : List Char) (c d : Char) (r : List Char) :
    (pre ++ c :: r).getD pre.length d = c := by
  induction pre with
  | nil => rfl
  | cons a pre ih => simpa using ih

theorem Parser.getNext_after_cons (pre : List Char) (c : Char) (r : List Char) :
    (Parser.after pre (c :: r)).getNext = .ok (c, Parser.after (pre ++ [c]) r) := by
  simp only [Parser.getNext, Parser.require, Parser.hasNext, Parser.after, getD_append_cons]
  simp

theorem Parser.getNext_after_nil (pre : List Char) :
    (Parser.after pre []).getNext
      = .error (.parserException "Unexpected end of line" pre pre.length) := by
  simp [Parser.getNext, Parser.require, Parser.hasNext, Parser.after]

theorem Parser.getWord_after (pre s w t : List Char) (hs : Spec.allSpace s = true)
    (hw : ∀ c ∈ w, isspace c = false) (ht : endsToken t = true)
    (hwt : w ≠ [] ∨ t = []) :
    (Parser.after pre (s ++ (w ++ t))).getWord = (w, Parser.after (pre ++ s ++ w) t) := by
  have hst : startsToken (w ++ t) = true := by
    cases w with
    | nil =>
      rcases hwt with h | h
      · exact absurd rfl h
      · subst h; rfl
    | cons c w => simpa [startsToken] using hw c (List.mem_cons_self _ _)
  unfold Parser.getWord
  simp only []
  rw [Parser.skipSpaces_after pre s (w ++ t) hs hst, Parser.rest_after]
  have := token_append w t hw ht
  simp only [Spec.token] at this
  rw [this]
  simp [Parser.after, Nat.add_assoc]

theorem Spec.digitsValue_cons (c : Char) (ds : List Char) (acc : Nat) :
    Spec.digitsValue (c :: ds) acc = Spec.digitsValue ds (acc * 10 + (c.toNat - 48)) := rfl

theorem Spec.le_digitsValue (ds : List Char) (acc : Nat) : acc ≤ Spec.digitsValue ds acc := by
  induction ds generalizing acc with
  | nil => exact Nat.le_refl _
  | cons c ds ih =>
    rw [Spec.digitsValue_cons]
    have := ih (acc * 10 + (c.toNat - 48))
    omega

theorem Spec.digitsValue_append (ds : List Char) (c : Char) (acc : Nat) :
    Spec.digitsValue (ds ++ [c]) acc = Spec.digitsValue ds acc * 10 + (c.toNat - 48) := by
  simp [Spec.digitsValue, List.foldl_append]

theorem isdigit_toNat {c : Char} (h : isdigit c = true) : 48 ≤ c.toNat ∧ c.toNat ≤ 57 := by
  unfold isdigit at h
  simpa using h

/-- The loop of `parseIntegral` over a string of digits whose value stays below
the maximum: it reads them all, and the whitespace after them if there is one. -/
theorem Parser.loop_digits (line ds tail : List Char) (st : Parser.IntegralLoop)
    (hd : ds.all isdigit = true) (hv : Spec.digitsValue ds st.res < 2147483647)
    (ht : endsToken tail = true) :
    Parser.parseIntegralLoop 2147483647 true line (ds ++ tail) st =
      .ok { res := Spec.digitsValue ds st.res, negative := st.negative,
            len := st.len + ds.length, pos := st.pos + ds.length + (tail.take 1).length } := by
  induction ds generalizing st with
  | nil =>
    cases tail with
    | nil => rfl
    | cons c t =>
      simp only [endsToken] at ht
      have hv1 : st.res < 2147483647 := hv
      simp [Parser.parseIntegralLoop, hv1, ht, Spec.digitsValue]
  | cons c ds ih =>
    simp only [List.all_cons, Bool.and_eq_true] at hd
    have hle := Spec.le_digitsValue ds (st.res * 10 + (c.toNat - 48))
    rw [Spec.digitsValue_cons] at hv
    have hv1 : st.res < 2147483647 := by omega
    have hw : wrapUMax (st.res * 10 + (c.toNat - 48)) = st.res * 10 + (c.toNat - 48) := by
      unfold wrapUMax; omega
    show Parser.parseIntegralLoop 2147483647 true line (c :: (ds ++ tail)) st = _
    simp only [Parser.parseIntegralLoop, hv1, if_true, isdigit_not_isspace hd.1,
      isdigit_ne_minus hd.1, if_false, hd.1, Bool.not_true, hw, Bool.false_eq_true]
    rw [ih _ hd.2 hv]
    simp [Spec.digitsValue_cons]
    omega

/-- A run of the loop of `parseIntegral` that ends with a result below the
maximum has read a token of digits, after a `-` if it started with `len = 0`,
and the whitespace after the token if there is one. -/
theorem Parser.loop_inv (line r : List Char) (st st1 : Parser.IntegralLoop)
    (h : Parser.parseIntegralLoop 2147483647 true line r st = .ok st1)
    (hres : st1.res < 2147483647) :
    ∃ tok tail, r = tok ++ tail ∧ (∀ c ∈ tok, isspace c = false) ∧ endsToken tail = true ∧
      st1.pos = st.pos + tok.length + (tail.take 1).length ∧
      st1.len = st.len + tok.length ∧
      ((tok.all isdigit = true ∧ st1.res = Spec.digitsValue tok st.res ∧
          st1.negative = st.negative) ∨
       (st.len = 0 ∧ ∃ ds, tok = '-' :: ds ∧ ds.all isdigit = true ∧
          st1.res = Spec.digitsValue ds st.res ∧ st1.negative = true)) := by
  induction r generalizing st with
  | nil =>
    simp only [Parser.parseIntegralLoop] at h
    injection h with h
    subst h
    exact ⟨[], [], rfl, by simp, rfl, rfl, rfl, Or.inl ⟨rfl, rfl, rfl⟩⟩
  | cons c cs ih =>
    simp only [Parser.parseIntegralLoop] at h
    by_cases hlt : st.res < 2147483647
    · rw [if_pos hlt] at h
      by_cases hsp : isspace c = true
      · rw [if_pos hsp] at h
        injection h with h
        subst h
        exact ⟨[], c :: cs, rfl, by simp, by simpa [endsToken] using hsp, rfl, rfl,
          Or.inl ⟨rfl, rfl, rfl⟩⟩
      · rw [if_neg hsp] at h
        simp only [Bool.not_eq_true] at hsp
        by_cases hm : c = '-'
        · rw [if_pos hm] at h
          by_cases hlen : st.len ≠ 0
          · rw [if_pos hlen] at h; cases h
          · rw [if_neg hlen] at h
            simp only [Bool.not_true, Bool.false_eq_true, if_false] at h
            simp only [ne_eq, not_not] at hlen
            obtain ⟨tok, tail, hr, hns, hend, hpos, hl, hcase⟩ := ih _ h
            rcases hcase with ⟨hdig, hval, hneg⟩ | ⟨h0, _⟩
            · refine ⟨c :: tok, tail, by rw [hr]; rfl, ?_, hend, ?_, ?_, Or.inr ⟨hlen, tok, ?_, hdig, hval, hneg⟩⟩
              · intro d hd
                rcases List.mem_cons.1 hd with rfl | hd
                · exact hsp
                · exact hns d hd
              · simp only [List.length_cons] at hpos ⊢; omega
              · simp only [List.length_cons] at hl ⊢; omega
              · rw [hm]
            · simp at h0
        · rw [if_neg hm] at h
          by_cases hdg : isdigit c = true
          · simp only [hdg, Bool.not_true, Bool.false_eq_true, if_false] at h
            have hc57 := isdigit_toNat hdg
            have hw : wrapUMax (st.res * 10 + (c.toNat - 48)) = st.res * 10 + (c.toNat - 48) := by
              unfold wrapUMax; omega
            rw [hw] at h
            obtain ⟨tok, tail, hr, hns, hend, hpos, hl, hcase⟩ := ih _ h
            rcases hcase with ⟨hdig, hval, hneg⟩ | ⟨h0, _⟩
            · refine ⟨c :: tok, tail, by rw [hr]; rfl, ?_, hend, ?_, ?_, Or.inl ⟨?_, hval, hneg⟩⟩
              · intro d hd
                rcases List.mem_cons.1 hd with rfl | hd
                · exact hsp
                · exact hns d hd
              · simp only [List.length_cons] at hpos ⊢; omega
              · simp only [List.length_cons] at hl ⊢; omega
              · simp [hdg, hdig]
            · simp at h0
          · simp only [hdg, Bool.not_false, if_true] at h
            cases h
    · rw [if_neg hlt] at h
      injection h with h
      subst h
      exact absurd hres hlt

/-- The result of the loop of `parseIntegral` never exceeds ten times the
maximum, so the 64-bit arithmetic on it does not wrap. -/
theorem Parser.loop_res_bound (line r : List Char) (st st1 : Parser.IntegralLoop)
    (h : Parser.parseIntegralLoop 2147483647 true line r st = .ok st1)
    (hst : st.res < 21474836480) : st1.res < 21474836480 := by
  induction r generalizing st with
  | nil =>
    simp only [Parser.parseIntegralLoop] at h
    injection h with h
    subst h
    exact hst
  | cons c cs ih =>
    simp only [Parser.parseIntegralLoop] at h
    split_ifs at h with h1 h2 h3 h4 h5 h6
    · injection h with h; subst h; exact hst
    · exact ih _ h hst
    · simp only [Bool.not_eq_true', Bool.not_eq_false] at h6
      have := isdigit_toNat h6
      refine ih _ h ?_
      show wrapUMax (st.res * 10 + (c.toNat - 48)) < 21474836480
      unfold wrapUMax
      rw [Nat.mod_eq_of_lt (by omega)]
      omega
    · injection h with h; subst h; exact hst

theorem Spec.isLiteral_of_digits (tok : List Char) (hd : tok.all isdigit = true)
    (hlen : 0 < tok.length) :
    Spec.isLiteral tok = true ∧ Spec.decimalValue tok = (Spec.digitsValue tok 0 : Int) := by
  cases tok with
  | nil => simp at hlen
  | cons c ds =>
    have hc : isdigit c = true := by
      simp only [List.all_cons, Bool.and_eq_true] at hd; exact hd.1
    simp [Spec.isLiteral, Spec.decimalValue, isdigit_ne_minus hc, Spec.isDigits, hd]

theorem Spec.isLiteral_of_minus (ds : List Char) (hd : ds.all isdigit = true)
    (hlen : 0 < ds.length) :
    Spec.isLiteral ('-' :: ds) = true ∧
      Spec.decimalValue ('-' :: ds) = -(Spec.digitsValue ds 0 : Int) := by
  cases ds with
  | nil => simp at hlen
  | cons c ds => simp [Spec.isLiteral, Spec.decimalValue, Spec.isDigits, hd]

/-- A literal is a string of digits or a `-` before one. -/
theorem Spec.isLiteral_cases (tok : List Char) (h : Spec.isLiteral tok = true) :
    (tok.all isdigit = true ∧ 0 < tok.length) ∨
    (∃ ds, tok = '-' :: ds ∧ ds.all isdigit = true ∧ 0 < ds.length) := by
  cases tok with
  | nil => simp [Spec.isLiteral] at h
  | cons c ds =>
    simp only [Spec.isLiteral] at h
    by_cases hm : c = '-'
    · rw [if_pos hm] at h
      subst hm
      right
      refine ⟨ds, rfl, ?_⟩
      cases ds with
      | nil => simp [Spec.isDigits] at h
      | cons d ds => simpa [Spec.isDigits] using h
    · rw [if_neg hm] at h
      left
      simpa [Spec.isDigits] using h

/-- What `parseIntegral<int32_t>` has read when it returns: a literal, whose
value it returns, and the whitespace after it if there is one. -/
theorem Parser.parseInt32_inv (p p1 : Parser) (v : Int)
    (h : p.parseInt32 = .ok (v, p1)) :
    ∃ tok tail, p.rest = tok ++ tail ∧ (∀ c ∈ tok, isspace c = false) ∧
      endsToken tail = true ∧ Spec.isLiteral tok = true ∧ v = Spec.decimalValue tok ∧
      accepted v ∧
      p1 = { line := p.line, pos := p.pos + tok.length + (tail.take 1).length } := by
  unfold Parser.parseInt32 Parser.parseIntegral INT32_MAX at h
  cases hloop : Parser.parseIntegralLoop 2147483647 true p.line p.rest
      { res := 0, negative := false, len := 0, pos := p.pos } with
  | error f => rw [hloop] at h; cases h
  | ok st1 =>
    rw [hloop] at h
    have hb := Parser.loop_res_bound _ _ _ _ hloop (by simp)
    simp only [Parser.require] at h
    by_cases hneg : st1.negative = true
    · simp only [hneg, if_true] at h
      by_cases hl : st1.len > 1
      · simp only [hl, decide_True, if_true] at h
        by_cases hr : wrapUMax (st1.res + 1) < 2147483647
        · simp only [hr, decide_True, if_true] at h
          injection h with h
          injection h with hv hp
          have hr1 : st1.res + 1 < 2147483647 := by unfold wrapUMax at hr; omega
          obtain ⟨tok, tail, hrest, hns, hend, hpos, hlen, hcase⟩ :=
            Parser.loop_inv _ _ _ _ hloop (by omega)
          rcases hcase with ⟨_, _, hn⟩ | ⟨_, ds, htok, hdig, hval, _⟩
          · rw [hneg] at hn; cases hn
          · subst htok
            simp only [List.length_cons] at hlen
            have hlit := Spec.isLiteral_of_minus ds hdig (by omega)
            refine ⟨_, tail, hrest, hns, hend, hlit.1, ?_, ?_, ?_⟩
            · rw [hlit.2, ← hv, hval]
            · rw [← hv]; unfold accepted; omega
            · rw [← hp, hpos]
        · simp only [hr, decide_False] at h
          cases h
      · simp only [hl, decide_False] at h
        cases h
    · simp only [hneg] at h
      by_cases hl : st1.len > 0
      · simp only [hl, decide_True, if_true] at h
        by_cases hr : st1.res < 2147483647
        · simp only [hr, decide_True, if_true] at h
          injection h with h
          injection h with hv hp
          obtain ⟨tok, tail, hrest, hns, hend, hpos, hlen, hcase⟩ :=
            Parser.loop_inv _ _ _ _ hloop hr
          rcases hcase with ⟨hdig, hval, _⟩ | ⟨_, ds, _, _, _, hn⟩
          · have hlit := Spec.isLiteral_of_digits tok hdig (by simp only [] at hlen; omega)
            refine ⟨tok, tail, hrest, hns, hend, hlit.1, ?_, ?_, ?_⟩
            · rw [hlit.2, ← hv, hval]
            · rw [← hv]; unfold accepted; omega
            · rw [← hp, hpos]
          · exact absurd hn hneg
        · simp only [hr, decide_False] at h
          cases h
      · simp only [hl, decide_False] at h
        cases h

/-- On a literal whose value is between `-2147483645` and `2147483646`,
followed by a whitespace or the end of the line, `parseIntegral<int32_t>`
returns the value and has read the literal and that whitespace. -/
theorem Parser.parseInt32_fwd (p : Parser) (tok tail : List Char)
    (hrest : p.rest = tok ++ tail) (hlit : Spec.isLiteral tok = true)
    (hacc : accepted (Spec.decimalValue tok)) (hend : endsToken tail = true) :
    p.parseInt32 = .ok (Spec.decimalValue tok,
      { line := p.line, pos := p.pos + tok.length + (tail.take 1).length }) := by
  unfold Parser.parseInt32 Parser.parseIntegral INT32_MAX
  rw [hrest]
  unfold accepted at hacc
  rcases Spec.isLiteral_cases tok hlit with ⟨hdig, hlen⟩ | ⟨ds, rfl, hdig, hlen⟩
  · have hval := (Spec.isLiteral_of_digits tok hdig hlen).2
    rw [hval] at hacc ⊢
    rw [Parser.loop_digits _ tok tail _ hdig (by simp only []; omega) hend]
    simp only [Parser.require]
    have h2 : Spec.digitsValue tok 0 < 2147483647 := by omega
    simp [hlen, h2]
  · have hval := (Spec.isLiteral_of_minus ds hdig hlen).2
    rw [hval] at hacc ⊢
    simp only [List.cons_append, Parser.parseIntegralLoop, isspace_minus]
    simp only [Nat.ofNat_pos, if_true, Bool.false_eq_true, if_false, ne_eq, not_true_eq_false,
      Bool.not_true, List.append_eq]
    rw [Parser.loop_digits _ ds tail _ hdig (by simp only []; omega) hend]
    simp only [Parser.require]
    have h2 : wrapUMax (Spec.digitsValue ds 0 + 1) < 2147483647 := by unfold wrapUMax; omega
    simp [hlen, h2]
    omega

theorem Parser.after_take_drop (pre tok tail : List Char) :
    ({ line := pre ++ (tok ++ tail), pos := pre.length + tok.length + (tail.take 1).length }
      : Parser) = Parser.after (pre ++ tok ++ tail.take 1) (tail.drop 1) := by
  simp only [Parser.after, List.append_assoc, List.take_append_drop, List.length_append,
    Nat.add_assoc]

theorem Parser.parseInt32_after_fwd (pre tok tail : List Char)
    (hlit : Spec.isLiteral tok = true) (hacc : accepted (Spec.decimalValue tok))
    (hend : endsToken tail = true) :
    (Parser.after pre (tok ++ tail)).parseInt32 =
      .ok (Spec.decimalValue tok, Parser.after (pre ++ tok ++ tail.take 1) (tail.drop 1)) := by
  rw [Parser.parseInt32_fwd _ tok tail (Parser.rest_after _ _) hlit hacc hend]
  exact congrArg (fun q => Except.ok (Spec.decimalValue tok, q))
    (Parser.after_take_drop pre tok tail)

theorem Parser.parseInt32_after_inv (pre r : List Char) (p1 : Parser) (v : Int)
    (h : (Parser.after pre r).parseInt32 = .ok (v, p1)) :
    ∃ tok tail, r = tok ++ tail ∧ endsToken tail = true ∧ Spec.isLiteral tok = true ∧
      v = Spec.decimalValue tok ∧ accepted v ∧
      p1 = Parser.after (pre ++ tok ++ tail.take 1) (tail.drop 1) := by
  obtain ⟨tok, tail, hrest, _, hend, hlit, hv, hacc, hp⟩ := Parser.parseInt32_inv _ _ _ h
  rw [Parser.rest_after] at hrest
  subst hrest
  exact ⟨tok, tail, rfl, hend, hlit, hv, hacc, by rw [hp]; exact Parser.after_take_drop _ _ _⟩

theorem Spec.isLiteral_startsToken (tok tail : List Char) (h : Spec.isLiteral tok = true) :
    startsToken (tok ++ tail) = true := by
  rcases Spec.isLiteral_cases tok h with ⟨hdig, hlen⟩ | ⟨ds, rfl, _, _⟩
  · cases tok with
    | nil => simp at hlen
    | cons c ds =>
      simp only [List.all_cons, Bool.and_eq_true] at hdig
      simp [startsToken, isdigit_not_isspace hdig.1]
  · simp [startsToken, isspace_minus]

theorem startsToken_letter (k : Spec.OperandKind) (tok tail : List Char)
    (h : Spec.isLiteral tok = true) : startsToken (k.letter ++ (tok ++ tail)) = true := by
  cases k with
  | register => rfl
  | address => rfl
  | number => exact Spec.isLiteral_startsToken tok tail h

/-- An operand written after whitespace, with a literal of accepted value, is
parsed to that value; the parser is left after the whitespace that follows it,
if there is one. -/
theorem Parser.parseOperand_fwd (k : Spec.OperandKind) (pre s tok tail : List Char)
    (hs : Spec.allSpace s = true) (hlit : Spec.isLiteral tok = true)
    (hacc : accepted (Spec.decimalValue tok)) (hend : endsToken tail = true) :
    (Parser.after pre (s ++ (k.letter ++ (tok ++ tail)))).parseOperand k =
      .ok (Spec.decimalValue tok,
        Parser.after (pre ++ s ++ k.letter ++ tok ++ tail.take 1) (tail.drop 1)) := by
  have hsk := Parser.skipSpaces_after pre s _ hs (startsToken_letter k tok tail hlit)
  cases k with
  | register =>
    simp only [Spec.OperandKind.letter, List.singleton_append] at hsk ⊢
    simp only [Parser.parseOperand, Parser.parseRegister, hsk,
      Parser.getNext_after_cons, Parser.require, beq_self_eq_true, if_true]
    exact Parser.parseInt32_after_fwd _ tok tail hlit hacc hend
  | address =>
    simp only [Spec.OperandKind.letter, List.singleton_append] at hsk ⊢
    simp only [Parser.parseOperand, Parser.parseAddress, hsk,
      Parser.getNext_after_cons, Parser.require, beq_self_eq_true, if_true]
    exact Parser.parseInt32_after_fwd _ tok tail hlit hacc hend
  | number =>
    simp only [Spec.OperandKind.letter, List.nil_append, List.append_nil] at hsk ⊢
    simp only [Parser.parseOperand, Parser.parseNumber, hsk]
    exact Parser.parseInt32_after_fwd _ tok tail hlit hacc hend

/-- An operand that is parsed was written as whitespace, the letter of its kind
and a literal of accepted value, before a whitespace or the end of the line. -/
theorem Parser.parseOperand_inv (k : Spec.OperandKind) (pre r : List Char) (p1 : Parser)
    (v : Int) (h : (Parser.after pre r).parseOperand k = .ok (v, p1)) :
    ∃ s tok tail, r = s ++ (k.letter ++ (tok ++ tail)) ∧ Spec.allSpace s = true ∧
      Spec.isLiteral tok = true ∧ accepted (Spec.decimalValue tok) ∧
      v = Spec.decimalValue tok ∧ endsToken tail = true ∧
      p1 = Parser.after (pre ++ s ++ k.letter ++ tok ++ tail.take 1) (tail.drop 1) := by
  obtain ⟨s, t, rfl, hs, ht⟩ := split_spaces r
  have hsk := Parser.skipSpaces_after pre s t hs ht
  have key : ∀ (L : Char) (why : String),
      (match (Parser.after (pre ++ s) t).getNext with
      | .error f => (.error f : Except Fault (Int × Parser))
      | .ok (c, q) =>
        match q.require (c == L) why with
        | .error f => .error f
        | .ok _ => q.parseInt32) = .ok (v, p1) →
      ∃ tok tail, t = [L] ++ (tok ++ tail) ∧ Spec.isLiteral tok = true ∧
        accepted (Spec.decimalValue tok) ∧ v = Spec.decimalValue tok ∧ endsToken tail = true ∧
        p1 = Parser.after (pre ++ s ++ [L] ++ tok ++ tail.take 1) (tail.drop 1) := by
    intro L why h
    cases t with
    | nil => rw [Parser.getNext_after_nil] at h; cases h
    | cons c t =>
      rw [Parser.getNext_after_cons] at h
      simp only [Parser.require] at h
      by_cases hc : c = L
      · subst hc
        simp only [beq_self_eq_true, if_true] at h
        obtain ⟨tok, tail, rfl, hend, hlit, hv, hacc, hp⟩ := Parser.parseInt32_after_inv _ _ _ _ h
        exact ⟨tok, tail, rfl, hlit, hv ▸ hacc, hv, hend, hp⟩
      · have : (c == L) = false := by simpa using hc
        simp only [this] at h
        cases h
  cases k with
  | register =>
    simp only [Parser.parseOperand, Parser.parseRegister, hsk] at h
    obtain ⟨tok, tail, rfl, h2⟩ := key 'R' _ h
    exact ⟨s, tok, tail, rfl, hs, h2⟩
  | address =>
    simp only [Parser.parseOperand, Parser.parseAddress, hsk] at h
    obtain ⟨tok, tail, rfl, h2⟩ := key 'M' _ h
    exact ⟨s, tok, tail, rfl, hs, h2⟩
  | number =>
    simp only [Parser.parseOperand, Parser.parseNumber, hsk] at h
    obtain ⟨tok, tail, rfl, hend, hlit, hv, hacc, hp⟩ := Parser.parseInt32_after_inv _ _ _ _ h
    exact ⟨s, tok, tail, rfl, hs, hlit, hv ▸ hacc, hv, hend, by simpa [Spec.OperandKind.letter] using hp⟩

theorem allSpace_append (s t : List Char) :
    Spec.allSpace (s ++ t) = (Spec.allSpace s && Spec.allSpace t) := by
  simp [Spec.allSpace]

theorem allSpace_startsToken (t : List Char) (ht : startsToken t = true) :
    Spec.allSpace t = true ↔ t = [] := by
  cases t with
  | nil => simp [Spec.allSpace]
  | cons c t =>
    simp only [startsToken, Bool.not_eq_true'] at ht
    simp [Spec.allSpace, ht]

/-- The method `end` succeeds on whitespace. -/
theorem Parser.end_after_allSpace (pre r : List Char) (h : Spec.allSpace r = true) :
    (Parser.after pre r).end = .ok () := by
  have := Parser.skipSpaces_after pre r [] h rfl
  rw [List.append_nil] at this
  rw [Parser.end, this]
  simp [Parser.require, Parser.after]

/-- The method `end` raises `Trailing characters` on anything else. -/
theorem Parser.end_after_not_allSpace (pre r : List Char) (h : Spec.allSpace r = false) :
    ∃ pos, (Parser.after pre r).end =
      .error (.parserException "Trailing characters" (pre ++ r) pos) := by
  obtain ⟨s, t, rfl, hs, ht⟩ := split_spaces r
  have hsk := Parser.skipSpaces_after pre s t hs ht
  have ht0 : t ≠ [] := by
    intro h0
    subst h0
    rw [List.append_nil, hs] at h
    cases h
  have hl : 0 < t.length := List.length_pos.2 ht0
  refine ⟨(pre ++ s).length, ?_⟩
  have hne : ¬ (pre.length + s.length = pre.length + (s.length + t.length)) := by omega
  rw [Parser.end, hsk]
  simp [Parser.require, Parser.after, hne]

theorem digitChar_spec : ∀ d, d < 10 →
    isdigit (Char.ofNat (48 + d)) = true ∧ (Char.ofNat (48 + d)).toNat - 48 = d := by
  decide

/-- The digits `showNatFuel` writes are a non-empty string of digits ending in
a digit, of value `n`. -/
theorem Spec.showNatFuel_spec (fuel n : Nat) (h : n ≤ fuel) :
    (Spec.showNatFuel fuel n).all isdigit = true ∧
    Spec.digitsValue (Spec.showNatFuel fuel n) 0 = n ∧
    ∃ y c, Spec.showNatFuel fuel n = y ++ [c] ∧ isdigit c = true := by
  induction fuel generalizing n with
  | zero =>
    have h0 : n = 0 := by omega
    subst h0
    exact ⟨by decide, by decide, [], _, rfl, by decide⟩
  | succ fuel ih =>
    unfold Spec.showNatFuel
    by_cases hn : n < 10
    · rw [if_pos hn]
      have := digitChar_spec n hn
      refine ⟨by simp [this.1], ?_, [], _, rfl, this.1⟩
      simp [Spec.digitsValue, this.2]
    · rw [if_neg hn]
      have h1 := ih (n / 10) (by omega)
      have h2 := digitChar_spec (n % 10) (by omega)
      refine ⟨by simp [h1.1, h2.1], ?_, _, _, rfl, h2.1⟩
      rw [Spec.digitsValue_append, h1.2.1, h2.2]
      omega

/-- The literal `showInt` writes is a literal of value `v` that ends in a digit. -/
theorem Spec.showInt_spec (v : Int) :
    Spec.isLiteral (Spec.showInt v) = true ∧ Spec.decimalValue (Spec.showInt v) = v ∧
    ∃ y c, Spec.showInt v = y ++ [c] ∧ isdigit c = true := by
  obtain ⟨hd, hv, y, c, hy, hc⟩ := Spec.showNatFuel_spec v.natAbs v.natAbs (Nat.le_refl _)
  have hlen : 0 < (Spec.showNatFuel v.natAbs v.natAbs).length := by rw [hy]; simp
  unfold Spec.showInt
  by_cases hneg : v < 0
  · rw [if_pos hneg]
    have := Spec.isLiteral_of_minus _ hd hlen
    refine ⟨this.1, ?_, '-' :: y, c, by rw [hy]; rfl, hc⟩
    rw [this.2, hv]
    omega
  · rw [if_neg hneg]
    have := Spec.isLiteral_of_digits _ hd hlen
    refine ⟨this.1, ?_, y, c, hy, hc⟩
    rw [this.2, hv]
    omega

theorem removeTrailingDOSEndline_concat (l : List Char) (d : Char) :
    removeTrailingDOSEndline (l ++ [d]) = if d = '\r' then l else l ++ [d] := by
  unfold removeTrailingDOSEndline
  by_cases hd : d = '\r'
  · simp [hd]
  · simp [hd]

theorem removeTrailingDOSEndline_nil : removeTrailingDOSEndline [] = [] := rfl

theorem allSpace_endsToken (t : List Char) (h : Spec.allSpace t = true) : endsToken t = true := by
  cases t with
  | nil => rfl
  | cons c t =>
    simp only [Spec.allSpace, List.all_cons, Bool.and_eq_true] at h
    exact h.1

theorem endsToken_append (s t : List Char) (hs : Spec.allSpace s = true) (h0 : s ≠ []) :
    endsToken (s ++ t) = true := by
  cases s with
  | nil => exact absurd rfl h0
  | cons c s =>
    simp only [Spec.allSpace, List.all_cons, Bool.and_eq_true] at hs
    exact hs.1

/-- After a line is stripped of its `\r`, text that ends in a digit and is
followed by whitespace is still followed by whitespace. -/
theorem removeTrailingDOSEndline_text (x trail : List Char) (c : Char) (hc : isdigit c = true)
    (ht : Spec.allSpace trail = true) :
    ∃ trail1, Spec.allSpace trail1 = true ∧
      removeTrailingDOSEndline (x ++ [c] ++ trail) = x ++ [c] ++ trail1 := by
  rcases List.eq_nil_or_concat trail with rfl | ⟨t, d, rfl⟩
  · refine ⟨[], rfl, ?_⟩
    rw [List.append_nil, removeTrailingDOSEndline_concat, if_neg]
    intro h
    subst h
    revert hc
    decide
  · rw [List.concat_eq_append] at ht ⊢
    rw [allSpace_append, Bool.and_eq_true] at ht
    rw [← List.append_assoc, removeTrailingDOSEndline_concat]
    by_cases hd : d = '\r'
    · exact ⟨t, ht.1, by rw [if_pos hd]⟩
    · exact ⟨t ++ [d], by rw [allSpace_append, ht.1, ht.2]; rfl, by rw [if_neg hd, List.append_assoc]⟩

/-- Operands written per the grammar end in a digit. -/
theorem Spec.writeOperands_digit (ops : List (Spec.OperandKind × Int)) (sep : Nat → List Char)
    (k : Nat) (h : ops ≠ []) :
    ∃ y c, Spec.writeOperands ops sep k = y ++ [c] ∧ isdigit c = true := by
  induction ops generalizing k with
  | nil => exact absurd rfl h
  | cons o rest ih =>
    obtain ⟨kind, v⟩ := o
    unfold Spec.writeOperands
    cases rest with
    | nil =>
      obtain ⟨_, _, y, c, hy, hc⟩ := Spec.showInt_spec v
      exact ⟨sep k ++ kind.letter ++ y, c, by simp [Spec.writeOperands, hy], hc⟩
    | cons o2 rest =>
      obtain ⟨y, c, hy, hc⟩ := ih (k + 1) (by simp)
      exact ⟨sep k ++ kind.letter ++ Spec.showInt v ++ y, c, by rw [hy]; simp, hc⟩

/-- Operands written per the grammar, each with a value `parseIntegral`
accepts, are parsed to their values, and only whitespace is left. -/
theorem Parser.parseOperands_written (sep : Nat → List Char) (trail : List Char)
    (hsep : ∀ j, Spec.allSpace (sep j) = true ∧ sep j ≠ [])
    (htrail : Spec.allSpace trail = true) (rest : List (Spec.OperandKind × Int)) :
    ∀ (kind : Spec.OperandKind) (v : Int) (s0 pre : List Char) (k : Nat),
      Spec.allSpace s0 = true → accepted v → (∀ o ∈ rest, accepted o.2) →
      ∃ pre1 r1, Spec.allSpace r1 = true ∧
        (Parser.after pre (s0 ++ (kind.letter ++ (Spec.showInt v ++
            (Spec.writeOperands rest sep k ++ trail))))).parseOperands
          (kind :: rest.map (fun o => o.1))
        = .ok (v :: rest.map (fun o => o.2), Parser.after pre1 r1) := by
  induction rest with
  | nil =>
    intro kind v s0 pre k hs0 hv _
    obtain ⟨hlit, hval, _⟩ := Spec.showInt_spec v
    have := Parser.parseOperand_fwd kind pre s0 (Spec.showInt v) trail hs0 hlit
      (by rw [hval]; exact hv) (allSpace_endsToken _ htrail)
    refine ⟨pre ++ s0 ++ kind.letter ++ Spec.showInt v ++ List.take 1 trail, trail.drop 1,
      ?_, ?_⟩
    · cases trail with
      | nil => rfl
      | cons c t =>
        simp only [Spec.allSpace, List.all_cons, Bool.and_eq_true] at htrail
        exact htrail.2
    · simp only [Spec.writeOperands, List.nil_append, List.map_nil, Parser.parseOperands, this,
        hval]
  | cons o rest ih =>
    intro kind v s0 pre k hs0 hv hrest
    obtain ⟨kind2, v2⟩ := o
    obtain ⟨hlit, hval, _⟩ := Spec.showInt_spec v
    obtain ⟨hsp, hne⟩ := hsep k
    obtain ⟨c, s1, hs1⟩ := List.exists_cons_of_ne_nil hne
    have hs1sp : Spec.allSpace s1 = true := by
      rw [hs1] at hsp
      simp only [Spec.allSpace, List.all_cons, Bool.and_eq_true] at hsp
      exact hsp.2
    have htail : Spec.writeOperands ((kind2, v2) :: rest) sep k ++ trail =
        c :: (s1 ++ (kind2.letter ++ (Spec.showInt v2 ++
          (Spec.writeOperands rest sep (k + 1) ++ trail)))) := by
      simp [Spec.writeOperands, hs1]
    have hend : endsToken (Spec.writeOperands ((kind2, v2) :: rest) sep k ++ trail) = true := by
      rw [htail]
      rw [hs1] at hsp
      simp only [Spec.allSpace, List.all_cons, Bool.and_eq_true] at hsp
      exact hsp.1
    have h1 := Parser.parseOperand_fwd kind pre s0 (Spec.showInt v) _ hs0 hlit
      (by rw [hval]; exact hv) hend
    obtain ⟨pre1, r1, hr1, h2⟩ := ih kind2 v2 s1
      (pre ++ s0 ++ kind.letter ++ Spec.showInt v ++ [c]) (k + 1) hs1sp
      (hrest (kind2, v2) (List.mem_cons_self _ _))
      (fun o ho => hrest o (List.mem_cons_of_mem _ ho))
    refine ⟨pre1, r1, hr1, ?_⟩
    rw [htail] at h1
    simp only [List.take_succ_cons, List.take_zero, List.drop_succ_cons, List.drop_zero] at h1
    rw [htail]
    simp only [List.map_cons] at h2 ⊢
    rw [Parser.parseOperands, h1, hval]
    simp only [h2]

theorem mnemonic_spec (i : Instruction) :
    (∀ c ∈ Spec.mnemonic i, isspace c = false) ∧ Spec.mnemonic i ≠ [] ∧
    Spec.operands i ≠ [] ∧
    ∃ build, decode (Spec.mnemonic i) = some ((Spec.operands i).map (fun o => o.1), build) ∧
      build ((Spec.operands i).map (fun o => o.2)) = i := by
  cases i <;>
    exact ⟨by simp only [Spec.mnemonic]; decide, by simp [Spec.mnemonic],
      by simp [Spec.operands], _, rfl, rfl⟩

/-- The round trip on the values the guards of `parseIntegral` let through: for
each of the eight instructions and every choice of operand values between
`-2147483645` and `2147483646`, the line written per the grammar (optional
whitespace, the opcode, each operand after one or more whitespace characters,
optional whitespace) is compiled by `compileLine` to exactly that instruction,
with no fault. -/
theorem compileLine_written (i : Instruction) (lead trail : List Char)
    (sep : Nat → List Char)
    (hvals : ∀ o ∈ Spec.operands i, -2147483645 ≤ o.2 ∧ o.2 ≤ 2147483646)
    (hlead : Spec.allSpace lead = true)
    (hsep : ∀ j, Spec.allSpace (sep j) = true ∧ sep j ≠ [])
    (htrail : Spec.allSpace trail = true) :
    compileLine (Spec.writeLine lead i sep trail) = .ok (some i) := by
  obtain ⟨hmn, hmne, hops, build, hdec, hbuild⟩ := mnemonic_spec i
  obtain ⟨y, c, hy, hc⟩ := Spec.writeOperands_digit (Spec.operands i) sep 0 hops
  obtain ⟨trail1, htrail1, hstrip⟩ :=
    removeTrailingDOSEndline_text (lead ++ Spec.mnemonic i ++ y) trail c hc htrail
  have hline : removeTrailingDOSEndline (Spec.writeLine lead i sep trail) =
      lead ++ (Spec.mnemonic i ++ (Spec.writeOperands (Spec.operands i) sep 0 ++ trail1)) := by
    unfold Spec.writeLine
    rw [hy]
    simpa [List.append_assoc] using hstrip
  rw [compileLine_eq]
  have hnew : Parser.new (Spec.writeLine lead i sep trail) =
      Parser.after [] (lead ++ (Spec.mnemonic i ++
        (Spec.writeOperands (Spec.operands i) sep 0 ++ trail1))) := by
    simp [Parser.new, Parser.after, hline]
  obtain ⟨o, rest, hor⟩ := List.exists_cons_of_ne_nil hops
  obtain ⟨kind, v⟩ := o
  obtain ⟨hsp0, hne0⟩ := hsep 0
  have hend : endsToken (Spec.writeOperands (Spec.operands i) sep 0 ++ trail1) = true := by
    rw [hor]
    simp only [Spec.writeOperands, List.append_assoc]
    exact endsToken_append _ _ hsp0 hne0
  rw [hnew, Parser.getWord_after [] lead _ _ hlead hmn hend (Or.inl hmne)]
  simp only [compileWord, hdec]
  rw [hor] at hvals ⊢
  obtain ⟨pre1, r1, hr1, hpo⟩ := Parser.parseOperands_written sep trail1 hsep htrail1 rest
    kind v (sep 0) ([] ++ lead ++ Spec.mnemonic i) 1 hsp0
    (hvals (kind, v) (List.mem_cons_self _ _))
    (fun o ho => hvals o (List.mem_cons_of_mem _ ho))
  simp only [Spec.writeOperands, List.append_assoc, List.map_cons] at hpo ⊢
  rw [hpo]
  simp only [Parser.end_after_allSpace pre1 r1 hr1]
  rw [← hbuild, hor]
  rfl

theorem compileLine_written_witness :
    compileLine (Spec.writeLine [' '] (.store 12 (-2147483645)) (fun _ => [' ', '\t']) ['\r'])
      = .ok (some (.store 12 (-2147483645))) :=
  compileLine_written (.store 12 (-2147483645)) [' '] ['\r'] (fun _ => [' ', '\t'])
    (by decide) (by decide) (fun _ => ⟨rfl, List.cons_ne_nil _ _⟩) (by decide)

/-- C1, the code at the failing inputs: the operand `2147483647` is in the 32-bit
signed range, and the line `SET R1 2147483647` written per the grammar raises
the parse fault `Number is too big` instead of compiling to `SET` of 1 and
2147483647; so do the lines with the operands `-2147483646`, `-2147483647` and
`-2147483648`, while the neighbours `2147483646` and `-2147483645` compile. -/
theorem compileLine_int32_max_fault :
    isInt32 2147483647 ∧
    Spec.writeLine [] (.set 1 2147483647) (fun _ => [' ']) [] = "SET R1 2147483647".toList ∧
    compileLine "SET R1 2147483647".toList =
      .error (.parserException "Number is too big" "SET R1 2147483647".toList 17) ∧
    isInt32 (-2147483646) ∧ isInt32 (-2147483647) ∧ isInt32 (-2147483648) ∧
    compileLine "SET R1 -2147483646".toList =
      .error (.parserException "Number is too big" "SET R1 -2147483646".toList 18) ∧
    compileLine "SET R1 -2147483647".toList =
      .error (.parserException "Number is too big" "SET R1 -2147483647".toList 18) ∧
    compileLine "SET R1 -2147483648".toList =
      .error (.parserException "Number is too big" "SET R1 -2147483648".toList 18) ∧
    compileLine "SET R1 2147483646".toList = .ok (some (.set 1 2147483646)) ∧
    compileLine "SET R1 -2147483645".toList = .ok (some (.set 1 (-2147483645))) := by
  decide

/-- Every fault of the loop of `parseIntegral` is a `ParserException` on the
line of the parser. -/
theorem Parser.loop_error (mx : Nat) (sg : Bool) (line r : List Char)
    (st : Parser.IntegralLoop) (f : Fault)
    (h : Parser.parseIntegralLoop mx sg line r st = .error f) :
    ∃ why pos, f = .parserException why line pos := by
  induction r generalizing st with
  | nil => simp [Parser.parseIntegralLoop] at h
  | cons c cs ih =>
    simp only [Parser.parseIntegralLoop] at h
    split_ifs at h
    · injection h with h; exact ⟨_, _, h.symm⟩
    · injection h with h; exact ⟨_, _, h.symm⟩
    · exact ih _ h
    · injection h with h; exact ⟨_, _, h.symm⟩
    · exact ih _ h

/-- Every fault of `parseIntegral` is a `ParserException` on the line of the
parser. -/
theorem Parser.parseInt32_error (p : Parser) (f : Fault) (h : p.parseInt32 = .error f) :
    ∃ why pos, f = .parserException why p.line pos := by
  unfold Parser.parseInt32 Parser.parseIntegral at h
  cases hloop : Parser.parseIntegralLoop INT32_MAX true p.line p.rest
      { res := 0, negative := false, len := 0, pos := p.pos } with
  | error g =>
    rw [hloop] at h
    injection h with h
    subst h
    exact Parser.loop_error _ _ _ _ _ _ hloop
  | ok st =>
    rw [hloop] at h
    simp only [Parser.require] at h
    split_ifs at h <;> (injection h with h; exact ⟨_, _, h.symm⟩)

/-- C2: `parseIntegral` raises a `ParserException` on every operand token that
is not an optional leading `-` followed by one or more digits, and on every
such token whose value is outside the 32-bit signed range; a value it returns
is the decimal value of the token. -/
theorem parseIntegral_rejects (p : Parser) :
    (Spec.isLiteral (Spec.token p.rest) = false →
      ∃ why pos, p.parseInt32 = .error (.parserException why p.line pos)) ∧
    (Spec.isLiteral (Spec.token p.rest) = true →
      ¬ isInt32 (Spec.decimalValue (Spec.token p.rest)) →
      ∃ why pos, p.parseInt32 = .error (.parserException why p.line pos)) ∧
    (∀ v q, p.parseInt32 = .ok (v, q) → v = Spec.decimalValue (Spec.token p.rest)) := by
  have inv : ∀ v q, p.parseInt32 = .ok (v, q) →
      Spec.isLiteral (Spec.token p.rest) = true ∧ v = Spec.decimalValue (Spec.token p.rest) ∧
        isInt32 v := by
    intro v q h
    obtain ⟨tok, tail, hrest, hns, hend, hlit, hv, hacc, _⟩ := Parser.parseInt32_inv p q v h
    rw [hrest, token_append tok tail hns hend]
    unfold accepted at hacc
    exact ⟨hlit, hv, by unfold isInt32; omega⟩
  have err : (∀ v q, p.parseInt32 ≠ .ok (v, q)) →
      ∃ why pos, p.parseInt32 = .error (.parserException why p.line pos) := by
    intro hno
    cases hres : p.parseInt32 with
    | error f =>
      obtain ⟨why, pos, hf⟩ := Parser.parseInt32_error p f hres
      exact ⟨why, pos, by rw [hf]⟩
    | ok x => exact absurd hres (hno x.1 x.2)
  refine ⟨fun hlit => err ?_, fun _ hout => err ?_, fun v q h => (inv v q h).2.1⟩
  · intro v q h
    rw [(inv v q h).1] at hlit
    cases hlit
  · intro v q h
    have := inv v q h
    rw [← this.2.1] at hout
    exact hout this.2.2

theorem parseIntegral_rejects_witness :
    (∃ why pos, (Parser.mk "SET R1 5-3".toList 7).parseInt32
      = .error (.parserException why "SET R1 5-3".toList pos)) ∧
    (∃ why pos, (Parser.mk "SET R1 -".toList 7).parseInt32
      = .error (.parserException why "SET R1 -".toList pos)) ∧
    (∃ why pos, (Parser.mk "SET R1 ".toList 7).parseInt32
      = .error (.parserException why "SET R1 ".toList pos)) ∧
    (∃ why pos, (Parser.mk "SET R1 5x".toList 7).parseInt32
      = .error (.parserException why "SET R1 5x".toList pos)) ∧
    (∃ why pos, (Parser.mk "SET R1 -2147483649".toList 7).parseInt32
      = .error (.parserException why "SET R1 -2147483649".toList pos)) :=
  ⟨(parseIntegral_rejects (Parser.mk "SET R1 5-3".toList 7)).1 (by decide),
   (parseIntegral_rejects (Parser.mk "SET R1 -".toList 7)).1 (by decide),
   (parseIntegral_rejects (Parser.mk "SET R1 ".toList 7)).1 (by decide),
   (parseIntegral_rejects (Parser.mk "SET R1 5x".toList 7)).1 (by decide),
   (parseIntegral_rejects (Parser.mk "SET R1 -2147483649".toList 7)).2.1 (by decide)
     (by decide)⟩

theorem dropWhile_spaces (s t : List Char) (hs : Spec.allSpace s = true)
    (ht : startsToken t = true) : (s ++ t).dropWhile isspace = t := by
  induction s with
  | nil =>
    cases t with
    | nil => rfl
    | cons c t =>
      simp only [startsToken, Bool.not_eq_true'] at ht
      simp [List.dropWhile_cons, ht]
  | cons c s ih =>
    simp only [Spec.allSpace, List.all_cons, Bool.and_eq_true] at hs
    simp only [List.cons_append, List.dropWhile_cons, hs.1, if_true]
    exact ih hs.2

/-- The first word of a line made of whitespace `s`, a word `w` and a rest that
is empty or starts with a whitespace. -/
theorem Spec.firstWord_eq (s w t : List Char) (hs : Spec.allSpace s = true)
    (hw : ∀ c ∈ w, isspace c = false) (ht : endsToken t = true) (hwt : w ≠ [] ∨ t = []) :
    Spec.firstWord (s ++ (w ++ t)) = w := by
  have hst : startsToken (w ++ t) = true := by
    cases w with
    | nil =>
      rcases hwt with h | h
      · exact absurd rfl h
      · subst h; rfl
    | cons c w => simpa [startsToken] using hw c (List.mem_cons_self _ _)
  unfold Spec.firstWord
  rw [dropWhile_spaces s _ hs hst, token_append w t hw ht]

/-- Every line is whitespace, then a word, then a rest that is empty or starts
with a whitespace; the word is empty only if the rest is. -/
theorem split_line (l : List Char) :
    ∃ s w t, l = s ++ (w ++ t) ∧ Spec.allSpace s = true ∧ (∀ c ∈ w, isspace c = false) ∧
      endsToken t = true ∧ (w ≠ [] ∨ t = []) := by
  obtain ⟨s, r, rfl, hs, hr⟩ := split_spaces l
  obtain ⟨w, t, rfl, hw, ht, _⟩ := split_token r
  refine ⟨s, w, t, rfl, hs, hw, ht, ?_⟩
  cases w with
  | nil =>
    right
    cases t with
    | nil => rfl
    | cons c t =>
      simp only [endsToken] at ht
      simp [startsToken, ht] at hr
  | cons c w => left; simp

/-- Stripping the trailing `\r` of a line leaves its first word as it is. -/
theorem Spec.firstWord_removeTrailingDOSEndline (line : List Char) :
    Spec.firstWord (removeTrailingDOSEndline line) = Spec.firstWord line := by
  rcases List.eq_nil_or_concat line with rfl | ⟨l, d, rfl⟩
  · rfl
  · rw [List.concat_eq_append, removeTrailingDOSEndline_concat]
    by_cases hd : d = '\r'
    · rw [if_pos hd]
      subst hd
      obtain ⟨s, w, t, rfl, hs, hw, ht, hwt⟩ := split_line l
      rw [Spec.firstWord_eq s w t hs hw ht hwt]
      have : s ++ (w ++ t) ++ ['\r'] = s ++ (w ++ (t ++ ['\r'])) := by simp
      rw [this]
      by_cases hw0 : w = []
      · subst hw0
        have ht0 : t = [] := by simpa using hwt
        subst ht0
        have : s ++ ([] ++ ([] ++ ['\r'])) = (s ++ ['\r']) ++ ([] ++ []) := by simp
        rw [this]
        exact (Spec.firstWord_eq (s ++ ['\r']) [] [] (by rw [allSpace_append, hs]; rfl)
          (by simp) rfl (Or.inr rfl)).symm
      · refine (Spec.firstWord_eq s w (t ++ ['\r']) hs hw ?_ (Or.inl hw0)).symm
        cases t with
        | nil => rfl
        | cons c t => exact ht
    · rw [if_neg hd]

theorem decode_none (op : List Char) (h : op ∉ Spec.opcodes) : decode op = none := by
  simp only [Spec.opcodes, List.mem_cons, List.mem_singleton, List.not_mem_nil, or_false,
    not_or] at h
  obtain ⟨h1, h2, h3, h4, h5, h6, h7, h8⟩ := h
  simp only [decode, h1, h2, h3, h4, h5, h6, h7, h8, if_false]

/-- What `getWord` returns at the start of a line: its first word. -/
theorem getWord_new (line : List Char) :
    (Parser.new line).getWord.1 = Spec.firstWord line := by
  obtain ⟨s, w, t, hl, hs, hw, ht, hwt⟩ := split_line (removeTrailingDOSEndline line)
  have hnew : Parser.new line = Parser.after [] (s ++ (w ++ t)) := by
    simp [Parser.new, Parser.after, hl]
  rw [hnew, Parser.getWord_after [] s w t hs hw ht hwt,
    ← Spec.firstWord_removeTrailingDOSEndline, hl, Spec.firstWord_eq s w t hs hw ht hwt]

/-- C3: a line whose first whitespace-delimited word is non-empty and is not
one of the eight opcode keywords makes `compileLine` raise
`UnknownInstructionException` carrying that word, whatever follows on the line. -/
theorem compileLine_unknown (line : List Char) (hne : Spec.firstWord line ≠ [])
    (hnot : Spec.firstWord line ∉ Spec.opcodes) :
    compileLine line = .error (.unknownInstruction (Spec.firstWord line)) := by
  rw [compileLine_eq, getWord_new]
  simp only [compileWord, decode_none _ hnot, if_neg hne]

theorem compileLine_unknown_witness :
    compileLine "set R1 5".toList = .error (.unknownInstruction "set".toList) ∧
    compileLine "SETR1 5".toList = .error (.unknownInstruction "SETR1".toList) :=
  ⟨compileLine_unknown "set R1 5".toList (by decide) (by decide),
   compileLine_unknown "SETR1 5".toList (by decide) (by decide)⟩

/-- A line of whitespace only has no first word, and conversely. -/
theorem Spec.firstWord_eq_nil (line : List Char) :
    Spec.firstWord line = [] ↔ Spec.allSpace line = true := by
  obtain ⟨s, w, t, rfl, hs, hw, ht, hwt⟩ := split_line line
  rw [Spec.firstWord_eq s w t hs hw ht hwt]
  constructor
  · intro h
    subst h
    have ht0 : t = [] := by simpa using hwt
    subst ht0
    simpa using hs
  · intro h
    rw [allSpace_append, allSpace_append, Bool.and_eq_true, Bool.and_eq_true] at h
    cases w with
    | nil => rfl
    | cons c w =>
      have h1 := hw c (List.mem_cons_self _ _)
      have h2 := h.2.1
      simp only [Spec.allSpace, List.all_cons, Bool.and_eq_true] at h2
      rw [h1] at h2
      exact absurd h2.1 (by simp)

/-- The function `compileLine` returns no instruction exactly on the lines of
whitespace only. -/
theorem compileLine_eq_none (line : List Char) :
    compileLine line = .ok none ↔ Spec.allSpace line = true := by
  rw [← Spec.firstWord_eq_nil, compileLine_eq, getWord_new]
  generalize (Parser.new line).getWord.2 = q
  unfold compileWord
  constructor
  · intro h
    cases hd : decode (Spec.firstWord line) with
    | none =>
      rw [hd] at h
      by_cases h0 : Spec.firstWord line = []
      · exact h0
      · simp [h0] at h
    | some x =>
      rw [hd] at h
      obtain ⟨kinds, build⟩ := x
      simp only [] at h
      cases hp : q.parseOperands kinds with
      | error f => rw [hp] at h; cases h
      | ok y =>
        rw [hp] at h
        obtain ⟨vs, q1⟩ := y
        simp only [] at h
        cases he : q1.end with
        | error f => rw [he] at h; cases h
        | ok u => rw [he] at h; simp at h
  · intro h
    rw [h]
    rfl

/-- The loop of `compile` over lines that are instruction lines or whitespace:
it appends the instructions of the lines that are not whitespace, in order. -/
theorem compileLines_valid (ls : List (List Char)) (compiled : Program)
    (h : ∀ l ∈ ls, (∃ i, compileLine l = .ok (some i)) ∨ Spec.allSpace l = true) :
    ∃ is, compileLines ls compiled = .ok (compiled ++ is) ∧
      (ls.filter (fun l => !Spec.allSpace l)).map compileLine
        = is.map (fun i => .ok (some i)) := by
  induction ls generalizing compiled with
  | nil => exact ⟨[], by simp [compileLines], rfl⟩
  | cons l ls ih =>
    have hl := h l (List.mem_cons_self _ _)
    have hls : ∀ x ∈ ls, (∃ i, compileLine x = .ok (some i)) ∨ Spec.allSpace x = true :=
      fun x hx => h x (List.mem_cons_of_mem _ hx)
    by_cases hb : Spec.allSpace l = true
    · obtain ⟨is, h1, h2⟩ := ih compiled hls
      refine ⟨is, ?_, ?_⟩
      · simp only [compileLines, (compileLine_eq_none l).2 hb, h1]
      · simp only [List.filter_cons, hb, Bool.not_true, Bool.false_eq_true, if_false, h2]
    · rcases hl with ⟨i, hi⟩ | hl
      · obtain ⟨is, h1, h2⟩ := ih (compiled ++ [i]) hls
        refine ⟨i :: is, ?_, ?_⟩
        · simp only [compileLines, hi, h1, List.append_assoc, List.singleton_append]
        · simp only [Bool.not_eq_true] at hb
          simp only [List.filter_cons, hb, Bool.not_false, if_true, List.map_cons, hi, h2]
      · exact absurd hl hb

/-- C5: for a text all of whose lines are instruction lines or whitespace,
`compile` returns a program with one instruction per line that is not
whitespace, the `i`-th instruction being the compilation of the `i`-th such
line; a text of whitespace lines only, or the empty text, compiles to the empty
program. -/
theorem compile_blank_lines_and_order (code : List Char)
    (h : ∀ l ∈ getlines code, (∃ i, compileLine l = .ok (some i)) ∨ Spec.allSpace l = true) :
    ∃ prog, compile code = .ok prog ∧
      prog.length = ((getlines code).filter (fun l => !Spec.allSpace l)).length ∧
      ((getlines code).filter (fun l => !Spec.allSpace l)).map compileLine
        = prog.map (fun i => .ok (some i)) ∧
      ((∀ l ∈ getlines code, Spec.allSpace l = true) → prog = []) := by
  obtain ⟨is, h1, h2⟩ := compileLines_valid (getlines code) [] h
  refine ⟨is, by simpa [compile] using h1, ?_, h2, ?_⟩
  · have := congrArg List.length h2
    simpa using this.symm
  · intro hall
    have hf : (getlines code).filter (fun l => !Spec.allSpace l) = [] := by
      rw [List.filter_eq_nil_iff]
      intro l hl
      simp [hall l hl]
    rw [hf] at h2
    simpa using h2.symm

theorem compile_blank_lines_and_order_witness :
    ∃ prog, compile "  \nSET R1 5\n\r\n\tPRINTLN R1\r\n \n".toList = .ok prog ∧
      prog.length =
        ((getlines "  \nSET R1 5\n\r\n\tPRINTLN R1\r\n \n".toList).filter
          (fun l => !Spec.allSpace l)).length ∧
      ((getlines "  \nSET R1 5\n\r\n\tPRINTLN R1\r\n \n".toList).filter
          (fun l => !Spec.allSpace l)).map compileLine
        = prog.map (fun i => .ok (some i)) ∧
      ((∀ l ∈ getlines "  \nSET R1 5\n\r\n\tPRINTLN R1\r\n \n".toList,
          Spec.allSpace l = true) → prog = []) :=
  compile_blank_lines_and_order "  \nSET R1 5\n\r\n\tPRINTLN R1\r\n \n".toList (by
    intro l hl
    have hg : getlines "  \nSET R1 5\n\r\n\tPRINTLN R1\r\n \n".toList =
        ["  ".toList, "SET R1 5".toList, "\r".toList, "\tPRINTLN R1\r".toList, " ".toList] := by
      decide
    rw [hg] at hl
    simp only [List.mem_cons, List.mem_singleton, List.not_mem_nil, or_false] at hl
    rcases hl with rfl | rfl | rfl | rfl | rfl
    · exact Or.inr (by decide)
    · exact Or.inl ⟨.set 1 5, by decide⟩
    · exact Or.inr (by decide)
    · exact Or.inl ⟨.println 1, by decide⟩
    · exact Or.inr (by decide))

/-- The loop of `compile` raises `f` exactly when `f` is the fault of a line
before which every line compiles. -/
theorem compileLines_error_iff (ls : List (List Char)) (compiled : Program) (f : Fault) :
    compileLines ls compiled = .error f ↔
      ∃ pre l post, ls = pre ++ l :: post ∧ (∀ x ∈ pre, ∃ r, compileLine x = .ok r) ∧
        compileLine l = .error f := by
  induction ls generalizing compiled with
  | nil => simp [compileLines]
  | cons a ls ih =>
    cases ha : compileLine a with
    | error g =>
      simp only [compileLines, ha]
      constructor
      · intro h
        injection h with h
        subst h
        exact ⟨[], a, ls, rfl, by simp, ha⟩
      · rintro ⟨pre, l, post, hsplit, hpre, hl⟩
        cases pre with
        | nil =>
          simp only [List.nil_append, List.cons.injEq] at hsplit
          rw [← hsplit.1, ha] at hl
          injection hl with hl
          rw [hl]
        | cons b pre =>
          simp only [List.cons_append, List.cons.injEq] at hsplit
          obtain ⟨r, hr⟩ := hpre b (List.mem_cons_self _ _)
          rw [← hsplit.1, ha] at hr
          cases hr
    | ok r =>
      have step : ∀ compiled1, (compileLines ls compiled1 = .error f ↔
          ∃ pre l post, a :: ls = pre ++ l :: post ∧ (∀ x ∈ pre, ∃ r, compileLine x = .ok r) ∧
            compileLine l = .error f) := by
        intro compiled1
        rw [ih compiled1]
        constructor
        · rintro ⟨pre, l, post, hsplit, hpre, hl⟩
          refine ⟨a :: pre, l, post, by rw [hsplit]; rfl, ?_, hl⟩
          intro x hx
          rcases List.mem_cons.1 hx with rfl | hx
          · exact ⟨r, ha⟩
          · exact hpre x hx
        · rintro ⟨pre, l, post, hsplit, hpre, hl⟩
          cases pre with
          | nil =>
            simp only [List.nil_append, List.cons.injEq] at hsplit
            rw [← hsplit.1, ha] at hl
            cases hl
          | cons b pre =>
            simp only [List.cons_append, List.cons.injEq] at hsplit
            exact ⟨pre, l, post, hsplit.2, fun x hx => hpre x (List.mem_cons_of_mem _ hx), hl⟩
      cases r with
      | none => simp only [compileLines, ha]; exact step compiled
      | some i => simp only [compileLines, ha]; exact step (compiled ++ [i])

/-- C6: `compile` raises a fault exactly when some line of the text faults under
`compileLine`; the fault it raises is that of the first such line, and it then
returns no program. -/
theorem compile_first_fault (code : List Char) :
    ((∃ f, compile code = .error f) ↔
      ∃ l ∈ getlines code, ∃ f, compileLine l = .error f) ∧
    (∀ f, compile code = .error f ↔
      ∃ pre l post, getlines code = pre ++ l :: post ∧
        (∀ x ∈ pre, ∃ r, compileLine x = .ok r) ∧ compileLine l = .error f) ∧
    (∀ f, compile code = .error f → ¬ ∃ prog, compile code = .ok prog) := by
  have hiff : ∀ f, compile code = .error f ↔
      ∃ pre l post, getlines code = pre ++ l :: post ∧
        (∀ x ∈ pre, ∃ r, compileLine x = .ok r) ∧ compileLine l = .error f :=
    fun f => compileLines_error_iff (getlines code) [] f
  refine ⟨?_, hiff, ?_⟩
  · constructor
    · rintro ⟨f, hf⟩
      obtain ⟨pre, l, post, hsplit, _, hl⟩ := (hiff f).1 hf
      exact ⟨l, by rw [hsplit]; simp, f, hl⟩
    · rintro ⟨l, hmem, f, hl⟩
      -- the first line that faults
      have key : ∀ (ls : List (List Char)), l ∈ ls →
          ∃ g pre l1 post, ls = pre ++ l1 :: post ∧
            (∀ x ∈ pre, ∃ r, compileLine x = .ok r) ∧ compileLine l1 = .error g := by
        intro ls
        induction ls with
        | nil => intro h; cases h
        | cons a ls ih =>
          intro h
          cases ha : compileLine a with
          | error g => exact ⟨g, [], a, ls, rfl, by simp, ha⟩
          | ok r =>
            rcases List.mem_cons.1 h with rfl | h
            · rw [hl] at ha; cases ha
            · obtain ⟨g, pre, l1, post, hsplit, hpre, hl1⟩ := ih h
              refine ⟨g, a :: pre, l1, post, by rw [hsplit]; rfl, ?_, hl1⟩
              intro x hx
              rcases List.mem_cons.1 hx with rfl | hx
              · exact ⟨r, ha⟩
              · exact hpre x hx
      obtain ⟨g, pre, l1, post, hsplit, hpre, hl1⟩ := key (getlines code) hmem
      exact ⟨g, (hiff g).2 ⟨pre, l1, post, hsplit, hpre, hl1⟩⟩
  · rintro f hf ⟨prog, hp⟩
    rw [hf] at hp
    cases hp

theorem compile_first_fault_witness :
    compile "SET R1 5\n\nFOO 1\nSET R1".toList = .error (.unknownInstruction "FOO".toList) :=
  ((compile_first_fault "SET R1 5\n\nFOO 1\nSET R1".toList).2.1 _).2
    ⟨["SET R1 5".toList, []], "FOO 1".toList, ["SET R1".toList], by decide,
      by
        intro x hx
        simp only [List.mem_cons, List.mem_singleton, List.not_mem_nil, or_false] at hx
        rcases hx with rfl | rfl
        · exact ⟨some (.set 1 5), by decide⟩
        · exact ⟨none, by decide⟩,
      by decide⟩

theorem endsToken_append_right (t e : List Char) (ht : endsToken t = true)
    (he : endsToken e = true) : endsToken (t ++ e) = true := by
  cases t with
  | nil => exact he
  | cons c t => exact ht

theorem Spec.isLiteral_ne_nil (tok : List Char) (h : Spec.isLiteral tok = true) : tok ≠ [] := by
  intro h0
  subst h0
  cases h

/-- An operand parsed on a line is parsed to the same value on the line
extended by `e`, when `e` is empty or starts with a whitespace. -/
theorem Extends.parseOperand (e : List Char) (he : endsToken e = true)
    (k : Spec.OperandKind) (p q p1 : Parser) (v : Int) (hpq : Extends e p q)
    (h : p.parseOperand k = .ok (v, p1)) :
    ∃ q1, q.parseOperand k = .ok (v, q1) ∧ Extends e p1 q1 := by
  obtain ⟨pre, r, rfl, hq⟩ := hpq
  obtain ⟨s, tok, tail, rfl, hs, hlit, hacc, hv, hend, hp1⟩ := Parser.parseOperand_inv k pre _ p1 v h
  rcases hq with rfl | ⟨h0, _⟩
  · have hform : s ++ (k.letter ++ (tok ++ tail)) ++ e = s ++ (k.letter ++ (tok ++ (tail ++ e))) := by
      simp
    rw [hform, Parser.parseOperand_fwd k pre s tok (tail ++ e) hs hlit hacc
      (endsToken_append_right _ _ hend he), ← hv]
    refine ⟨_, rfl, pre ++ s ++ k.letter ++ tok ++ tail.take 1, tail.drop 1, hp1, ?_⟩
    cases tail with
    | nil => right; exact ⟨rfl, by simp⟩
    | cons c t => left; simp
  · have : tok = [] := by
      have := congrArg List.length h0
      simp only [List.length_append, List.length_nil] at this
      exact List.length_eq_zero.1 (by omega)
    exact absurd this (Spec.isLiteral_ne_nil tok hlit)

theorem Extends.parseOperands (e : List Char) (he : endsToken e = true)
    (ks : List Spec.OperandKind) :
    ∀ (p q p1 : Parser) (vs : List Int), Extends e p q → p.parseOperands ks = .ok (vs, p1) →
      ∃ q1, q.parseOperands ks = .ok (vs, q1) ∧ Extends e p1 q1 := by
  induction ks with
  | nil =>
    intro p q p1 vs hpq h
    simp only [Parser.parseOperands] at h
    injection h with h
    injection h with h1 h2
    subst h1 h2
    exact ⟨q, rfl, hpq⟩
  | cons k ks ih =>
    intro p q p1 vs hpq h
    simp only [Parser.parseOperands] at h
    cases hk : p.parseOperand k with
    | error f => rw [hk] at h; cases h
    | ok x =>
      obtain ⟨v, p2⟩ := x
      rw [hk] at h
      simp only [] at h
      cases hks : p2.parseOperands ks with
      | error f => rw [hks] at h; cases h
      | ok y =>
        obtain ⟨ws, p3⟩ := y
        rw [hks] at h
        simp only [] at h
        injection h with h
        injection h with h1 h2
        subst h1 h2
        obtain ⟨q2, hq2, hsim2⟩ := Extends.parseOperand e he k p q p2 v hpq hk
        obtain ⟨q3, hq3, hsim3⟩ := ih p2 q2 p3 ws hsim2 hks
        exact ⟨q3, by simp only [Parser.parseOperands, hq2, hq3], hsim3⟩

/-- Where `end` succeeds on a line, on the line extended by `e` it succeeds if
`e` is whitespace and raises `Trailing characters` if not. -/
theorem Extends.end (e : List Char) (he : endsToken e = true) (p q : Parser)
    (hpq : Extends e p q) (h : p.end = .ok ()) :
    (Spec.allSpace e = true → q.end = .ok ()) ∧
    (Spec.allSpace e = false →
      ∃ pos, q.end = .error (.parserException "Trailing characters" q.line pos)) := by
  obtain ⟨pre, r, rfl, hq⟩ := hpq
  have hr : Spec.allSpace r = true := by
    cases hr : Spec.allSpace r with
    | true => rfl
    | false =>
      obtain ⟨pos, hpos⟩ := Parser.end_after_not_allSpace pre r hr
      rw [hpos] at h
      cases h
  rcases hq with rfl | ⟨_, rfl⟩
  · have hre : Spec.allSpace (r ++ e) = Spec.allSpace e := by rw [allSpace_append, hr]; rfl
    constructor
    · intro h1
      exact Parser.end_after_allSpace _ _ (by rw [hre, h1])
    · intro h1
      obtain ⟨pos, hpos⟩ := Parser.end_after_not_allSpace pre (r ++ e) (by rw [hre, h1])
      exact ⟨pos, by rw [hpos]; rfl⟩
  · have hre : Spec.allSpace (e.drop 1) = Spec.allSpace e := by
      cases e with
      | nil => rfl
      | cons c e =>
        simp only [endsToken] at he
        simp [Spec.allSpace, he]
    constructor
    · intro h1
      exact Parser.end_after_allSpace _ _ (by rw [hre, h1])
    · intro h1
      obtain ⟨pos, hpos⟩ := Parser.end_after_not_allSpace (pre ++ e.take 1) (e.drop 1)
        (by rw [hre, h1])
      exact ⟨pos, by rw [hpos]; rfl⟩

theorem removeTrailingDOSEndline_split (l : List Char) :
    ∃ c0, l = removeTrailingDOSEndline l ++ c0 ∧ Spec.allSpace c0 = true := by
  rcases List.eq_nil_or_concat l with rfl | ⟨x, d, rfl⟩
  · exact ⟨[], rfl, rfl⟩
  · rw [List.concat_eq_append, removeTrailingDOSEndline_concat]
    by_cases hd : d = '\r'
    · rw [if_pos hd, hd]
      exact ⟨['\r'], rfl, by decide⟩
    · rw [if_neg hd]
      exact ⟨[], by simp, rfl⟩

theorem removeTrailingDOSEndline_append (a b : List Char) (hb : b ≠ []) :
    removeTrailingDOSEndline (a ++ b) = a ++ removeTrailingDOSEndline b := by
  rcases List.eq_nil_or_concat b with rfl | ⟨x, d, rfl⟩
  · exact absurd rfl hb
  · rw [List.concat_eq_append, ← List.append_assoc, removeTrailingDOSEndline_concat,
      removeTrailingDOSEndline_concat]
    by_cases hd : d = '\r'
    · rw [if_pos hd, if_pos hd]
    · rw [if_neg hd, if_neg hd, List.append_assoc]

theorem removeTrailingDOSEndline_ends (b : List Char) (hb : endsToken b = true) :
    endsToken (removeTrailingDOSEndline b) = true ∧
    Spec.allSpace (removeTrailingDOSEndline b) = Spec.allSpace b := by
  rcases List.eq_nil_or_concat b with rfl | ⟨x, d, rfl⟩
  · exact ⟨rfl, rfl⟩
  · rw [List.concat_eq_append] at hb ⊢
    rw [removeTrailingDOSEndline_concat]
    by_cases hd : d = '\r'
    · rw [if_pos hd, hd, allSpace_append]
      have hcr : Spec.allSpace ['\r'] = true := by decide
      refine ⟨?_, by rw [hcr, Bool.and_true]⟩
      cases x with
      | nil => rfl
      | cons c x => exact hb
    · rw [if_neg hd]
      exact ⟨hb, rfl⟩

/-- The line the parser works on when `ext`, empty or starting with a
whitespace, is appended to a line: the stripped line extended by some `e`, which
is whitespace exactly when `ext` is. -/
theorem removeTrailingDOSEndline_extend (l ext : List Char) (hext : endsToken ext = true) :
    ∃ e, removeTrailingDOSEndline (l ++ ext) = removeTrailingDOSEndline l ++ e ∧
      endsToken e = true ∧ Spec.allSpace e = Spec.allSpace ext := by
  by_cases h0 : ext = []
  · subst h0
    exact ⟨[], by simp, rfl, rfl⟩
  · obtain ⟨c0, hl, hc0⟩ := removeTrailingDOSEndline_split l
    have hne : c0 ++ ext ≠ [] := by simp [h0]
    have hends : endsToken (c0 ++ ext) = true := by
      cases c0 with
      | nil => exact hext
      | cons c c0 =>
        simp only [Spec.allSpace, List.all_cons, Bool.and_eq_true] at hc0
        exact hc0.1
    have := removeTrailingDOSEndline_ends (c0 ++ ext) hends
    refine ⟨removeTrailingDOSEndline (c0 ++ ext), ?_, this.1, ?_⟩
    · rw [← removeTrailingDOSEndline_append _ _ hne, ← List.append_assoc, ← hl]
    · rw [this.2, allSpace_append, hc0]
      rfl

theorem Extends.line (e : List Char) (p q : Parser) (h : Extends e p q) :
    q.line = p.line ++ e := by
  obtain ⟨pre, r, rfl, hq⟩ := h
  rcases hq with rfl | ⟨rfl, rfl⟩
  · simp only [Parser.after, List.append_assoc]
  · simp only [Parser.after, List.append_assoc, List.take_append_drop, List.append_nil]

/-- Parsing operands leaves the line of the parser as it is. -/
theorem Parser.parseOperands_line (ks : List Spec.OperandKind) :
    ∀ (pre r : List Char) (vs : List Int) (p1 : Parser),
      (Parser.after pre r).parseOperands ks = .ok (vs, p1) → p1.line = pre ++ r := by
  induction ks with
  | nil =>
    intro pre r vs p1 h
    simp only [Parser.parseOperands] at h
    injection h with h
    injection h with _ h2
    rw [← h2]
    rfl
  | cons k ks ih =>
    intro pre r vs p1 h
    simp only [Parser.parseOperands] at h
    cases hk : (Parser.after pre r).parseOperand k with
    | error f => rw [hk] at h; cases h
    | ok x =>
      obtain ⟨v, p2⟩ := x
      rw [hk] at h
      simp only [] at h
      obtain ⟨s, tok, tail, rfl, _, _, _, _, _, hp2⟩ := Parser.parseOperand_inv k pre r p2 v hk
      subst hp2
      cases hks : (Parser.after (pre ++ s ++ k.letter ++ tok ++ tail.take 1)
          (tail.drop 1)).parseOperands ks with
      | error f => rw [hks] at h; cases h
      | ok y =>
        obtain ⟨ws, p3⟩ := y
        rw [hks] at h
        simp only [] at h
        injection h with h
        injection h with _ h2
        subst h2
        rw [ih _ _ _ _ hks]
        simp only [List.append_assoc, List.take_append_drop]

/-- A stripped line that compiles to an instruction, extended by `e`, compiles
to the same instruction if `e` is whitespace and raises `Trailing characters`
if not. -/
theorem compileWord_extend (l e : List Char) (he : endsToken e = true) (i : Instruction)
    (h : compileWord (Parser.after [] l).getWord.1 (Parser.after [] l).getWord.2 = .ok (some i)) :
    (Spec.allSpace e = true →
      compileWord (Parser.after [] (l ++ e)).getWord.1 (Parser.after [] (l ++ e)).getWord.2
        = .ok (some i)) ∧
    (Spec.allSpace e = false →
      ∃ pos, compileWord (Parser.after [] (l ++ e)).getWord.1
          (Parser.after [] (l ++ e)).getWord.2
        = .error (.parserException "Trailing characters" (l ++ e) pos)) := by
  obtain ⟨s, w, t, rfl, hs, hw, ht, hwt⟩ := split_line l
  rw [Parser.getWord_after [] s w t hs hw ht hwt] at h
  have hw0 : w ≠ [] := by
    intro h0
    subst h0
    simp [compileWord, decode] at h
  have hform : s ++ (w ++ t) ++ e = s ++ (w ++ (t ++ e)) := by simp
  rw [hform, Parser.getWord_after [] s w (t ++ e) hs hw (endsToken_append_right _ _ ht he)
    (Or.inl hw0)]
  simp only [compileWord] at h ⊢
  cases hd : decode w with
  | none => rw [hd] at h; simp [hw0] at h
  | some x =>
    obtain ⟨kinds, build⟩ := x
    rw [hd] at h
    simp only [] at h ⊢
    cases hp : (Parser.after ([] ++ s ++ w) t).parseOperands kinds with
    | error f => rw [hp] at h; cases h
    | ok y =>
      obtain ⟨vs, p1⟩ := y
      rw [hp] at h
      simp only [] at h
      cases hend : p1.end with
      | error f => rw [hend] at h; cases h
      | ok u =>
        rw [hend] at h
        simp only [] at h
        obtain ⟨q1, hq1, hsim⟩ := Extends.parseOperands e he kinds _
          (Parser.after ([] ++ s ++ w) (t ++ e)) p1 vs ⟨_, _, rfl, Or.inl rfl⟩ hp
        have hqline : q1.line = s ++ (w ++ (t ++ e)) := by
          rw [Extends.line e p1 q1 hsim, Parser.parseOperands_line kinds _ _ _ _ hp]
          simp
        rw [hq1]
        simp only []
        obtain ⟨h1, h2⟩ := Extends.end e he p1 q1 hsim hend
        constructor
        · intro hall
          rw [h1 hall]
          exact h
        · intro hnot
          obtain ⟨pos, hpos⟩ := h2 hnot
          exact ⟨pos, by rw [hpos, hqline]⟩

theorem Parser.new_eq_after (line : List Char) :
    Parser.new line = Parser.after [] (removeTrailingDOSEndline line) := by
  simp [Parser.new, Parser.after]

/-- A line that compiles to an instruction, with `ext` appended (empty or
starting with a whitespace), compiles to the same instruction if `ext` is
whitespace and raises `Trailing characters` if not. -/
theorem compileLine_extend (line ext : List Char) (i : Instruction)
    (hext : endsToken ext = true) (h : compileLine line = .ok (some i)) :
    (Spec.allSpace ext = true → compileLine (line ++ ext) = .ok (some i)) ∧
    (Spec.allSpace ext = false →
      ∃ l pos, compileLine (line ++ ext) = .error (.parserException "Trailing characters" l pos))
    := by
  obtain ⟨e, hstrip, he, hall⟩ := removeTrailingDOSEndline_extend line ext hext
  rw [compileLine_eq, Parser.new_eq_after] at h
  rw [compileLine_eq, Parser.new_eq_after, hstrip, ← hall]
  obtain ⟨h1, h2⟩ := compileWord_extend _ e he i h
  exact ⟨h1, fun hn => ⟨_, h2 hn⟩⟩

/-- C4: for a line `L` that compiles to an instruction, `L` followed by a space
and a suffix holding a non-whitespace character raises a parse fault (and so
yields no instruction), and `L` followed by whitespace only compiles to the same
instruction. -/
theorem compileLine_trailing (L : List Char) (i : Instruction)
    (h : compileLine L = .ok (some i)) :
    (∀ S, (∃ c ∈ S, isspace c = false) →
      ∃ l pos, compileLine (L ++ [' '] ++ S)
        = .error (.parserException "Trailing characters" l pos)) ∧
    (∀ W, (∀ c ∈ W, isspace c = true) → compileLine (L ++ W) = .ok (some i)) := by
  constructor
  · rintro S ⟨c, hc, hsp⟩
    have hnot : Spec.allSpace (' ' :: S) = false := by
      simp only [Spec.allSpace, List.all_cons, Bool.and_eq_false_iff, List.all_eq_false]
      exact Or.inr ⟨c, hc, by simp [hsp]⟩
    have := (compileLine_extend L (' ' :: S) i rfl h).2 hnot
    simpa using this
  · intro W hW
    exact (compileLine_extend L W i (allSpace_endsToken W (by simpa [Spec.allSpace] using hW))
      h).1 (by simpa [Spec.allSpace] using hW)

theorem compileLine_trailing_witness :
    (∃ l pos, compileLine ("SET R1 5\r".toList ++ [' '] ++ "x\r".toList)
      = .error (.parserException "Trailing characters" l pos)) ∧
    compileLine ("SET R1 5\r".toList ++ " \t\r".toList) = .ok (some (.set 1 5)) :=
  have h := compileLine_trailing "SET R1 5\r".toList (.set 1 5) (by decide)
  ⟨h.1 "x\r".toList ⟨'x', by decide, by decide⟩, h.2 " \t\r".toList (by decide)⟩

/-! ## Division and the process cursor -/

theorem wrap32_of_isInt32 {x : Int} (h : isInt32 x) : wrap32 x = x := by
  unfold isInt32 at h; unfold wrap32; omega

/-- C11: with valid registers `dest` and `src` holding the 32-bit values `a` and
`b`, `b` not 0, `DIV` succeeds and leaves in `dest` the quotient of `a` by `b`
truncated toward zero (its magnitude is that of `a` divided by that of `b`,
rounded down), narrowed to 32 bits; every other register, the RAM and the
output are as before. -/
theorem division_result (m : Machine) (dest src a b : Int) (hd : isInt32 dest)
    (ha : (RegisterSet.load m.regs dest).1 = .ok a)
    (hb : (RegisterSet.load m.regs src).1 = .ok b) (hb0 : b ≠ 0) :
    ∃ m1, (Instruction.div dest src).execute m = (.ok (), m1) ∧
      (RegisterSet.load m1.regs dest).1 = .ok (wrap32 (Int.tdiv a b)) ∧
      (Int.tdiv a b).natAbs = a.natAbs / b.natAbs ∧
      (isInt32 a → isInt32 b → ¬ (a = -2147483648 ∧ b = -1) → wrap32 (Int.tdiv a b) = Int.tdiv a b) ∧
      (∀ k, isInt32 k → k ≠ dest →
        (RegisterSet.load m1.regs k).1 = (RegisterSet.load m.regs k).1) ∧
      m1.ram = m.ram ∧ m1.out = m.out := by
  have h : (Instruction.div dest src).execute m = executeArithmetic .divides dest src m := rfl
  refine ⟨{ m with regs := (RegisterSet.store m.regs dest (wrap32 (Int.tdiv a b))).2 }, ?_, ?_,
    Int.natAbs_tdiv a b, ?_, ?_, rfl, rfl⟩
  · rw [h, executeArithmetic_eq .divides m dest src a b ha hb]
    simp [Op.apply, hb0]
  · exact ((Memory.store_load 1 Fault.invalidRegister (by omega) m.regs dest dest
      (wrap32 (Int.tdiv a b)) hd hd).1 ⟨a, ha⟩).2.1
  · intro ha32 hb32 hne
    apply wrap32_of_isInt32
    have hq : (Int.tdiv a b).natAbs = a.natAbs / b.natAbs := Int.natAbs_tdiv a b
    have hle : a.natAbs / b.natAbs ≤ a.natAbs := Nat.div_le_self _ _
    unfold isInt32 at ha32 hb32 ⊢
    by_cases hb1 : b.natAbs = 1
    · have hb' : b = 1 ∨ b = -1 := by omega
      rcases hb' with rfl | rfl
      · simp only [Int.tdiv_one]; omega
      · have : Int.tdiv a (-1) = -a := by
          rw [Int.tdiv_neg, Int.tdiv_one]
        rw [this]
        omega
    · have hb2 : 2 ≤ b.natAbs := by omega
      have : a.natAbs / b.natAbs ≤ a.natAbs / 2 := Nat.div_le_div_left hb2 (by omega)
      omega
  · intro k hk hkd
    exact ((Memory.store_load 1 Fault.invalidRegister (by omega) m.regs dest k
      (wrap32 (Int.tdiv a b)) hd hk).1 ⟨a, ha⟩).2.2 hkd

theorem division_result_witness :
    (∃ m1, (Instruction.div 1 2).execute
        { regs := { mem := [-7, 2] }, ram := { mem := [0] }, out := [] } = (.ok (), m1) ∧
      (RegisterSet.load m1.regs 1).1 = .ok (-3)) ∧
    (∃ m1, (Instruction.div 1 2).execute
        { regs := { mem := [-2147483648, -1] }, ram := { mem := [0] }, out := [] } = (.ok (), m1) ∧
      (RegisterSet.load m1.regs 1).1 = .ok (-2147483648)) := by
  obtain ⟨m1, h1, h2, _⟩ := division_result
    { regs := { mem := [-7, 2] }, ram := { mem := [0] }, out := [] } 1 2 (-7) 2
    (by decide) (by decide) (by decide) (by decide)
  obtain ⟨m2, h3, h4, _⟩ := division_result
    { regs := { mem := [-2147483648, -1] }, ram := { mem := [0] }, out := [] } 1 2
    (-2147483648) (-1) (by decide) (by decide) (by decide) (by decide)
  exact ⟨⟨m1, h1, by rw [h2]; decide⟩, ⟨m2, h3, by rw [h4]; decide⟩⟩

/-- The process after `k` calls of `next`. -/
theorem Process.iterate_next (text : Program) (k : Nat) :
    (fun p : Process => p.next.2)^[k] (Process.new text)
      = { text := text, instruction_pointer := k } := by
  induction k with
  | zero => rfl
  | succ k ih =>
    rw [Function.iterate_succ_apply', ih]
    rfl

/-- C12: for a process over a program of `n` instructions, after `k` calls of
`next` (`k <= n`), `hasNext` is true exactly when `k < n`, the next call of
`next` (the `k+1`-th) returns the `k+1`-th instruction of the program when
`k < n`, and the program is the one the process was made with. -/
theorem process_cursor (text : Program) (k : Nat) (hk : k ≤ text.length) :
    ((fun p : Process => p.next.2)^[k] (Process.new text)).hasNext = decide (k < text.length) ∧
    (∀ h : k < text.length,
      ((fun p : Process => p.next.2)^[k] (Process.new text)).next.1 = some (text.get ⟨k, h⟩)) ∧
    ((fun p : Process => p.next.2)^[k] (Process.new text)).program = text := by
  rw [Process.iterate_next]
  refine ⟨?_, ?_, rfl⟩
  · simp only [Process.hasNext]
    by_cases h : k < text.length
    · simp [h]; omega
    · have : k = text.length := by omega
      simp [this]
  · intro h
    simp [Process.next, List.getElem?_eq_getElem h]

theorem process_cursor_witness :
    ((fun p : Process => p.next.2)^[1] (Process.new [.set 1 3, .println 1])).hasNext
      = decide (1 < 2) ∧
    ((fun p : Process => p.next.2)^[1] (Process.new [.set 1 3, .println 1])).next.1
      = some (.println 1) ∧
    ((fun p : Process => p.next.2)^[2] (Process.new [.set 1 3, .println 1])).hasNext = false :=
  ⟨(process_cursor [.set 1 3, .println 1] 1 (by decide)).1,
   (process_cursor [.set 1 3, .println 1] 1 (by decide)).2.1 (by decide),
   (process_cursor [.set 1 3, .println 1] 2 (by decide)).1⟩

/-! ## The scheduler -/

theorem Scheduler.eraseLoop_eq (processes : List Process) (l : List Nat) (d : Bool) :
    Scheduler.eraseLoop processes l d =
      (l.dropWhile (exhausted processes),
        d || (match l with | [] => false | p :: _ => exhausted processes p)) := by
  induction l generalizing d with
  | nil => simp [Scheduler.eraseLoop]
  | cons p rest ih =>
    simp only [Scheduler.eraseLoop, List.dropWhile_cons, exhausted]
    by_cases h : hasNextAt processes p = true
    · simp [h]
    · simp only [Bool.not_eq_true] at h
      simp only [h, Bool.not_false, if_true, ih, Bool.or_true, Bool.true_or]

/-- The method `schedule` when the process under `current` is exhausted: it and
the exhausted processes that follow it are erased, and `current` stays where it
is, or goes to the start of the list from its end. -/
theorem Scheduler.schedule_exhausted (processes : List Process) (s : Scheduler)
    (pre post : List Nat) (p : Nat) (hact : s.active = pre ++ p :: post)
    (hcur : s.current = pre.length) (hp : exhausted processes p = true) :
    s.schedule processes =
      (if pre ++ post.dropWhile (exhausted processes) = [] then (none, WITHOUT_TIMER)
       else Scheduler.pickProcess
        { s with active := pre ++ post.dropWhile (exhausted processes),
                 current := if post.dropWhile (exhausted processes) = [] then 0
                            else pre.length },
       { s with active := pre ++ post.dropWhile (exhausted processes),
                current := if post.dropWhile (exhausted processes) = [] then 0
                           else pre.length }) := by
  unfold Scheduler.schedule
  rw [Scheduler.eraseLoop_eq, hact, hcur]
  simp only [List.drop_left, List.take_left, List.dropWhile_cons, hp, if_true, Bool.false_or,
    Bool.not_true, Bool.false_and, Bool.false_eq_true, if_false, List.length_append,
    List.isEmpty_eq_true]
  by_cases hD : post.dropWhile (exhausted processes) = []
  · simp only [hD, List.append_nil, List.length_nil, Nat.add_zero, if_true]
    split <;> rfl
  · have : 0 < (post.dropWhile (exhausted processes)).length := List.length_pos.2 hD
    have h1 : ¬ (pre.length = pre.length + (post.dropWhile (exhausted processes)).length) := by
      omega
    simp [hD, h1]

/-- The method `schedule` when the process under `current` has a next
instruction: nothing is erased and `current` moves to the next process, the
first one after the last. -/
theorem Scheduler.schedule_live (processes : List Process) (s : Scheduler)
    (pre post : List Nat) (p : Nat) (hact : s.active = pre ++ p :: post)
    (hcur : s.current = pre.length) (hp : exhausted processes p = false) :
    s.schedule processes =
      (Scheduler.pickProcess { s with current := if post = [] then 0 else pre.length + 1 },
       { s with current := if post = [] then 0 else pre.length + 1 }) := by
  unfold Scheduler.schedule
  rw [Scheduler.eraseLoop_eq, hact, hcur]
  simp only [List.drop_left, List.take_left, List.dropWhile_cons, hp, Bool.false_or,
    Bool.not_false, Bool.true_and, List.length_append, List.length_cons,
    Bool.false_eq_true, if_false]
  have h1 : pre.length ≠ pre.length + (post.length + 1) := by omega
  by_cases hpost : post = []
  · subst hpost
    simp [hact]
  · have : 0 < post.length := List.length_pos.2 hpost
    have h2 : ¬ (pre.length + 1 = pre.length + (post.length + 1)) := by omega
    simp [h1, h2, hpost, hact]

/-- The method `schedule` with `current` at the end of the list. -/
theorem Scheduler.schedule_end (processes : List Process) (s : Scheduler)
    (hcur : s.current = s.active.length) :
    s.schedule processes =
      (if s.active = [] then (none, WITHOUT_TIMER)
       else Scheduler.pickProcess { s with current := 0 },
       { s with current := 0 }) := by
  unfold Scheduler.schedule
  rw [Scheduler.eraseLoop_eq, hcur]
  simp only [List.drop_length, List.take_length, List.dropWhile_nil, List.append_nil,
    Bool.or_self, Bool.not_false, Bool.true_and, ne_eq, not_true_eq_false, decide_False,
    Bool.false_eq_true, if_false, if_true, List.isEmpty_eq_true]
  split <;> rfl

/-- A position inside a list splits the list around its element. -/
theorem split_at (l : List Nat) (c : Nat) (h : c < l.length) :
    ∃ pre p post, l = pre ++ p :: post ∧ c = pre.length ∧ l[c]? = some p := by
  refine ⟨l.take c, l.get ⟨c, h⟩, l.drop (c + 1), ?_, ?_, ?_⟩
  · have := List.take_append_drop c l
    rw [List.drop_eq_getElem_cons h] at this
    exact this.symm
  · simp; omega
  · simp [List.getElem?_eq_getElem h]

theorem Scheduler.setList_eq (processes : List Process) (s : Scheduler) (list : List Nat) :
    s.setList processes list =
      { strategy := s.strategy, active := strategyOrder processes s.strategy list,
        current := (strategyOrder processes s.strategy list).length - 1 } := by
  unfold Scheduler.setList strategyOrder Scheduler.listChanged
  cases hs : s.strategy <;> simp only [] <;> split_ifs with h <;> first
    | rfl
    | (simp only [ne_eq, not_not] at h; simp only [h, Nat.zero_sub])

theorem Scheduler.pickProcess_fst (s : Scheduler) : s.pickProcess.1 = s.active[s.current]? := by
  unfold Scheduler.pickProcess
  cases s.strategy <;> rfl

/-- C16: after `setList(L)` on the SJF scheduler the active list is a
permutation of `L` in non-decreasing order of program length in which the
processes of each length keep the order they have in `L`; the FCFS and
round-robin schedulers leave `L` as given. -/
theorem sjf_ordering (processes : List Process) (s : Scheduler) (L : List Nat) :
    (s.strategy = .sjf →
      ((s.setList processes L).active.Perm L ∧
       (s.setList processes L).active.Pairwise
        (fun a b => SJFScheduler.length processes a ≤ SJFScheduler.length processes b) ∧
       ∀ n, (s.setList processes L).active.filter
            (fun p => decide (SJFScheduler.length processes p = n))
          = L.filter (fun p => decide (SJFScheduler.length processes p = n)))) ∧
    (s.strategy ≠ .sjf → (s.setList processes L).active = L) := by
  constructor
  · intro hs
    rw [Scheduler.setList_eq, hs]
    simp only [strategyOrder, Scheduler.listChanged]
    have hr : ∀ a b, (SJFScheduler.compare processes b a = false) ↔
        SJFScheduler.length processes a ≤ SJFScheduler.length processes b := by
      intro a b
      simp [SJFScheduler.compare]
    letI : IsTotal Nat (fun a b => SJFScheduler.compare processes b a = false) :=
      ⟨fun a b => by rw [hr, hr]; exact Nat.le_total _ _⟩
    letI : IsTrans Nat (fun a b => SJFScheduler.compare processes b a = false) :=
      ⟨fun a b c => by rw [hr, hr, hr]; exact Nat.le_trans⟩
    refine ⟨List.perm_insertionSort _ L, ?_, ?_⟩
    · have := List.sorted_insertionSort
        (fun a b => SJFScheduler.compare processes b a = false) L
      exact List.Pairwise.imp (fun {a b} h => (hr a b).1 h) this
    · intro n
      have hsub : List.Sublist (L.filter (fun p => decide (SJFScheduler.length processes p = n)))
          (List.insertionSort (fun a b => SJFScheduler.compare processes b a = false) L) := by
        apply List.sublist_insertionSort
        · rw [List.pairwise_iff_forall_sublist]
          intro a b hab
          have ha := hab.subset (List.mem_cons_self _ _)
          have hb := hab.subset (List.mem_cons_of_mem _ (List.mem_cons_self _ _))
          simp only [List.mem_filter, decide_eq_true_eq] at ha hb
          rw [hr]
          omega
        · exact List.filter_sublist L
      have hsub2 := hsub.filter (fun p => decide (SJFScheduler.length processes p = n))
      rw [List.filter_filter] at hsub2
      simp only [Bool.and_self] at hsub2
      have hlen : (L.filter (fun p => decide (SJFScheduler.length processes p = n))).length =
          ((List.insertionSort (fun a b => SJFScheduler.compare processes b a = false) L).filter
            (fun p => decide (SJFScheduler.length processes p = n))).length :=
        ((List.perm_insertionSort _ L).filter _).length_eq.symm
      exact (hsub2.eq_of_length hlen).symm
  · intro hs
    rw [Scheduler.setList_eq]
    cases h : s.strategy with
    | sjf => exact absurd h hs
    | fcfs => rfl
    | rr q => rfl

theorem sjf_ordering_witness :
    (Scheduler.setList [Process.new [.println 1, .println 1], Process.new [],
        Process.new [.println 2], Process.new [.println 3]]
      { strategy := .sjf, active := [], current := 0 } [0, 1, 2, 3]).active = [1, 2, 3, 0] ∧
    (Scheduler.setList [Process.new [.println 1, .println 1], Process.new [],
        Process.new [.println 2], Process.new [.println 3]]
      { strategy := .rr 2, active := [], current := 0 } [0, 1, 2, 3]).active = [0, 1, 2, 3] :=
  ⟨by decide,
   (sjf_ordering [Process.new [.println 1, .println 1], Process.new [],
        Process.new [.println 2], Process.new [.println 3]]
      { strategy := .rr 2, active := [], current := 0 } [0, 1, 2, 3]).2 (by decide)⟩

/-- The first `schedule` after `setList`, on a list that ends in `p`: `p` is
erased if it is exhausted, nothing else is, and `current` goes to the start. -/
theorem Scheduler.first_schedule (processes : List Process) (s : Scheduler) (L pre : List Nat)
    (p : Nat) (hA : strategyOrder processes s.strategy L = pre ++ [p]) :
    ((s.setList processes L).schedule processes).2 =
      { strategy := s.strategy,
        active := if exhausted processes p = true then pre else pre ++ [p],
        current := 0 } ∧
    ((s.setList processes L).schedule processes).1.1 =
      (if exhausted processes p = true then pre else pre ++ [p])[0]? := by
  rw [Scheduler.setList_eq, hA]
  have hlen : (pre ++ [p]).length - 1 = pre.length := by simp
  rw [hlen]
  by_cases hp : exhausted processes p = true
  · rw [Scheduler.schedule_exhausted processes _ pre [] p rfl rfl hp]
    simp only [List.dropWhile_nil, List.append_nil, if_true, hp]
    refine ⟨trivial, ?_⟩
    by_cases hpre : pre = []
    · simp [hpre]
    · rw [if_neg hpre, Scheduler.pickProcess_fst]
  · simp only [Bool.not_eq_true] at hp
    rw [Scheduler.schedule_live processes _ pre [] p rfl rfl hp]
    simp only [if_true, hp, Bool.false_eq_true, if_false]
    exact ⟨trivial, Scheduler.pickProcess_fst _⟩

/-- C17, amended: after `setList(L)` on a list in which some process has an
instruction left, the first `schedule()` returns the first process of the
strategy-ordered list, whether or not that process has an instruction left; it
is the first process with an instruction to run when it has one. -/
theorem first_schedule_returns_first (processes : List Process) (s : Scheduler) (L : List Nat)
    (h : ∃ p ∈ L, hasNextAt processes p = true) :
    ∃ p0 rest, (s.setList processes L).active = p0 :: rest ∧
      ((s.setList processes L).schedule processes).1.1 = some p0 ∧
      (hasNextAt processes p0 = true →
        (s.setList processes L).active.find? (hasNextAt processes) = some p0) := by
  obtain ⟨q, hq, hqn⟩ := h
  have hact : (s.setList processes L).active = strategyOrder processes s.strategy L := by
    rw [Scheduler.setList_eq]
  have hmem : q ∈ strategyOrder processes s.strategy L := by
    unfold strategyOrder Scheduler.listChanged
    cases s.strategy with
    | sjf => exact (List.perm_insertionSort _ L).mem_iff.2 hq
    | fcfs => exact hq
    | rr x => exact hq
  rcases List.eq_nil_or_concat (strategyOrder processes s.strategy L) with h0 | ⟨pre, p, hA⟩
  · rw [h0] at hmem; cases hmem
  · rw [List.concat_eq_append] at hA
    have hfirst := (Scheduler.first_schedule processes s L pre p hA).2
    rw [hact, hA]
    by_cases hp : exhausted processes p = true
    · rw [if_pos hp] at hfirst
      have hqp : q ≠ p := by
        intro hqp
        rw [hqp] at hqn
        simp [exhausted, hqn] at hp
      rw [hA] at hmem
      have hqpre : q ∈ pre := by
        rcases List.mem_append.1 hmem with h1 | h1
        · exact h1
        · exact absurd (List.mem_singleton.1 h1) hqp
      obtain ⟨p0, rest, hpre⟩ := List.exists_cons_of_ne_nil (List.ne_nil_of_mem hqpre)
      subst hpre
      refine ⟨p0, rest ++ [p], rfl, by simpa using hfirst, ?_⟩
      intro hp0
      simp [List.find?_cons, hp0]
    · rw [if_neg hp] at hfirst
      cases pre with
      | nil =>
        refine ⟨p, [], rfl, by simpa using hfirst, ?_⟩
        intro hp0
        simp [List.find?_cons, hp0]
      | cons p0 rest =>
        refine ⟨p0, rest ++ [p], rfl, by simpa using hfirst, ?_⟩
        intro hp0
        simp [List.find?_cons, hp0]

theorem first_schedule_returns_first_witness :
    ∃ p0 rest, (Scheduler.setList [Process.new [.println 1], Process.new []]
        { strategy := .fcfs, active := [], current := 0 } [0, 1]).active = p0 :: rest ∧
      ((Scheduler.setList [Process.new [.println 1], Process.new []]
        { strategy := .fcfs, active := [], current := 0 } [0, 1]).schedule
          [Process.new [.println 1], Process.new []]).1.1 = some p0 ∧
      (hasNextAt [Process.new [.println 1], Process.new []] p0 = true →
        (Scheduler.setList [Process.new [.println 1], Process.new []]
          { strategy := .fcfs, active := [], current := 0 } [0, 1]).active.find?
            (hasNextAt [Process.new [.println 1], Process.new []]) = some p0) :=
  first_schedule_returns_first [Process.new [.println 1], Process.new []]
    { strategy := .fcfs, active := [], current := 0 } [0, 1] ⟨0, by decide, by decide⟩

/-- C17 as stated fails: with the programs `[]` and `[PRINTLN R1]` in that
order, the first `schedule()` after `setList` returns the first process, which
has no instruction, and not the second, the first that has one. -/
theorem first_schedule_not_eligible :
    (∃ p ∈ [0, 1], hasNextAt [Process.new [], Process.new [.println 1]] p = true) ∧
    ((Scheduler.setList [Process.new [], Process.new [.println 1]]
        { strategy := .fcfs, active := [], current := 0 } [0, 1]).schedule
          [Process.new [], Process.new [.println 1]]).1.1 = some 0 ∧
    hasNextAt [Process.new [], Process.new [.println 1]] 0 = false ∧
    (Scheduler.setList [Process.new [], Process.new [.println 1]]
        { strategy := .fcfs, active := [], current := 0 } [0, 1]).active.find?
          (hasNextAt [Process.new [], Process.new [.println 1]]) = some 1 := by
  decide

/-- C18, amended: the first `schedule()` after `setList(L)` erases the last
process of the strategy-ordered list if that process is exhausted (its program
is empty, say) and erases no other process. -/
theorem first_schedule_erases_last (processes : List Process) (s : Scheduler) (L : List Nat) :
    (∀ pre p, (s.setList processes L).active = pre ++ [p] →
      ((s.setList processes L).schedule processes).2.active =
        if hasNextAt processes p = true then pre ++ [p] else pre) ∧
    ((s.setList processes L).active = [] →
      ((s.setList processes L).schedule processes).2.active = []) := by
  have hact : (s.setList processes L).active = strategyOrder processes s.strategy L := by
    rw [Scheduler.setList_eq]
  constructor
  · intro pre p hA
    rw [hact] at hA
    rw [(Scheduler.first_schedule processes s L pre p hA).1]
    by_cases hp : hasNextAt processes p = true
    · simp [exhausted, hp]
    · simp [exhausted, hp]
  · intro h0
    rw [Scheduler.schedule_end processes _ (by rw [h0, Scheduler.setList_eq]; rw [hact] at h0; simp [h0])]
    exact h0

theorem first_schedule_erases_last_witness :
    ((Scheduler.setList [Process.new [.println 1], Process.new []]
        { strategy := .rr 1, active := [], current := 0 } [0, 1]).schedule
          [Process.new [.println 1], Process.new []]).2.active =
      if hasNextAt [Process.new [.println 1], Process.new []] 1 = true then [0] ++ [1] else [0] :=
  (first_schedule_erases_last [Process.new [.println 1], Process.new []]
    { strategy := .rr 1, active := [], current := 0 } [0, 1]).1 [0] 1 (by decide)

/-- C18 as stated fails: with the programs `[]` and `[PRINTLN R1]` in that
order, after the first `schedule()` the process with the empty program is still
in the active list, and it is the process returned. -/
theorem first_schedule_keeps_empty :
    (([Process.new [], Process.new [.println 1]].get? 0).map Process.program = some []) ∧
    0 ∈ ((Scheduler.setList [Process.new [], Process.new [.println 1]]
        { strategy := .fcfs, active := [], current := 0 } [0, 1]).schedule
          [Process.new [], Process.new [.println 1]]).2.active ∧
    ((Scheduler.setList [Process.new [], Process.new [.println 1]]
        { strategy := .fcfs, active := [], current := 0 } [0, 1]).schedule
          [Process.new [], Process.new [.println 1]]).1.1 = some 0 := by
  decide

/-- The shape of every result of `schedule`: the response is read off the
scheduler it leaves, whose `current` is on an element unless the list is empty. -/
theorem Scheduler.schedule_shape (processes : List Process) (s : Scheduler)
    (hcur : s.current ≤ s.active.length) :
    s.schedule processes =
      (if (s.schedule processes).2.active = [] then (none, WITHOUT_TIMER)
       else (s.schedule processes).2.pickProcess, (s.schedule processes).2) ∧
    ((s.schedule processes).2.active ≠ [] →
      (s.schedule processes).2.current < (s.schedule processes).2.active.length) ∧
    ((s.schedule processes).2.active = [] → (s.schedule processes).2.current = 0) := by
  by_cases hend : s.current = s.active.length
  · rw [Scheduler.schedule_end processes s hend]
    exact ⟨rfl, fun h => List.length_pos.2 h, fun _ => rfl⟩
  · obtain ⟨pre, p, post, hact, hc, _⟩ := split_at s.active s.current (by omega)
    by_cases hp : exhausted processes p = true
    · rw [Scheduler.schedule_exhausted processes s pre post p hact hc hp]
      refine ⟨rfl, ?_, ?_⟩
      · intro h
        simp only [] at h ⊢
        by_cases hD : post.dropWhile (exhausted processes) = []
        · rw [if_pos hD]
          exact List.length_pos.2 h
        · rw [if_neg hD, List.length_append]
          have := List.length_pos.2 hD
          omega
      · intro h
        simp only [List.append_eq_nil] at h
        simp only [h.2, if_true]
    · simp only [Bool.not_eq_true] at hp
      rw [Scheduler.schedule_live processes s pre post p hact hc hp]
      refine ⟨by simp [hact], ?_, ?_⟩
      · intro _
        simp only [hact, List.length_append, List.length_cons]
        split_ifs with hpost
        · omega
        · have := List.length_pos.2 hpost
          omega
      · intro h
        simp [hact] at h

/-- C19: `schedule()` returns no process and `WITHOUT_TIMER` exactly when the
active list is empty once its erasures are done; otherwise it returns a process
of the active list, the one under `current`; after `setList` of an empty list it
returns no process and `WITHOUT_TIMER`. -/
theorem schedule_sentinel (processes : List Process) (s : Scheduler)
    (hcur : s.current ≤ s.active.length) :
    ((s.schedule processes).1 = (none, WITHOUT_TIMER) ↔ (s.schedule processes).2.active = []) ∧
    ((s.schedule processes).2.active ≠ [] →
      ∃ p, (s.schedule processes).1.1 = some p ∧ p ∈ (s.schedule processes).2.active ∧
        (s.schedule processes).2.active[(s.schedule processes).2.current]? = some p) ∧
    (((s.setList processes []).schedule processes).1 = (none, WITHOUT_TIMER)) := by
  obtain ⟨hshape, hvalid, _⟩ := Scheduler.schedule_shape processes s hcur
  have h1 : (s.schedule processes).1 =
      if (s.schedule processes).2.active = [] then (none, WITHOUT_TIMER)
      else (s.schedule processes).2.pickProcess := by
    conv => lhs; rw [hshape]
  refine ⟨?_, ?_, ?_⟩
  · by_cases h0 : (s.schedule processes).2.active = []
    · rw [if_pos h0] at h1
      exact ⟨fun _ => h0, fun _ => h1⟩
    · rw [if_neg h0] at h1
      refine ⟨fun h => ?_, fun h => absurd h h0⟩
      have hlt := hvalid h0
      have hp := Scheduler.pickProcess_fst (s.schedule processes).2
      rw [← h1, h, List.getElem?_eq_getElem hlt] at hp
      cases hp
  · intro h0
    rw [if_neg h0] at h1
    have hlt := hvalid h0
    refine ⟨_, ?_, List.getElem_mem hlt, List.getElem?_eq_getElem hlt⟩
    rw [h1, Scheduler.pickProcess_fst, List.getElem?_eq_getElem hlt]
  · have hnil : strategyOrder processes s.strategy [] = [] := by
      unfold strategyOrder Scheduler.listChanged
      cases s.strategy <;> rfl
    rw [Scheduler.schedule_end processes _ (by rw [Scheduler.setList_eq, hnil]; rfl),
      Scheduler.setList_eq, hnil]
    rfl

theorem schedule_sentinel_witness :
    ((Scheduler.schedule [Process.new []] { strategy := .rr 3, active := [0], current := 0 }).1
      = (none, WITHOUT_TIMER) ↔
     (Scheduler.schedule [Process.new []]
      { strategy := .rr 3, active := [0], current := 0 }).2.active = []) :=
  (schedule_sentinel [Process.new []] { strategy := .rr 3, active := [0], current := 0 }
    (by decide)).1

/-! ## The run loop -/

/-- The handler `schedule` at supervisor level throws nothing. -/
theorem System.schedule_eq (s : System) (h : s.cpu.current_level = .RING0) :
    s.schedule = (.ok (), s.scheduled) := by
  unfold System.schedule System.scheduled
  rcases hres : (s.scheduler.schedule s.processes).1 with ⟨process, quantum⟩
  cases process with
  | none =>
    simp [hres, CPU.sleep, CPU.requireLevel, h, ProtectionLevel.toNat]
  | some p =>
    by_cases hq : quantum = WITHOUT_TIMER
    · simp [hres, CPU.setTimer, CPU.disableTimer, CPU.setJob, CPU.requireLevel, h,
        ProtectionLevel.toNat, hq]
    · simp [hres, CPU.setTimer, CPU.disableTimer, CPU.setJob, CPU.requireLevel, h,
        ProtectionLevel.toNat, hq]

/-- The method `interrupt` with the handler installed throws nothing. -/
theorem System.interrupt_eq (s : System) (h : s.cpu.interrupt_handler = true) :
    s.interrupt = (.ok (), s.interrupted) := by
  unfold System.interrupt System.interrupted
  simp only [h, Bool.not_true, Bool.false_eq_true, if_false]
  rw [System.schedule_eq _ rfl]

/-- More passes do not change the result of the loop. -/
theorem System.awakenLoop_mono (fuel : Nat) :
    ∀ (s : System) (x : Except Fault Unit × System) (extra : Nat),
      System.awakenLoop fuel s = some x → System.awakenLoop (fuel + extra) s = some x := by
  induction fuel with
  | zero => intro s x extra h; simp [System.awakenLoop] at h
  | succ fuel ih =>
    intro s x extra h
    have hf : fuel + 1 + extra = (fuel + extra) + 1 := by omega
    rw [hf]
    simp only [System.awakenLoop] at h ⊢
    by_cases haw : s.cpu.awake = true
    · simp only [haw, Bool.not_true, Bool.false_eq_true, if_false] at h ⊢
      cases hb : s.awakenBody with
      | none => rw [hb] at h; cases h
      | some y =>
        rw [hb] at h
        obtain ⟨r, t⟩ := y
        cases r with
        | error f => exact h
        | ok u => exact ih t x extra h
    · simp only [haw, Bool.not_false, if_true] at h ⊢
      simpa using h

/-- A pass of the loop that ends without a fault, followed by a run. -/
theorem System.runs_body_ok (s t : System) (d : List (Nat × Instruction))
    (x : Except Fault Unit × Machine × List (Nat × Instruction))
    (haw : s.cpu.awake = true) (hb : s.awakenBody = some (.ok (), t))
    (hd : t.executed = s.executed ++ d) (hlen : t.processes.length = s.processes.length)
    (hst : t.scheduler.strategy = s.scheduler.strategy)
    (hx : t.runs x) : s.runs (x.1, x.2.1, d ++ x.2.2) := by
  obtain ⟨fuel, u, hu, hex, hm, hl, hs, hok⟩ := hx
  refine ⟨fuel + 1, u, ?_, ?_, hm, by rw [hl, hlen], by rw [hs, hst], hok⟩
  · simp only [System.awakenLoop, haw, Bool.not_true, Bool.false_eq_true, if_false, hb]
    exact hu
  · rw [hex, hd, List.append_assoc]

/-- A pass of the loop that ends with a fault. -/
theorem System.runs_body_fault (s t : System) (f : Fault) (d : List (Nat × Instruction))
    (haw : s.cpu.awake = true) (hb : s.awakenBody = some (.error f, t))
    (hd : t.executed = s.executed ++ d) (hlen : t.processes.length = s.processes.length)
    (hst : t.scheduler.strategy = s.scheduler.strategy) :
    s.runs (.error f, t.machine, d) := by
  refine ⟨1, t, ?_, hd, rfl, hlen, hst, fun h => by cases h⟩
  simp only [System.awakenLoop, haw, Bool.not_true, Bool.false_eq_true, if_false, hb]

/-- The loop on a sleeping CPU with an empty active list. -/
theorem System.runs_asleep (s : System) (haw : s.cpu.awake = false)
    (hact : s.scheduler.active = []) : s.runs (.ok (), s.machine, []) := by
  refine ⟨1, s, ?_, by simp, rfl, rfl, rfl, fun _ => ⟨hact, haw⟩⟩
  simp [System.awakenLoop, haw]

theorem leftAt_isEmpty (processes : List Process) (hv : pointersValid processes) (p : Nat) :
    (leftAt processes p).isEmpty = exhausted processes p := by
  unfold leftAt exhausted hasNextAt
  cases hq : processes[p]? with
  | none => rfl
  | some q =>
    have := hv p q hq
    simp only [Process.hasNext, List.isEmpty_eq_true, List.drop_eq_nil_iff]
    by_cases h : q.instruction_pointer = q.text.length
    · simp [h]
    · have h2 : ¬ (q.text.length ≤ q.instruction_pointer) := by omega
      simp [h, h2]

theorem Spec.queueOf_nil (processes : List Process) : Spec.queueOf processes [] = [] := rfl

theorem Spec.queueOf_append (processes : List Process) (a b : List Nat) :
    Spec.queueOf processes (a ++ b) = Spec.queueOf processes a ++ Spec.queueOf processes b := by
  simp [Spec.queueOf]

theorem Spec.queueOf_cons (processes : List Process) (hv : pointersValid processes) (p : Nat)
    (l : List Nat) :
    Spec.queueOf processes (p :: l) =
      if exhausted processes p = true then Spec.queueOf processes l
      else (p, leftAt processes p) :: Spec.queueOf processes l := by
  simp only [Spec.queueOf, List.map_cons, List.filter_cons, leftAt_isEmpty processes hv]
  by_cases h : exhausted processes p = true
  · simp [h]
  · simp [h]

theorem Spec.queueOf_dropWhile (processes : List Process) (hv : pointersValid processes)
    (l : List Nat) :
    Spec.queueOf processes (l.dropWhile (exhausted processes)) = Spec.queueOf processes l := by
  induction l with
  | nil => rfl
  | cons p l ih =>
    rw [List.dropWhile_cons]
    by_cases h : exhausted processes p = true
    · rw [if_pos h, ih, Spec.queueOf_cons processes hv p l, if_pos h]
    · rw [if_neg h]

theorem Spec.queueOf_congr (processes processes1 : List Process) (l : List Nat)
    (h : ∀ p ∈ l, leftAt processes1 p = leftAt processes p) :
    Spec.queueOf processes1 l = Spec.queueOf processes l := by
  unfold Spec.queueOf
  congr 1
  apply List.map_congr_left
  intro p hp
  rw [h p hp]

theorem Spec.total_append (a b : List (Nat × List Instruction)) :
    Spec.total (a ++ b) = Spec.total a + Spec.total b := by
  simp [Spec.total]

/-- The sum that `System.load` takes over the active list. -/
theorem load_sublist (processes : List Process) (a b : List Nat) (h : List.Sublist a b) :
    (a.map (fun p => (leftAt processes p).length + 1)).sum
      ≤ (b.map (fun p => (leftAt processes p).length + 1)).sum :=
  (h.map _).sum_le_sum (fun _ _ => Nat.zero_le _)

/-- What `schedule` does to the scheduler when `current` is on the process `r`
between `pre` and `post`: it leaves a part of the active list, with `current`
on an element of it unless it is empty, and the processes with instructions
left, read cyclically from `current`, are those of `post`, `pre` and `r`. -/
theorem Scheduler.schedule_spec (processes : List Process) (hv : pointersValid processes)
    (s : Scheduler) (pre post : List Nat) (r : Nat) (hact : s.active = pre ++ r :: post)
    (hcur : s.current = pre.length) :
    (s.schedule processes).2.strategy = s.strategy ∧
    List.Sublist (s.schedule processes).2.active s.active ∧
    Spec.queueOf processes
        (rotated (s.schedule processes).2.active (s.schedule processes).2.current)
      = Spec.queueOf processes (post ++ pre ++ [r]) ∧
    (exhausted processes r = true →
      ((s.schedule processes).2.active.map (fun p => (leftAt processes p).length + 1)).sum
        < (s.active.map (fun p => (leftAt processes p).length + 1)).sum) := by
  by_cases hr : exhausted processes r = true
  · rw [Scheduler.schedule_exhausted processes s pre post r hact hcur hr]
    simp only []
    have hsub : List.Sublist (pre ++ post.dropWhile (exhausted processes)) (pre ++ post) :=
      List.Sublist.append (List.Sublist.refl _) (List.dropWhile_sublist _)
    refine ⟨trivial, ?_, ?_, fun _ => ?_⟩
    · rw [hact]
      exact hsub.trans (List.Sublist.append (List.Sublist.refl _) (List.sublist_cons_self _ _))
    · have hq : Spec.queueOf processes [r] = [] := by
        rw [Spec.queueOf_cons processes hv, if_pos hr]; rfl
      rw [Spec.queueOf_append, Spec.queueOf_append, hq, List.append_nil,
        ← Spec.queueOf_dropWhile processes hv post]
      by_cases hD : post.dropWhile (exhausted processes) = []
      · simp [hD, rotated, Spec.queueOf_nil]
      · simp only [hD, if_false, rotated, List.drop_left, List.take_left, Spec.queueOf_append]
    · have := load_sublist processes _ _ hsub
      rw [hact]
      simp only [List.map_append, List.sum_append, List.map_cons, List.sum_cons] at this ⊢
      omega
  · simp only [Bool.not_eq_true] at hr
    rw [Scheduler.schedule_live processes s pre post r hact hcur hr]
    simp only []
    refine ⟨trivial, List.Sublist.refl _, ?_, fun h => by rw [hr] at h; cases h⟩
    rw [hact]
    by_cases hpost : post = []
    · subst hpost
      simp [rotated]
    · simp only [hpost, if_false, rotated]
      have h1 : (pre ++ r :: post).drop (pre.length + 1) = post := by
        have : pre ++ r :: post = (pre ++ [r]) ++ post := by simp
        rw [this]
        exact List.drop_left' (by simp)
      have h2 : (pre ++ r :: post).take (pre.length + 1) = pre ++ [r] := by
        have : pre ++ r :: post = (pre ++ [r]) ++ post := by simp
        rw [this]
        exact List.take_left' (by simp)
      rw [h1, h2, List.append_assoc]

theorem Scheduler.pickProcess_eq (s : Scheduler) :
    s.pickProcess = (s.active[s.current]?, s.strategy.quantum) := by
  unfold Scheduler.pickProcess Strategy.quantum
  cases s.strategy <;> rfl

/-- The handler `schedule` when the active list ends up empty: the CPU sleeps. -/
theorem System.scheduled_sleep (s : System)
    (hcur : s.scheduler.current ≤ s.scheduler.active.length)
    (h0 : (s.scheduler.schedule s.processes).2.active = []) :
    s.scheduled = { s with scheduler := (s.scheduler.schedule s.processes).2,
                           cpu := { s.cpu with awake := false } } := by
  have hshape := (Scheduler.schedule_shape s.processes s.scheduler hcur).1
  have h1 : (s.scheduler.schedule s.processes).1 = (none, WITHOUT_TIMER) := by
    conv => lhs; rw [hshape]
    simp [h0]
  simp only [System.scheduled, h1]

/-- The handler `schedule` when the active list does not end up empty: the
process under `current` becomes the job and the timer is set for the strategy. -/
theorem System.scheduled_job (s : System)
    (hcur : s.scheduler.current ≤ s.scheduler.active.length)
    (h0 : (s.scheduler.schedule s.processes).2.active ≠ []) :
    ∃ p, (s.scheduler.schedule s.processes).2.active[
          (s.scheduler.schedule s.processes).2.current]? = some p ∧
      s.scheduled = { s with
        scheduler := (s.scheduler.schedule s.processes).2,
        cpu := { s.cpu with
          timer_active := decide (s.scheduler.strategy.quantum ≠ WITHOUT_TIMER),
          timer := if s.scheduler.strategy.quantum ≠ WITHOUT_TIMER
                   then s.scheduler.strategy.quantum else s.cpu.timer,
          job := some p } } := by
  obtain ⟨hshape, hvalid, _⟩ := Scheduler.schedule_shape s.processes s.scheduler hcur
  have hlt := hvalid h0
  have hstr : (s.scheduler.schedule s.processes).2.strategy = s.scheduler.strategy := by
    unfold Scheduler.schedule
    simp only []
    split <;> split <;> rfl
  have h1 : (s.scheduler.schedule s.processes).1 =
      (some ((s.scheduler.schedule s.processes).2.active[
        (s.scheduler.schedule s.processes).2.current]), s.scheduler.strategy.quantum) := by
    conv => lhs; rw [hshape]
    simp only [h0, if_false, Scheduler.pickProcess_eq, List.getElem?_eq_getElem hlt, hstr]
  refine ⟨_, List.getElem?_eq_getElem hlt, ?_⟩
  simp only [System.scheduled, h1]

theorem Scheduler.schedule_strategy (processes : List Process) (s : Scheduler) :
    (s.schedule processes).2.strategy = s.strategy := by
  unfold Scheduler.schedule
  simp only []
  split <;> split <;> rfl

theorem rotated_zero (l : List Nat) : rotated l 0 = l := by simp [rotated]

theorem timerSet_of_quantum (strategy : Strategy) (hv : strategy.valid) (timer : Int) :
    match Spec.quantumOf strategy with
    | none => decide (strategy.quantum ≠ WITHOUT_TIMER) = false
    | some q => decide (strategy.quantum ≠ WITHOUT_TIMER) = true ∧
        (if strategy.quantum ≠ WITHOUT_TIMER then strategy.quantum else timer) = (q : Int) := by
  cases strategy with
  | fcfs => simp [Spec.quantumOf, Strategy.quantum]
  | sjf => simp [Spec.quantumOf, Strategy.quantum]
  | rr q =>
    simp only [Strategy.valid] at hv
    by_cases h0 : q = WITHOUT_TIMER
    · simp [Spec.quantumOf, Strategy.quantum, h0]
    · simp only [Spec.quantumOf, Strategy.quantum, h0, if_false, ne_eq, not_false_eq_true,
        decide_True, if_true, true_and]
      omega

/-- What the handler `schedule` does when `current` is on the process `r`
between `pre` and `post`: the machine, the processes and the record of executed
instructions stay; either the active list is empty and the CPU sleeps, no
process having instructions left, or the state is that of a job taken up, with
the processes that have instructions left, read cyclically from `current`,
being those of `post`, `pre` and `r`. -/
theorem System.scheduled_spec (s : System) (hs : s.sound) (pre post : List Nat) (r : Nat)
    (hact : s.scheduler.active = pre ++ r :: post) (hcur : s.scheduler.current = pre.length) :
    s.scheduled.processes = s.processes ∧ s.scheduled.executed = s.executed ∧
    s.scheduled.machine = s.machine ∧
    s.scheduled.cpu.interrupt_handler = s.cpu.interrupt_handler ∧
    s.scheduled.scheduler.strategy = s.scheduler.strategy ∧
    ((s.scheduled.scheduler.active = [] ∧ s.scheduled.cpu.awake = false ∧
        Spec.queueOf s.processes (post ++ pre ++ [r]) = []) ∨
     (s.scheduled.sound ∧ s.scheduled.cpu.awake = s.cpu.awake ∧
        s.scheduled.scheduler.current < s.scheduled.scheduler.active.length ∧
        s.scheduled.cpu.job =
          s.scheduled.scheduler.active[s.scheduled.scheduler.current]? ∧
        s.scheduled.timerSet ∧
        Spec.queueOf s.processes
            (rotated s.scheduled.scheduler.active s.scheduled.scheduler.current)
          = Spec.queueOf s.processes (post ++ pre ++ [r]) ∧
        s.scheduled.load ≤ s.load ∧
        (exhausted s.processes r = true → s.scheduled.load < s.load))) := by
  obtain ⟨hpv, hnd, hpid, hstrat⟩ := hs
  have hle : s.scheduler.current ≤ s.scheduler.active.length := by
    rw [hcur, hact]; simp
  obtain ⟨hst, hsub, hq, hload⟩ :=
    Scheduler.schedule_spec s.processes hpv s.scheduler pre post r hact hcur
  obtain ⟨_, hvalid, hzero⟩ := Scheduler.schedule_shape s.processes s.scheduler hle
  by_cases h0 : (s.scheduler.schedule s.processes).2.active = []
  · rw [System.scheduled_sleep s hle h0]
    refine ⟨rfl, rfl, rfl, rfl, hst, Or.inl ⟨h0, rfl, ?_⟩⟩
    rw [← hq, h0, hzero h0]
    rfl
  · obtain ⟨p, hp, heq⟩ := System.scheduled_job s hle h0
    rw [heq]
    refine ⟨rfl, rfl, rfl, rfl, hst, Or.inr ⟨⟨hpv, hsub.nodup hnd, fun x hx => hpid x (hsub.subset hx),
      by rw [hst]; exact hstrat⟩, rfl, hvalid h0, hp.symm, ?_, hq, ?_, ?_⟩⟩
    · have := timerSet_of_quantum s.scheduler.strategy hstrat s.cpu.timer
      simp only [System.timerSet, hst]
      exact this
    · exact load_sublist s.processes _ _ hsub
    · exact hload

/-- A pass of the loop when the job has no next instruction: an interrupt. -/
theorem System.awakenBody_exhausted (s : System) (r : Nat) (pr : Process)
    (hh : s.cpu.interrupt_handler = true) (hjob : s.cpu.job = some r)
    (hpr : s.processes[r]? = some pr) (hn : pr.hasNext = false) :
    s.awakenBody = some (.ok (), s.interrupted) := by
  simp only [System.awakenBody, hjob, hpr, hn, Bool.not_false, if_true,
    System.interrupt_eq s hh]

/-- A pass of the loop when the job has a next instruction: it is executed, and
the timer ticks if it succeeded. -/
theorem System.awakenBody_live (s : System) (r : Nat) (pr : Process)
    (hjob : s.cpu.job = some r) (hpr : s.processes[r]? = some pr)
    (hlt : pr.instruction_pointer < pr.text.length) :
    s.awakenBody =
      match (pr.text.get ⟨pr.instruction_pointer, hlt⟩).execute s.machine with
      | (.error f, m) =>
        some (.error f, s.stepped r pr (pr.text.get ⟨pr.instruction_pointer, hlt⟩) m)
      | (.ok _, m) =>
        some (s.stepped r pr (pr.text.get ⟨pr.instruction_pointer, hlt⟩) m).timerTick := by
  have hn : pr.hasNext = true := by
    simp only [Process.hasNext, decide_eq_true_eq]; omega
  have hnext : pr.next = (some (pr.text.get ⟨pr.instruction_pointer, hlt⟩), pr.next.2) := by
    simp [Process.next, List.getElem?_eq_getElem hlt]
  simp only [System.awakenBody, hjob, hpr, hn, Bool.not_true, Bool.false_eq_true, if_false]
  rw [hnext]
  simp only []
  rfl

theorem System.timerTick_inactive (s : System) (h : s.cpu.timer_active = false) :
    s.timerTick = (.ok (), s) := by
  simp [System.timerTick, h]

theorem System.timerTick_running (s : System) (h : s.cpu.timer_active = true)
    (h1 : 1 < s.cpu.timer) (h2 : s.cpu.timer < 2147483648) :
    s.timerTick = (.ok (), { s with cpu := { s.cpu with timer := s.cpu.timer - 1 } }) := by
  have hw : wrap32 (s.cpu.timer - 1) = s.cpu.timer - 1 := by unfold wrap32; omega
  have hne : ¬ (s.cpu.timer - 1 = 0) := by omega
  simp [System.timerTick, h, hw, hne]

theorem System.timerTick_expired (s : System) (h : s.cpu.timer_active = true)
    (h1 : s.cpu.timer = 1) (hh : s.cpu.interrupt_handler = true) :
    s.timerTick = (.ok (), System.interrupted
      { s with cpu := { s.cpu with timer := 0, timer_active := false } }) := by
  have hw : wrap32 (s.cpu.timer - 1) = 0 := by rw [h1]; decide
  simp only [System.timerTick, h, if_true, hw]
  exact System.interrupt_eq _ hh

theorem System.stepped_facts (s : System) (r : Nat) (pr : Process) (i : Instruction)
    (m : Machine) :
    (s.stepped r pr i m).scheduler = s.scheduler ∧
    (s.stepped r pr i m).cpu.awake = s.cpu.awake ∧
    (s.stepped r pr i m).cpu.interrupt_handler = s.cpu.interrupt_handler ∧
    (s.stepped r pr i m).cpu.job = s.cpu.job ∧
    (s.stepped r pr i m).cpu.timer_active = s.cpu.timer_active ∧
    (s.stepped r pr i m).cpu.timer = s.cpu.timer ∧
    (s.stepped r pr i m).cpu.current_level = s.cpu.current_level ∧
    (s.stepped r pr i m).machine = m ∧
    (s.stepped r pr i m).executed = s.executed ++ [(r, i)] ∧
    (s.stepped r pr i m).processes = s.processes.set r pr.next.2 :=
  ⟨rfl, rfl, rfl, rfl, rfl, rfl, rfl, rfl, rfl, rfl⟩

theorem Spec.replay_cons_ok (p : Nat) (i : Instruction) (rest : List (Nat × Instruction))
    (m m1 : Machine) (h : i.execute m = (.ok (), m1)) :
    Spec.replay ((p, i) :: rest) m =
      ((Spec.replay rest m1).1, (Spec.replay rest m1).2.1, (p, i) :: (Spec.replay rest m1).2.2) := by
  simp only [Spec.replay, h]

theorem Spec.replay_cons_fault (p : Nat) (i : Instruction) (rest : List (Nat × Instruction))
    (m m1 : Machine) (f : Fault) (h : i.execute m = (.error f, m1)) :
    Spec.replay ((p, i) :: rest) m = (.error f, m1, [(p, i)]) := by
  simp only [Spec.replay, h]

theorem execute_cases (i : Instruction) (m : Machine) :
    (∃ f m1, i.execute m = (.error f, m1)) ∨ (∃ m1, i.execute m = (.ok (), m1)) := by
  rcases h : i.execute m with ⟨x, m1⟩
  cases x with
  | error f => exact Or.inl ⟨f, m1, rfl⟩
  | ok u => exact Or.inr ⟨m1, rfl⟩

theorem drop_take_succ (l : List Instruction) (k j : Nat) (h : k < l.length) :
    (l.drop k).take (j + 1) = l.get ⟨k, h⟩ :: (l.drop (k + 1)).take j := by
  rw [List.drop_eq_getElem_cons h, List.take_succ_cons]
  rfl

/-- A pass of the loop that executes an instruction without a fault and without
the timer expiring. -/
theorem System.step_ok (s : System) (r : Nat) (pr : Process) (m1 : Machine)
    (hjob : s.cpu.job = some r) (hpr : s.processes[r]? = some pr)
    (hlt : pr.instruction_pointer < pr.text.length)
    (he : (pr.text.get ⟨pr.instruction_pointer, hlt⟩).execute s.machine = (.ok (), m1))
    (htm : s.cpu.timer_active = true → 1 < s.cpu.timer ∧ s.cpu.timer < 2147483648) :
    ∃ s2, s.awakenBody = some (.ok (), s2) ∧ s2.scheduler = s.scheduler ∧
      s2.cpu.awake = s.cpu.awake ∧ s2.cpu.interrupt_handler = s.cpu.interrupt_handler ∧
      s2.cpu.job = s.cpu.job ∧ s2.cpu.timer_active = s.cpu.timer_active ∧
      (s.cpu.timer_active = true → s2.cpu.timer = s.cpu.timer - 1) ∧
      s2.machine = m1 ∧
      s2.executed = s.executed ++ [(r, pr.text.get ⟨pr.instruction_pointer, hlt⟩)] ∧
      s2.processes = s.processes.set r pr.next.2 := by
  have hbody := System.awakenBody_live s r pr hjob hpr hlt
  rw [he] at hbody
  simp only [] at hbody
  cases hta : s.cpu.timer_active with
  | false =>
    rw [System.timerTick_inactive (s.stepped r pr (pr.text.get ⟨pr.instruction_pointer, hlt⟩) m1) hta] at hbody
    exact ⟨_, hbody, rfl, rfl, rfl, rfl, hta, fun h => (by cases h), rfl, rfl, rfl⟩
  | true =>
    rw [System.timerTick_running (s.stepped r pr (pr.text.get ⟨pr.instruction_pointer, hlt⟩) m1) hta (htm hta).1 (htm hta).2] at hbody
    exact ⟨_, hbody, rfl, rfl, rfl, rfl, hta, fun _ => rfl, rfl, rfl, rfl⟩

/-- A pass of the loop that executes an instruction with a fault. -/
theorem System.step_fault (s : System) (r : Nat) (pr : Process) (m1 : Machine) (f : Fault)
    (haw : s.cpu.awake = true)
    (hjob : s.cpu.job = some r) (hpr : s.processes[r]? = some pr)
    (hlt : pr.instruction_pointer < pr.text.length)
    (he : (pr.text.get ⟨pr.instruction_pointer, hlt⟩).execute s.machine = (.error f, m1)) :
    s.runs (.error f, m1, [(r, pr.text.get ⟨pr.instruction_pointer, hlt⟩)]) := by
  have hbody := System.awakenBody_live s r pr hjob hpr hlt
  rw [he] at hbody
  simp only [] at hbody
  have h := System.runs_body_fault s _ f [(r, pr.text.get ⟨pr.instruction_pointer, hlt⟩)]
    haw hbody rfl (by simp [System.stepped, System.setMachine]) rfl
  exact h

/-- The job runs `j` instructions while the timer, if active, is above `j`. -/
theorem System.slice (r : Nat) : ∀ (j : Nat) (s : System) (pr : Process),
    s.cpu.awake = true → s.cpu.job = some r → s.processes[r]? = some pr →
    pr.instruction_pointer + j ≤ pr.text.length →
    (s.cpu.timer_active = true → (j : Int) < s.cpu.timer ∧ s.cpu.timer < 2147483648) →
    ((Spec.replay (((pr.text.drop pr.instruction_pointer).take j).map (fun i => (r, i)))
        s.machine).1 ≠ .ok () →
      s.runs (Spec.replay (((pr.text.drop pr.instruction_pointer).take j).map (fun i => (r, i)))
        s.machine)) ∧
    ((Spec.replay (((pr.text.drop pr.instruction_pointer).take j).map (fun i => (r, i)))
        s.machine).1 = .ok () →
      (Spec.replay (((pr.text.drop pr.instruction_pointer).take j).map (fun i => (r, i)))
        s.machine).2.2 = ((pr.text.drop pr.instruction_pointer).take j).map (fun i => (r, i)) ∧
      ∃ t, s.advanced r pr j
          (Spec.replay (((pr.text.drop pr.instruction_pointer).take j).map (fun i => (r, i)))
            s.machine).2.1
          (((pr.text.drop pr.instruction_pointer).take j).map (fun i => (r, i))) t ∧
        ∀ x, t.runs x → s.runs (x.1, x.2.1,
          ((pr.text.drop pr.instruction_pointer).take j).map (fun i => (r, i)) ++ x.2.2)) := by
  intro j
  induction j with
  | zero =>
    intro s pr haw hjob hpr hle htm
    simp only [List.take_zero, List.map_nil, Spec.replay, ne_eq, not_true_eq_false,
      false_implies, true_and, forall_true_left, List.nil_append]
    refine ⟨s, ⟨rfl, rfl, rfl, rfl, rfl, fun _ => by simp, rfl, by simp, rfl,
      fun _ _ => rfl, by simpa using hpr⟩, fun x hx => hx⟩
  | succ j ih =>
    intro s pr haw hjob hpr hle htm
    have hlt : pr.instruction_pointer < pr.text.length := by omega
    rw [drop_take_succ _ _ _ hlt, List.map_cons]
    rcases execute_cases (pr.text.get ⟨pr.instruction_pointer, hlt⟩) s.machine with
      ⟨f, m1, he⟩ | ⟨m1, he⟩
    · rw [Spec.replay_cons_fault _ _ _ _ _ _ he]
      refine ⟨fun _ => System.step_fault s r pr m1 f haw hjob hpr hlt he, fun h => ?_⟩
      cases h
    · rw [Spec.replay_cons_ok _ _ _ _ _ he]
      obtain ⟨s2, hb, h1, h2, h3, h4, h5, h6, h7, h8, h9⟩ :=
        System.step_ok s r pr m1 hjob hpr hlt he (fun h => ⟨by have := (htm h).1; omega, (htm h).2⟩)
      have hrl : r < s.processes.length := by
        rcases Nat.lt_or_ge r s.processes.length with h | h
        · exact h
        · rw [List.getElem?_eq_none h] at hpr; cases hpr
      have hpr2 : s2.processes[r]? = some pr.next.2 := by
        rw [h9, List.getElem?_set_self hrl]
      have hlen2 : s2.processes.length = s.processes.length := by rw [h9, List.length_set]
      have hst2 : s2.scheduler.strategy = s.scheduler.strategy := by rw [h1]
      have hih := ih s2 pr.next.2 (by rw [h2, haw]) (by rw [h4, hjob]) hpr2
        (by simp only [Process.next]; omega)
        (fun h => by
          rw [h5] at h
          have := htm h
          rw [h6 h]
          constructor <;> omega)
      rw [h7] at hih
      have hnip : pr.next.2.instruction_pointer = pr.instruction_pointer + 1 := rfl
      have hntx : pr.next.2.text = pr.text := rfl
      rw [hnip, hntx] at hih
      obtain ⟨ihf, iho⟩ := hih
      refine ⟨fun hne => ?_, fun hok => ?_⟩
      · exact System.runs_body_ok s s2 [_] _ haw hb h8 hlen2 hst2 (ihf hne)
      · obtain ⟨hd, t, hadv, hruns⟩ := iho hok
        refine ⟨by simp only [hd], t, ?_, fun x hx => ?_⟩
        · obtain ⟨a1, a2, a3, a4, a5, a6, a7, a8, a9, a10, a11⟩ := hadv
          refine ⟨by rw [a1, h1], by rw [a2, h2], by rw [a3, h3], by rw [a4, h4],
            by rw [a5, h5], fun h => ?_, a7, ?_, by rw [a9, hlen2], fun p hp => ?_, ?_⟩
          · rw [a6 h, h6 (by rw [← h5, ← a5]; exact h)]; push_cast; omega
          · rw [a8, h8, List.append_assoc]; rfl
          · rw [a10 p hp, h9, List.getElem?_set_ne (Ne.symm hp)]
          · rw [a11, hnip, Nat.add_assoc, Nat.add_comm 1 j]; rfl
        · have := System.runs_body_ok s s2 [_] _ haw hb h8 hlen2 hst2 (hruns x hx)
          exact this

/-- What an interrupt with an installed handler leaves (see `System.scheduled_spec`). -/
theorem System.interrupted_spec (s : System) (hs : s.sound) (pre post : List Nat) (r : Nat)
    (hact : s.scheduler.active = pre ++ r :: post) (hcur : s.scheduler.current = pre.length) :
    s.interrupted.processes = s.processes ∧ s.interrupted.executed = s.executed ∧
    s.interrupted.machine = s.machine ∧
    s.interrupted.cpu.interrupt_handler = s.cpu.interrupt_handler ∧
    s.interrupted.scheduler.strategy = s.scheduler.strategy ∧
    ((s.interrupted.scheduler.active = [] ∧ s.interrupted.cpu.awake = false ∧
        Spec.queueOf s.processes (post ++ pre ++ [r]) = []) ∨
     (s.interrupted.sound ∧ s.interrupted.cpu.awake = s.cpu.awake ∧
        s.interrupted.scheduler.current < s.interrupted.scheduler.active.length ∧
        s.interrupted.cpu.job = s.interrupted.scheduler.active[s.interrupted.scheduler.current]? ∧
        s.interrupted.timerSet ∧
        Spec.queueOf s.processes
            (rotated s.interrupted.scheduler.active s.interrupted.scheduler.current)
          = Spec.queueOf s.processes (post ++ pre ++ [r]) ∧
        s.interrupted.load ≤ s.load ∧
        (exhausted s.processes r = true → s.interrupted.load < s.load))) :=
  System.scheduled_spec { s with cpu := { s.cpu with current_level := .RING0 } } hs pre post r
    hact hcur

theorem Spec.replay_append_fault (a b : List (Nat × Instruction)) :
    ∀ (m : Machine), (Spec.replay a m).1 ≠ .ok () → Spec.replay (a ++ b) m = Spec.replay a m := by
  induction a with
  | nil => intro m h; exact absurd rfl h
  | cons e a ih =>
    intro m h
    obtain ⟨p, i⟩ := e
    rcases execute_cases i m with ⟨f, m1, he⟩ | ⟨m1, he⟩
    · rw [List.cons_append, Spec.replay_cons_fault _ _ _ _ _ _ he,
        Spec.replay_cons_fault _ _ _ _ _ _ he]
    · rw [Spec.replay_cons_ok _ _ _ _ _ he] at h
      rw [List.cons_append, Spec.replay_cons_ok _ _ _ _ _ he, Spec.replay_cons_ok _ _ _ _ _ he,
        ih m1 h]

theorem Spec.replay_append_ok (a b : List (Nat × Instruction)) :
    ∀ (m : Machine), (Spec.replay a m).1 = .ok () →
      Spec.replay (a ++ b) m =
        ((Spec.replay b (Spec.replay a m).2.1).1, (Spec.replay b (Spec.replay a m).2.1).2.1,
          (Spec.replay a m).2.2 ++ (Spec.replay b (Spec.replay a m).2.1).2.2) := by
  induction a with
  | nil => intro m _; rfl
  | cons e a ih =>
    intro m h
    obtain ⟨p, i⟩ := e
    rcases execute_cases i m with ⟨f, m1, he⟩ | ⟨m1, he⟩
    · rw [Spec.replay_cons_fault _ _ _ _ _ _ he] at h; cases h
    · rw [Spec.replay_cons_ok _ _ _ _ _ he] at h
      rw [List.cons_append, Spec.replay_cons_ok _ _ _ _ _ he, Spec.replay_cons_ok _ _ _ _ _ he,
        ih m1 h]
      rfl

theorem System.interrupted_frame (s : System) :
    s.interrupted.processes = s.processes ∧ s.interrupted.executed = s.executed ∧
    s.interrupted.machine = s.machine ∧
    s.interrupted.scheduler.strategy = s.scheduler.strategy := by
  have hst := Scheduler.schedule_strategy s.processes s.scheduler
  simp only [System.interrupted, System.scheduled]
  split <;> exact ⟨rfl, rfl, rfl, hst⟩

theorem Spec.replay_ok_trace (a : List (Nat × Instruction)) :
    ∀ (m : Machine), (Spec.replay a m).1 = .ok () → (Spec.replay a m).2.2 = a := by
  induction a with
  | nil => intro m _; rfl
  | cons e a ih =>
    intro m h
    obtain ⟨p, i⟩ := e
    rcases execute_cases i m with ⟨f, m1, he⟩ | ⟨m1, he⟩
    · rw [Spec.replay_cons_fault _ _ _ _ _ _ he] at h; cases h
    · rw [Spec.replay_cons_ok _ _ _ _ _ he] at h ⊢
      simp only [ih m1 h]

/-- A step of the loop from `s` to `t` that executes nothing. -/
theorem System.runs_interrupt (s : System) (x : Except Fault Unit × Machine × List (Nat × Instruction))
    (haw : s.cpu.awake = true) (hb : s.awakenBody = some (.ok (), s.interrupted))
    (hx : s.interrupted.runs x) : s.runs x := by
  obtain ⟨h1, h2, h3, h4⟩ := System.interrupted_frame s
  have := System.runs_body_ok s s.interrupted [] x haw hb (by rw [h2, List.append_nil])
    (by rw [h1]) h4 hx
  simpa using this

/-- A turn that runs the process to its end: without a timer, or with a
quantum above the number of instructions left. -/
theorem System.turn_full (s : System) (r : Nat) (pr : Process)
    (haw : s.cpu.awake = true) (hh : s.cpu.interrupt_handler = true)
    (hjob : s.cpu.job = some r) (hpr : s.processes[r]? = some pr)
    (hle : pr.instruction_pointer ≤ pr.text.length)
    (htm : s.cpu.timer_active = true →
      ((pr.text.length - pr.instruction_pointer : Nat) : Int) < s.cpu.timer ∧
        s.cpu.timer < 2147483648) :
    s.turns r pr (pr.text.length - pr.instruction_pointer) := by
  obtain ⟨hf, ho⟩ := System.slice r (pr.text.length - pr.instruction_pointer) s pr haw hjob hpr
    (by omega) htm
  refine ⟨hf, fun hok => ?_⟩
  obtain ⟨_, t, ⟨a1, a2, a3, a4, a5, a6, a7, a8, a9, a10, a11⟩, hruns⟩ := ho hok
  refine ⟨t, a1, by rw [a2, haw], by rw [a3, hh], a7, a8, a9, a10, a11, fun x hx => ?_⟩
  apply hruns x
  apply System.runs_interrupt t x (by rw [a2, haw]) _ hx
  apply System.awakenBody_exhausted t r _ (by rw [a3, hh]) (by rw [a4, hjob]) a11
  simp only [Process.hasNext, decide_eq_false_iff_not, not_not]
  omega

theorem turnOf_succ (r : Nat) (pr : Process) (j : Nat)
    (h : pr.instruction_pointer + j < pr.text.length) :
    turnOf r pr (j + 1) = turnOf r pr j ++ [(r, pr.text.get ⟨pr.instruction_pointer + j, h⟩)] := by
  unfold turnOf
  have hj : j < (pr.text.drop pr.instruction_pointer).length := by
    rw [List.length_drop]; omega
  rw [List.take_succ, List.getElem?_eq_getElem hj, List.map_append]
  simp [List.getElem_drop]

/-- A turn that the timer ends: the quantum is at most the number of
instructions left. -/
theorem System.turn_quantum (s : System) (r : Nat) (pr : Process) (q : Nat)
    (haw : s.cpu.awake = true) (hh : s.cpu.interrupt_handler = true)
    (hjob : s.cpu.job = some r) (hpr : s.processes[r]? = some pr)
    (hta : s.cpu.timer_active = true) (htimer : s.cpu.timer = (q : Int))
    (hq0 : 0 < q) (hq1 : q < 2147483648)
    (hle : pr.instruction_pointer + q ≤ pr.text.length) :
    s.turns r pr q := by
  obtain ⟨j, rfl⟩ : ∃ j, q = j + 1 := ⟨q - 1, by omega⟩
  have hlt : pr.instruction_pointer + j < pr.text.length := by omega
  obtain ⟨hf, ho⟩ := System.slice r j s pr haw hjob hpr (by omega)
    (fun _ => by rw [htimer]; constructor <;> omega)
  change ((Spec.replay (turnOf r pr j) s.machine).1 ≠ .ok () → _) at hf
  change ((Spec.replay (turnOf r pr j) s.machine).1 = .ok () → _) at ho
  unfold System.turns
  rw [turnOf_succ r pr j hlt]
  by_cases hok : (Spec.replay (turnOf r pr j) s.machine).1 = .ok ()
  · obtain ⟨hd, t, ⟨a1, a2, a3, a4, a5, a6, a7, a8, a9, a10, a11⟩, hruns⟩ := ho hok
    change (Spec.replay (turnOf r pr j) s.machine).2.2 = turnOf r pr j at hd
    change t.machine = (Spec.replay (turnOf r pr j) s.machine).2.1 at a7
    change t.executed = s.executed ++ turnOf r pr j at a8
    change ∀ x, t.runs x → s.runs (x.1, x.2.1, turnOf r pr j ++ x.2.2) at hruns
    rw [Spec.replay_append_ok _ _ _ hok, hd, ← a7]
    have hlt2 : ({ pr with instruction_pointer := pr.instruction_pointer + j } :
        Process).instruction_pointer < ({ pr with instruction_pointer :=
          pr.instruction_pointer + j } : Process).text.length := hlt
    rcases execute_cases (pr.text.get ⟨pr.instruction_pointer + j, hlt⟩) t.machine with
      ⟨f, m1, he⟩ | ⟨m1, he⟩
    · rw [Spec.replay_cons_fault _ _ _ _ _ _ he]
      refine ⟨fun _ => ?_, fun h => by cases h⟩
      exact hruns _ (System.step_fault t r _ m1 f (by rw [a2, haw]) (by rw [a4, hjob]) a11
        hlt2 he)
    · rw [Spec.replay_cons_ok _ _ _ _ _ he]
      refine ⟨fun h => absurd rfl h, fun _ => ?_⟩
      have hbody := System.awakenBody_live t r _ (by rw [a4, hjob]) a11 hlt2
      have he2 : (List.get ({ pr with instruction_pointer := pr.instruction_pointer + j } :
          Process).text ⟨({ pr with instruction_pointer := pr.instruction_pointer + j } :
          Process).instruction_pointer, hlt2⟩).execute t.machine = (.ok (), m1) := he
      rw [he2] at hbody
      simp only [] at hbody
      have hta2 : t.cpu.timer_active = true := by rw [a5, hta]
      have ht1 : t.cpu.timer = 1 := by rw [a6 hta2, htimer]; push_cast; omega
      rw [System.timerTick_expired (t.stepped r _ _ m1) hta2 ht1 (by
        show t.cpu.interrupt_handler = true
        rw [a3, hh])] at hbody
      have hrl : r < t.processes.length := by
        rcases Nat.lt_or_ge r t.processes.length with h | h
        · exact h
        · rw [List.getElem?_eq_none h] at a11; cases a11
      refine ⟨{ (t.stepped r { pr with instruction_pointer := pr.instruction_pointer + j }
              (pr.text.get ⟨pr.instruction_pointer + j, hlt⟩) m1) with
            cpu := { (t.stepped r { pr with instruction_pointer := pr.instruction_pointer + j }
              (pr.text.get ⟨pr.instruction_pointer + j, hlt⟩) m1).cpu with
                timer := 0, timer_active := false } },
        ?_, ?_, ?_, rfl, ?_, ?_, ?_, ?_, fun x hx => ?_⟩
      · exact a1
      · show t.cpu.awake = true
        rw [a2, haw]
      · show t.cpu.interrupt_handler = true
        rw [a3, hh]
      · show t.executed ++ [_] = _
        rw [a8, List.append_assoc]
      · show (t.processes.set r _).length = _
        rw [List.length_set, a9]
      · intro p hp
        show (t.processes.set r _)[p]? = _
        rw [List.getElem?_set_ne (Ne.symm hp), a10 p hp]
      · show (t.processes.set r _)[r]? = _
        rw [List.getElem?_set_self hrl]
        rfl
      · obtain ⟨f1, f2, f3, f4⟩ := System.interrupted_frame
          { (t.stepped r { pr with instruction_pointer := pr.instruction_pointer + j }
              (pr.text.get ⟨pr.instruction_pointer + j, hlt⟩) m1) with
            cpu := { (t.stepped r { pr with instruction_pointer := pr.instruction_pointer + j }
              (pr.text.get ⟨pr.instruction_pointer + j, hlt⟩) m1).cpu with
                timer := 0, timer_active := false } }
        have := System.runs_body_ok t _ [(r, pr.text.get ⟨pr.instruction_pointer + j, hlt⟩)] x
          (by rw [a2, haw]) hbody (by rw [f2]; rfl)
          (by rw [f1]; show (t.processes.set r _).length = _; rw [List.length_set])
          (by rw [f4]; rfl) hx
        have h2 := hruns _ this
        simpa only [List.append_assoc] using h2
  · rw [Spec.replay_append_fault _ _ _ hok]
    exact ⟨fun _ => hf hok, fun h => absurd h hok⟩

theorem Spec.quantumOf_bounds (strategy : Strategy) (hv : strategy.valid) (q : Nat)
    (h : Spec.quantumOf strategy = some q) : 0 < q ∧ q < 2147483648 := by
  cases strategy with
  | fcfs => cases h
  | sjf => cases h
  | rr quantum =>
    simp only [Spec.quantumOf, WITHOUT_TIMER] at h
    simp only [Strategy.valid] at hv
    split at h
    · cases h
    · cases h
      omega

/-- The turn the loop gives the job under the timer the strategy sets. -/
theorem System.turn (s : System) (r : Nat) (pr : Process)
    (haw : s.cpu.awake = true) (hh : s.cpu.interrupt_handler = true)
    (hjob : s.cpu.job = some r) (hpr : s.processes[r]? = some pr)
    (hlt : pr.instruction_pointer < pr.text.length)
    (hts : s.timerSet) (hv : s.scheduler.strategy.valid) :
    0 < Spec.sliceLength (Spec.quantumOf s.scheduler.strategy)
        (pr.text.length - pr.instruction_pointer) ∧
    pr.instruction_pointer + Spec.sliceLength (Spec.quantumOf s.scheduler.strategy)
        (pr.text.length - pr.instruction_pointer) ≤ pr.text.length ∧
    s.turns r pr (Spec.sliceLength (Spec.quantumOf s.scheduler.strategy)
        (pr.text.length - pr.instruction_pointer)) := by
  unfold System.timerSet at hts
  cases hq : Spec.quantumOf s.scheduler.strategy with
  | none =>
    rw [hq] at hts
    simp only [] at hts
    simp only [Spec.sliceLength]
    refine ⟨by omega, by omega, System.turn_full s r pr haw hh hjob hpr (by omega) ?_⟩
    intro h; rw [hts] at h; cases h
  | some q =>
    rw [hq] at hts
    simp only [] at hts
    obtain ⟨hq0, hq1⟩ := Spec.quantumOf_bounds _ hv q hq
    simp only [Spec.sliceLength]
    rcases Nat.lt_or_ge (pr.text.length - pr.instruction_pointer) q with h | h
    · rw [Nat.min_eq_right (Nat.le_of_lt h)]
      refine ⟨by omega, by omega, System.turn_full s r pr haw hh hjob hpr (by omega) ?_⟩
      intro _; rw [hts.2]; constructor <;> omega
    · rw [Nat.min_eq_left h]
      exact ⟨hq0, by omega, System.turn_quantum s r pr q haw hh hjob hpr hts.1 hts.2 hq0 hq1
        (by omega)⟩

theorem Spec.roundRobin_nil (quantum : Option Nat) (k : Nat) :
    Spec.roundRobin quantum k [] = [] := by
  cases k <;> rfl

theorem Spec.total_cons (p : Nat) (left : List Instruction)
    (queue : List (Nat × List Instruction)) :
    Spec.total ((p, left) :: queue) = left.length + Spec.total queue := by
  simp [Spec.total]

/-- The heap, the load and the queue after a turn of `n` instructions of `r`. -/
theorem after_turn (s t : System) (r : Nat) (pr : Process) (n : Nat) (pre post : List Nat)
    (hs : s.sound) (hact : s.scheduler.active = pre ++ r :: post)
    (hpr : s.processes[r]? = some pr) (hn : pr.instruction_pointer + n ≤ pr.text.length)
    (hn0 : 0 < n) (b1 : t.scheduler = s.scheduler)
    (b6 : t.processes.length = s.processes.length)
    (b7 : ∀ p, p ≠ r → t.processes[p]? = s.processes[p]?)
    (b8 : t.processes[r]? =
      some { pr with instruction_pointer := pr.instruction_pointer + n }) :
    t.sound ∧ t.load < s.load ∧
    Spec.queueOf t.processes (post ++ pre ++ [r]) =
      (if ((pr.text.drop pr.instruction_pointer).drop n).isEmpty
       then Spec.queueOf s.processes (post ++ pre)
       else Spec.queueOf s.processes (post ++ pre) ++
         [(r, (pr.text.drop pr.instruction_pointer).drop n)]) := by
  obtain ⟨hpv, hnd, hbound, hvalid⟩ := hs
  rw [hact] at hnd hbound
  have hnd2 := List.nodup_append.mp hnd
  have hrpre : r ∉ pre := fun h => hnd2.2.2 h (List.mem_cons_self _ _)
  have hrpost : r ∉ post := (List.nodup_cons.mp hnd2.2.1).1
  have hleft : ∀ p, p ≠ r → leftAt t.processes p = leftAt s.processes p := by
    intro p hp
    simp only [leftAt, b7 p hp]
  have hleftr : leftAt t.processes r = (pr.text.drop pr.instruction_pointer).drop n := by
    simp only [leftAt, b8, List.drop_drop]
  have hlefts : leftAt s.processes r = pr.text.drop pr.instruction_pointer := by
    simp only [leftAt, hpr]
  have hpvt : pointersValid t.processes := by
    intro p q hq
    by_cases hp : p = r
    · subst hp
      rw [b8] at hq
      cases hq
      exact hn
    · rw [b7 p hp] at hq
      exact hpv p q hq
  refine ⟨⟨hpvt, ?_, ?_, ?_⟩, ?_, ?_⟩
  · rw [b1, hact]; exact hnd
  · rw [b1, hact, b6]; exact hbound
  · rw [b1]; exact hvalid
  · unfold System.load
    rw [b1, hact]
    simp only [List.map_append, List.map_cons, List.sum_append, List.sum_cons]
    have e1 : (pre.map (fun p => (leftAt t.processes p).length + 1)) =
        (pre.map (fun p => (leftAt s.processes p).length + 1)) :=
      List.map_congr_left (fun p hp => by rw [hleft p (fun h => hrpre (h ▸ hp))])
    have e2 : (post.map (fun p => (leftAt t.processes p).length + 1)) =
        (post.map (fun p => (leftAt s.processes p).length + 1)) :=
      List.map_congr_left (fun p hp => by rw [hleft p (fun h => hrpost (h ▸ hp))])
    rw [e1, e2, hleftr, hlefts]
    simp only [List.length_drop]
    omega
  · rw [Spec.queueOf_append]
    have e : Spec.queueOf t.processes (post ++ pre) = Spec.queueOf s.processes (post ++ pre) := by
      apply Spec.queueOf_congr
      intro p hp
      apply hleft
      rintro rfl
      rcases List.mem_append.mp hp with h | h
      · exact hrpost h
      · exact hrpre h
    rw [e]
    have e2 : Spec.queueOf t.processes [r] =
        if ((pr.text.drop pr.instruction_pointer).drop n).isEmpty then []
        else [(r, (pr.text.drop pr.instruction_pointer).drop n)] := by
      simp only [Spec.queueOf, List.map_cons, List.map_nil, hleftr, List.filter_cons,
        List.filter_nil]
      cases ((pr.text.drop pr.instruction_pointer).drop n).isEmpty <;> rfl
    rw [e2]
    cases ((pr.text.drop pr.instruction_pointer).drop n).isEmpty
    · rfl
    · simp only [if_true, List.append_nil]

/-- From a state at the head of the loop with a job, the loop of `awaken` ends and
executes what the rotation of the queue says, up to the first fault. -/
theorem System.ready_runs : ∀ (N : Nat) (s : System), s.load ≤ N → s.ready →
    ∀ k, Spec.total (Spec.queueOf s.processes
        (rotated s.scheduler.active s.scheduler.current)) ≤ k →
      s.runs (Spec.replay (Spec.roundRobin (Spec.quantumOf s.scheduler.strategy) k
        (Spec.queueOf s.processes (rotated s.scheduler.active s.scheduler.current)))
        s.machine) := by
  intro N
  induction N with
  | zero =>
    intro s hload hr
    exfalso
    obtain ⟨_, _, _, hcur, _, _⟩ := hr
    obtain ⟨pre, r, post, hact, _, _⟩ := split_at _ _ hcur
    unfold System.load at hload
    rw [hact] at hload
    simp only [List.map_append, List.map_cons, List.sum_append, List.sum_cons] at hload
    omega
  | succ N ih =>
    intro s hload hr k hk
    obtain ⟨hs, haw, hh, hcur, hjob, hts⟩ := hr
    obtain ⟨pre, r, post, hact, hc, hget⟩ := split_at _ _ hcur
    rw [hget] at hjob
    have hrot : rotated s.scheduler.active s.scheduler.current = r :: (post ++ pre) := by
      rw [hact, hc]
      simp [rotated]
    rw [hrot] at hk ⊢
    have hs0 := hs
    obtain ⟨hpv, hnd, hbound, hvalid⟩ := hs
    have hrl : r < s.processes.length := hbound r (by rw [hact]; simp)
    obtain ⟨pr, hpr⟩ : ∃ pr, s.processes[r]? = some pr := ⟨_, List.getElem?_eq_getElem hrl⟩
    have hple := hpv r pr hpr
    rw [Spec.queueOf_cons _ hpv] at hk ⊢
    by_cases hex : exhausted s.processes r = true
    · rw [if_pos hex] at hk ⊢
      have hn : pr.hasNext = false := by
        simpa [exhausted, hasNextAt, hpr] using hex
      have hbody := System.awakenBody_exhausted s r pr hh hjob hpr hn
      apply System.runs_interrupt s _ haw hbody
      obtain ⟨f1, f2, f3, f4, f5, hcase⟩ := System.interrupted_spec s hs0 pre post r hact hc
      have hq : Spec.queueOf s.processes (post ++ pre ++ [r]) =
          Spec.queueOf s.processes (post ++ pre) := by
        rw [Spec.queueOf_append, Spec.queueOf_cons _ hpv, if_pos hex, Spec.queueOf_nil,
          List.append_nil]
      rcases hcase with ⟨e1, e2, e3⟩ | ⟨g1, g2, g3, g4, g5, g6, g7, g8⟩
      · rw [← hq, e3, Spec.roundRobin_nil]
        have := System.runs_asleep s.interrupted e2 e1
        rw [f3] at this
        exact this
      · have := ih s.interrupted (by have := g8 hex; omega)
          ⟨g1, by rw [g2, haw], by rw [f4, hh], g3, g4, g5⟩ k (by rw [f1, g6, hq]; exact hk)
        rw [f1, g6, hq, f5, f3] at this
        exact this
    · rw [if_neg hex] at hk ⊢
      have hlt : pr.instruction_pointer < pr.text.length := by
        have : pr.hasNext = true := by
          simpa [exhausted, hasNextAt, hpr] using hex
        simp only [Process.hasNext, decide_eq_true_eq] at this
        omega
      have hleft : leftAt s.processes r = pr.text.drop pr.instruction_pointer := by
        simp only [leftAt, hpr]
      obtain ⟨hn0, hnle, hf, ho⟩ := System.turn s r pr haw hh hjob hpr hlt hts hvalid
      rw [Spec.total_cons, hleft, List.length_drop] at hk
      obtain ⟨k1, rfl⟩ : ∃ k1, k = k1 + 1 := ⟨k - 1, by omega⟩
      rw [hleft]
      simp only [Spec.roundRobin, List.length_drop]
      generalize hn : Spec.sliceLength (Spec.quantumOf s.scheduler.strategy)
        (pr.text.length - pr.instruction_pointer) = n at hn0 hnle hf ho ⊢
      change s.runs (Spec.replay (turnOf r pr n ++ _) s.machine)
      by_cases hok : (Spec.replay (turnOf r pr n) s.machine).1 = .ok ()
      · obtain ⟨t, b1, b2, b3, b4, b5, b6, b7, b8, hruns⟩ := ho hok
        rw [Spec.replay_append_ok _ _ _ hok, Spec.replay_ok_trace _ _ hok, ← b4]
        obtain ⟨hst, hlo, hqt⟩ := after_turn s t r pr n pre post hs0 hact hpr hnle hn0 b1 b6 b7 b8
        obtain ⟨f1, f2, f3, f4, f5, hcase⟩ := System.interrupted_spec t hst pre post r
          (by rw [b1]; exact hact) (by rw [b1]; exact hc)
        rw [← hqt]
        rcases hcase with ⟨e1, e2, e3⟩ | ⟨g1, g2, g3, g4, g5, g6, g7, g8⟩
        · rw [e3, Spec.roundRobin_nil]
          have := System.runs_asleep t.interrupted e2 e1
          rw [f3] at this
          exact hruns _ this
        · have hk2 : Spec.total (Spec.queueOf t.processes (post ++ pre ++ [r])) ≤ k1 := by
            rw [hqt]
            split
            · omega
            · rw [Spec.total_append, Spec.total_cons]
              have h0 : Spec.total [] = 0 := rfl
              rw [h0, List.length_drop, List.length_drop]
              omega
          have := ih t.interrupted (by omega)
            ⟨g1, by rw [g2, b2], by rw [f4, b3], g3, g4, g5⟩ k1 (by rw [f1, g6]; exact hk2)
          rw [f1, g6, f5, f3, b1] at this
          exact hruns _ this
      · rw [Spec.replay_append_fault _ _ _ hok]
        exact hf hok

theorem System.scheduled_level (s : System) :
    s.scheduled.cpu.current_level = s.cpu.current_level := by
  unfold System.scheduled
  split <;> rfl

theorem CPU.disableTimer_eq (c : CPU) (h : c.current_level = .RING0) :
    c.disableTimer = (.ok (), { c with timer_active := false }) := by
  simp [CPU.disableTimer, CPU.requireLevel, h, ProtectionLevel.toNat]

theorem CPU.setInterruptHandler_eq (c : CPU) (handler : Bool) (h : c.current_level = .RING0) :
    c.setInterruptHandler handler = (.ok (), { c with interrupt_handler := handler }) := by
  simp [CPU.setInterruptHandler, CPU.requireLevel, h, ProtectionLevel.toNat]

theorem System.awaken_eq (fuel : Nat) (s : System) (h : s.cpu.current_level = .RING0) :
    s.awaken fuel =
      match System.awakenLoop fuel { s with cpu := { s.cpu with awake := true } } with
      | none => none
      | some (r, t) => some (r, { t with cpu := t.cpu.restorer }) := by
  have hr : s.cpu.requireLevel .RING0 = .ok () := by
    simp [CPU.requireLevel, h, ProtectionLevel.toNat]
  unfold System.awaken
  rw [hr]

/-- The method `executePrograms` once its programs compiled: the loop of
`awaken` runs from `System.started`, then the CPU is restored and, unless a
fault escapes, the handler removed. -/
theorem System.executePrograms_eq (fuel : Nat) (s : System)
    (hl : s.cpu.current_level = .RING0) (programs : List (List Char)) (list : List Process)
    (hmk : System.makeProcesses programs = .ok list) :
    s.executePrograms fuel programs =
      match System.awakenLoop fuel (s.started list) with
      | none => none
      | some (.error f, t) => some (.error f, { t with cpu := t.cpu.restorer })
      | some (.ok _, t) =>
        some (.ok (), { t with cpu := { t.cpu.restorer with interrupt_handler := false } }) := by
  have hl2 : (s.loaded list).cpu.current_level = .RING0 := hl
  have hl3 : (s.loaded list).scheduled.cpu.current_level = .RING0 := by
    rw [System.scheduled_level, hl2]
  unfold System.executePrograms
  simp only [hmk]
  rw [CPU.disableTimer_eq _ hl]
  simp only []
  rw [CPU.setInterruptHandler_eq { s.cpu with timer_active := false } true hl]
  simp only []
  change (match System.schedule (s.loaded list) with
    | (Except.error f, s) => some (Except.error f, s)
    | (Except.ok _, s) =>
      match s.awaken fuel with
      | none => none
      | some (Except.error f, s) => some (Except.error f, s)
      | some (Except.ok _, s) =>
        match s.cpu.setInterruptHandler false with
        | (r, cpu) => some (r, { s with cpu := cpu })) = _
  rw [System.schedule_eq _ hl2]
  simp only []
  rw [System.awaken_eq _ _ hl3]
  change (match (match System.awakenLoop fuel (s.started list) with
      | none => none
      | some (r, t) => some (r, { t with cpu := t.cpu.restorer })) with
    | none => none
    | some (Except.error f, s) => some (Except.error f, s)
    | some (Except.ok _, s) =>
      match s.cpu.setInterruptHandler false with
      | (r, cpu) => some (r, { s with cpu := cpu })) = _
  rcases System.awakenLoop fuel (s.started list) with _ | ⟨r, t⟩
  · rfl
  · cases r with
    | error f => rfl
    | ok u =>
      simp only []
      rw [CPU.setInterruptHandler_eq _ _ rfl]

theorem strategyOrder_perm (processes : List Process) (strategy : Strategy) (l : List Nat) :
    (strategyOrder processes strategy l).Perm l := by
  unfold strategyOrder Scheduler.listChanged
  cases strategy with
  | fcfs => exact List.Perm.refl _
  | rr q => exact List.Perm.refl _
  | sjf => exact List.perm_insertionSort _ l

theorem System.loaded_scheduler (s : System) (list : List Process) :
    (s.loaded list).scheduler =
      { strategy := s.scheduler.strategy,
        active := strategyOrder (s.processes ++ list) s.scheduler.strategy
          ((List.range list.length).map (fun i => s.processes.length + i)),
        current := (strategyOrder (s.processes ++ list) s.scheduler.strategy
          ((List.range list.length).map (fun i => s.processes.length + i))).length - 1 } :=
  Scheduler.setList_eq _ _ _

theorem System.loaded_sound (s : System) (list : List Process)
    (hpv : pointersValid s.processes) (hv : s.scheduler.strategy.valid)
    (hlist : ∀ q ∈ list, q.instruction_pointer ≤ q.text.length) :
    (s.loaded list).sound := by
  have hperm := strategyOrder_perm (s.processes ++ list) s.scheduler.strategy
    ((List.range list.length).map (fun i => s.processes.length + i))
  refine ⟨?_, ?_, ?_, ?_⟩
  · intro p q hq
    change (s.processes ++ list)[p]? = some q at hq
    rcases Nat.lt_or_ge p s.processes.length with h | h
    · rw [List.getElem?_append_left h] at hq
      exact hpv p q hq
    · rw [List.getElem?_append_right h] at hq
      exact hlist q (List.getElem?_mem hq)
  · rw [System.loaded_scheduler]
    apply hperm.nodup_iff.2
    apply List.Nodup.map
    · intro a b h
      simp only at h
      omega
    · exact List.nodup_range _
  · rw [System.loaded_scheduler]
    intro p hp
    have := hperm.mem_iff.1 hp
    simp only [List.mem_map, List.mem_range] at this
    obtain ⟨i, hi, rfl⟩ := this
    change _ < (s.processes ++ list).length
    rw [List.length_append]
    omega
  · rw [System.loaded_scheduler]
    exact hv

/-- The loop on an awake CPU whose scheduler has nothing to run and whose job
has nothing left: one interrupt, which puts the CPU to sleep. -/
theorem System.runs_empty (u : System) (haw : u.cpu.awake = true)
    (hh : u.cpu.interrupt_handler = true) (hact : u.scheduler.active = [])
    (hcur : u.scheduler.current = 0)
    (hjob : ∀ r, u.cpu.job = some r → ∃ pr, u.processes[r]? = some pr ∧ pr.hasNext = false) :
    u.runs (.ok (), u.machine, []) := by
  have hbody : u.awakenBody = some (.ok (), u.interrupted) := by
    cases hj : u.cpu.job with
    | none => simp only [System.awakenBody, hj, System.interrupt_eq u hh]
    | some r =>
      obtain ⟨pr, hpr, hn⟩ := hjob r hj
      exact System.awakenBody_exhausted u r pr hh hj hpr hn
  apply System.runs_interrupt u _ haw hbody
  have hend := Scheduler.schedule_end u.processes u.scheduler (by rw [hcur, hact]; rfl)
  have hsl := System.scheduled_sleep { u with cpu := { u.cpu with current_level := .RING0 } }
    (by show u.scheduler.current ≤ u.scheduler.active.length; rw [hcur]; exact Nat.zero_le _)
    (by show (u.scheduler.schedule u.processes).2.active = []; rw [hend]; exact hact)
  have h1 : u.interrupted.cpu.awake = false := by
    unfold System.interrupted
    rw [hsl]
  have h2 : u.interrupted.scheduler.active = [] := by
    unfold System.interrupted
    rw [hsl]
    show (u.scheduler.schedule u.processes).2.active = []
    rw [hend]; exact hact
  have := System.runs_asleep u.interrupted h1 h2
  rw [(System.interrupted_frame u).2.2.1] at this
  exact this

theorem System.scheduled_scheduler (s : System) :
    s.scheduled.scheduler = (s.scheduler.schedule s.processes).2 := by
  unfold System.scheduled
  split <;> rfl

theorem split_last (l : List Nat) (h : l ≠ []) :
    ∃ pre r, l = pre ++ [r] ∧ l.length - 1 = pre.length :=
  ⟨l.dropLast, l.getLast h, (List.dropLast_append_getLast h).symm, by simp⟩

/-- The loop of `awaken` in `executePrograms`, started on an idle system, ends
and executes what `System.expected` says, up to the first fault. -/
theorem System.started_runs (s : System) (hs : s.idle) (list : List Process)
    (hlist : ∀ q ∈ list, q.instruction_pointer ≤ q.text.length) :
    (s.started list).runs (Spec.replay (s.expected list) s.machine) := by
  obtain ⟨hl, hpv, hv, hjob⟩ := hs
  have hsound := System.loaded_sound s list hpv hv hlist
  have hsch := System.loaded_scheduler s list
  unfold System.expected
  generalize horder : strategyOrder (s.processes ++ list) s.scheduler.strategy
    ((List.range list.length).map (fun i => s.processes.length + i)) = order at hsch ⊢
  have hact0 : (s.loaded list).scheduler.active = order := by rw [hsch]
  have hcur0 : (s.loaded list).scheduler.current = order.length - 1 := by rw [hsch]
  have hstr0 : (s.loaded list).scheduler.strategy = s.scheduler.strategy := by rw [hsch]
  have hcur : (s.loaded list).scheduler.current ≤ (s.loaded list).scheduler.active.length := by
    rw [hact0, hcur0]; omega
  obtain ⟨hshape, hvalid, hzero⟩ :=
    Scheduler.schedule_shape (s.loaded list).processes (s.loaded list).scheduler hcur
  have hspec : order ≠ [] →
      (((s.loaded list).scheduled.scheduler.active = [] ∧
          Spec.queueOf (s.processes ++ list) order = []) ∨
       ((s.loaded list).scheduled.sound ∧
        (s.loaded list).scheduled.scheduler.current
          < (s.loaded list).scheduled.scheduler.active.length ∧
        (s.loaded list).scheduled.cpu.job = (s.loaded list).scheduled.scheduler.active[
          (s.loaded list).scheduled.scheduler.current]? ∧
        (s.loaded list).scheduled.timerSet ∧
        Spec.queueOf (s.processes ++ list)
            (rotated (s.loaded list).scheduled.scheduler.active
              (s.loaded list).scheduled.scheduler.current)
          = Spec.queueOf (s.processes ++ list) order)) := by
    intro ho
    obtain ⟨pre, r, hsplit, hlen⟩ := split_last order ho
    obtain ⟨_, _, _, _, _, hcase⟩ := System.scheduled_spec (s.loaded list) hsound pre [] r
      (by rw [hact0, hsplit]) (by rw [hcur0, hlen])
    rw [List.nil_append, ← hsplit] at hcase
    rcases hcase with ⟨e1, _, e3⟩ | ⟨g1, _, g3, g4, g5, g6, _⟩
    · exact Or.inl ⟨e1, e3⟩
    · exact Or.inr ⟨g1, g3, g4, g5, g6⟩
  have hframe : (s.loaded list).scheduled.processes = s.processes ++ list ∧
      (s.loaded list).scheduled.executed = s.executed ∧
      (s.loaded list).scheduled.machine = s.machine ∧
      (s.loaded list).scheduled.cpu.interrupt_handler = true ∧
      (s.loaded list).scheduled.scheduler.strategy = s.scheduler.strategy := by
    have hst := Scheduler.schedule_strategy (s.loaded list).processes (s.loaded list).scheduler
    rw [hstr0] at hst
    unfold System.scheduled
    split <;> exact ⟨rfl, rfl, rfl, rfl, hst⟩
  obtain ⟨f1, f2, f3, f4, f5⟩ := hframe
  by_cases h0 : ((s.loaded list).scheduler.schedule (s.loaded list).processes).2.active = []
  · have hsl := System.scheduled_sleep (s.loaded list) hcur h0
    have hq : Spec.queueOf (s.processes ++ list) order = [] := by
      by_cases ho : order = []
      · rw [ho]; rfl
      · rcases hspec ho with ⟨_, e3⟩ | ⟨_, g3, _⟩
        · exact e3
        · rw [System.scheduled_scheduler, h0] at g3
          exact absurd g3 (Nat.not_lt_zero _)
    rw [hq, Spec.roundRobin_nil]
    have := System.runs_empty (s.started list) rfl f4
      (by show (s.loaded list).scheduled.scheduler.active = []
          rw [System.scheduled_scheduler, h0])
      (by show (s.loaded list).scheduled.scheduler.current = 0
          rw [System.scheduled_scheduler]; exact hzero h0)
      (by
        intro r hr
        have hr2 : s.cpu.job = some r := by
          have : (s.loaded list).scheduled.cpu.job = some r := hr
          rw [hsl] at this
          exact this
        obtain ⟨pr, hpr, hn⟩ := hjob r hr2
        refine ⟨pr, ?_, hn⟩
        show (s.loaded list).scheduled.processes[r]? = some pr
        rw [f1]
        have hrl : r < s.processes.length := by
          rcases Nat.lt_or_ge r s.processes.length with h | h
          · exact h
          · rw [List.getElem?_eq_none h] at hpr; cases hpr
        rw [List.getElem?_append_left hrl]
        exact hpr)
    have hm : (s.started list).machine = s.machine := f3
    rw [hm] at this
    exact this
  · have ho : order ≠ [] := by
      intro ho
      apply h0
      rw [Scheduler.schedule_end _ _ (by rw [hact0, hcur0, ho]; rfl)]
      rw [hact0, ho]
    rcases hspec ho with ⟨e1, _⟩ | ⟨g1, g3, g4, g5, g6⟩
    · rw [System.scheduled_scheduler] at e1
      exact absurd e1 h0
    · have hready : (s.started list).ready := ⟨g1, rfl, f4, g3, g4, g5⟩
      have := System.ready_runs (s.started list).load (s.started list) (Nat.le_refl _) hready
        (Spec.total (Spec.queueOf (s.processes ++ list) order))
        (by
          show Spec.total (Spec.queueOf (s.loaded list).scheduled.processes
            (rotated (s.loaded list).scheduled.scheduler.active
              (s.loaded list).scheduled.scheduler.current)) ≤ _
          rw [f1, g6])
      have e1 : (s.started list).scheduler = (s.loaded list).scheduled.scheduler := rfl
      have e2 : (s.started list).processes = s.processes ++ list := f1
      have e3 : (s.started list).machine = s.machine := f3
      rw [e2, e1, g6, f5, e3] at this
      exact this

theorem System.makeProcesses_forall : ∀ (programs : List (List Char)) (list : List Process),
    System.makeProcesses programs = .ok list →
    List.Forall₂ (fun code q => compile code = .ok q.text ∧ q.instruction_pointer = 0)
      programs list := by
  intro programs
  induction programs with
  | nil =>
    intro list h
    simp only [System.makeProcesses] at h
    cases h
    exact List.Forall₂.nil
  | cons code programs ih =>
    intro list h
    simp only [System.makeProcesses] at h
    cases hc : compile code with
    | error f => rw [hc] at h; cases h
    | ok text =>
      rw [hc] at h
      simp only [] at h
      cases hm : System.makeProcesses programs with
      | error f => rw [hm] at h; cases h
      | ok rest =>
        rw [hm] at h
        simp only [] at h
        cases h
        exact List.Forall₂.cons ⟨hc, rfl⟩ (ih rest hm)

theorem System.makeProcesses_pointers (programs : List (List Char)) (list : List Process)
    (h : System.makeProcesses programs = .ok list) :
    ∀ q ∈ list, q.instruction_pointer ≤ q.text.length := by
  have := System.makeProcesses_forall programs list h
  clear h
  intro q hq
  induction this with
  | nil => cases hq
  | cons hab _ ih =>
    rcases List.mem_cons.1 hq with rfl | hq
    · rw [hab.2]; exact Nat.zero_le _
    · exact ih hq

/-- A run of `executePrograms` on an idle system whose programs compile ends,
given enough passes of the loop: it executes the instructions of
`System.expected` up to the first fault, on the machine as it finds it, and
raises that fault if there is one; without a fault the active list is left
empty and the handler removed. -/
theorem System.executePrograms_spec (s : System) (hs : s.idle)
    (programs : List (List Char)) (list : List Process)
    (hmk : System.makeProcesses programs = .ok list) :
    ∃ fuel0, ∀ fuel, fuel0 ≤ fuel → ∃ t,
      s.executePrograms fuel programs
        = some ((Spec.replay (s.expected list) s.machine).1, t) ∧
      t.executed = s.executed ++ (Spec.replay (s.expected list) s.machine).2.2 ∧
      t.machine = (Spec.replay (s.expected list) s.machine).2.1 ∧
      t.processes.length = s.processes.length + list.length ∧
      t.scheduler.strategy = s.scheduler.strategy ∧
      t.cpu.awake = false ∧ t.cpu.current_level = .RING0 ∧ t.cpu.timer_active = false ∧
      ((Spec.replay (s.expected list) s.machine).1 = .ok () →
        t.scheduler.active = [] ∧ t.cpu.interrupt_handler = false) := by
  obtain ⟨fuel0, u, hloop, hex, hm, hlen, hstr, hok⟩ :=
    System.started_runs s hs list (System.makeProcesses_pointers programs list hmk)
  have hst : (s.started list).scheduler.strategy = s.scheduler.strategy := by
    have hsch := System.loaded_scheduler s list
    have h1 := Scheduler.schedule_strategy (s.loaded list).processes (s.loaded list).scheduler
    show (s.loaded list).scheduled.scheduler.strategy = _
    rw [System.scheduled_scheduler, h1, hsch]
  have hpl : (s.started list).processes.length = s.processes.length + list.length := by
    show (s.loaded list).scheduled.processes.length = _
    have : (s.loaded list).scheduled.processes = s.processes ++ list := by
      unfold System.scheduled
      split <;> rfl
    rw [this, List.length_append]
  have hexs : (s.started list).executed = s.executed := by
    show (s.loaded list).scheduled.executed = _
    unfold System.scheduled
    split <;> rfl
  refine ⟨fuel0, fun fuel hfuel => ?_⟩
  have hloop2 : System.awakenLoop fuel (s.started list)
      = some ((Spec.replay (s.expected list) s.machine).1, u) := by
    have := System.awakenLoop_mono fuel0 (s.started list) _ (fuel - fuel0) hloop
    rw [show fuel0 + (fuel - fuel0) = fuel by omega] at this
    exact this
  rw [System.executePrograms_eq fuel s hs.1 programs list hmk, hloop2]
  rcases hx : (Spec.replay (s.expected list) s.machine).1 with f | v
  · exact ⟨_, rfl, by rw [← hexs]; exact hex, hm, by rw [← hpl]; exact hlen,
      by rw [← hst]; exact hstr, rfl, rfl, rfl, fun h => by cases h⟩
  · exact ⟨_, rfl, by rw [← hexs]; exact hex, hm, by rw [← hpl]; exact hlen,
      by rw [← hst]; exact hstr, rfl, rfl, rfl, fun _ => ⟨(hok hx).1, rfl⟩⟩

theorem Spec.queueOf_cons_eq (processes : List Process) (p : Nat) (l : List Nat) :
    Spec.queueOf processes (p :: l) =
      (if (leftAt processes p).isEmpty then [] else [(p, leftAt processes p)]) ++
        Spec.queueOf processes l := by
  simp only [Spec.queueOf, List.map_cons, List.filter_cons]
  cases (leftAt processes p).isEmpty <;> rfl

theorem leftAt_new (old : List Process) (q : Process) (rest : List Process)
    (h : q.instruction_pointer = 0) :
    leftAt (old ++ q :: rest) old.length = q.program := by
  have hg : (old ++ q :: rest)[old.length]? = some q := by
    rw [List.getElem?_append_right (Nat.le_refl _), Nat.sub_self, List.getElem?_cons_zero]
  simp only [leftAt, hg, h, List.drop_zero, Process.program]

/-- The queue of a run on new processes, in the order they were created. -/
theorem Spec.queueOf_new : ∀ (list old : List Process),
    (∀ q ∈ list, q.instruction_pointer = 0) →
    Spec.queueOf (old ++ list) ((List.range list.length).map (fun i => old.length + i)) =
      Spec.initialQueue old.length (list.map Process.program) := by
  intro list
  induction list with
  | nil => intro old _; rfl
  | cons q rest ih =>
    intro old h
    have hq := h q (List.mem_cons_self _ _)
    rw [List.length_cons, List.range_succ_eq_map, List.map_cons, List.map_map,
      Spec.queueOf_cons_eq, Nat.add_zero, leftAt_new old q rest hq]
    have hfun : ((fun i => old.length + i) ∘ Nat.succ) = fun i => (old ++ [q]).length + i := by
      funext i
      simp only [Function.comp, List.length_append, List.length_singleton]
      omega
    have happ : old ++ q :: rest = (old ++ [q]) ++ rest := by simp
    rw [hfun, happ, ih (old ++ [q]) (fun x hx => h x (List.mem_cons_of_mem _ hx))]
    simp only [Spec.initialQueue, List.map_cons, List.enumFrom_cons, List.filter_cons,
      List.length_append, List.length_singleton]
    cases q.program.isEmpty <;> rfl

theorem Spec.flatten_filter (queue : List (Nat × List Instruction)) :
    Spec.flatten (queue.filter (fun e => !e.2.isEmpty)) = Spec.flatten queue := by
  induction queue with
  | nil => rfl
  | cons e queue ih =>
    obtain ⟨p, left⟩ := e
    cases left with
    | nil =>
      simp only [List.filter_cons, List.isEmpty_nil, Bool.not_true, Bool.false_eq_true,
        if_false, ih]
      simp [Spec.flatten]
    | cons i left =>
      simp only [List.filter_cons, List.isEmpty_cons, Bool.not_false, if_true]
      simp only [Spec.flatten, List.flatMap_cons] at ih ⊢
      rw [ih]

theorem Spec.roundRobin_none : ∀ (queue : List (Nat × List Instruction)) (k : Nat),
    queue.length ≤ k → Spec.roundRobin none k queue = Spec.flatten queue := by
  intro queue
  induction queue with
  | nil => intro k _; rw [Spec.roundRobin_nil]; rfl
  | cons e queue ih =>
    intro k hk
    obtain ⟨p, left⟩ := e
    obtain ⟨k, rfl⟩ : ∃ j, k = j + 1 := ⟨k - 1, by simp only [List.length_cons] at hk; omega⟩
    simp only [Spec.roundRobin, Spec.sliceLength, List.take_length, List.drop_length,
      List.isEmpty_nil, if_true]
    rw [ih k (by simp only [List.length_cons] at hk; omega)]
    simp [Spec.flatten]

theorem Spec.length_le_total (queue : List (Nat × List Instruction))
    (h : ∀ e ∈ queue, e.2 ≠ []) : queue.length ≤ Spec.total queue := by
  induction queue with
  | nil => exact Nat.le_refl _
  | cons e queue ih =>
    obtain ⟨p, left⟩ := e
    rw [Spec.total_cons, List.length_cons]
    have := ih (fun e he => h e (List.mem_cons_of_mem _ he))
    have h1 := List.length_pos.2 (h (p, left) (List.mem_cons_self _ _))
    simp only at h1
    omega

theorem Spec.initialQueue_ne (base : Nat) (programs : List Program) :
    ∀ e ∈ Spec.initialQueue base programs, e.2 ≠ [] := by
  intro e he
  simp only [Spec.initialQueue, List.mem_filter, Bool.not_eq_true', List.isEmpty_eq_false] at he
  exact he.2

theorem System.fresh_idle (register_count size : Nat) (strategy : Strategy)
    (hv : strategy.valid) : (System.fresh register_count size strategy).idle :=
  ⟨rfl, fun p q h => by simp [System.fresh] at h, hv, fun r h => by cases h⟩

theorem System.makeProcesses_zero (programs : List (List Char)) (list : List Process)
    (h : System.makeProcesses programs = .ok list) :
    ∀ q ∈ list, q.instruction_pointer = 0 := by
  have := System.makeProcesses_forall programs list h
  clear h
  intro q hq
  induction this with
  | nil => cases hq
  | cons hab _ ih =>
    rcases List.mem_cons.1 hq with rfl | hq
    · exact hab.2
    · exact ih hq

/-- What a run on a freshly installed OS is to execute, in the words of the
schedule: the programs that are not empty queue up in the order of the
strategy. -/
theorem System.expected_fresh (register_count size : Nat) (strategy : Strategy)
    (list : List Process) :
    (System.fresh register_count size strategy).expected list =
      Spec.roundRobin (Spec.quantumOf strategy)
        (Spec.total (Spec.queueOf list (strategyOrder list strategy (List.range list.length))))
        (Spec.queueOf list (strategyOrder list strategy (List.range list.length))) := by
  have h1 : (List.range list.length).map (fun i => ([] : List Process).length + i)
      = List.range list.length := by
    simp
  unfold System.expected
  simp only [System.fresh, List.nil_append]
  rw [h1]

theorem System.expected_fcfs (register_count size : Nat)
    (list : List Process) (hz : ∀ q ∈ list, q.instruction_pointer = 0) :
    (System.fresh register_count size .fcfs).expected list =
      Spec.inTurn 0 (list.map Process.program) := by
  rw [System.expected_fresh register_count size .fcfs list]
  have hq := Spec.queueOf_new list [] hz
  simp only [List.nil_append, List.length_nil, Nat.zero_add, List.map_id'] at hq
  have ho : strategyOrder list .fcfs (List.range list.length) = List.range list.length := rfl
  rw [ho, hq]
  have hq0 : Spec.quantumOf .fcfs = none := rfl
  rw [hq0, Spec.roundRobin_none _ _
    (Spec.length_le_total _ (Spec.initialQueue_ne 0 (list.map Process.program)))]
  exact Spec.flatten_filter _

/-- C13: under the FCFS scheduler on a freshly installed OS, for programs that
compile and none of whose instructions faults when they are executed one
program after the other, `executePrograms` returns and the instructions it
executed are the concatenation of the programs in list order: each process
runs all its instructions before the next one starts. -/
theorem fcfs_order (register_count size : Nat) (programs : List (List Char))
    (list : List Process) (hmk : System.makeProcesses programs = .ok list)
    (hok : (Spec.replay (Spec.inTurn 0 (list.map Process.program))
      (System.fresh register_count size .fcfs).machine).1 = .ok ()) :
    ∃ fuel0, ∀ fuel, fuel0 ≤ fuel → ∃ t,
      (System.fresh register_count size .fcfs).executePrograms fuel programs
        = some (.ok (), t) ∧
      t.executed = Spec.inTurn 0 (list.map Process.program) := by
  obtain ⟨fuel0, h⟩ := System.executePrograms_spec (System.fresh register_count size .fcfs)
    (System.fresh_idle register_count size .fcfs trivial) programs list hmk
  rw [System.expected_fcfs register_count size list
    (System.makeProcesses_zero programs list hmk)] at h
  refine ⟨fuel0, fun fuel hfuel => ?_⟩
  obtain ⟨t, h1, h2, _⟩ := h fuel hfuel
  rw [hok] at h1
  rw [Spec.replay_ok_trace _ _ hok] at h2
  exact ⟨t, h1, by rw [h2]; rfl⟩

theorem fcfs_order_witness :
    ∃ fuel0, ∀ fuel, fuel0 ≤ fuel → ∃ t,
      (System.fresh 2 1 .fcfs).executePrograms fuel
          ["SET R1 7\nPRINTLN R1".toList, "".toList, "PRINTLN R2".toList]
        = some (.ok (), t) ∧
      t.executed = [(0, .set 1 7), (0, .println 1), (2, .println 2)] :=
  fcfs_order 2 1 ["SET R1 7\nPRINTLN R1".toList, "".toList, "PRINTLN R2".toList]
    [Process.new [.set 1 7, .println 1], Process.new [], Process.new [.println 2]]
    (by decide) (by decide)

/-- An instruction that faults writes nothing to the output. -/
theorem Instruction.execute_fault_out (i : Instruction) (m : Machine) (f : Fault)
    (h : (i.execute m).1 = .error f) : (i.execute m).2.out = m.out := by
  cases i with
  | set reg val => rfl
  | load dest src =>
    simp only [Instruction.execute]
    split
    · rfl
    · rfl
  | store dest src =>
    simp only [Instruction.execute]
    split
    · rfl
    · rfl
  | add dest src =>
    simp only [Instruction.execute, executeArithmetic]
    split
    · rfl
    · split
      · rfl
      · split <;> rfl
  | sub dest src =>
    simp only [Instruction.execute, executeArithmetic]
    split
    · rfl
    · split
      · rfl
      · split <;> rfl
  | mul dest src =>
    simp only [Instruction.execute, executeArithmetic]
    split
    · rfl
    · split
      · rfl
      · split <;> rfl
  | div dest src =>
    simp only [Instruction.execute, executeArithmetic]
    split
    · rfl
    · split
      · rfl
      · split <;> rfl
  | println reg =>
    simp only [Instruction.execute] at h ⊢
    split
    · rfl
    · rename_i val regs hl
      rw [hl] at h
      cases h

theorem Spec.replay_fixed (a : List (Nat × Instruction)) :
    ∀ (m : Machine), Spec.replay (Spec.replay a m).2.2 m = Spec.replay a m := by
  induction a with
  | nil => intro m; rfl
  | cons e a ih =>
    intro m
    obtain ⟨p, i⟩ := e
    rcases execute_cases i m with ⟨f, m1, he⟩ | ⟨m1, he⟩
    · rw [Spec.replay_cons_fault _ _ _ _ _ _ he]
      exact Spec.replay_cons_fault _ _ _ _ _ _ he
    · rw [Spec.replay_cons_ok _ _ _ _ _ he]
      simp only []
      rw [Spec.replay_cons_ok _ _ _ _ _ he, ih m1]

/-- In a record that replays in full, whatever was executed before another
instruction raised no fault, and an instruction that faults is the last. -/
theorem Spec.replay_fault_last : ∀ (pre d : List (Nat × Instruction)) (m : Machine)
    (e : Nat × Instruction) (post : List (Nat × Instruction)),
    (Spec.replay d m).2.2 = d → d = pre ++ e :: post →
    (Spec.replay pre m).1 = .ok () ∧
    ∀ f, (e.2.execute (Spec.replay pre m).2.1).1 = .error f →
      post = [] ∧ (Spec.replay d m).1 = .error f ∧
      (Spec.replay d m).2.1.out = (Spec.replay pre m).2.1.out := by
  intro pre
  induction pre with
  | nil =>
    intro d m e post hd hsplit
    obtain ⟨p, i⟩ := e
    refine ⟨rfl, fun f hf => ?_⟩
    rw [List.nil_append] at hsplit
    subst hsplit
    change (i.execute m).1 = .error f at hf
    rcases execute_cases i m with ⟨f1, m1, he⟩ | ⟨m1, he⟩
    · rw [he] at hf
      cases hf
      rw [Spec.replay_cons_fault _ _ _ _ _ _ he] at hd ⊢
      simp only [List.cons.injEq, true_and] at hd
      have ho := Instruction.execute_fault_out i m f (by rw [he])
      rw [he] at ho
      exact ⟨hd.symm, rfl, ho⟩
    · rw [he] at hf
      cases hf
  | cons a pre ih =>
    intro d m e post hd hsplit
    obtain ⟨p, i⟩ := a
    rw [List.cons_append] at hsplit
    subst hsplit
    rcases execute_cases i m with ⟨f1, m1, he⟩ | ⟨m1, he⟩
    · rw [Spec.replay_cons_fault _ _ _ _ _ _ he] at hd
      simp only [List.cons.injEq, true_and] at hd
      exact absurd hd.symm (List.append_ne_nil_of_right_ne_nil _ (List.cons_ne_nil _ _))
    · rw [Spec.replay_cons_ok _ _ _ _ _ he] at hd ⊢
      simp only [List.cons.injEq, true_and] at hd
      rw [Spec.replay_cons_ok _ _ _ _ _ he]
      exact ih _ m1 e post hd rfl

/-- A record that replays in full to a fault ends with the instruction that
raised it. -/
theorem Spec.replay_fault_source : ∀ (d : List (Nat × Instruction)) (m : Machine) (f : Fault),
    (Spec.replay d m).2.2 = d → (Spec.replay d m).1 = .error f →
    ∃ pre e, d = pre ++ [e] ∧ (Spec.replay pre m).1 = .ok () ∧
      (e.2.execute (Spec.replay pre m).2.1).1 = .error f := by
  intro d
  induction d with
  | nil => intro m f _ h; cases h
  | cons a d ih =>
    intro m f hd hf
    obtain ⟨p, i⟩ := a
    rcases execute_cases i m with ⟨f1, m1, he⟩ | ⟨m1, he⟩
    · rw [Spec.replay_cons_fault _ _ _ _ _ _ he] at hd hf
      simp only [List.cons.injEq, true_and] at hd
      cases hf
      refine ⟨[], (p, i), by rw [← hd]; rfl, rfl, ?_⟩
      show (i.execute m).1 = _
      rw [he]
    · rw [Spec.replay_cons_ok _ _ _ _ _ he] at hd hf
      simp only [List.cons.injEq, true_and] at hd
      obtain ⟨pre, e, h1, h2, h3⟩ := ih m1 f hd hf
      refine ⟨(p, i) :: pre, e, by rw [h1]; rfl, ?_, ?_⟩
      · rw [Spec.replay_cons_ok _ _ _ _ _ he]; exact h2
      · rw [Spec.replay_cons_ok _ _ _ _ _ he]; exact h3

/-! ## The privilege check, the exits of `awaken`, compilation faults -/

theorem System.makeProcesses_fault : ∀ (pre : List (List Char)) (list : List Process)
    (code : List Char) (post : List (List Char)) (f : Fault),
    System.makeProcesses pre = .ok list → compile code = .error f →
    System.makeProcesses (pre ++ code :: post) = .error f := by
  intro pre
  induction pre with
  | nil =>
    intro list code post f _ hcode
    simp only [List.nil_append, System.makeProcesses, hcode]
  | cons c pre ih =>
    intro list code post f hpre hcode
    simp only [System.makeProcesses] at hpre
    cases hc : compile c with
    | error g => rw [hc] at hpre; cases hpre
    | ok text =>
      rw [hc] at hpre
      simp only [] at hpre
      cases hm : System.makeProcesses pre with
      | error g => rw [hm] at hpre; cases hpre
      | ok rest =>
        simp only [List.cons_append, System.makeProcesses, hc, List.append_eq,
          ih rest code post f hm hcode]

/-- C22: when a text of the list fails to compile, the texts before it
compiling, `executePrograms` raises the fault of that text, whatever the bound
on the loop, and leaves the system as it found it: nothing is executed or
written, and the registers, the RAM, the scheduler and the CPU, with its job,
timer and handler, are unchanged. -/
theorem compile_fault_aborts (s : System) (fuel : Nat) (pre : List (List Char))
    (list : List Process) (code : List Char) (post : List (List Char)) (f : Fault)
    (hpre : System.makeProcesses pre = .ok list) (hcode : compile code = .error f) :
    s.executePrograms fuel (pre ++ code :: post) = some (.error f, s) ∧
    (∀ t, s.executePrograms fuel (pre ++ code :: post) = some (.error f, t) →
      t.executed = s.executed ∧ t.out = s.out ∧ t.cpu.registers = s.cpu.registers ∧
      t.ram = s.ram ∧ t.scheduler.active = s.scheduler.active ∧ t.cpu.job = s.cpu.job ∧
      t.cpu.timer = s.cpu.timer ∧ t.cpu.timer_active = s.cpu.timer_active ∧
      t.cpu.interrupt_handler = s.cpu.interrupt_handler) := by
  have h : s.executePrograms fuel (pre ++ code :: post) = some (.error f, s) := by
    unfold System.executePrograms
    rw [System.makeProcesses_fault pre list code post f hpre hcode]
  refine ⟨h, fun t ht => ?_⟩
  rw [h] at ht
  simp only [Option.some.injEq, Prod.mk.injEq, true_and] at ht
  subst ht
  exact ⟨rfl, rfl, rfl, rfl, rfl, rfl, rfl, rfl, rfl⟩

theorem compile_fault_aborts_witness :
    (System.fresh 2 1 (.rr 1)).executePrograms 0
        (["SET R1 1".toList] ++ "JMP R1".toList :: ["PRINTLN R9".toList, "FOO".toList])
      = some (.error (.unknownInstruction "JMP".toList), System.fresh 2 1 (.rr 1)) :=
  (compile_fault_aborts (System.fresh 2 1 (.rr 1)) 0 ["SET R1 1".toList]
    [Process.new [.set 1 1]] "JMP R1".toList
    ["PRINTLN R9".toList, "FOO".toList] (.unknownInstruction "JMP".toList)
    (by decide) (by decide)).1

/-- C23: at user level `setJob`, `sleep`, `setInterruptHandler`, `setTimer` and
`disableTimer` raise the protection fault and leave the CPU as it is; at
supervisor level none of them raises and each changes its own fields only: the
job, the running flag, the handler, the timer with its active flag, the active
flag of the timer. -/
theorem privilege_check (c : CPU) (process : Option Nat) (handler : Bool) (left : Int) :
    (c.current_level = .RING3 →
      c.setJob process = (.error .generalProtectionFault, c) ∧
      c.sleep = (.error .generalProtectionFault, c) ∧
      c.setInterruptHandler handler = (.error .generalProtectionFault, c) ∧
      c.setTimer left = (.error .generalProtectionFault, c) ∧
      c.disableTimer = (.error .generalProtectionFault, c)) ∧
    (c.current_level = .RING0 →
      c.setJob process = (.ok (), { c with job := process }) ∧
      c.sleep = (.ok (), { c with awake := false }) ∧
      c.setInterruptHandler handler = (.ok (), { c with interrupt_handler := handler }) ∧
      c.setTimer left = (.ok (), { c with timer_active := true, timer := left }) ∧
      c.disableTimer = (.ok (), { c with timer_active := false })) := by
  constructor
  · intro h
    simp [CPU.setJob, CPU.sleep, CPU.setInterruptHandler, CPU.setTimer, CPU.disableTimer,
      CPU.requireLevel, h, ProtectionLevel.toNat]
  · intro h
    simp [CPU.setJob, CPU.sleep, CPU.setInterruptHandler, CPU.setTimer, CPU.disableTimer,
      CPU.requireLevel, h, ProtectionLevel.toNat]

theorem privilege_check_witness :
    (({ (System.fresh 2 1 .fcfs).cpu with current_level := .RING3 } : CPU).setTimer 5
      = (.error .generalProtectionFault,
          { (System.fresh 2 1 .fcfs).cpu with current_level := .RING3 })) ∧
    ((System.fresh 2 1 .fcfs).cpu.setTimer 5
      = (.ok (), { (System.fresh 2 1 .fcfs).cpu with timer_active := true, timer := 5 })) :=
  ⟨((privilege_check { (System.fresh 2 1 .fcfs).cpu with current_level := .RING3 }
      none false 5).1 rfl).2.2.2.1,
   ((privilege_check (System.fresh 2 1 .fcfs).cpu none false 5).2 rfl).2.2.2.1⟩

/-- C24: when `awaken`, called at supervisor level, exits, by its return or by a
fault of an instruction or of the handler, the CPU is not running, is at
supervisor level, and its timer is not active. -/
theorem awaken_restores (s : System) (hl : s.cpu.current_level = .RING0) (fuel : Nat)
    (r : Except Fault Unit) (t : System) (h : s.awaken fuel = some (r, t)) :
    t.cpu.awake = false ∧ t.cpu.current_level = .RING0 ∧ t.cpu.timer_active = false := by
  rw [System.awaken_eq fuel s hl] at h
  rcases hloop : System.awakenLoop fuel { s with cpu := { s.cpu with awake := true } }
    with _ | ⟨r1, t1⟩
  · rw [hloop] at h
    cases h
  · rw [hloop] at h
    simp only [Option.some.injEq, Prod.mk.injEq] at h
    obtain ⟨_, rfl⟩ := h
    exact ⟨rfl, rfl, rfl⟩

theorem awaken_restores_witness :
    (System.fresh 2 1 .fcfs).awaken 5
      = some (.error .badFunctionCall, System.fresh 2 1 .fcfs) ∧
    (System.awaken 5 { System.fresh 2 1 .fcfs with
        cpu := { (System.fresh 2 1 .fcfs).cpu with
          job := some 0, timer_active := true, timer := 7, interrupt_handler := true },
        processes := [Process.new [.div 1 2]] }).map (fun x => x.1)
      = some (.error .divisionByZero) ∧
    (System.awaken 5 { System.fresh 2 1 .fcfs with
        cpu := { (System.fresh 2 1 .fcfs).cpu with
          job := some 0, timer_active := true, timer := 1, interrupt_handler := true },
        processes := [Process.new [.println 1]] }).map (fun x => x.1)
      = some (.ok ()) ∧
    (∀ r t, System.awaken 5 { System.fresh 2 1 .fcfs with
        cpu := { (System.fresh 2 1 .fcfs).cpu with
          job := some 0, timer_active := true, timer := 7, interrupt_handler := true },
        processes := [Process.new [.div 1 2]] } = some (r, t) →
      t.cpu.awake = false ∧ t.cpu.current_level = .RING0 ∧ t.cpu.timer_active = false) :=
  ⟨by decide, by decide, by decide, fun r t h => awaken_restores _ rfl 5 r t h⟩

/-! ## Every run ends -/

/-- What the handler `schedule` does when `current` is on the process `r`
between `pre` and `post`, whatever the strategy: either the active list is empty
and the CPU sleeps, or a job is taken up; nothing is added to the load. -/
theorem System.scheduled_wired (s : System) (hpv : pointersValid s.processes)
    (hnd : s.scheduler.active.Nodup) (hpid : ∀ p ∈ s.scheduler.active, p < s.processes.length)
    (pre post : List Nat) (r : Nat)
    (hact : s.scheduler.active = pre ++ r :: post) (hcur : s.scheduler.current = pre.length) :
    s.scheduled.processes = s.processes ∧ s.scheduled.executed = s.executed ∧
    s.scheduled.machine = s.machine ∧
    s.scheduled.cpu.interrupt_handler = s.cpu.interrupt_handler ∧
    s.scheduled.scheduler.strategy = s.scheduler.strategy ∧
    ((s.scheduled.scheduler.active = [] ∧ s.scheduled.cpu.awake = false) ∨
     (s.scheduled.scheduler.active.Nodup ∧
        (∀ p ∈ s.scheduled.scheduler.active, p < s.processes.length) ∧
        s.scheduled.cpu.awake = s.cpu.awake ∧
        s.scheduled.scheduler.current < s.scheduled.scheduler.active.length ∧
        s.scheduled.cpu.job =
          s.scheduled.scheduler.active[s.scheduled.scheduler.current]? ∧
        s.scheduled.load ≤ s.load ∧
        (exhausted s.processes r = true → s.scheduled.load < s.load))) := by
  have hle : s.scheduler.current ≤ s.scheduler.active.length := by
    rw [hcur, hact]; simp
  obtain ⟨hst, hsub, hq, hload⟩ :=
    Scheduler.schedule_spec s.processes hpv s.scheduler pre post r hact hcur
  obtain ⟨_, hvalid, hzero⟩ := Scheduler.schedule_shape s.processes s.scheduler hle
  by_cases h0 : (s.scheduler.schedule s.processes).2.active = []
  · rw [System.scheduled_sleep s hle h0]
    exact ⟨rfl, rfl, rfl, rfl, hst, Or.inl ⟨h0, rfl⟩⟩
  · obtain ⟨p, hp, heq⟩ := System.scheduled_job s hle h0
    rw [heq]
    exact ⟨rfl, rfl, rfl, rfl, hst, Or.inr ⟨hsub.nodup hnd, fun x hx => hpid x (hsub.subset hx),
      rfl, hvalid h0, hp.symm, load_sublist s.processes _ _ hsub, hload⟩⟩

/-- What an interrupt with an installed handler leaves (see
`System.scheduled_wired`): the loop ends in the state it leaves, or a job is
taken up with no more load. -/
theorem System.interrupted_wired (s : System) (hpv : pointersValid s.processes)
    (hnd : s.scheduler.active.Nodup) (hpid : ∀ p ∈ s.scheduler.active, p < s.processes.length)
    (haw : s.cpu.awake = true) (hh : s.cpu.interrupt_handler = true)
    (pre post : List Nat) (r : Nat)
    (hact : s.scheduler.active = pre ++ r :: post) (hcur : s.scheduler.current = pre.length) :
    s.interrupted.machine = s.machine ∧
    (s.interrupted.runs (.ok (), s.machine, []) ∨
     (s.interrupted.wired ∧ s.interrupted.load ≤ s.load ∧
        (exhausted s.processes r = true → s.interrupted.load < s.load))) := by
  obtain ⟨f1, f2, f3, f4, f5, hcase⟩ := System.scheduled_wired
    { s with cpu := { s.cpu with current_level := .RING0 } } hpv hnd hpid pre post r hact hcur
  refine ⟨f3, ?_⟩
  rcases hcase with ⟨e1, e2⟩ | ⟨g1, g2, g3, g4, g5, g6, g7⟩
  · left
    have := System.runs_asleep s.interrupted e2 e1
    rw [(System.interrupted_frame s).2.2.1] at this
    exact this
  · right
    refine ⟨⟨?_, g1, ?_, ?_, ?_, g4, g5⟩, g6, g7⟩
    · rw [(System.interrupted_frame s).1]; exact hpv
    · rw [(System.interrupted_frame s).1]; exact g2
    · exact g3.trans haw
    · exact f4.trans hh

theorem System.timerTick_cases (u : System) (hh : u.cpu.interrupt_handler = true) :
    ∃ v : System, (u.timerTick = (.ok (), v) ∨ u.timerTick = (.ok (), v.interrupted)) ∧
      v.scheduler = u.scheduler ∧ v.processes = u.processes ∧ v.executed = u.executed ∧
      v.machine = u.machine ∧ v.cpu.awake = u.cpu.awake ∧
      v.cpu.interrupt_handler = u.cpu.interrupt_handler ∧ v.cpu.job = u.cpu.job := by
  unfold System.timerTick
  by_cases ha : u.cpu.timer_active = true
  · rw [if_pos ha]
    simp only []
    by_cases h0 : wrap32 (u.cpu.timer - 1) = 0
    · rw [if_pos h0]
      refine ⟨_, Or.inr (System.interrupt_eq _ hh), rfl, rfl, rfl, rfl, rfl, rfl, rfl⟩
    · rw [if_neg h0]
      exact ⟨_, Or.inl rfl, rfl, rfl, rfl, rfl, rfl, rfl, rfl⟩
  · rw [if_neg ha]
    exact ⟨u, Or.inl rfl, rfl, rfl, rfl, rfl, rfl, rfl, rfl⟩

theorem leftAt_set_self (processes : List Process) (r : Nat) (pr : Process)
    (hpr : processes[r]? = some pr) :
    leftAt (processes.set r pr.next.2) r = (leftAt processes r).drop 1 := by
  have hrl : r < processes.length := by
    rcases Nat.lt_or_ge r processes.length with h | h
    · exact h
    · rw [List.getElem?_eq_none h] at hpr; cases hpr
  simp only [leftAt, List.getElem?_set_self hrl, hpr, Process.next, List.drop_drop]

theorem leftAt_set_other (processes : List Process) (r p : Nat) (q : Process) (hp : p ≠ r) :
    leftAt (processes.set r q) p = leftAt processes p := by
  simp only [leftAt, List.getElem?_set_ne (Ne.symm hp)]

/-- An instruction executed takes one from the load. -/
theorem load_step (processes : List Process) (active : List Nat) (r : Nat) (pr : Process)
    (hr : r ∈ active) (hpr : processes[r]? = some pr)
    (hlt : pr.instruction_pointer < pr.text.length) :
    (active.map (fun p => (leftAt (processes.set r pr.next.2) p).length + 1)).sum
      < (active.map (fun p => (leftAt processes p).length + 1)).sum := by
  have hlen : (leftAt processes r).length = pr.text.length - pr.instruction_pointer := by
    simp only [leftAt, hpr, List.length_drop]
  apply List.sum_lt_sum
  · intro p _
    by_cases hp : p = r
    · subst hp
      rw [leftAt_set_self processes p pr hpr, List.length_drop]
      omega
    · rw [leftAt_set_other processes r p _ hp]
  · refine ⟨r, hr, ?_⟩
    rw [leftAt_set_self processes r pr hpr, List.length_drop, hlen]
    omega

theorem pointersValid_step (processes : List Process) (hpv : pointersValid processes)
    (r : Nat) (pr : Process) (hpr : processes[r]? = some pr)
    (hlt : pr.instruction_pointer < pr.text.length) :
    pointersValid (processes.set r pr.next.2) := by
  intro p q hq
  by_cases hp : p = r
  · subst hp
    have hrl : p < processes.length := by
      rcases Nat.lt_or_ge p processes.length with h | h
      · exact h
      · rw [List.getElem?_eq_none h] at hpr; cases hpr
    rw [List.getElem?_set_self hrl] at hq
    cases hq
    exact hlt
  · rw [List.getElem?_set_ne (Ne.symm hp)] at hq
    exact hpv p q hq

/-- A pass of the loop that executes an instruction without a fault, whatever
the timer does: the loop ends in the state the pass leaves, or that state has a
job taken up and less load. -/
theorem System.wired_step (s : System) (hw : s.wired) (r : Nat) (pr : Process)
    (hjob : s.cpu.job = some r) (hmem : r ∈ s.scheduler.active)
    (hpr : s.processes[r]? = some pr) (hlt : pr.instruction_pointer < pr.text.length)
    (m1 : Machine)
    (he : (pr.text.get ⟨pr.instruction_pointer, hlt⟩).execute s.machine = (.ok (), m1)) :
    ∃ v : System, s.awakenBody = some (.ok (), v) ∧
      v.executed = s.executed ++ [(r, pr.text.get ⟨pr.instruction_pointer, hlt⟩)] ∧
      v.machine = m1 ∧ v.processes.length = s.processes.length ∧
      v.scheduler.strategy = s.scheduler.strategy ∧
      (v.runs (.ok (), v.machine, []) ∨ (v.wired ∧ v.load < s.load)) := by
  obtain ⟨hpv, hnd, hpid, haw, hh, hcur, hj⟩ := hw
  have hbody := System.awakenBody_live s r pr hjob hpr hlt
  rw [he] at hbody
  simp only [] at hbody
  obtain ⟨e1, e2, e3, e4, e5, e6, e7, e8, e9, e10⟩ :=
    System.stepped_facts s r pr (pr.text.get ⟨pr.instruction_pointer, hlt⟩) m1
  obtain ⟨v, hv, v1, v2, v3, v4, v5, v6, v7⟩ := System.timerTick_cases
    (s.stepped r pr (pr.text.get ⟨pr.instruction_pointer, hlt⟩) m1) (e3.trans hh)
  have hpv2 : pointersValid v.processes := by
    rw [v2, e10]; exact pointersValid_step s.processes hpv r pr hpr hlt
  have hlen : v.processes.length = s.processes.length := by
    rw [v2, e10, List.length_set]
  have hnd2 : v.scheduler.active.Nodup := by rw [v1, e1]; exact hnd
  have hpid2 : ∀ p ∈ v.scheduler.active, p < v.processes.length := by
    rw [v1, e1, hlen]; exact hpid
  have hload : v.load < s.load := by
    unfold System.load
    rw [v1, e1, v2, e10]
    exact load_step s.processes s.scheduler.active r pr hmem hpr hlt
  have hwv : v.wired := ⟨hpv2, hnd2, hpid2, by rw [v5, e2, haw], by rw [v6, e3, hh],
    by rw [v1, e1]; exact hcur, by rw [v7, e4, v1, e1]; exact hj⟩
  rcases hv with hv | hv
  · rw [hv] at hbody
    exact ⟨v, hbody, by rw [v3, e9], by rw [v4, e8], hlen, by rw [v1, e1], Or.inr ⟨hwv, hload⟩⟩
  · rw [hv] at hbody
    obtain ⟨pre, r2, post, hact, hc, _⟩ := split_at _ _ hwv.2.2.2.2.2.1
    obtain ⟨f1, hcase⟩ := System.interrupted_wired v hpv2 hnd2 hpid2 hwv.2.2.2.1
      hwv.2.2.2.2.1 pre post r2 hact hc
    obtain ⟨i1, i2, i3, i4⟩ := System.interrupted_frame v
    refine ⟨v.interrupted, hbody, by rw [i2, v3, e9], by rw [i3, v4, e8], by rw [i1, hlen],
      by rw [i4, v1, e1], ?_⟩
    rcases hcase with h | ⟨h1, h2, _⟩
    · left
      rw [f1]
      exact h
    · right
      exact ⟨h1, by omega⟩

theorem Spec.replay_nil (m : Machine) : Spec.replay [] m = (.ok (), m, []) := rfl

/-- From a state at the head of the loop with a job, whatever the strategy and
the timer, the loop of `awaken` ends. -/
theorem System.wired_halts : ∀ (N : Nat) (s : System), s.load ≤ N → s.wired → s.halts := by
  intro N
  induction N with
  | zero =>
    intro s hload hw
    exfalso
    obtain ⟨pre, r, post, hact, _, _⟩ := split_at _ _ hw.2.2.2.2.2.1
    unfold System.load at hload
    rw [hact] at hload
    simp only [List.map_append, List.map_cons, List.sum_append, List.sum_cons] at hload
    omega
  | succ N ih =>
    intro s hload hw
    obtain ⟨hpv, hnd, hpid, haw, hh, hcur, hjob⟩ := hw
    have hw : s.wired := ⟨hpv, hnd, hpid, haw, hh, hcur, hjob⟩
    obtain ⟨pre, r, post, hact, hc, hget⟩ := split_at _ _ hcur
    rw [hget] at hjob
    have hmem : r ∈ s.scheduler.active := by rw [hact]; simp
    have hrl : r < s.processes.length := hpid r hmem
    obtain ⟨pr, hpr⟩ : ∃ pr, s.processes[r]? = some pr := ⟨_, List.getElem?_eq_getElem hrl⟩
    have hple := hpv r pr hpr
    by_cases hex : exhausted s.processes r = true
    · have hn : pr.hasNext = false := by
        simpa [exhausted, hasNextAt, hpr] using hex
      have hbody := System.awakenBody_exhausted s r pr hh hjob hpr hn
      obtain ⟨f1, hcase⟩ := System.interrupted_wired s hpv hnd hpid haw hh pre post r hact hc
      rcases hcase with h | ⟨h1, _, h3⟩
      · exact ⟨[], rfl, System.runs_interrupt s _ haw hbody h⟩
      · obtain ⟨d, hd, hruns⟩ := ih s.interrupted (by have := h3 hex; omega) h1
        rw [f1] at hd hruns
        exact ⟨d, hd, System.runs_interrupt s _ haw hbody hruns⟩
    · have hlt : pr.instruction_pointer < pr.text.length := by
        have : pr.hasNext = true := by
          simpa [exhausted, hasNextAt, hpr] using hex
        simp only [Process.hasNext, decide_eq_true_eq] at this
        omega
      rcases execute_cases (pr.text.get ⟨pr.instruction_pointer, hlt⟩) s.machine with
        ⟨f, m1, he⟩ | ⟨m1, he⟩
      · refine ⟨[(r, pr.text.get ⟨pr.instruction_pointer, hlt⟩)], ?_, ?_⟩
        · rw [Spec.replay_cons_fault _ _ _ _ _ _ he]
        · rw [Spec.replay_cons_fault _ _ _ _ _ _ he]
          exact System.step_fault s r pr m1 f haw hjob hpr hlt he
      · obtain ⟨v, hb, v1, v2, v3, v4, hcase⟩ :=
          System.wired_step s hw r pr hjob hmem hpr hlt m1 he
        have hvh : v.halts := by
          rcases hcase with h | ⟨h1, h2⟩
          · exact ⟨[], rfl, h⟩
          · exact ih v (by omega) h1
        obtain ⟨d, hd, hruns⟩ := hvh
        rw [v2] at hd hruns
        refine ⟨(r, pr.text.get ⟨pr.instruction_pointer, hlt⟩) :: d, ?_, ?_⟩
        · rw [Spec.replay_cons_ok _ _ _ _ _ he, hd]
        · rw [Spec.replay_cons_ok _ _ _ _ _ he]
          exact System.runs_body_ok s v [_] _ haw hb v1 v3 v4 hruns

theorem System.loaded_fit (s : System) (list : List Process)
    (hpv : pointersValid s.processes)
    (hlist : ∀ q ∈ list, q.instruction_pointer ≤ q.text.length) :
    pointersValid (s.loaded list).processes ∧ (s.loaded list).scheduler.active.Nodup ∧
    ∀ p ∈ (s.loaded list).scheduler.active, p < (s.loaded list).processes.length := by
  have hperm := strategyOrder_perm (s.processes ++ list) s.scheduler.strategy
    ((List.range list.length).map (fun i => s.processes.length + i))
  refine ⟨?_, ?_, ?_⟩
  · intro p q hq
    change (s.processes ++ list)[p]? = some q at hq
    rcases Nat.lt_or_ge p s.processes.length with h | h
    · rw [List.getElem?_append_left h] at hq
      exact hpv p q hq
    · rw [List.getElem?_append_right h] at hq
      exact hlist q (List.getElem?_mem hq)
  · rw [System.loaded_scheduler]
    apply hperm.nodup_iff.2
    apply List.Nodup.map
    · intro a b h
      simp only at h
      omega
    · exact List.nodup_range _
  · rw [System.loaded_scheduler]
    intro p hp
    have := hperm.mem_iff.1 hp
    simp only [List.mem_map, List.mem_range] at this
    obtain ⟨i, hi, rfl⟩ := this
    change _ < (s.processes ++ list).length
    rw [List.length_append]
    omega

/-- The loop of `awaken` in `executePrograms` ends, whatever the strategy, when
the job the CPU holds at the call, if any, has no instruction left. -/
theorem System.started_halts (s : System) (hpv : pointersValid s.processes)
    (hjob : ∀ r, s.cpu.job = some r → ∃ pr, s.processes[r]? = some pr ∧ pr.hasNext = false)
    (list : List Process) (hlist : ∀ q ∈ list, q.instruction_pointer ≤ q.text.length) :
    (s.started list).halts := by
  obtain ⟨hpv2, hnd2, hpid2⟩ := System.loaded_fit s list hpv hlist
  have hsch := System.loaded_scheduler s list
  generalize horder : strategyOrder (s.processes ++ list) s.scheduler.strategy
    ((List.range list.length).map (fun i => s.processes.length + i)) = order at hsch
  have hact0 : (s.loaded list).scheduler.active = order := by rw [hsch]
  have hcur0 : (s.loaded list).scheduler.current = order.length - 1 := by rw [hsch]
  have hcur : (s.loaded list).scheduler.current ≤ (s.loaded list).scheduler.active.length := by
    rw [hact0, hcur0]; omega
  obtain ⟨hshape, hvalid, hzero⟩ :=
    Scheduler.schedule_shape (s.loaded list).processes (s.loaded list).scheduler hcur
  have hframe : (s.loaded list).scheduled.processes = s.processes ++ list ∧
      (s.loaded list).scheduled.cpu.interrupt_handler = true := by
    unfold System.scheduled
    split <;> exact ⟨rfl, rfl⟩
  obtain ⟨f1, f4⟩ := hframe
  by_cases h0 : ((s.loaded list).scheduler.schedule (s.loaded list).processes).2.active = []
  · have hsl := System.scheduled_sleep (s.loaded list) hcur h0
    have := System.runs_empty (s.started list) rfl f4
      (by show (s.loaded list).scheduled.scheduler.active = []
          rw [System.scheduled_scheduler, h0])
      (by show (s.loaded list).scheduled.scheduler.current = 0
          rw [System.scheduled_scheduler]; exact hzero h0)
      (by
        intro r hr
        have hr2 : s.cpu.job = some r := by
          have : (s.loaded list).scheduled.cpu.job = some r := hr
          rw [hsl] at this
          exact this
        obtain ⟨pr, hpr, hn⟩ := hjob r hr2
        refine ⟨pr, ?_, hn⟩
        show (s.loaded list).scheduled.processes[r]? = some pr
        rw [f1]
        have hrl : r < s.processes.length := by
          rcases Nat.lt_or_ge r s.processes.length with h | h
          · exact h
          · rw [List.getElem?_eq_none h] at hpr; cases hpr
        rw [List.getElem?_append_left hrl]
        exact hpr)
    exact ⟨[], rfl, this⟩
  · have ho : order ≠ [] := by
      intro ho
      apply h0
      rw [Scheduler.schedule_end _ _ (by rw [hact0, hcur0, ho]; rfl)]
      rw [hact0, ho]
    obtain ⟨pre, r, hsplit, hlen⟩ := split_last order ho
    obtain ⟨_, _, _, _, _, hcase⟩ := System.scheduled_wired (s.loaded list) hpv2 hnd2 hpid2
      pre [] r (by rw [hact0, hsplit]) (by rw [hcur0, hlen])
    rcases hcase with ⟨e1, _⟩ | ⟨g1, g2, _, g4, g5, _⟩
    · rw [System.scheduled_scheduler] at e1
      exact absurd e1 h0
    · have hw : (s.started list).wired :=
        ⟨by show pointersValid (s.loaded list).scheduled.processes
            rw [f1]; exact hpv2,
         g1,
         by show ∀ p ∈ (s.loaded list).scheduled.scheduler.active,
              p < (s.loaded list).scheduled.processes.length
            rw [f1]; exact g2,
         rfl, f4, g4, g5⟩
      exact System.wired_halts _ _ (Nat.le_refl _) hw

/-- A run of `executePrograms` whose programs compile ends, whatever the
strategy and its quantum, given enough passes of the loop: what it executed,
replayed on the machine it started on, gives its outcome and the machine it
leaves; the CPU is left halted, and without a fault the active list is left
empty and the handler removed. -/
theorem System.executePrograms_halts (s : System) (hl : s.cpu.current_level = .RING0)
    (hpv : pointersValid s.processes)
    (hjob : ∀ r, s.cpu.job = some r → ∃ pr, s.processes[r]? = some pr ∧ pr.hasNext = false)
    (programs : List (List Char)) (list : List Process)
    (hmk : System.makeProcesses programs = .ok list) :
    ∃ fuel0, ∀ fuel, fuel0 ≤ fuel → ∃ x t d,
      s.executePrograms fuel programs = some (x, t) ∧
      t.executed = s.executed ++ d ∧ Spec.replay d s.machine = (x, t.machine, d) ∧
      t.cpu.awake = false ∧ t.cpu.current_level = .RING0 ∧ t.cpu.timer_active = false ∧
      (x = .ok () → t.scheduler.active = [] ∧ t.cpu.interrupt_handler = false) := by
  obtain ⟨d, hd, fuel0, u, hloop, hex, hm, _, _, hok⟩ :=
    System.started_halts s hpv hjob list (System.makeProcesses_pointers programs list hmk)
  have hms : (s.started list).machine = s.machine := by
    show (s.loaded list).scheduled.machine = _
    unfold System.scheduled
    split <;> rfl
  have hexs : (s.started list).executed = s.executed := by
    show (s.loaded list).scheduled.executed = _
    unfold System.scheduled
    split <;> rfl
  rw [hms] at hd hloop hex hm hok
  rw [hexs, hd] at hex
  have hrep : Spec.replay d s.machine = ((Spec.replay d s.machine).1, u.machine, d) := by
    rw [hm]
    exact Prod.ext rfl (Prod.ext rfl hd)
  refine ⟨fuel0, fun fuel hfuel => ?_⟩
  have hloop2 : System.awakenLoop fuel (s.started list)
      = some ((Spec.replay d s.machine).1, u) := by
    have := System.awakenLoop_mono fuel0 (s.started list) _ (fuel - fuel0) hloop
    rw [show fuel0 + (fuel - fuel0) = fuel by omega] at this
    exact this
  rw [System.executePrograms_eq fuel s hl programs list hmk, hloop2]
  rcases hx : (Spec.replay d s.machine).1 with f | v
  · rw [hx] at hrep
    exact ⟨_, _, d, rfl, hex, hrep, rfl, rfl, rfl, fun h => by cases h⟩
  · rw [hx] at hrep
    exact ⟨_, _, d, rfl, hex, hrep, rfl, rfl, rfl, fun _ => ⟨(hok hx).1, rfl⟩⟩

/-- C21: on a freshly installed OS, under every strategy, round-robin with
whatever quantum included, a run of `executePrograms` whose programs compile
ends; the output and the machine it leaves are those of the instructions it
executed, the CPU is left halted, and when no instruction faulted the active
list is left empty and the handler removed, so that nothing runs or writes any
more. The single program `SET R1 3 / PRINTLN R1` under FCFS returns with the
output `3` and the active list empty. -/
theorem clean_halt (register_count size : Nat) (strategy : Strategy)
    (programs : List (List Char)) (list : List Process)
    (hmk : System.makeProcesses programs = .ok list) :
    (∃ fuel0, ∀ fuel, fuel0 ≤ fuel → ∃ x t,
      (System.fresh register_count size strategy).executePrograms fuel programs
        = some (x, t) ∧
      Spec.replay t.executed (System.fresh register_count size strategy).machine
        = (x, t.machine, t.executed) ∧
      t.cpu.awake = false ∧ t.cpu.timer_active = false ∧
      (x = .ok () → t.scheduler.active = [] ∧ t.cpu.interrupt_handler = false)) ∧
    (∃ fuel0, ∀ fuel, fuel0 ≤ fuel → ∃ t,
      (System.fresh 1 1 .fcfs).executePrograms fuel ["SET R1 3\nPRINTLN R1".toList]
        = some (.ok (), t) ∧
      t.out = [3] ∧ t.scheduler.active = []) := by
  constructor
  · obtain ⟨fuel0, h⟩ := System.executePrograms_halts
      (System.fresh register_count size strategy) rfl
      (fun p q h => by simp [System.fresh] at h) (fun r h => by cases h) programs list hmk
    refine ⟨fuel0, fun fuel hfuel => ?_⟩
    obtain ⟨x, t, d, h1, h2, h3, h4, _, h6, h7⟩ := h fuel hfuel
    have h2b : t.executed = d := by rw [h2]; rfl
    rw [← h2b] at h3
    exact ⟨x, t, h1, h3, h4, h6, h7⟩
  · have hrep : Spec.replay ((System.fresh 1 1 .fcfs).expected
          [Process.new [.set 1 3, .println 1]]) (System.fresh 1 1 .fcfs).machine
        = (.ok (), { regs := { mem := [3] }, ram := { mem := [0] }, out := [3] },
            [(0, .set 1 3), (0, .println 1)]) := by
      decide
    obtain ⟨fuel0, h⟩ := System.executePrograms_spec (System.fresh 1 1 .fcfs)
      (System.fresh_idle 1 1 .fcfs trivial) ["SET R1 3\nPRINTLN R1".toList]
      [Process.new [.set 1 3, .println 1]] (by decide)
    refine ⟨fuel0, fun fuel hfuel => ?_⟩
    obtain ⟨t, h1, _, h3, _, _, _, _, _, h9⟩ := h fuel hfuel
    rw [hrep] at h1 h3 h9
    refine ⟨t, h1, ?_, (h9 rfl).1⟩
    have : t.out = t.machine.out := rfl
    rw [this, h3]

theorem clean_halt_witness :
    ((System.fresh 2 1 (.rr (-3))).executePrograms 20
        ["SET R1 1\nPRINTLN R1\nSET R2 2\nPRINTLN R2".toList, "PRINTLN R1".toList]).map
      (fun r => (r.1, r.2.out, r.2.scheduler.active))
      = some (.ok (), [1, 2, 1], []) ∧
    ((∃ fuel0, ∀ fuel, fuel0 ≤ fuel → ∃ x t,
      (System.fresh 2 1 (.rr (-3))).executePrograms fuel
          ["SET R1 1\nPRINTLN R1\nSET R2 2\nPRINTLN R2".toList, "PRINTLN R1".toList]
        = some (x, t) ∧
      Spec.replay t.executed (System.fresh 2 1 (.rr (-3))).machine
        = (x, t.machine, t.executed) ∧
      t.cpu.awake = false ∧ t.cpu.timer_active = false ∧
      (x = .ok () → t.scheduler.active = [] ∧ t.cpu.interrupt_handler = false)) ∧
    (∃ fuel0, ∀ fuel, fuel0 ≤ fuel → ∃ t,
      (System.fresh 1 1 .fcfs).executePrograms fuel ["SET R1 3\nPRINTLN R1".toList]
        = some (.ok (), t) ∧
      t.out = [3] ∧ t.scheduler.active = [])) :=
  ⟨by decide,
   clean_halt 2 1 (.rr (-3))
    ["SET R1 1\nPRINTLN R1\nSET R2 2\nPRINTLN R2".toList, "PRINTLN R1".toList]
    [Process.new [.set 1 1, .println 1, .set 2 2, .println 2], Process.new [.println 1]]
    (by decide)⟩

/-! ## The computer -/

theorem Memory.new_ok (n : Int) (h : 0 < n) :
    Memory.new n = .ok { mem := List.replicate n.toNat 0 } := by
  unfold Memory.new
  rw [if_neg (by omega)]

theorem Memory.new_fault (n : Int) (h : n ≤ 0) :
    Memory.new n = .error (.illegalArgument "Negative size provided") := by
  unfold Memory.new
  rw [if_pos h]

theorem Memory.clear_eq (m : Memory) : m.clear = { mem := List.replicate m.mem.length 0 } := by
  unfold Memory.clear
  congr 1
  induction m.mem with
  | nil => rfl
  | cons a l ih => simp [List.replicate_succ, ih]

/-- C25: `installOS` raises `NoRAMException` when the computer has no RAM, with
or without a CPU, raises `NoCPUException` when it has a RAM and no CPU, and
succeeds when it has both; when it raises, the objects and the computer are as
before, and the computer is not locked. -/
theorem installOS_preconditions (w : World) (c : Computer) (alg : Nat) :
    (c.ram = none → Computer.installOS w c alg = (.error .noRAM, w, c)) ∧
    (c.ram ≠ none → c.cpu = none → Computer.installOS w c alg = (.error .noCPU, w, c)) ∧
    (c.ram ≠ none → c.cpu ≠ none →
      ∃ os w1 c1, Computer.installOS w c alg = (.ok os, w1, c1)) ∧
    (∀ f w1 c1, Computer.installOS w c alg = (.error f, w1, c1) →
      w1 = w ∧ c1 = c ∧ (w.holds c → c1.changes_disabled = false)) := by
  refine ⟨fun h => ?_, fun h1 h2 => ?_, fun h1 h2 => ?_, fun f w1 c1 h => ?_⟩
  · simp only [Computer.installOS, h]
  · obtain ⟨r, hr⟩ := Option.ne_none_iff_exists'.1 h1
    simp only [Computer.installOS, hr, h2]
  · obtain ⟨r, hr⟩ := Option.ne_none_iff_exists'.1 h1
    obtain ⟨i, hi⟩ := Option.ne_none_iff_exists'.1 h2
    simp only [Computer.installOS, hr, hi]
    exact ⟨_, _, _, rfl⟩
  · unfold Computer.installOS at h
    cases hr : c.ram with
    | none =>
      rw [hr] at h
      simp only [Prod.mk.injEq] at h
      obtain ⟨_, rfl, rfl⟩ := h
      refine ⟨rfl, rfl, fun hh => ?_⟩
      cases hd : c.changes_disabled with
      | false => rfl
      | true => exact absurd hr (hh.2.2 hd).2
    | some r =>
      rw [hr] at h
      cases hi : c.cpu with
      | none =>
        rw [hi] at h
        simp only [Prod.mk.injEq] at h
        obtain ⟨_, rfl, rfl⟩ := h
        refine ⟨rfl, rfl, fun hh => ?_⟩
        cases hd : c.changes_disabled with
        | false => rfl
        | true => exact absurd hi (hh.2.2 hd).1
      | some i =>
        rw [hi] at h
        simp only [Prod.mk.injEq] at h
        exact absurd h.1 (by intro h; cases h)

/-- C26: a successful `installOS` locks the computer; on a locked computer
`setCPU`, `setRAM` and the copy assignment into it raise
`IllegalChangeException` and leave the objects and the computer, its flag
included, as they are, and `installOS` leaves it locked: no call unlocks. -/
theorem lock_after_installOS (w : World) (c : Computer) :
    (∀ alg os w1 c1, Computer.installOS w c alg = (.ok os, w1, c1) →
      c1.changes_disabled = true) ∧
    (c.changes_disabled = true →
      (∀ n, Computer.setCPU w c n = (.error .illegalChange, w, c)) ∧
      (∀ n, Computer.setRAM w c n = (.error .illegalChange, w, c)) ∧
      (∀ that, Computer.assign w c that = some (.error .illegalChange, w, c)) ∧
      (∀ alg, (Computer.installOS w c alg).2.2.changes_disabled = true)) := by
  constructor
  · intro alg os w1 c1 h
    unfold Computer.installOS at h
    cases hr : c.ram with
    | none => rw [hr] at h; simp only [Prod.mk.injEq] at h; exact absurd h.1 (by intro h; cases h)
    | some r =>
      rw [hr] at h
      cases hi : c.cpu with
      | none =>
        rw [hi] at h; simp only [Prod.mk.injEq] at h; exact absurd h.1 (by intro h; cases h)
      | some i =>
        rw [hi] at h
        simp only [Prod.mk.injEq] at h
        obtain ⟨_, _, rfl⟩ := h
        rfl
  · intro hd
    refine ⟨fun n => ?_, fun n => ?_, fun that => ?_, fun alg => ?_⟩
    · simp only [Computer.setCPU, hd, if_true]
    · simp only [Computer.setRAM, hd, if_true]
    · simp only [Computer.assign, hd, if_true]
    · unfold Computer.installOS
      cases c.ram with
      | none => exact hd
      | some r =>
        cases c.cpu with
        | none => exact hd
        | some i => rfl

theorem installOS_preconditions_witness :
    Computer.installOS World.empty Computer.new 0
      = (.error .noRAM, World.empty, Computer.new) ∧
    Computer.installOS (Computer.setCPU World.empty Computer.new 2).2.1
        (Computer.setCPU World.empty Computer.new 2).2.2 0
      = (.error .noRAM, (Computer.setCPU World.empty Computer.new 2).2.1,
          (Computer.setCPU World.empty Computer.new 2).2.2) ∧
    Computer.installOS (Computer.setRAM World.empty Computer.new 2).2.1
        (Computer.setRAM World.empty Computer.new 2).2.2 0
      = (.error .noCPU, (Computer.setRAM World.empty Computer.new 2).2.1,
          (Computer.setRAM World.empty Computer.new 2).2.2) ∧
    (∃ os w1 c1, Computer.installOS
        (Computer.setCPU (Computer.setRAM World.empty Computer.new 2).2.1
          (Computer.setRAM World.empty Computer.new 2).2.2 3).2.1
        (Computer.setCPU (Computer.setRAM World.empty Computer.new 2).2.1
          (Computer.setRAM World.empty Computer.new 2).2.2 3).2.2 0 = (.ok os, w1, c1)) :=
  ⟨(installOS_preconditions World.empty Computer.new 0).1 rfl,
   (installOS_preconditions _ _ 0).1 rfl,
   (installOS_preconditions _ _ 0).2.1 (by decide) rfl,
   (installOS_preconditions _ _ 0).2.2.1 (by decide) (by decide)⟩

theorem lock_after_installOS_witness :
    (Computer.installOS
        (Computer.setCPU (Computer.setRAM World.empty Computer.new 2).2.1
          (Computer.setRAM World.empty Computer.new 2).2.2 3).2.1
        (Computer.setCPU (Computer.setRAM World.empty Computer.new 2).2.1
          (Computer.setRAM World.empty Computer.new 2).2.2 3).2.2 0).2.2.changes_disabled
      = true ∧
    Computer.setCPU { World.empty with
          cpus := [{ cpu := (System.fresh 3 2 .fcfs).cpu, ram := some 0 }],
          rams := [{ mem := [0, 0] }] }
        { changes_disabled := true, cpu := some 0, ram := some 0 } 5
      = (.error .illegalChange,
          { World.empty with
            cpus := [{ cpu := (System.fresh 3 2 .fcfs).cpu, ram := some 0 }],
            rams := [{ mem := [0, 0] }] },
          { changes_disabled := true, cpu := some 0, ram := some 0 }) :=
  ⟨by decide,
   ((lock_after_installOS { World.empty with
          cpus := [{ cpu := (System.fresh 3 2 .fcfs).cpu, ram := some 0 }],
          rams := [{ mem := [0, 0] }] }
        { changes_disabled := true, cpu := some 0, ram := some 0 }).2 rfl).1 5⟩

/-- C27: a successful `installOS` leaves every register of the CPU and every
cell of the RAM at 0, with the numbers of registers and of cells as they were;
no other object changes, and the OS returned has the CPU of the computer and
the scheduling algorithm given. -/
theorem installOS_clears (w : World) (c : Computer) (alg i r : Nat) (o : CPUObject)
    (m : Memory) (hi : c.cpu = some i) (hr : c.ram = some r)
    (ho : w.cpus[i]? = some o) (hm : w.rams[r]? = some m) :
    ∃ w1 c1, Computer.installOS w c alg = (.ok { cpu := i, scheduler := alg }, w1, c1) ∧
      c1.cpu = some i ∧ c1.ram = some r ∧
      w1.cpus[i]? = some { o with cpu := { o.cpu with
        registers := { mem := List.replicate o.cpu.registers.mem.length 0 } } } ∧
      w1.rams[r]? = some { mem := List.replicate m.mem.length 0 } ∧
      (∀ j, j ≠ i → w1.cpus[j]? = w.cpus[j]?) ∧ (∀ j, j ≠ r → w1.rams[j]? = w.rams[j]?) ∧
      w1.schedulers = w.schedulers ∧ w1.processes = w.processes ∧ w1.out = w.out := by
  refine ⟨{ w with
      cpus := w.cpus.modify (fun o => { o with cpu := o.cpu.clearRegisters }) i,
      rams := w.rams.modify Memory.clear r }, { c with changes_disabled := true },
    by simp only [Computer.installOS, hi, hr], hi, hr, ?_, ?_, ?_, ?_, rfl, rfl, rfl⟩
  · simp only [List.getElem?_modify_eq, ho, Option.map_eq_map, Option.map_some',
      CPU.clearRegisters, Memory.clear_eq]
  · simp only [List.getElem?_modify_eq, hm, Option.map_eq_map, Option.map_some',
      Memory.clear_eq]
  · intro j hj
    simp only [List.getElem?_modify_ne _ _ (Ne.symm hj)]
  · intro j hj
    simp only [List.getElem?_modify_ne _ _ (Ne.symm hj)]

theorem installOS_clears_witness :
    ∃ w1 c1, Computer.installOS
        { World.empty with
          cpus := [{ cpu := { (System.fresh 3 2 .fcfs).cpu with registers := { mem := [4, 5, 6] } },
                     ram := some 0 }],
          rams := [{ mem := [7, 8] }] }
        { changes_disabled := false, cpu := some 0, ram := some 0 } 0
        = (.ok { cpu := 0, scheduler := 0 }, w1, c1) ∧
      c1.cpu = some 0 ∧ c1.ram = some 0 ∧
      w1.cpus[0]? = some { cpu := (System.fresh 3 2 .fcfs).cpu, ram := some 0 } ∧
      w1.rams[0]? = some { mem := [0, 0] } ∧
      (∀ j, j ≠ 0 → w1.cpus[j]? = ([{ cpu := { (System.fresh 3 2 .fcfs).cpu with
          registers := { mem := [4, 5, 6] } }, ram := some 0 }] : List CPUObject)[j]?) ∧
      (∀ j, j ≠ 0 → w1.rams[j]? = ([{ mem := [7, 8] }] : List Memory)[j]?) ∧
      w1.schedulers = [] ∧ w1.processes = [] ∧ w1.out = [] :=
  installOS_clears
    { World.empty with
      cpus := [{ cpu := { (System.fresh 3 2 .fcfs).cpu with registers := { mem := [4, 5, 6] } },
                 ram := some 0 }],
      rams := [{ mem := [7, 8] }] }
    { changes_disabled := false, cpu := some 0, ram := some 0 } 0 0 0
    { cpu := { (System.fresh 3 2 .fcfs).cpu with registers := { mem := [4, 5, 6] } },
      ram := some 0 }
    { mem := [7, 8] } rfl rfl rfl rfl

theorem getElem?_append_one {α : Type} (l : List α) (x : α) (j : Nat) (h : j < l.length) :
    (l ++ [x])[j]? = l[j]? := List.getElem?_append_left h

theorem getElem?_append_new {α : Type} (l : List α) (x : α) :
    (l ++ [x])[l.length]? = some x := by
  rw [List.getElem?_append_right (Nat.le_refl _), Nat.sub_self]
  rfl

theorem lt_of_getElem? {α : Type} (l : List α) (j : Nat) (x : α) (h : l[j]? = some x) :
    j < l.length := by
  rcases Nat.lt_or_ge j l.length with h1 | h1
  · exact h1
  · rw [List.getElem?_eq_none h1] at h; cases h

theorem World.holds_new (w : World) : w.holds Computer.new :=
  ⟨fun i h => (by cases h), fun r h => (by cases h), fun h => (by cases h)⟩

theorem World.holds_cpu_lt (w : World) (d : Computer) (hd : w.holds d) (j : Nat)
    (hj : d.cpu = some j) : j < w.cpus.length := by
  obtain ⟨o, ho, _⟩ := hd.1 j hj
  exact lt_of_getElem? _ _ _ ho

/-- C30: on a computer that is not locked, `setCPU(n)` and `setRAM(n)` raise
`IllegalArgumentException` for `n <= 0`, leaving the objects and the computer
as they are, and succeed for `n > 0`, the computer then having `n` registers,
or `n` cells of RAM, at 0 and keeping its other part; a memory is constructed
with as many cells as asked, more than 0, and `store`, `load` and `clear` keep
their number. -/
theorem invalid_sizes (w : World) (c : Computer) (hc : c.changes_disabled = false) (n : Int) :
    (n ≤ 0 →
      Computer.setCPU w c n = (.error (.illegalArgument "Negative size provided"), w, c) ∧
      Computer.setRAM w c n = (.error (.illegalArgument "Negative size provided"), w, c)) ∧
    (0 < n →
      (∃ w1 c1, Computer.setCPU w c n = (.ok (), w1, c1) ∧
        w1.registers c1 = some { mem := List.replicate n.toNat 0 } ∧ c1.ram = c.ram) ∧
      (∃ w1 c1, Computer.setRAM w c n = (.ok (), w1, c1) ∧
        w1.memory c1 = some { mem := List.replicate n.toNat 0 } ∧ c1.cpu = c.cpu)) ∧
    (∀ size m, Memory.new size = .ok m → 0 < m.mem.length ∧ (m.mem.length : Int) = size) ∧
    (∀ (From : Nat) (exc : Int → Fault) (m : Memory) (idx val : Int),
      (Memory.store From exc m idx val).2.mem.length = m.mem.length ∧
      (Memory.load From exc m idx).2 = m ∧ m.clear.mem.length = m.mem.length) := by
  refine ⟨fun h => ?_, fun h => ⟨?_, ?_⟩, fun size m h => ?_, fun From exc m idx val => ?_⟩
  · simp only [Computer.setCPU, Computer.setRAM, hc, Bool.false_eq_true, if_false, CPU.new,
      Memory.new_fault n h, and_self]
  · have e : Computer.setCPU w c n = (.ok (),
        { w with cpus := w.cpus ++ [{
            cpu := { registers := { mem := List.replicate n.toNat 0 }, timer := 0,
                     timer_active := false, interrupt_handler := false, job := none,
                     awake := false, current_level := .RING0 },
            ram := c.ram }] },
        { c with cpu := some w.cpus.length }) := by
      simp only [Computer.setCPU, hc, Bool.false_eq_true, if_false, CPU.new, Memory.new_ok n h]
    refine ⟨_, _, e, ?_, rfl⟩
    simp only [World.registers, getElem?_append_new, Option.map_some']
  · have e : Computer.setRAM w c n = (.ok (),
        (match c.cpu with
          | none => { w with rams := w.rams ++ [{ mem := List.replicate n.toNat 0 }] }
          | some i =>
            { w with rams := w.rams ++ [{ mem := List.replicate n.toNat 0 }],
                     cpus := w.cpus.modify (fun o => o.setRAM (some w.rams.length)) i }),
        { c with ram := some w.rams.length }) := by
      simp only [Computer.setRAM, hc, Bool.false_eq_true, if_false, Memory.new_ok n h]
    refine ⟨_, _, e, ?_, rfl⟩
    simp only [World.memory]
    cases c.cpu with
    | none => simp only [getElem?_append_new]
    | some i => simp only [getElem?_append_new]
  · unfold Memory.new at h
    split at h
    · cases h
    · cases h
      simp only [List.length_replicate]
      omega
  · refine ⟨?_, Memory.load_snd From exc m idx, by simp [Memory.clear]⟩
    unfold Memory.store
    split
    · rfl
    · simp only [List.length_set]

theorem invalid_sizes_witness :
    Computer.setCPU World.empty Computer.new 0
      = (.error (.illegalArgument "Negative size provided"), World.empty, Computer.new) ∧
    (∃ w1 c1, Computer.setRAM World.empty Computer.new 3 = (.ok (), w1, c1) ∧
        w1.memory c1 = some { mem := [0, 0, 0] } ∧ c1.cpu = none) :=
  ⟨((invalid_sizes World.empty Computer.new rfl 0).1 (by decide)).1,
   ((invalid_sizes World.empty Computer.new rfl 3).2.1 (by decide)).2⟩

theorem World.holds_ram_lt (w : World) (d : Computer) (hd : w.holds d) (r : Nat)
    (hr : d.ram = some r) : r < w.rams.length := hd.2.1 r hr

/-- Objects added at the ends of the lists of CPUs and RAMs, the CPUs added
apart, change nothing for a computer of the world. -/
theorem World.holds_grow (w w1 : World) (d : Computer) (hd : w.holds d)
    (hc : ∀ j, j < w.cpus.length → w1.cpus[j]? = w.cpus[j]?)
    (hr : ∀ j, j < w.rams.length → w1.rams[j]? = w.rams[j]?) :
    w1.holds d ∧ w1.registers d = w.registers d ∧ w1.memory d = w.memory d := by
  refine ⟨⟨fun i hi => ?_, fun r hr1 => ?_, hd.2.2⟩, ?_, ?_⟩
  · obtain ⟨o, ho, hor⟩ := hd.1 i hi
    exact ⟨o, by rw [hc i (lt_of_getElem? _ _ _ ho)]; exact ho, hor⟩
  · have h1 := hd.2.1 r hr1
    obtain ⟨m, hm⟩ : ∃ m, w.rams[r]? = some m := ⟨_, List.getElem?_eq_getElem h1⟩
    have := hr r h1
    rw [hm] at this
    exact lt_of_getElem? _ _ _ this
  · unfold World.registers
    cases hi : d.cpu with
    | none => rfl
    | some i => simp only [hc i (World.holds_cpu_lt w d hd i hi)]
  · unfold World.memory
    cases hr1 : d.ram with
    | none => rfl
    | some r => simp only [hr r (hd.2.1 r hr1)]

/-- The copy assignment into a computer that is not locked, from a computer of
the world, locked or not: it succeeds; the computer gets a CPU and a RAM of its
own that are copies of those of the source, the CPU having that RAM, and every
computer of the world is as before. -/
theorem Computer.assign_unlocked (w : World) (c that : Computer)
    (hc : c.changes_disabled = false) (ht : w.holds that) :
    ∃ w1 c1, Computer.assign w c that = some (.ok (), w1, c1) ∧
      c1.changes_disabled = false ∧
      w1.registers c1 = w.registers that ∧ w1.memory c1 = w.memory that ∧
      w1.holds c1 ∧
      (∀ d, w.holds d →
        w1.holds d ∧ w1.registers d = w.registers d ∧ w1.memory d = w.memory d ∧
        c1.apart d) := by
  have hapart : ∀ (c1 : Computer) (d : Computer), w.holds d →
      (∀ i, c1.cpu = some i → w.cpus.length ≤ i) →
      (∀ r, c1.ram = some r → w.rams.length ≤ r) → c1.apart d := by
    intro c1 d hd h1 h2
    refine ⟨fun i hi hdi => ?_, fun r hr hdr => ?_⟩
    · have := World.holds_cpu_lt w d hd i hdi
      have := h1 i hi
      omega
    · have := hd.2.1 r hdr
      have := h2 r hr
      omega
  cases hcpu : that.cpu with
  | none =>
    cases hram : that.ram with
    | none =>
      refine ⟨w, { c with cpu := none, ram := none },
        by simp only [Computer.assign, hc, hcpu, hram, Bool.false_eq_true, if_false],
        hc, ?_, ?_, ⟨fun i h => (by cases h), fun r h => (by cases h),
          fun h => (by rw [hc] at h; cases h)⟩, fun d hd => ?_⟩
      · simp only [World.registers, hcpu]
      · simp only [World.memory, hram]
      · exact ⟨hd, rfl, rfl, hapart _ d hd (fun i h => (by cases h)) (fun r h => (by cases h))⟩
    | some r =>
      have hrl := ht.2.1 r hram
      obtain ⟨m, hm⟩ : ∃ m, w.rams[r]? = some m := ⟨_, List.getElem?_eq_getElem hrl⟩
      refine ⟨{ w with rams := w.rams ++ [m] }, { c with cpu := none, ram := some w.rams.length },
        by simp only [Computer.assign, hc, hcpu, hram, hm, Bool.false_eq_true, if_false],
        hc, ?_, ?_, ⟨fun i h => (by cases h), fun r1 h => ?_,
          fun h => (by rw [hc] at h; cases h)⟩, fun d hd => ?_⟩
      · simp only [World.registers, hcpu]
      · simp only [World.memory, hram, getElem?_append_new, hm]
      · simp only [Option.some.injEq] at h
        subst h
        simp only [List.length_append, List.length_singleton]
        omega
      · obtain ⟨h1, h2, h3⟩ := World.holds_grow w { w with rams := w.rams ++ [m] } d hd
          (fun j _ => rfl) (fun j hj => getElem?_append_one _ _ _ hj)
        exact ⟨h1, h2, h3, hapart _ d hd (fun i h => (by cases h))
          (fun r1 h => (by simp only [Option.some.injEq] at h; omega))⟩
  | some i =>
    obtain ⟨o, ho, hor⟩ := ht.1 i hcpu
    cases hram : that.ram with
    | none =>
      refine ⟨{ w with cpus := w.cpus ++ [o.copy] },
        { c with cpu := some w.cpus.length, ram := none },
        by simp only [Computer.assign, hc, hcpu, hram, ho, Bool.false_eq_true, if_false],
        hc, ?_, ?_, ⟨fun i1 h => ?_, fun r h => (by cases h),
          fun h => (by rw [hc] at h; cases h)⟩, fun d hd => ?_⟩
      · simp only [World.registers, hcpu, getElem?_append_new, ho, Option.map_some']
        rfl
      · simp only [World.memory, hram]
      · simp only [Option.some.injEq] at h
        subst h
        exact ⟨o.copy, getElem?_append_new _ _, rfl⟩
      · obtain ⟨h1, h2, h3⟩ := World.holds_grow w { w with cpus := w.cpus ++ [o.copy] } d hd
          (fun j hj => getElem?_append_one _ _ _ hj) (fun j _ => rfl)
        exact ⟨h1, h2, h3, hapart _ d hd
          (fun i1 h => (by simp only [Option.some.injEq] at h; omega))
          (fun r h => (by cases h))⟩
    | some r =>
      have hrl := ht.2.1 r hram
      obtain ⟨m, hm⟩ : ∃ m, w.rams[r]? = some m := ⟨_, List.getElem?_eq_getElem hrl⟩
      have hnew : ((w.cpus ++ [o.copy]).modify (fun o => o.setRAM (some w.rams.length))
          w.cpus.length)[w.cpus.length]? = some (o.copy.setRAM (some w.rams.length)) := by
        rw [List.getElem?_modify_eq, getElem?_append_new]
        rfl
      have hold : ∀ j, j < w.cpus.length →
          ((w.cpus ++ [o.copy]).modify (fun o => o.setRAM (some w.rams.length))
            w.cpus.length)[j]? = w.cpus[j]? := by
        intro j hj
        rw [List.getElem?_modify_ne _ _ (by omega), getElem?_append_one _ _ _ hj]
      refine ⟨{ w with
          cpus := (w.cpus ++ [o.copy]).modify (fun o => o.setRAM (some w.rams.length))
            w.cpus.length,
          rams := w.rams ++ [m] },
        { c with cpu := some w.cpus.length, ram := some w.rams.length },
        by simp only [Computer.assign, hc, hcpu, hram, ho, hm, Bool.false_eq_true, if_false],
        hc, ?_, ?_, ⟨fun i1 h => ?_, fun r1 h => ?_,
          fun h => (by rw [hc] at h; cases h)⟩, fun d hd => ?_⟩
      · simp only [World.registers, hcpu, hnew, ho, Option.map_some']
        rfl
      · simp only [World.memory, hram, getElem?_append_new, hm]
      · simp only [Option.some.injEq] at h
        subst h
        exact ⟨_, hnew, rfl⟩
      · simp only [Option.some.injEq] at h
        subst h
        simp only [List.length_append, List.length_singleton]
        omega
      · obtain ⟨h1, h2, h3⟩ := World.holds_grow w { w with
            cpus := (w.cpus ++ [o.copy]).modify (fun o => o.setRAM (some w.rams.length))
              w.cpus.length,
            rams := w.rams ++ [m] } d hd hold (fun j hj => getElem?_append_one _ _ _ hj)
        exact ⟨h1, h2, h3, hapart _ d hd
          (fun i1 h => (by simp only [Option.some.injEq] at h; omega))
          (fun r1 h => (by simp only [Option.some.injEq] at h; omega))⟩

theorem Computer.apart_symm (c d : Computer) (h : c.apart d) : d.apart c :=
  ⟨fun i hi hc => h.1 i hc hi, fun r hr hc => h.2 r hc hr⟩

/-- Changes to the CPU and to the RAM of a computer, the pointers of the CPU
kept, leave every computer apart from it as it is. -/
theorem World.holds_frame (w w1 : World) (a b : Computer) (hb : w.holds b) (hab : a.apart b)
    (hrl : w.rams.length ≤ w1.rams.length)
    (hc : ∀ j, a.cpu ≠ some j → w1.cpus[j]? = w.cpus[j]?)
    (hr : ∀ j, j < w.rams.length → a.ram ≠ some j → w1.rams[j]? = w.rams[j]?) :
    w1.registers b = w.registers b ∧ w1.memory b = w.memory b ∧ w1.holds b := by
  refine ⟨?_, ?_, ⟨fun i hi => ?_, fun r hr1 => ?_, hb.2.2⟩⟩
  · unfold World.registers
    cases hi : b.cpu with
    | none => rfl
    | some i => simp only [hc i (fun h => hab.1 i h hi)]
  · unfold World.memory
    cases hr1 : b.ram with
    | none => rfl
    | some r => simp only [hr r (hb.2.1 r hr1) (fun h => hab.2 r h hr1)]
  · obtain ⟨o, ho, hor⟩ := hb.1 i hi
    exact ⟨o, by rw [hc i (fun h => hab.1 i h hi)]; exact ho, hor⟩
  · have := hb.2.1 r hr1
    omega

theorem Computer.setCPU_apart (w : World) (a b : Computer) (n : Int)
    (ha : w.holds a) (hb : w.holds b) (hab : a.apart b) :
    (Computer.setCPU w a n).2.1.registers b = w.registers b ∧
    (Computer.setCPU w a n).2.1.memory b = w.memory b ∧
    (Computer.setCPU w a n).2.1.holds (Computer.setCPU w a n).2.2 ∧
    (Computer.setCPU w a n).2.1.holds b ∧ (Computer.setCPU w a n).2.2.apart b := by
  unfold Computer.setCPU
  cases hd : a.changes_disabled with
  | true => exact ⟨rfl, rfl, ha, hb, hab⟩
  | false =>
    simp only [Bool.false_eq_true, if_false]
    cases hn : CPU.new n with
    | error f => exact ⟨rfl, rfl, ha, hb, hab⟩
    | ok cpu =>
      simp only []
      obtain ⟨h1, h2, h3⟩ := World.holds_grow w
        { w with cpus := w.cpus ++ [{ cpu := cpu, ram := a.ram }] } b hb
        (fun j hj => getElem?_append_one _ _ _ hj) (fun j _ => rfl)
      refine ⟨h2, h3, ⟨fun i hi => ?_, ha.2.1, fun h => (by cases h)⟩, h1,
        ⟨fun i hi hbi => ?_, hab.2⟩⟩
      · simp only [Option.some.injEq] at hi
        subst hi
        exact ⟨_, getElem?_append_new _ _, rfl⟩
      · simp only [Option.some.injEq] at hi
        subst hi
        have := World.holds_cpu_lt w b hb _ hbi
        omega

theorem Computer.setRAM_apart (w : World) (a b : Computer) (n : Int)
    (ha : w.holds a) (hb : w.holds b) (hab : a.apart b) :
    (Computer.setRAM w a n).2.1.registers b = w.registers b ∧
    (Computer.setRAM w a n).2.1.memory b = w.memory b ∧
    (Computer.setRAM w a n).2.1.holds (Computer.setRAM w a n).2.2 ∧
    (Computer.setRAM w a n).2.1.holds b ∧ (Computer.setRAM w a n).2.2.apart b := by
  unfold Computer.setRAM
  cases hd : a.changes_disabled with
  | true => exact ⟨rfl, rfl, ha, hb, hab⟩
  | false =>
    simp only [Bool.false_eq_true, if_false]
    cases hn : Memory.new n with
    | error f => exact ⟨rfl, rfl, ha, hb, hab⟩
    | ok memory =>
      simp only []
      cases hi : a.cpu with
      | none =>
        simp only []
        obtain ⟨h1, h2, h3⟩ := World.holds_grow w { w with rams := w.rams ++ [memory] } b hb
          (fun j _ => rfl) (fun j hj => getElem?_append_one _ _ _ hj)
        refine ⟨h2, h3, ⟨fun i h => (by cases h), fun r hr => ?_,
          fun h => (by cases h)⟩, h1, ⟨fun i h => (by cases h),
          fun r hr hbr => ?_⟩⟩
        · simp only [Option.some.injEq] at hr
          subst hr
          simp only [List.length_append, List.length_singleton]
          omega
        · simp only [Option.some.injEq] at hr
          subst hr
          have := hb.2.1 _ hbr
          omega
      | some i =>
        simp only []
        obtain ⟨o, ho, hor⟩ := ha.1 i hi
        obtain ⟨h1, h2, h3⟩ := World.holds_frame w
          { w with rams := w.rams ++ [memory],
                   cpus := w.cpus.modify (fun o => o.setRAM (some w.rams.length)) i } a b hb hab
          (by simp only [List.length_append]; omega)
          (fun j hj => by
            rw [hi] at hj
            exact List.getElem?_modify_ne _ _ (fun h => hj (by rw [h])))
          (fun j hj _ => getElem?_append_one _ _ _ hj)
        refine ⟨h1, h2, ⟨fun i1 h => ?_, fun r hr => ?_,
          fun h => (by cases h)⟩, h3, ⟨fun i1 h => ?_, fun r hr hbr => ?_⟩⟩
        · simp only [Option.some.injEq] at h
          subst h
          exact ⟨o.setRAM (some w.rams.length),
            by simp only [List.getElem?_modify_eq, ho, Option.map_eq_map, Option.map_some'], rfl⟩
        · simp only [Option.some.injEq] at hr
          subst hr
          simp only [List.length_append, List.length_singleton]
          omega
        · simp only [Option.some.injEq] at h
          subst h
          exact hab.1 _ hi
        · simp only [Option.some.injEq] at hr
          subst hr
          have := hb.2.1 _ hbr
          omega

theorem Computer.installOS_apart (w : World) (a b : Computer) (alg : Nat)
    (ha : w.holds a) (hb : w.holds b) (hab : a.apart b) :
    (Computer.installOS w a alg).2.1.registers b = w.registers b ∧
    (Computer.installOS w a alg).2.1.memory b = w.memory b ∧
    (Computer.installOS w a alg).2.1.holds (Computer.installOS w a alg).2.2 ∧
    (Computer.installOS w a alg).2.1.holds b ∧ (Computer.installOS w a alg).2.2.apart b := by
  unfold Computer.installOS
  cases hr : a.ram with
  | none => exact ⟨rfl, rfl, ha, hb, hab⟩
  | some r =>
    simp only []
    cases hi : a.cpu with
    | none => exact ⟨rfl, rfl, ha, hb, hab⟩
    | some i =>
      simp only []
      obtain ⟨o, ho, hor⟩ := ha.1 i hi
      obtain ⟨h1, h2, h3⟩ := World.holds_frame w
        { w with cpus := w.cpus.modify (fun o => { o with cpu := o.cpu.clearRegisters }) i,
                 rams := w.rams.modify Memory.clear r } a b hb hab
        (by simp only [List.length_modify]; exact Nat.le_refl _)
        (fun j hj => by
          rw [hi] at hj
          exact List.getElem?_modify_ne _ _ (fun h => hj (by rw [h])))
        (fun j _ hj => by
          rw [hr] at hj
          exact List.getElem?_modify_ne _ _ (fun h => hj (by rw [h])))
      refine ⟨h1, h2, ⟨fun i1 h => ?_, fun r1 h => ?_, fun _ => ?_⟩, h3,
        ⟨fun i1 h => ?_, fun r1 h => ?_⟩⟩
      · simp only [Option.some.injEq] at h
        subst h
        exact ⟨{ o with cpu := o.cpu.clearRegisters },
          by simp only [List.getElem?_modify_eq, ho, Option.map_eq_map, Option.map_some'],
          by rw [hr] at hor; exact hor⟩
      · simp only [Option.some.injEq] at h
        subst h
        simp only [List.length_modify]
        exact ha.2.1 _ hr
      · exact ⟨fun h => (by cases h), fun h => (by cases h)⟩
      · simp only [Option.some.injEq] at h
        subst h
        exact hab.1 _ hi
      · simp only [Option.some.injEq] at h
        subst h
        exact hab.2 _ hr

theorem World.update_rams (w : World) (os : OS) (t : System) (o : CPUObject)
    (ho : w.cpus[os.cpu]? = some o) :
    (w.update os t).rams = match o.ram with
      | some r => w.rams.set r t.ram
      | none => w.rams := by
  simp only [World.update, ho]

theorem World.update_apart (w : World) (a b : Computer) (i alg : Nat) (t : System)
    (ha : w.holds a) (hb : w.holds b) (hab : a.apart b) (hi : a.cpu = some i) :
    (w.update { cpu := i, scheduler := alg } t).registers b = w.registers b ∧
    (w.update { cpu := i, scheduler := alg } t).memory b = w.memory b ∧
    (w.update { cpu := i, scheduler := alg } t).holds a ∧
    (w.update { cpu := i, scheduler := alg } t).holds b := by
  obtain ⟨o, ho, hor⟩ := ha.1 i hi
  have hrams := World.update_rams w { cpu := i, scheduler := alg } t o ho
  have hlen : (w.update { cpu := i, scheduler := alg } t).rams.length = w.rams.length := by
    rw [hrams]
    cases o.ram with
    | none => rfl
    | some r => simp only [List.length_set]
  have hcpus : (w.update { cpu := i, scheduler := alg } t).cpus
      = w.cpus.modify (fun o => { o with cpu := t.cpu }) i := rfl
  obtain ⟨h1, h2, h3⟩ := World.holds_frame w (w.update { cpu := i, scheduler := alg } t) a b
    hb hab (by rw [hlen])
    (fun j hj => by
      rw [hi] at hj
      rw [hcpus]
      exact List.getElem?_modify_ne _ _ (fun h => hj (by rw [h])))
    (fun j _ hj => by
      rw [hrams]
      rw [← hor] at hj
      cases hr : o.ram with
      | none => rfl
      | some r =>
        rw [hr] at hj
        simp only []
        exact List.getElem?_set_ne (fun h => hj (by rw [h])))
  refine ⟨h1, h2, ⟨fun i1 h => ?_, fun r hr => ?_, ha.2.2⟩, h3⟩
  · rw [hi] at h
    simp only [Option.some.injEq] at h
    subst h
    refine ⟨{ o with cpu := t.cpu }, ?_, hor⟩
    rw [hcpus]
    simp only [List.getElem?_modify_eq, ho, Option.map_eq_map, Option.map_some']
  · rw [hlen]
    exact ha.2.1 r hr

/-- An action on a computer leaves the registers and the RAM of every computer
apart from it as they are, and the two computers apart. -/
theorem Action.perform_apart (w : World) (a b : Computer) (ha : w.holds a) (hb : w.holds b)
    (hab : a.apart b) (action : Action) (w1 : World) (a1 : Computer)
    (h : action.perform w a = some (w1, a1)) :
    w1.registers b = w.registers b ∧ w1.memory b = w.memory b ∧
    w1.holds a1 ∧ w1.holds b ∧ a1.apart b := by
  cases action with
  | setCPU n =>
    simp only [Action.perform, Option.some.injEq] at h
    have := Computer.setCPU_apart w a b n ha hb hab
    rw [h] at this
    exact this
  | setRAM n =>
    simp only [Action.perform, Option.some.injEq] at h
    have := Computer.setRAM_apart w a b n ha hb hab
    rw [h] at this
    exact this
  | installOS alg =>
    simp only [Action.perform, Option.some.injEq] at h
    have := Computer.installOS_apart w a b alg ha hb hab
    rw [h] at this
    exact this
  | executePrograms fuel alg programs =>
    simp only [Action.perform] at h
    cases hi : a.cpu with
    | none => rw [hi] at h; cases h
    | some i =>
      rw [hi] at h
      simp only [OS.executePrograms] at h
      cases hs : w.system { cpu := i, scheduler := alg } with
      | none => rw [hs] at h; cases h
      | some s =>
        rw [hs] at h
        simp only [] at h
        cases hrun : s.executePrograms fuel programs with
        | none => rw [hrun] at h; cases h
        | some xt =>
          rw [hrun] at h
          simp only [Option.some.injEq, Prod.mk.injEq] at h
          obtain ⟨rfl, rfl⟩ := h
          obtain ⟨h1, h2, h3, h4⟩ := World.update_apart w a b i alg xt.2 ha hb hab hi
          exact ⟨h1, h2, h3, h4, hab⟩

/-- C28, amended: the copy assignment into a locked computer raises
`IllegalChangeException` and changes nothing; the copy constructor applied to a
computer of the world, locked or not, and the copy assignment of such a
computer into one that is not locked, raise nothing and give a computer that is
not locked, whose registers and RAM are those of the source. -/
theorem copy_and_lock (w : World) (c that : Computer) :
    (c.changes_disabled = true →
      Computer.assign w c that = some (.error .illegalChange, w, c)) ∧
    (w.holds that →
      ∃ w1 c1, Computer.copy w that = some (.ok (), w1, c1) ∧ c1.changes_disabled = false ∧
        w1.registers c1 = w.registers that ∧ w1.memory c1 = w.memory that) ∧
    (c.changes_disabled = false → w.holds that →
      ∃ w1 c1, Computer.assign w c that = some (.ok (), w1, c1) ∧
        c1.changes_disabled = false ∧
        w1.registers c1 = w.registers that ∧ w1.memory c1 = w.memory that) := by
  refine ⟨fun h => ?_, fun ht => ?_, fun hc ht => ?_⟩
  · simp only [Computer.assign, h, if_true]
  · obtain ⟨w1, c1, h1, h2, h3, h4, _⟩ := Computer.assign_unlocked w Computer.new that rfl ht
    exact ⟨w1, c1, h1, h2, h3, h4⟩
  · obtain ⟨w1, c1, h1, h2, h3, h4, _⟩ := Computer.assign_unlocked w c that hc ht
    exact ⟨w1, c1, h1, h2, h3, h4⟩

theorem Computer.lockedExample_holds :
    Computer.lockedExample.1.holds Computer.lockedExample.2 :=
  ⟨fun i h => (by cases h; exact ⟨_, rfl, rfl⟩), fun r h => (by cases h; decide),
   fun _ => ⟨by decide, by decide⟩⟩

theorem copy_and_lock_witness :
    Computer.assign Computer.lockedExample.1 Computer.lockedExample.2 Computer.new
      = some (.error .illegalChange, Computer.lockedExample.1, Computer.lockedExample.2) ∧
    (∃ w1 c1, Computer.copy Computer.lockedExample.1 Computer.lockedExample.2
        = some (.ok (), w1, c1) ∧ c1.changes_disabled = false ∧
        w1.registers c1 = some { mem := [0, 0, 0] } ∧ w1.memory c1 = some { mem := [0, 0] }) :=
  ⟨(copy_and_lock Computer.lockedExample.1 Computer.lockedExample.2 Computer.new).1 rfl,
   (copy_and_lock Computer.lockedExample.1 Computer.new Computer.lockedExample.2).2.1
     Computer.lockedExample_holds⟩

/-- C28 as stated fails: the copy constructor applied to a locked computer
raises nothing and gives a computer that is not locked, and so does the copy
assignment of a locked computer into a new one. -/
theorem copy_of_locked :
    Computer.lockedExample.2.changes_disabled = true ∧
    (Computer.copy Computer.lockedExample.1 Computer.lockedExample.2).map
        (fun x => (x.1, x.2.2.changes_disabled)) = some (.ok (), false) ∧
    (Computer.assign Computer.lockedExample.1 Computer.new Computer.lockedExample.2).map
        (fun x => (x.1, x.2.2.changes_disabled)) = some (.ok (), false) := by
  decide

/-- C29: the copy constructor applied to a computer of the world succeeds; the
copy has registers and a RAM equal to those of the source, in number and in
contents, they are objects of its own, its CPU has the copied RAM as its RAM,
and the source is as before. Whenever two computers share neither a CPU nor a
RAM, `setCPU`, `setRAM`, `installOS` and `executePrograms` on one of them leave
the registers and the RAM of the other as they are, and leave the two sharing
neither a CPU nor a RAM. -/
theorem deep_copy (w : World) (that : Computer) (ht : w.holds that) :
    (∃ w1 c, Computer.copy w that = some (.ok (), w1, c) ∧
      w1.registers c = w.registers that ∧ w1.memory c = w.memory that ∧
      w1.registers that = w.registers that ∧ w1.memory that = w.memory that ∧
      w1.holds c ∧ w1.holds that ∧ c.apart that ∧ that.apart c) ∧
    (∀ (v : World) (a b : Computer), v.holds a → v.holds b → a.apart b →
      ∀ (action : Action) (v1 : World) (a1 : Computer),
        action.perform v a = some (v1, a1) →
        v1.registers b = v.registers b ∧ v1.memory b = v.memory b ∧
        v1.holds a1 ∧ v1.holds b ∧ a1.apart b ∧ b.apart a1) := by
  constructor
  · obtain ⟨w1, c1, h1, _, h3, h4, h5, h6⟩ :=
      Computer.assign_unlocked w Computer.new that rfl ht
    obtain ⟨g1, g2, g3, g4⟩ := h6 that ht
    exact ⟨w1, c1, h1, h3, h4, g2, g3, h5, g1, g4, Computer.apart_symm _ _ g4⟩
  · intro v a b ha hb hab action v1 a1 h
    obtain ⟨h1, h2, h3, h4, h5⟩ := Action.perform_apart v a b ha hb hab action v1 a1 h
    exact ⟨h1, h2, h3, h4, h5, Computer.apart_symm _ _ h5⟩

theorem deep_copy_witness :
    ∃ w1 c, Computer.copy
        { World.empty with
          cpus := [{ cpu := { (System.fresh 3 2 .fcfs).cpu with registers := { mem := [4, 5, 6] } },
                     ram := some 0 }],
          rams := [{ mem := [7, 8] }] }
        { changes_disabled := false, cpu := some 0, ram := some 0 } = some (.ok (), w1, c) ∧
      w1.registers c = some { mem := [4, 5, 6] } ∧ w1.memory c = some { mem := [7, 8] } ∧
      w1.registers { changes_disabled := false, cpu := some 0, ram := some 0 }
        = some { mem := [4, 5, 6] } ∧
      w1.memory { changes_disabled := false, cpu := some 0, ram := some 0 }
        = some { mem := [7, 8] } ∧
      w1.holds c ∧ w1.holds { changes_disabled := false, cpu := some 0, ram := some 0 } ∧
      c.apart { changes_disabled := false, cpu := some 0, ram := some 0 } ∧
      Computer.apart { changes_disabled := false, cpu := some 0, ram := some 0 } c :=
  (deep_copy
    { World.empty with
      cpus := [{ cpu := { (System.fresh 3 2 .fcfs).cpu with registers := { mem := [4, 5, 6] } },
                 ram := some 0 }],
      rams := [{ mem := [7, 8] }] }
    { changes_disabled := false, cpu := some 0, ram := some 0 }
    ⟨fun i h => (by cases h; exact ⟨_, rfl, rfl⟩), fun r h => (by cases h; decide),
     fun h => (by cases h)⟩).1

/-- The OS that `installOS` returns on a new computer given `register_count`
registers and `size` cells of RAM acts on the system `System.fresh`. -/
theorem World.installed_fresh (strategy : Strategy) (register_count size : Nat)
    (h1 : 0 < register_count) (h2 : 0 < size) :
    (World.installed strategy register_count size).1 = .ok { cpu := 0, scheduler := 0 } ∧
    (World.installed strategy register_count size).2.1.system { cpu := 0, scheduler := 0 }
      = some (System.fresh register_count size strategy) := by
  have e1 : Memory.new (register_count : Int)
      = .ok { mem := List.replicate register_count 0 } := by
    rw [Memory.new_ok _ (by omega)]; simp
  have e2 : Memory.new (size : Int) = .ok { mem := List.replicate size 0 } := by
    rw [Memory.new_ok _ (by omega)]; simp
  constructor
  · simp [World.installed, World.createScheduling, World.empty, Computer.setCPU,
      Computer.new, CPU.new, e1, e2, Computer.setRAM, Computer.installOS]
  · simp [World.installed, World.createScheduling, World.empty, Computer.setCPU,
      Computer.new, CPU.new, e1, e2, Computer.setRAM, Computer.installOS, World.system,
      List.modify, List.modifyHead, CPUObject.setRAM, CPU.clearRegisters, Memory.clear,
      System.fresh]

/-! ## DOS line endings -/

theorem removeTrailingDOSEndline_keep (L : List Char) (h : L.getLast? ≠ some '\r') :
    removeTrailingDOSEndline L = L := by
  unfold removeTrailingDOSEndline
  rw [if_neg]
  intro hc
  exact h hc.2

theorem Parser.new_carriage_return (L : List Char) (h : L.getLast? ≠ some '\r') :
    Parser.new (L ++ ['\r']) = Parser.new L := by
  unfold Parser.new
  rw [removeTrailingDOSEndline_concat, if_pos rfl, removeTrailingDOSEndline_keep L h]

theorem compileLine_carriage_return (L : List Char) (h : L.getLast? ≠ some '\r') :
    compileLine (L ++ ['\r']) = compileLine L := by
  unfold compileLine
  rw [Parser.new_carriage_return L h]

theorem getlinesFrom_line (L rest acc : List Char) (h : '\n' ∉ L) :
    getlinesFrom (L ++ rest) acc = getlinesFrom rest (L.reverse ++ acc) := by
  induction L generalizing acc with
  | nil => rfl
  | cons c L ih =>
    have hc : c ≠ '\n' := fun e => h (by rw [e]; exact List.mem_cons_self _ _)
    have hL : '\n' ∉ L := fun e => h (List.mem_cons_of_mem _ e)
    show getlinesFrom (c :: (L ++ rest)) acc = _
    rw [getlinesFrom, if_neg hc, ih _ hL]
    simp

theorem getlines_line (L rest : List Char) (h : '\n' ∉ L) :
    getlines (L ++ '\n' :: rest) = L :: getlines rest := by
  unfold getlines
  rw [getlinesFrom_line L _ [] h, getlinesFrom, if_pos rfl]
  simp

theorem getlines_last (L : List Char) (h : '\n' ∉ L) :
    getlines L = if L = [] then [] else [L] := by
  unfold getlines
  have := getlinesFrom_line L [] [] h
  rw [List.append_nil] at this
  rw [this, getlinesFrom]
  simp

theorem compileLines_congr (as bs : List (List Char)) (compiled : Program)
    (h : List.Forall₂ (fun a b => compileLine a = compileLine b) as bs) :
    compileLines as compiled = compileLines bs compiled := by
  induction h generalizing compiled with
  | nil => rfl
  | cons hab _ ih =>
    rw [compileLines, compileLines, hab]
    split
    · rfl
    · exact ih _
    · exact ih _

theorem getlines_intercalate (e : List Char) (init : List (List Char)) (last : List Char)
    (he : '\n' ∉ e) (h : ∀ L ∈ init ++ [last], '\n' ∉ L) :
    getlines ((e ++ ['\n']).intercalate (init ++ [last])) =
      init.map (fun L => L ++ e) ++ (if last = [] then [] else [last]) := by
  induction init with
  | nil =>
    have e0 : (e ++ ['\n']).intercalate ([] ++ [last]) = last := by
      simp [List.intercalate, List.intersperse]
    rw [e0, getlines_last last (h last (by simp))]
    rfl
  | cons L ls ih =>
    have e1 : (e ++ ['\n']).intercalate (L :: ls ++ [last]) =
        (L ++ e) ++ '\n' :: (e ++ ['\n']).intercalate (ls ++ [last]) := by
      cases ls <;> simp [List.intercalate, List.intersperse]
    rw [e1, getlines_line]
    · rw [ih (fun M hM => h M (List.mem_cons_of_mem _ hM))]
      rfl
    · intro hc
      rcases List.mem_append.1 hc with hc | hc
      · exact h L (List.mem_cons_self _ _) hc
      · exact he hc

/-- C32: DOS line endings.  A line that does not end in a carriage return
compiles, with one carriage return added after it, to exactly what it compiles
to without: the same instruction, the same skip of a blank line, or the same
fault.  So a text whose lines are separated by `\r\n` compiles to the same
result as the text with the same lines separated by `\n`, whether or not the
last line is ended too (that is, whether or not the last of `lines` is
empty). -/
theorem dos_line_endings :
    (∀ L : List Char, L.getLast? ≠ some '\r' → compileLine (L ++ ['\r']) = compileLine L) ∧
    (∀ lines : List (List Char), (∀ L ∈ lines, '\n' ∉ L ∧ L.getLast? ≠ some '\r') →
      compile ("\r\n".toList.intercalate lines) = compile ("\n".toList.intercalate lines)) := by
  refine ⟨compileLine_carriage_return, ?_⟩
  intro lines h
  rcases List.eq_nil_or_concat lines with rfl | ⟨init, last, hl⟩
  · rfl
  rw [List.concat_eq_append] at hl
  subst hl
  unfold compile
  have e1 := getlines_intercalate ['\r'] init last (by decide) (fun L hL => (h L hL).1)
  have e2 := getlines_intercalate [] init last (by decide) (fun L hL => (h L hL).1)
  rw [show "\r\n".toList = ['\r'] ++ ['\n'] from rfl, e1,
    show "\n".toList = [] ++ ['\n'] from rfl, e2]
  apply compileLines_congr
  apply List.rel_append
  · rw [List.forall₂_map_left_iff, List.forall₂_map_right_iff]
    apply List.forall₂_same.2
    intro L hL
    have := (h L (List.mem_append_left _ hL)).2
    show compileLine (L ++ ['\r']) = compileLine (L ++ [])
    rw [List.append_nil]
    exact compileLine_carriage_return L this
  · apply List.forall₂_same.2
    intro _ _
    rfl

theorem dos_line_endings_witness :
    compileLine ("SET R1 5".toList ++ ['\r']) = compileLine "SET R1 5".toList ∧
    compile ("\r\n".toList.intercalate ["SET R1 5".toList, "PRINTLN R1".toList, []]) =
      compile ("\n".toList.intercalate ["SET R1 5".toList, "PRINTLN R1".toList, []]) :=
  ⟨dos_line_endings.1 _ (by decide), dos_line_endings.2 _ (by decide)⟩

/-! ## The cursor and the erasure of `schedule` -/

theorem Scheduler.schedule_active (processes : List Process) (s : Scheduler) :
    (s.schedule processes).2.active =
      s.active.take s.current ++ (s.active.drop s.current).dropWhile (exhausted processes) := by
  unfold Scheduler.schedule
  rw [Scheduler.eraseLoop_eq]
  simp only []
  split <;> rfl

theorem getElem?_append_head (pre rest : List Nat) :
    (pre ++ rest)[pre.length]? = rest.head? := by
  rw [List.getElem?_append_right (Nat.le_refl _), Nat.sub_self]
  cases rest <;> simp

theorem getElem?_zero_head (l : List Nat) : l[0]? = l.head? := by
  cases l <;> simp

/-- C33: erasure does not skip.  With the cursor on the process `p`, between
`pre` and `post`: if `p` is exhausted, the longest run of exhausted processes
that starts at the cursor is erased, the cursor stays on the position where the
process after the run now is (it goes to the start of the list when the run
reached the end), and the process returned is the one that followed the run,
the first of the list when the run reached the end; if `p` is not exhausted,
nothing is erased and the process returned is the one after `p`, the first of
the list when `p` is the last. -/
theorem erasure_does_not_skip (processes : List Process) (s : Scheduler)
    (pre post : List Nat) (p : Nat) (hact : s.active = pre ++ p :: post)
    (hcur : s.current = pre.length) :
    (exhausted processes p = true →
      ∃ run rest, p :: post = run ++ rest ∧ run ≠ [] ∧
        (∀ q ∈ run, exhausted processes q = true) ∧
        (∀ q, rest.head? = some q → exhausted processes q = false) ∧
        (s.schedule processes).2.active = pre ++ rest ∧
        (s.schedule processes).2.current = (if rest = [] then 0 else pre.length) ∧
        (s.schedule processes).1.1 = (rest ++ pre).head?) ∧
    (exhausted processes p = false →
      (s.schedule processes).2.active = s.active ∧
      (s.schedule processes).2.current = (if post = [] then 0 else pre.length + 1) ∧
      (s.schedule processes).1.1 = (post ++ pre ++ [p]).head?) := by
  constructor
  · intro hp
    refine ⟨p :: post.takeWhile (exhausted processes), post.dropWhile (exhausted processes),
      ?_, by simp, ?_, ?_, ?_⟩
    · simp [List.takeWhile_append_dropWhile]
    · intro q hq
      rcases List.mem_cons.1 hq with rfl | hq
      · exact hp
      · exact List.mem_takeWhile_imp hq
    · intro q hq
      cases hd : post.dropWhile (exhausted processes) with
      | nil => rw [hd] at hq; cases hq
      | cons a l =>
        rw [hd] at hq
        cases hq
        have := List.head_dropWhile_not (exhausted processes) post
          (by rw [hd]; exact List.cons_ne_nil _ _)
        simpa [hd] using this
    · rw [Scheduler.schedule_exhausted processes s pre post p hact hcur hp]
      refine ⟨rfl, rfl, ?_⟩
      by_cases hD : post.dropWhile (exhausted processes) = []
      · rw [hD]
        by_cases hpre : pre = []
        · subst hpre; rfl
        · simp only [List.append_nil, hpre, if_false, if_true, List.nil_append]
          rw [Scheduler.pickProcess_fst]
          exact getElem?_zero_head pre
      · have hne : pre ++ post.dropWhile (exhausted processes) ≠ [] := by simp [hD]
        simp only [hne, hD, if_false]
        rw [Scheduler.pickProcess_fst]
        show (pre ++ post.dropWhile (exhausted processes))[pre.length]? = _
        rw [getElem?_append_head]
        cases hd : post.dropWhile (exhausted processes) with
        | nil => exact absurd hd hD
        | cons a l => rfl
  · intro hp
    rw [Scheduler.schedule_live processes s pre post p hact hcur hp]
    refine ⟨rfl, rfl, ?_⟩
    rw [Scheduler.pickProcess_fst]
    show s.active[if post = [] then 0 else pre.length + 1]? = _
    rw [hact]
    cases post with
    | nil =>
      simp only [if_true, List.nil_append]
      rw [getElem?_zero_head]
    | cons a l =>
      simp only [List.cons_ne_nil, if_false]
      rw [show pre ++ p :: a :: l = (pre ++ [p]) ++ (a :: l) by simp,
        show pre.length + 1 = (pre ++ [p]).length by simp, getElem?_append_head]
      rfl

theorem erasure_does_not_skip_witness :
    (∃ run rest, 0 :: [2, 1] = run ++ rest ∧ run ≠ [] ∧
      (∀ q ∈ run,
        exhausted [Process.new [], Process.new [.println 1], Process.new []] q = true) ∧
      (∀ q, rest.head? = some q →
        exhausted [Process.new [], Process.new [.println 1], Process.new []] q = false) ∧
      ((Scheduler.mk .fcfs [1, 0, 2, 1] 1).schedule
        [Process.new [], Process.new [.println 1], Process.new []]).2.active = [1] ++ rest ∧
      ((Scheduler.mk .fcfs [1, 0, 2, 1] 1).schedule
        [Process.new [], Process.new [.println 1], Process.new []]).2.current
          = (if rest = [] then 0 else [1].length) ∧
      ((Scheduler.mk .fcfs [1, 0, 2, 1] 1).schedule
        [Process.new [], Process.new [.println 1], Process.new []]).1.1
          = (rest ++ [1]).head?) ∧
    (((Scheduler.mk .sjf [0, 1] 1).schedule
        [Process.new [], Process.new [.println 1]]).2.active = [0, 1] ∧
      ((Scheduler.mk .sjf [0, 1] 1).schedule
        [Process.new [], Process.new [.println 1]]).2.current
          = (if ([] : List Nat) = [] then 0 else [0].length + 1) ∧
      ((Scheduler.mk .sjf [0, 1] 1).schedule
        [Process.new [], Process.new [.println 1]]).1.1 = ([] ++ [0] ++ [1]).head?) :=
  ⟨(erasure_does_not_skip _ (Scheduler.mk .fcfs [1, 0, 2, 1] 1) [1] [2, 1] 0 rfl rfl).1
      (by decide),
    (erasure_does_not_skip _ (Scheduler.mk .sjf [0, 1] 1) [0] [] 1 rfl rfl).2 (by decide)⟩

/-- C34: cursor validity.  On every strategy the cursor is valid after
`setList`, whatever the list; a call of `schedule` made with the cursor in the
list or at its end leaves the cursor valid and, when the list it leaves is not
empty, returns the element under the cursor; so the cursor is valid after
`setList` and after each of any number of calls of `schedule` that follow it,
whatever the processes have run in between.  A valid cursor is on an element of
the list whenever the list is not empty, so that `pickProcess` reads an
element, and is at the end of the list only when the list is empty. -/
theorem cursor_validity (processes : List Process) (s : Scheduler) :
    (∀ list, (s.setList processes list).cursorValid) ∧
    (s.current ≤ s.active.length →
      (s.schedule processes).2.cursorValid ∧
      ((s.schedule processes).2.active ≠ [] →
        ∃ p, (s.schedule processes).2.active[(s.schedule processes).2.current]? = some p ∧
          (s.schedule processes).1.1 = some p)) ∧
    (∀ list (calls : List (List Process)),
      (calls.foldl (fun t ps => (t.schedule ps).2) (s.setList processes list)).cursorValid) ∧
    (∀ t : Scheduler, t.cursorValid →
      (t.active ≠ [] → t.current < t.active.length ∧ ∃ p, t.pickProcess.1 = some p) ∧
      (t.current = t.active.length → t.active = [])) := by
  have hset : ∀ (u : Scheduler) list, (u.setList processes list).cursorValid := by
    intro u list
    rw [Scheduler.setList_eq]
    unfold Scheduler.cursorValid
    simp only []
    cases h : strategyOrder processes u.strategy list with
    | nil => right; exact ⟨rfl, rfl⟩
    | cons a l => left; simp
  have hsched : ∀ (ps : List Process) (u : Scheduler), u.current ≤ u.active.length →
      (u.schedule ps).2.cursorValid := by
    intro ps u hu
    have h := Scheduler.schedule_shape ps u hu
    unfold Scheduler.cursorValid
    by_cases he : (u.schedule ps).2.active = []
    · right; exact ⟨he, h.2.2 he⟩
    · left; exact h.2.1 he
  have hle : ∀ u : Scheduler, u.cursorValid → u.current ≤ u.active.length := by
    intro u hu
    rcases hu with hu | ⟨_, hu⟩
    · exact Nat.le_of_lt hu
    · rw [hu]; exact Nat.zero_le _
  refine ⟨hset s, ?_, ?_, ?_⟩
  · intro hcur
    refine ⟨hsched processes s hcur, ?_⟩
    intro hne
    have h := Scheduler.schedule_shape processes s hcur
    have hlt := h.2.1 hne
    refine ⟨_, List.getElem?_eq_getElem hlt, ?_⟩
    have h1 := congrArg (fun x => x.1.1) h.1
    simp only [hne, if_false] at h1
    rw [h1, Scheduler.pickProcess_fst, List.getElem?_eq_getElem hlt]
  · intro list calls
    have key : ∀ (calls : List (List Process)) (u : Scheduler), u.cursorValid →
        (calls.foldl (fun t ps => (t.schedule ps).2) u).cursorValid := by
      intro calls
      induction calls with
      | nil => intro u hu; exact hu
      | cons ps calls ih =>
        intro u hu
        exact ih _ (hsched ps u (hle u hu))
    exact key calls _ (hset s list)
  · intro t ht
    constructor
    · intro hne
      rcases ht with ht | ⟨ht, _⟩
      · exact ⟨ht, _, by rw [Scheduler.pickProcess_fst, List.getElem?_eq_getElem ht]⟩
      · exact absurd ht hne
    · intro hc
      rcases ht with ht | ⟨ht, _⟩
      · omega
      · exact ht

theorem cursor_validity_witness :
    ((Scheduler.mk .sjf [0, 1] 1).schedule
      [Process.new [], Process.new [.println 1]]).2.cursorValid ∧
    (((Scheduler.mk .sjf [0, 1] 1).schedule
        [Process.new [], Process.new [.println 1]]).2.active ≠ [] →
      ∃ p, ((Scheduler.mk .sjf [0, 1] 1).schedule
          [Process.new [], Process.new [.println 1]]).2.active[
            ((Scheduler.mk .sjf [0, 1] 1).schedule
              [Process.new [], Process.new [.println 1]]).2.current]? = some p ∧
        ((Scheduler.mk .sjf [0, 1] 1).schedule
          [Process.new [], Process.new [.println 1]]).1.1 = some p) :=
  (cursor_validity [Process.new [], Process.new [.println 1]]
    (Scheduler.mk .sjf [0, 1] 1)).2.1 (by decide)

/-- C35: `schedule` only removes exhausted processes.  For every strategy and
every state, the active list before the call is `pre ++ run ++ rest` with every
process of `run` exhausted, and the list after it is `pre ++ rest`: the list is
the old one with exhausted processes deleted, so the processes that stay keep
their order (the SJF scheduler does not sort again), a process with an
instruction left stays, no process occurs more often than before, and the class
of the scheduler is the same. -/
theorem schedule_only_removes_exhausted (processes : List Process) (s : Scheduler) :
    (∃ pre run rest, s.active = pre ++ run ++ rest ∧
      (∀ q ∈ run, exhausted processes q = true) ∧
      (s.schedule processes).2.active = pre ++ rest) ∧
    List.Sublist (s.schedule processes).2.active s.active ∧
    (∀ q ∈ s.active, hasNextAt processes q = true → q ∈ (s.schedule processes).2.active) ∧
    (∀ q, (s.schedule processes).2.active.count q ≤ s.active.count q) ∧
    (s.active.Nodup → (s.schedule processes).2.active.Nodup) ∧
    (s.schedule processes).2.strategy = s.strategy := by
  have hsplit : s.active = s.active.take s.current ++
      (s.active.drop s.current).takeWhile (exhausted processes) ++
      (s.active.drop s.current).dropWhile (exhausted processes) := by
    rw [List.append_assoc, List.takeWhile_append_dropWhile, List.take_append_drop]
  have hrun : ∀ q ∈ (s.active.drop s.current).takeWhile (exhausted processes),
      exhausted processes q = true := fun q hq => List.mem_takeWhile_imp hq
  have hsub : List.Sublist (s.schedule processes).2.active s.active := by
    rw [Scheduler.schedule_active]
    conv => rhs; rw [← List.take_append_drop s.current s.active]
    exact List.Sublist.append (List.Sublist.refl _) (List.dropWhile_sublist _)
  refine ⟨⟨_, _, _, hsplit, hrun, Scheduler.schedule_active processes s⟩, hsub, ?_,
    fun q => hsub.count_le q, fun h => h.sublist hsub, Scheduler.schedule_strategy processes s⟩
  intro q hq hn
  rw [Scheduler.schedule_active]
  rw [hsplit] at hq
  rcases List.mem_append.1 hq with hq | hq
  · rcases List.mem_append.1 hq with hq | hq
    · exact List.mem_append_left _ hq
    · have := hrun q hq
      unfold exhausted at this
      rw [hn] at this
      cases this
  · exact List.mem_append_right _ hq

/-! ## The accepted range of literals -/

/-- The loop of `parseIntegral` over a string of digits whose value reaches the
maximum: it stops with a result that is not below the maximum, having read a
digit if it started below the maximum. -/
theorem Parser.loop_big (line ds tail : List Char) (st : Parser.IntegralLoop)
    (hd : ds.all isdigit = true) (hv : 2147483647 ≤ Spec.digitsValue ds st.res) :
    ∃ st1, Parser.parseIntegralLoop 2147483647 true line (ds ++ tail) st = .ok st1 ∧
      2147483647 ≤ st1.res ∧ st1.negative = st.negative ∧ st.len ≤ st1.len ∧
      (st.res < 2147483647 → st.len < st1.len) := by
  induction ds generalizing st with
  | nil =>
    have hv1 : ¬ st.res < 2147483647 := by
      simp only [Spec.digitsValue, List.foldl_nil] at hv; omega
    refine ⟨st, ?_, by omega, rfl, Nat.le_refl _, fun h => absurd h hv1⟩
    cases tail with
    | nil => rfl
    | cons c t => simp [Parser.parseIntegralLoop, hv1]
  | cons c ds ih =>
    by_cases hlt : st.res < 2147483647
    · simp only [List.all_cons, Bool.and_eq_true] at hd
      have hc57 := isdigit_toNat hd.1
      have hw : wrapUMax (st.res * 10 + (c.toNat - 48)) = st.res * 10 + (c.toNat - 48) := by
        unfold wrapUMax; omega
      rw [Spec.digitsValue_cons] at hv
      obtain ⟨st1, h1, h2, h3, h4, _⟩ := ih
        { st with res := st.res * 10 + (c.toNat - 48), len := st.len + 1, pos := st.pos + 1 }
        hd.2 hv
      refine ⟨st1, ?_, h2, h3, ?_, fun _ => ?_⟩
      · show Parser.parseIntegralLoop 2147483647 true line (c :: (ds ++ tail)) st = _
        simp only [Parser.parseIntegralLoop, hlt, if_true, isdigit_not_isspace hd.1,
          isdigit_ne_minus hd.1, if_false, hd.1, Bool.not_true, hw, Bool.false_eq_true]
        exact h1
      · simp only [] at h4; omega
      · simp only [] at h4; omega
    · refine ⟨st, ?_, by omega, rfl, Nat.le_refl _, fun h => absurd h hlt⟩
      show Parser.parseIntegralLoop 2147483647 true line (c :: (ds ++ tail)) st = _
      simp [Parser.parseIntegralLoop, hlt]

/-- On a literal whose value is not between `-2147483645` and `2147483646`,
`parseIntegral<int32_t>` throws "Number is too big". -/
theorem Parser.parseInt32_too_big (p : Parser) (tok tail : List Char)
    (hrest : p.rest = tok ++ tail) (hlit : Spec.isLiteral tok = true)
    (hacc : ¬ accepted (Spec.decimalValue tok)) (hend : endsToken tail = true) :
    ∃ pos, p.parseInt32 = .error (.parserException "Number is too big" p.line pos) := by
  unfold Parser.parseInt32 Parser.parseIntegral INT32_MAX
  rw [hrest]
  unfold accepted at hacc
  rcases Spec.isLiteral_cases tok hlit with ⟨hdig, hlen⟩ | ⟨ds, rfl, hdig, hlen⟩
  · have hval := (Spec.isLiteral_of_digits tok hdig hlen).2
    rw [hval] at hacc
    have hv : 2147483647 ≤ Spec.digitsValue tok 0 := by omega
    obtain ⟨st1, h1, h2, h3, _, h5⟩ := Parser.loop_big p.line tok tail
      { res := 0, negative := false, len := 0, pos := p.pos } hdig hv
    rw [h1]
    have h6 : 0 < st1.len := h5 (by show (0 : Nat) < 2147483647; omega)
    have h7 : ¬ st1.res < 2147483647 := by omega
    simp only [] at h3
    refine ⟨st1.pos, ?_⟩
    simp [Parser.require, h3, h6, h7]
  · have hval := (Spec.isLiteral_of_minus ds hdig hlen).2
    rw [hval] at hacc
    simp only [List.cons_append, Parser.parseIntegralLoop, isspace_minus]
    simp only [Nat.ofNat_pos, if_true, Bool.false_eq_true, if_false, ne_eq, not_true_eq_false,
      Bool.not_true, List.append_eq]
    by_cases hv : 2147483647 ≤ Spec.digitsValue ds 0
    · obtain ⟨st1, h1, h2, h3, _, h5⟩ := Parser.loop_big p.line ds tail
        { res := 0, negative := true, len := 0 + 1, pos := p.pos + 1 } hdig hv
      have hb := Parser.loop_res_bound _ _ _ _ h1 (by simp)
      rw [h1]
      have h6 : 1 < st1.len := h5 (by show (0 : Nat) < 2147483647; omega)
      have h7 : ¬ wrapUMax (st1.res + 1) < 2147483647 := by unfold wrapUMax; omega
      simp only [] at h3
      refine ⟨st1.pos, ?_⟩
      simp [Parser.require, h3, h6, h7]
    · rw [Parser.loop_digits _ ds tail _ hdig (by simp only []; omega) hend]
      have h7 : ¬ wrapUMax (Spec.digitsValue ds 0 + 1) < 2147483647 := by
        unfold wrapUMax; omega
      refine ⟨p.pos + 1 + ds.length + (tail.take 1).length, ?_⟩
      simp [Parser.require, hlen, h7]

/-- C37: the accepted literal range.  On a well-formed signed decimal token
(an optional `-`, then digits, leading zeros allowed) followed by a whitespace
or the end of the line, `parseIntegral<int32_t>`, which reads every operand,
returns a value if and only if the value `v` of the token satisfies
`-2147483645 ≤ v ≤ 2147483646`, and the value it returns is `v`; on every such
token with a value outside that interval it throws the parse fault "Number is
too big". -/
theorem accepted_literal_range (p : Parser) (tok tail : List Char)
    (hrest : p.rest = tok ++ tail) (hlit : Spec.isLiteral tok = true)
    (hend : endsToken tail = true) :
    ((∃ v q, p.parseInt32 = .ok (v, q)) ↔
      (-2147483645 ≤ Spec.decimalValue tok ∧ Spec.decimalValue tok ≤ 2147483646)) ∧
    (∀ v q, p.parseInt32 = .ok (v, q) → v = Spec.decimalValue tok) ∧
    (¬ (-2147483645 ≤ Spec.decimalValue tok ∧ Spec.decimalValue tok ≤ 2147483646) →
      ∃ pos, p.parseInt32 = .error (.parserException "Number is too big" p.line pos)) := by
  have hfwd : (-2147483645 ≤ Spec.decimalValue tok ∧ Spec.decimalValue tok ≤ 2147483646) →
      p.parseInt32 = .ok (Spec.decimalValue tok,
        { line := p.line, pos := p.pos + tok.length + (tail.take 1).length }) :=
    fun h => Parser.parseInt32_fwd p tok tail hrest hlit h hend
  have hbig := fun h => Parser.parseInt32_too_big p tok tail hrest hlit h hend
  refine ⟨⟨?_, fun h => ⟨_, _, hfwd h⟩⟩, ?_, hbig⟩
  · rintro ⟨v, q, h⟩
    by_contra hn
    obtain ⟨pos, he⟩ := hbig hn
    rw [he] at h
    cases h
  · intro v q h
    by_cases hacc : -2147483645 ≤ Spec.decimalValue tok ∧ Spec.decimalValue tok ≤ 2147483646
    · rw [hfwd hacc] at h
      injection h with h
      injection h with h _
      exact h.symm
    · obtain ⟨pos, he⟩ := hbig hacc
      rw [he] at h
      cases h

theorem accepted_literal_range_witness :
    (((∃ v q, (Parser.mk "SET R1 -2147483646 ".toList 7).parseInt32 = .ok (v, q)) ↔
      (-2147483645 ≤ Spec.decimalValue "-2147483646".toList ∧
        Spec.decimalValue "-2147483646".toList ≤ 2147483646)) ∧
    (∀ v q, (Parser.mk "SET R1 -2147483646 ".toList 7).parseInt32 = .ok (v, q) →
      v = Spec.decimalValue "-2147483646".toList) ∧
    (¬ (-2147483645 ≤ Spec.decimalValue "-2147483646".toList ∧
        Spec.decimalValue "-2147483646".toList ≤ 2147483646) →
      ∃ pos, (Parser.mk "SET R1 -2147483646 ".toList 7).parseInt32 =
        .error (.parserException "Number is too big" "SET R1 -2147483646 ".toList pos))) ∧
    (Parser.mk "SET R1 -2147483646 ".toList 7).parseInt32 =
      .error (.parserException "Number is too big" "SET R1 -2147483646 ".toList 19) ∧
    (Parser.mk "SET R1 2147483647".toList 7).parseInt32 =
      .error (.parserException "Number is too big" "SET R1 2147483647".toList 17) ∧
    (Parser.mk "SET R1 2147483646".toList 7).parseInt32 =
      .ok (2147483646, Parser.mk "SET R1 2147483646".toList 17) ∧
    (Parser.mk "SET R1 -2147483645".toList 7).parseInt32 =
      .ok (-2147483645, Parser.mk "SET R1 -2147483645".toList 18) :=
  ⟨accepted_literal_range (Parser.mk "SET R1 -2147483646 ".toList 7) "-2147483646".toList
      " ".toList (by decide) (by decide) (by decide),
    by decide, by decide, by decide, by decide⟩

/-! ## A run seen from a later `Process` object on -/

theorem hasNextAt_drop (ps : List Process) (b p : Nat) (h : b ≤ p) :
    hasNextAt (ps.drop b) (p - b) = hasNextAt ps p := by
  unfold hasNextAt
  rw [List.getElem?_drop, show b + (p - b) = p by omega]

theorem Scheduler.eraseLoop_view (ps : List Process) (b : Nat) (l : List Nat) (d : Bool)
    (h : ∀ p ∈ l, b ≤ p) :
    Scheduler.eraseLoop (ps.drop b) (l.map (fun p => p - b)) d =
      ((Scheduler.eraseLoop ps l d).1.map (fun p => p - b), (Scheduler.eraseLoop ps l d).2) := by
  induction l generalizing d with
  | nil => rfl
  | cons p rest ih =>
    have hp := h p (List.mem_cons_self _ _)
    have hr : ∀ q ∈ rest, b ≤ q := fun q hq => h q (List.mem_cons_of_mem _ hq)
    simp only [List.map_cons, Scheduler.eraseLoop, hasNextAt_drop ps b p hp]
    by_cases hn : hasNextAt ps p = true
    · simp [hn]
    · simp only [Bool.not_eq_true] at hn
      simp only [hn, Bool.not_false, if_true]
      exact ih true hr

theorem Scheduler.eraseLoop_sublist (ps : List Process) (l : List Nat) (d : Bool) :
    (Scheduler.eraseLoop ps l d).1.Sublist l := by
  rw [Scheduler.eraseLoop_eq]
  exact List.dropWhile_sublist _

/-- The method `schedule` on the scheduler seen from `b` on. -/
theorem Scheduler.schedule_shifted (ps : List Process) (b : Nat) (st : Strategy) (s : Scheduler)
    (h : ∀ p ∈ s.active, b ≤ p) (hst : st.alike s.strategy) :
    Scheduler.schedule (ps.drop b)
        { strategy := st, active := s.active.map (fun p => p - b),
          current := s.current } =
      (((s.schedule ps).1.1.map (fun p => p - b), (s.schedule ps).1.2),
        { strategy := st,
          active := (s.schedule ps).2.active.map (fun p => p - b),
          current := (s.schedule ps).2.current }) ∧
    (∀ p ∈ (s.schedule ps).2.active, b ≤ p) ∧
    (∀ p, (s.schedule ps).1.1 = some p → b ≤ p) ∧
    st.alike (s.schedule ps).2.strategy := by
  have hd : ∀ p ∈ s.active.drop s.current, b ≤ p :=
    fun p hp => h p (List.mem_of_mem_drop hp)
  have hsub : ∀ p ∈ (s.schedule ps).2.active, b ≤ p := by
    intro p hp
    have : (s.schedule ps).2.active.Sublist s.active := by
      unfold Scheduler.schedule
      simp only []
      split
      · simp only []
        conv => rhs; rw [← List.take_append_drop s.current s.active]
        exact List.Sublist.append (List.Sublist.refl _) (Scheduler.eraseLoop_sublist _ _ _)
      · simp only []
        conv => rhs; rw [← List.take_append_drop s.current s.active]
        exact List.Sublist.append (List.Sublist.refl _) (Scheduler.eraseLoop_sublist _ _ _)
    exact h p (this.subset hp)
  refine ⟨?_, hsub, ?_, by rw [Scheduler.schedule_strategy]; exact hst⟩
  · unfold Scheduler.schedule
    simp only [← List.map_drop, ← List.map_take, Scheduler.eraseLoop_view ps b _ false hd,
      ← List.map_append, List.length_map, List.isEmpty_eq_true, List.map_eq_nil_iff]
    split
    · rfl
    · simp only [Scheduler.pickProcess_eq, hst.1, List.getElem?_map]
  · intro p hp
    have h2 : (s.schedule ps).1.1 = none ∨
        (s.schedule ps).1.1 = (s.schedule ps).2.active[(s.schedule ps).2.current]? := by
      unfold Scheduler.schedule
      simp only []
      split
      · left; rfl
      · right; simp only [Scheduler.pickProcess_fst]
    rcases h2 with h2 | h2
    · rw [h2] at hp; cases hp
    · rw [h2] at hp
      exact hsub p (List.getElem?_mem hp)

theorem System.schedule_view (b o e : Nat) (st : Strategy) (s : System)
    (ha : s.above b o e st) :
    (s.view b o e st).schedule = ((s.schedule).1, (s.schedule).2.view b o e st) ∧
    (s.schedule).2.above b o e st := by
  obtain ⟨hj, hact, ho, he, hst⟩ := ha
  obtain ⟨h1, h2, h3, h4⟩ := Scheduler.schedule_shifted s.processes b st s.scheduler hact hst
  obtain ⟨cpu, ram, sched, procs, out, ex⟩ := s
  obtain ⟨regs, timer, ta, ih, job, awake, level⟩ := cpu
  simp only [] at hj hact ho he h1 h2 h3 h4
  unfold System.schedule
  simp only [System.view]
  rw [h1]
  rcases hsch : sched.schedule procs with ⟨⟨op, q⟩, sch⟩
  rw [hsch] at h2 h3 h4
  simp only [] at h2 h3 h4
  cases op with
  | none =>
    simp only [Option.map_none']
    cases level
    · exact ⟨rfl, hj, h2, ho, he, h4⟩
    · exact ⟨rfl, hj, h2, ho, he, h4⟩
  | some p =>
    simp only [Option.map_some']
    have hp := h3 p rfl
    by_cases hq : q = WITHOUT_TIMER
    · cases level
      · simp only [hq, ne_eq, not_true_eq_false, if_false, CPU.disableTimer, CPU.requireLevel,
          CPU.setJob, ProtectionLevel.toNat, Nat.lt_irrefl]
        refine ⟨rfl, ?_, h2, ho, he, h4⟩
        intro r hr
        cases hr
        exact hp
      · simp only [hq, ne_eq, not_true_eq_false, if_false, CPU.disableTimer, CPU.requireLevel,
          CPU.setJob, ProtectionLevel.toNat]
        exact ⟨rfl, hj, h2, ho, he, h4⟩
    · cases level
      · simp only [hq, ne_eq, not_false_eq_true, if_true, CPU.setTimer, CPU.requireLevel,
          CPU.setJob, ProtectionLevel.toNat, Nat.lt_irrefl, if_false]
        refine ⟨rfl, ?_, h2, ho, he, h4⟩
        intro r hr
        cases hr
        exact hp
      · simp only [hq, ne_eq, not_false_eq_true, if_true, CPU.setTimer, CPU.requireLevel,
          CPU.setJob, ProtectionLevel.toNat]
        exact ⟨rfl, hj, h2, ho, he, h4⟩

theorem System.interrupt_view (b o e : Nat) (st : Strategy) (s : System)
    (ha : s.above b o e st) :
    (s.view b o e st).interrupt = ((s.interrupt).1, (s.interrupt).2.view b o e st) ∧
    (s.interrupt).2.above b o e st := by
  have ha1 : System.above b o e st { s with cpu := { s.cpu with current_level := .RING0 } } := ha
  obtain ⟨h1, h2⟩ := System.schedule_view b o e st _ ha1
  obtain ⟨cpu, ram, sched, procs, out, ex⟩ := s
  obtain ⟨regs, timer, ta, ih, job, awake, level⟩ := cpu
  unfold System.interrupt
  simp only [System.view] at h1 ⊢
  cases ih with
  | false => exact ⟨rfl, ha⟩
  | true =>
    simp only [Bool.not_true, Bool.false_eq_true, if_false]
    rw [h1]
    rcases hs : System.schedule
      { cpu := { registers := regs, timer := timer, timer_active := ta,
                 interrupt_handler := true, job := job, awake := awake,
                 current_level := .RING0 },
        ram := ram, scheduler := sched, processes := procs, out := out, executed := ex }
      with ⟨r, t⟩
    rw [hs] at h2
    cases r with
    | error f => exact ⟨rfl, h2⟩
    | ok u => exact ⟨rfl, h2⟩

theorem System.timerTick_view (b o e : Nat) (st : Strategy) (s : System)
    (ha : s.above b o e st) :
    (s.view b o e st).timerTick = ((s.timerTick).1, (s.timerTick).2.view b o e st) ∧
    (s.timerTick).2.above b o e st := by
  have ha1 : System.above b o e st { s with cpu :=
      { s.cpu with timer := wrap32 (s.cpu.timer - 1), timer_active := false } } := ha
  obtain ⟨h1, h2⟩ := System.interrupt_view b o e st _ ha1
  obtain ⟨cpu, ram, sched, procs, out, ex⟩ := s
  obtain ⟨regs, timer, ta, ih, job, awake, level⟩ := cpu
  unfold System.timerTick
  simp only [System.view] at h1 ⊢
  cases ta with
  | false => exact ⟨rfl, ha⟩
  | true =>
    simp only [if_true]
    by_cases h0 : wrap32 (timer - 1) = 0
    · simp only [h0, if_true]
      rw [h0] at h1 h2
      exact ⟨h1, h2⟩
    · simp only [h0, if_false]
      exact ⟨trivial, ha⟩

/-- An instruction reads nothing of the output written so far and only adds to
it: on a machine with the first `o` lines of the output left out it does the
same, with the same lines left out. -/
theorem Instruction.execute_view (i : Instruction) (m : Machine) (o : Nat)
    (ho : o ≤ m.out.length) :
    i.execute { m with out := m.out.drop o } =
      ((i.execute m).1, { (i.execute m).2 with out := (i.execute m).2.out.drop o }) ∧
    o ≤ (i.execute m).2.out.length := by
  cases i with
  | set reg val => exact ⟨rfl, ho⟩
  | load dest src =>
    simp only [Instruction.execute]
    split
    · exact ⟨rfl, ho⟩
    · exact ⟨rfl, ho⟩
  | store dest src =>
    simp only [Instruction.execute]
    split
    · exact ⟨rfl, ho⟩
    · exact ⟨rfl, ho⟩
  | add dest src =>
    simp only [Instruction.execute, executeArithmetic]
    split
    · exact ⟨rfl, ho⟩
    · split
      · exact ⟨rfl, ho⟩
      · split <;> exact ⟨rfl, ho⟩
  | sub dest src =>
    simp only [Instruction.execute, executeArithmetic]
    split
    · exact ⟨rfl, ho⟩
    · split
      · exact ⟨rfl, ho⟩
      · split <;> exact ⟨rfl, ho⟩
  | mul dest src =>
    simp only [Instruction.execute, executeArithmetic]
    split
    · exact ⟨rfl, ho⟩
    · split
      · exact ⟨rfl, ho⟩
      · split <;> exact ⟨rfl, ho⟩
  | div dest src =>
    simp only [Instruction.execute, executeArithmetic]
    split
    · exact ⟨rfl, ho⟩
    · split
      · exact ⟨rfl, ho⟩
      · split <;> exact ⟨rfl, ho⟩
  | println reg =>
    simp only [Instruction.execute]
    split
    · exact ⟨rfl, ho⟩
    · simp only [List.length_append, List.length_singleton]
      refine ⟨?_, by omega⟩
      rw [List.drop_append_of_le_length ho]

theorem executed_view (b e : Nat) (ex : List (Nat × Instruction)) (j : Nat) (i : Instruction)
    (he : e ≤ ex.length) :
    ((ex ++ [(j, i)]).drop e).map (fun x => (x.1 - b, x.2)) =
      (ex.drop e).map (fun x => (x.1 - b, x.2)) ++ [(j - b, i)] := by
  rw [List.drop_append_of_le_length he, List.map_append]
  rfl

theorem processes_view (b j : Nat) (ps : List Process) (x : Process) (h : b ≤ j) :
    (ps.set j x).drop b = (ps.drop b).set (j - b) x := by
  rw [List.drop_set, if_neg (by omega)]

/-- The body of the loop of `awaken` on the system seen from `b`, `o` and `e`
on: it does what it does on the system itself. -/
theorem System.awakenBody_view (b o e : Nat) (st : Strategy) (s : System)
    (ha : s.above b o e st) :
    (s.view b o e st).awakenBody = (s.awakenBody).map (fun r => (r.1, r.2.view b o e st)) ∧
    (∀ r, s.awakenBody = some r → r.2.above b o e st) := by
  obtain ⟨h1, h2⟩ := System.interrupt_view b o e st s ha
  have htt := System.timerTick_view b o e st
  obtain ⟨cpu, ram, sched, procs, out, ex⟩ := s
  obtain ⟨regs, timer, ta, ih, job, awake, level⟩ := cpu
  obtain ⟨hj, hact, ho, he, hst⟩ := ha
  simp only [] at hj hact ho he hst
  unfold System.awakenBody
  simp only [System.view]
  cases job with
  | none =>
    simp only [Option.map_none', Option.map_some']
    refine ⟨congrArg some h1, ?_⟩
    intro r hr
    cases hr
    exact h2
  | some j =>
    have hbj := hj j rfl
    simp only [Option.map_some', List.getElem?_drop, show b + (j - b) = j by omega]
    cases hpr : procs[j]? with
    | none => exact ⟨rfl, fun r hr => by cases hr⟩
    | some pr =>
      simp only []
      by_cases hn : pr.hasNext = true
      · simp only [hn, Bool.not_true, Bool.false_eq_true, if_false]
        cases hnx : pr.next.1 with
        | none =>
          have : pr.next = (none, pr.next.2) := by rw [← hnx]
          rw [this]
          exact ⟨rfl, fun r hr => by cases hr⟩
        | some i =>
          have : pr.next = (some i, pr.next.2) := by rw [← hnx]
          rw [this]
          simp only [System.machine]
          obtain ⟨hx1, hx2⟩ := Instruction.execute_view i
            { regs := regs, ram := ram, out := out } o ho
          simp only [] at hx1 hx2
          rw [hx1]
          rcases hex : i.execute { regs := regs, ram := ram, out := out } with ⟨r, m⟩
          rw [hex] at hx2
          simp only [] at hx2
          have hab : System.above b o e st
              { cpu := { registers := m.regs, timer := timer, timer_active := ta,
                         interrupt_handler := ih, job := some j, awake := awake,
                         current_level := level },
                ram := m.ram, scheduler := sched, processes := procs.set j pr.next.2,
                out := m.out, executed := ex ++ [(j, i)] } := by
            refine ⟨hj, hact, hx2, ?_, hst⟩
            show e ≤ (ex ++ [(j, i)]).length
            rw [List.length_append]
            omega
          cases r with
          | error f =>
            simp only [Option.map_some', System.setMachine, executed_view b e ex j i he,
              processes_view b j procs pr.next.2 hbj]
            refine ⟨trivial, ?_⟩
            intro r hr
            cases hr
            exact hab
          | ok u =>
            obtain ⟨ht1, ht2⟩ := htt _ hab
            simp only [Option.map_some']
            refine ⟨(congrArg (fun x => some (System.timerTick x)) ?_).trans
              (congrArg some ht1), ?_⟩
            · simp only [System.view, System.setMachine, executed_view b e ex j i he,
                processes_view b j procs pr.next.2 hbj, Option.map_some']
            · intro r hr
              cases hr
              exact ht2
      · simp only [Bool.not_eq_true] at hn
        simp only [hn, Bool.not_false, if_true, Option.map_some']
        refine ⟨congrArg some h1, ?_⟩
        intro r hr
        cases hr
        exact h2

/-- The loop of `awaken` on the system seen from `b`, `o` and `e` on. -/
theorem System.awakenLoop_view (b o e : Nat) (st : Strategy) :
    ∀ (fuel : Nat) (s : System), s.above b o e st →
    System.awakenLoop fuel (s.view b o e st) =
      (System.awakenLoop fuel s).map (fun r => (r.1, r.2.view b o e st)) ∧
    (∀ r, System.awakenLoop fuel s = some r → r.2.above b o e st) := by
  intro fuel
  induction fuel with
  | zero =>
    intro s _
    exact ⟨rfl, fun r hr => by cases hr⟩
  | succ fuel ih =>
    intro s ha
    obtain ⟨h1, h2⟩ := System.awakenBody_view b o e st s ha
    have e1 : (System.view b o e st s).cpu.awake = s.cpu.awake := rfl
    simp only [System.awakenLoop, e1]
    by_cases haw : s.cpu.awake = true
    · simp only [haw, Bool.not_true, Bool.false_eq_true, if_false]
      rw [h1]
      cases hb : s.awakenBody with
      | none => exact ⟨rfl, fun r hr => by cases hr⟩
      | some x =>
        obtain ⟨r, t⟩ := x
        have hab := h2 _ hb
        cases r with
        | error f =>
          simp only [Option.map_some']
          refine ⟨trivial, ?_⟩
          intro r hr
          cases hr
          exact hab
        | ok u =>
          simp only [Option.map_some']
          exact ih t hab
    · simp only [Bool.not_eq_true] at haw
      simp only [haw, Bool.not_false, if_true, Option.map_some']
      refine ⟨trivial, ?_⟩
      intro r hr
      cases hr
      exact ha

/-- The method `awaken` on the system seen from `b`, `o` and `e` on. -/
theorem System.awaken_view (b o e : Nat) (st : Strategy) (fuel : Nat) (s : System)
    (ha : s.above b o e st) :
    System.awaken fuel (s.view b o e st) =
      (System.awaken fuel s).map (fun r => (r.1, r.2.view b o e st)) ∧
    (∀ r, System.awaken fuel s = some r → r.2.above b o e st) := by
  have ha1 : System.above b o e st { s with cpu := { s.cpu with awake := true } } := ha
  obtain ⟨h1, h2⟩ := System.awakenLoop_view b o e st fuel _ ha1
  obtain ⟨cpu, ram, sched, procs, out, ex⟩ := s
  obtain ⟨regs, timer, ta, ih, job, awake, level⟩ := cpu
  unfold System.awaken
  simp only [System.view]
  cases level with
  | RING3 =>
    simp only [CPU.requireLevel, ProtectionLevel.toNat, Nat.lt_one_iff, if_true,
      Option.map_some']
    refine ⟨trivial, ?_⟩
    intro r hr
    cases hr
    exact ha
  | RING0 =>
    simp only [CPU.requireLevel, ProtectionLevel.toNat, Nat.lt_irrefl, if_false]
    refine ⟨?_, ?_⟩
    · refine (congrArg (fun x : Option (Except Fault Unit × System) =>
        match x with
        | none => none
        | some (r, s) => some (r, { s with cpu := s.cpu.restorer })) h1).trans ?_
      cases System.awakenLoop fuel
        { cpu := { registers := regs, timer := timer, timer_active := ta,
                   interrupt_handler := ih, job := job, awake := true,
                   current_level := .RING0 },
          ram := ram, scheduler := sched, processes := procs, out := out, executed := ex } with
      | none => rfl
      | some x => rfl
    · intro r hr
      cases hl : System.awakenLoop fuel
        { cpu := { registers := regs, timer := timer, timer_active := ta,
                   interrupt_handler := ih, job := job, awake := true,
                   current_level := .RING0 },
          ram := ram, scheduler := sched, processes := procs, out := out, executed := ex } with
      | none => rw [hl] at hr; cases hr
      | some x =>
        rw [hl] at hr
        cases hr
        exact h2 x hl

theorem SJFScheduler.length_drop (ps : List Process) (b p : Nat) (h : b ≤ p) :
    SJFScheduler.length (ps.drop b) (p - b) = SJFScheduler.length ps p := by
  unfold SJFScheduler.length
  rw [List.getElem?_drop, show b + (p - b) = p by omega]

/-- The order `setList` leaves a list in, seen from `b` on. -/
theorem strategyOrder_view (ps : List Process) (b : Nat) (st strategy : Strategy)
    (l : List Nat) (h : ∀ p ∈ l, b ≤ p) (hst : st.alike strategy) :
    strategyOrder (ps.drop b) st (l.map (fun p => p - b)) =
      (strategyOrder ps strategy l).map (fun p => p - b) := by
  unfold strategyOrder Scheduler.listChanged
  by_cases hs : strategy = .sjf
  · have hs1 : st = .sjf := hst.2.2 hs
    subst hs
    subst hs1
    simp only []
    symm
    apply List.map_insertionSort
    intro x hx y hy
    simp only [SJFScheduler.compare, SJFScheduler.length_drop ps b x (h x hx),
      SJFScheduler.length_drop ps b y (h y hy)]
  · have hs1 : st ≠ .sjf := fun e => hs (hst.2.1 e)
    cases st with
    | sjf => exact absurd rfl hs1
    | fcfs =>
      cases strategy with
      | sjf => exact absurd rfl hs
      | fcfs => rfl
      | rr q => rfl
    | rr q1 =>
      cases strategy with
      | sjf => exact absurd rfl hs
      | fcfs => rfl
      | rr q => rfl

theorem strategyOrder_above (ps : List Process) (strategy : Strategy) (l : List Nat) (b : Nat)
    (h : ∀ p ∈ l, b ≤ p) : ∀ p ∈ strategyOrder ps strategy l, b ≤ p := by
  intro p hp
  exact h p ((strategyOrder_perm ps strategy l).subset hp)

/-- The method `executePrograms` on the system seen from `b`, `o` and `e` on,
with a scheduler of a like class: it does what it does on the system itself. -/
theorem System.executePrograms_view (b o e : Nat) (st : Strategy) (s : System)
    (hb : b ≤ s.processes.length) (hj : ∀ p, s.cpu.job = some p → b ≤ p)
    (ho : o ≤ s.out.length) (he : e ≤ s.executed.length)
    (hst : st.alike s.scheduler.strategy) (fuel : Nat) (programs : List (List Char)) :
    (s.view b o e st).executePrograms fuel programs =
      (s.executePrograms fuel programs).map (fun r => (r.1, r.2.view b o e st)) := by
  have hsv := System.schedule_view b o e st
  have haw := System.awaken_view b o e st fuel
  obtain ⟨cpu, ram, sched, procs, out, ex⟩ := s
  obtain ⟨regs, timer, ta, ih, job, awake, level⟩ := cpu
  simp only [] at hb hj ho he hst
  unfold System.executePrograms
  cases hmk : System.makeProcesses programs with
  | error f => rfl
  | ok list =>
    simp only [System.view, Scheduler.setList_eq]
    have hptr : ∀ p ∈ (List.range list.length).map (fun i => procs.length + i), b ≤ p := by
      intro p hp
      obtain ⟨i, _, rfl⟩ := List.mem_map.1 hp
      omega
    have e1 : List.drop b procs ++ list = (procs ++ list).drop b :=
      (List.drop_append_of_le_length hb).symm
    have e2 : (List.range list.length).map (fun i => (List.drop b procs).length + i) =
        ((List.range list.length).map (fun i => procs.length + i)).map (fun p => p - b) := by
      rw [List.map_map]
      apply List.map_congr_left
      intro i _
      simp only [List.length_drop, Function.comp]
      omega
    rw [e1, e2, strategyOrder_view (procs ++ list) b st sched.strategy _ hptr hst,
      List.length_map]
    cases level with
    | RING3 => rfl
    | RING0 =>
      simp only [CPU.disableTimer, CPU.setInterruptHandler, CPU.requireLevel,
        ProtectionLevel.toNat, Nat.lt_irrefl, if_false]
      have hab : System.above b o e st
          { cpu := { registers := regs, timer := timer, timer_active := false,
                     interrupt_handler := true, job := job, awake := awake,
                     current_level := .RING0 },
            ram := ram,
            scheduler :=
              { strategy := sched.strategy,
                active := strategyOrder (procs ++ list) sched.strategy
                  ((List.range list.length).map (fun i => procs.length + i)),
                current := (strategyOrder (procs ++ list) sched.strategy
                  ((List.range list.length).map (fun i => procs.length + i))).length - 1 },
            processes := procs ++ list, out := out, executed := ex } :=
        ⟨hj, strategyOrder_above _ _ _ b hptr, ho, he, hst⟩
      obtain ⟨h1, h2⟩ := hsv _ hab
      refine (congrArg (fun x : Except Fault Unit × System =>
        match x with
        | (.error f, s) => some (Except.error f, s)
        | (.ok _, s) =>
          match s.awaken fuel with
          | none => none
          | some (.error f, s) => some (.error f, s)
          | some (.ok _, s) =>
            match s.cpu.setInterruptHandler false with
            | (r, cpu) => some (r, { s with cpu := cpu })) h1).trans ?_
      rcases hs : System.schedule
          { cpu := { registers := regs, timer := timer, timer_active := false,
                     interrupt_handler := true, job := job, awake := awake,
                     current_level := .RING0 },
            ram := ram,
            scheduler :=
              { strategy := sched.strategy,
                active := strategyOrder (procs ++ list) sched.strategy
                  ((List.range list.length).map (fun i => procs.length + i)),
                current := (strategyOrder (procs ++ list) sched.strategy
                  ((List.range list.length).map (fun i => procs.length + i))).length - 1 },
            processes := procs ++ list, out := out, executed := ex } with ⟨r, t⟩
      rw [hs] at h2
      simp only [] at h2
      cases r with
      | error f => rfl
      | ok u =>
        simp only []
        obtain ⟨h3, h4⟩ := haw t h2
        rw [h3]
        cases hw : System.awaken fuel t with
        | none => rfl
        | some x =>
          obtain ⟨r, v⟩ := x
          cases r with
          | error f => rfl
          | ok u =>
            obtain ⟨vcpu, vram, vsched, vprocs, vout, vex⟩ := v
            obtain ⟨vregs, vtimer, vta, vih, vjob, vawake, vlevel⟩ := vcpu
            cases vlevel <;> rfl

/-! ## Round-robin with the quantum 0 -/

theorem System.view_zero (st : Strategy) (s : System) :
    s.view 0 0 0 st = s.withStrategy st := by
  obtain ⟨cpu, ram, sched, procs, out, ex⟩ := s
  obtain ⟨regs, timer, ta, ih, job, awake, level⟩ := cpu
  simp only [System.view, System.withStrategy, Nat.sub_zero, List.map_id', List.drop_zero,
    Option.map_id', Prod.mk.eta]

theorem Strategy.alike_rr_zero : Strategy.alike (.rr 0) .fcfs :=
  ⟨rfl, by constructor <;> intro h <;> cases h⟩

/-- C40: round-robin with the quantum 0 is FCFS.  The quantum 0 is the value
`WITHOUT_TIMER`, so from every state, on every list of programs and for every
bound on the passes of the loop, `executePrograms` with a scheduler made by
`createRRScheduling(0)` returns what it returns with one made by
`createFCFSScheduling()` in the same state, and leaves the same state but for
the class of the scheduler: the same instructions executed, in the same order
and by the same processes, the same output, registers and RAM, the same CPU,
`Process` objects and list of the scheduler.  On a freshly installed OS both
runs end. -/
theorem rr_zero_is_fcfs :
    (Strategy.rr 0).quantum = WITHOUT_TIMER ∧
    (∀ (s : System) (fuel : Nat) (programs : List (List Char)),
      (s.withStrategy (.rr 0)).executePrograms fuel programs =
        ((s.withStrategy .fcfs).executePrograms fuel programs).map
          (fun r => (r.1, r.2.withStrategy (.rr 0)))) ∧
    (∀ (register_count size : Nat) (programs : List (List Char)),
      ∃ fuel0, ∀ fuel, fuel0 ≤ fuel → ∃ x t,
        (System.fresh register_count size .fcfs).executePrograms fuel programs = some (x, t) ∧
        (System.fresh register_count size (.rr 0)).executePrograms fuel programs
          = some (x, t.withStrategy (.rr 0)) ∧
        (t.withStrategy (.rr 0)).executed = t.executed ∧
        (t.withStrategy (.rr 0)).out = t.out ∧
        (t.withStrategy (.rr 0)).cpu = t.cpu ∧ (t.withStrategy (.rr 0)).ram = t.ram) := by
  have key : ∀ (s : System) (fuel : Nat) (programs : List (List Char)),
      (s.withStrategy (.rr 0)).executePrograms fuel programs =
        ((s.withStrategy .fcfs).executePrograms fuel programs).map
          (fun r => (r.1, r.2.withStrategy (.rr 0))) := by
    intro s fuel programs
    have h := System.executePrograms_view 0 0 0 (.rr 0) (s.withStrategy .fcfs)
      (Nat.zero_le _) (fun _ _ => Nat.zero_le _) (Nat.zero_le _) (Nat.zero_le _)
      Strategy.alike_rr_zero fuel programs
    rw [System.view_zero] at h
    rw [show (s.withStrategy .fcfs).withStrategy (.rr 0) = s.withStrategy (.rr 0) from rfl] at h
    rw [h]
    congr 1
    funext r
    rw [System.view_zero]
  refine ⟨rfl, key, ?_⟩
  intro register_count size programs
  have hk := key (System.fresh register_count size .fcfs)
  rw [show (System.fresh register_count size .fcfs).withStrategy (.rr 0)
      = System.fresh register_count size (.rr 0) from rfl,
    show (System.fresh register_count size .fcfs).withStrategy .fcfs
      = System.fresh register_count size .fcfs from rfl] at hk
  cases hmk : System.makeProcesses programs with
  | error f =>
    refine ⟨0, fun fuel _ => ⟨.error f, System.fresh register_count size .fcfs, ?_, ?_,
      rfl, rfl, rfl, rfl⟩⟩
    · unfold System.executePrograms
      rw [hmk]
    · unfold System.executePrograms
      rw [hmk]
      rfl
  | ok list =>
    obtain ⟨fuel0, h0⟩ := System.executePrograms_halts (System.fresh register_count size .fcfs)
      rfl (fun p q h => by cases h) (fun r h => by cases h) programs list hmk
    refine ⟨fuel0, fun fuel hf => ?_⟩
    obtain ⟨x, t, d, h1, _⟩ := h0 fuel hf
    refine ⟨x, t, h1, ?_, rfl, rfl, rfl, rfl⟩
    rw [hk fuel programs, h1]
    rfl

/-! ## Determinism -/

/-- The list and the cursor a scheduler holds when `executePrograms` is called
do not matter: `setList` replaces them. -/
theorem System.executePrograms_reset (s : System) (a : List Nat) (c : Nat) (fuel : Nat)
    (programs : List (List Char)) (list : List Process)
    (hmk : System.makeProcesses programs = .ok list) :
    System.executePrograms fuel
      { s with scheduler := { strategy := s.scheduler.strategy, active := a, current := c } }
      programs = s.executePrograms fuel programs := by
  unfold System.executePrograms
  rw [hmk]
  simp only [Scheduler.setList_eq]

/-- An instruction only adds to the output. -/
theorem Instruction.execute_out (i : Instruction) (m : Machine) :
    ∃ lines, (i.execute m).2.out = m.out ++ lines := by
  cases i with
  | set reg val => exact ⟨[], (List.append_nil _).symm⟩
  | load dest src =>
    simp only [Instruction.execute]
    split
    · exact ⟨[], (List.append_nil _).symm⟩
    · exact ⟨[], (List.append_nil _).symm⟩
  | store dest src =>
    simp only [Instruction.execute]
    split
    · exact ⟨[], (List.append_nil _).symm⟩
    · exact ⟨[], (List.append_nil _).symm⟩
  | add dest src =>
    simp only [Instruction.execute, executeArithmetic]
    split
    · exact ⟨[], (List.append_nil _).symm⟩
    · split
      · exact ⟨[], (List.append_nil _).symm⟩
      · split <;> exact ⟨[], (List.append_nil _).symm⟩
  | sub dest src =>
    simp only [Instruction.execute, executeArithmetic]
    split
    · exact ⟨[], (List.append_nil _).symm⟩
    · split
      · exact ⟨[], (List.append_nil _).symm⟩
      · split <;> exact ⟨[], (List.append_nil _).symm⟩
  | mul dest src =>
    simp only [Instruction.execute, executeArithmetic]
    split
    · exact ⟨[], (List.append_nil _).symm⟩
    · split
      · exact ⟨[], (List.append_nil _).symm⟩
      · split <;> exact ⟨[], (List.append_nil _).symm⟩
  | div dest src =>
    simp only [Instruction.execute, executeArithmetic]
    split
    · exact ⟨[], (List.append_nil _).symm⟩
    · split
      · exact ⟨[], (List.append_nil _).symm⟩
      · split <;> exact ⟨[], (List.append_nil _).symm⟩
  | println reg =>
    simp only [Instruction.execute]
    split
    · exact ⟨[], (List.append_nil _).symm⟩
    · exact ⟨_, rfl⟩

/-- Instructions executed one after the other only add to the output. -/
theorem Spec.replay_out (d : List (Nat × Instruction)) :
    ∀ m : Machine, ∃ lines, (Spec.replay d m).2.1.out = m.out ++ lines := by
  induction d with
  | nil => intro m; exact ⟨[], (List.append_nil _).symm⟩
  | cons x d ih =>
    intro m
    obtain ⟨p, i⟩ := x
    obtain ⟨l1, h1⟩ := Instruction.execute_out i m
    rcases execute_cases i m with ⟨f, m1, he⟩ | ⟨m1, he⟩
    · rw [Spec.replay_cons_fault _ _ _ _ _ _ he]
      rw [he] at h1
      exact ⟨l1, h1⟩
    · rw [Spec.replay_cons_ok _ _ _ _ _ he]
      rw [he] at h1
      obtain ⟨l2, h2⟩ := ih m1
      refine ⟨l1 ++ l2, ?_⟩
      simp only [] at h1 h2 ⊢
      rw [h2, h1, List.append_assoc]

theorem Strategy.alike_refl (st : Strategy) : st.alike st := ⟨rfl, Iff.rfl⟩

/-- A run on a freshly configured CPU and RAM is the run of `System.fresh`:
whatever `Process` objects were made, lines written and instructions executed
before, and whatever list the scheduler held, the run ends with the same
outcome, registers and RAM, and adds to the output what the run of
`System.fresh` writes. -/
theorem System.executePrograms_fresh (s : System) (register_count size : Nat)
    (hcpu : s.cpu = (System.fresh register_count size s.scheduler.strategy).cpu)
    (hram : s.ram = (System.fresh register_count size s.scheduler.strategy).ram)
    (programs : List (List Char)) :
    ∃ fuel0, ∀ fuel, fuel0 ≤ fuel → ∃ x t t0,
      s.executePrograms fuel programs = some (x, t) ∧
      (System.fresh register_count size s.scheduler.strategy).executePrograms fuel programs
        = some (x, t0) ∧
      t.cpu.registers = t0.cpu.registers ∧ t.ram = t0.ram ∧ t.out = s.out ++ t0.out ∧
      (t.executed.drop s.executed.length).map Prod.snd = t0.executed.map Prod.snd := by
  cases hmk : System.makeProcesses programs with
  | error f =>
    refine ⟨0, fun fuel _ => ⟨.error f, s,
      System.fresh register_count size s.scheduler.strategy, ?_, ?_, ?_, hram, ?_, ?_⟩⟩
    · unfold System.executePrograms; rw [hmk]
    · unfold System.executePrograms; rw [hmk]
    · rw [hcpu]
    · exact (List.append_nil _).symm
    · rw [List.drop_length]; rfl
  | ok list =>
    have hjob : s.cpu.job = none := by rw [hcpu]; rfl
    have hlev : s.cpu.current_level = .RING0 := by rw [hcpu]; rfl
    have hview : ∀ o, s.view s.processes.length o s.executed.length s.scheduler.strategy =
        { System.fresh register_count size s.scheduler.strategy with
          scheduler := { strategy := s.scheduler.strategy,
                         active := s.scheduler.active.map (fun p => p - s.processes.length),
                         current := s.scheduler.current },
          out := s.out.drop o } := by
      intro o
      simp only [System.view, hjob, Option.map_none', List.drop_length, List.map_nil, hram]
      rw [← hjob]
      simp only [hcpu, System.fresh]
    have hG := fun o (ho : o ≤ s.out.length) fuel =>
      System.executePrograms_view s.processes.length o s.executed.length s.scheduler.strategy s
        (Nat.le_refl _) (fun p hp => by rw [hjob] at hp; cases hp) ho (Nat.le_refl _)
        (Strategy.alike_refl _) fuel programs
    obtain ⟨fa, ha⟩ := System.executePrograms_halts
      (System.fresh register_count size s.scheduler.strategy)
      rfl (fun p q h => by cases h) (fun r h => by cases h) programs list hmk
    obtain ⟨fb, hb⟩ := System.executePrograms_halts
      (s.view s.processes.length 0 s.executed.length s.scheduler.strategy)
      hlev (fun p q h => by
        have : (s.view s.processes.length 0 s.executed.length s.scheduler.strategy).processes
            = [] := by simp only [System.view, List.drop_length]
        rw [this] at h; cases h)
      (fun r h => by
        have : (s.view s.processes.length 0 s.executed.length s.scheduler.strategy).cpu.job
            = none := by simp only [System.view, hjob, Option.map_none']
        rw [this] at h; cases h) programs list hmk
    refine ⟨max fa fb, fun fuel hf => ?_⟩
    obtain ⟨x, t0, d0, h1, _⟩ := ha fuel (by omega)
    obtain ⟨x', t', d', h2, _, h3, _⟩ := hb fuel (by omega)
    have e1 := hG s.out.length (Nat.le_refl _) fuel
    rw [hview, List.drop_length] at e1
    have e2 : System.executePrograms fuel
        { System.fresh register_count size s.scheduler.strategy with
          scheduler := { strategy := s.scheduler.strategy,
                         active := s.scheduler.active.map (fun p => p - s.processes.length),
                         current := s.scheduler.current },
          out := [] } programs
        = (System.fresh register_count size s.scheduler.strategy).executePrograms fuel
            programs :=
      System.executePrograms_reset (System.fresh register_count size s.scheduler.strategy)
        _ _ fuel programs list hmk
    rw [e2, h1] at e1
    obtain ⟨⟨y, t⟩, hs, hy⟩ := Option.map_eq_some'.1 e1.symm
    simp only [Prod.mk.injEq] at hy
    obtain ⟨rfl, ht0⟩ := hy
    have e3 := hG 0 (Nat.zero_le _) fuel
    rw [h2, hs] at e3
    simp only [Option.map_some', Option.some.injEq, Prod.mk.injEq] at e3
    obtain ⟨rfl, ht'⟩ := e3
    obtain ⟨lines, hl⟩ := Spec.replay_out d'
      (s.view s.processes.length 0 s.executed.length s.scheduler.strategy).machine
    rw [h3] at hl
    have hout : t.out = s.out ++ lines := by
      have a1 : t'.machine.out = t.out := by
        rw [ht']; simp only [System.machine, System.view, List.drop_zero]
      have a2 : (s.view s.processes.length 0 s.executed.length s.scheduler.strategy).machine.out
          = s.out := by simp only [System.machine, System.view, List.drop_zero]
      rw [← a1, ← a2]
      exact hl
    refine ⟨_, t, t0, hs, h1, ?_, ?_, ?_, ?_⟩
    · rw [← ht0]; rfl
    · rw [← ht0]; rfl
    · rw [← ht0]
      show t.out = s.out ++ t.out.drop s.out.length
      rw [hout, List.drop_left]
    · rw [← ht0]
      simp only [System.view, List.map_map]
      rfl

theorem modify_append_length {α : Type} (f : α → α) (l : List α) (x : α) :
    List.modify f l.length (l ++ [x]) = l ++ [f x] := by
  induction l with
  | nil => rfl
  | cons a l ih =>
    show a :: List.modify f l.length (l ++ [x]) = _
    rw [ih]
    rfl

theorem set_append_length {α : Type} (l : List α) (x y : α) :
    (l ++ [x]).set l.length y = l ++ [y] := by
  induction l with
  | nil => rfl
  | cons a l ih =>
    show a :: (l ++ [x]).set l.length y = _
    rw [ih]
    rfl

/-- What `setCPU`, `setRAM` and `installOS` in turn make of a computer that is
not locked: a new CPU with cleared registers and a new cleared RAM, whatever
the computer held before; the OS acts on them and on the scheduler given, and
what a run leaves there is what the computer has afterwards. -/
theorem Computer.configure_spec (w : World) (c : Computer) (register_count size : Nat)
    (alg : Nat) (sch : Scheduler) (hc : c.changes_disabled = false)
    (hn : 0 < register_count) (hm : 0 < size) (hs : w.schedulers[alg]? = some sch) :
    ∃ W C, Computer.configure w c register_count size alg =
        (.ok { cpu := w.cpus.length, scheduler := alg }, W, C) ∧
      W.system { cpu := w.cpus.length, scheduler := alg } =
        some { cpu := (System.fresh register_count size sch.strategy).cpu,
               ram := (System.fresh register_count size sch.strategy).ram,
               scheduler := sch, processes := w.processes, out := w.out,
               executed := w.executed } ∧
      ∀ t : System,
        (W.update { cpu := w.cpus.length, scheduler := alg } t).out = t.out ∧
        (W.update { cpu := w.cpus.length, scheduler := alg } t).registers C
          = some t.cpu.registers ∧
        (W.update { cpu := w.cpus.length, scheduler := alg } t).memory C = some t.ram := by
  have e1 : Memory.new (register_count : Int)
      = .ok { mem := List.replicate register_count 0 } := by
    rw [Memory.new_ok _ (by omega)]; simp
  have e2 : Memory.new (size : Int) = .ok { mem := List.replicate size 0 } := by
    rw [Memory.new_ok _ (by omega)]; simp
  have hcfg : Computer.configure w c register_count size alg =
      (.ok { cpu := w.cpus.length, scheduler := alg },
       { w with
         cpus := w.cpus ++ [{ cpu := (System.fresh register_count size sch.strategy).cpu,
                              ram := some w.rams.length }],
         rams := w.rams ++ [{ mem := List.replicate size 0 }] },
       { changes_disabled := true, cpu := some w.cpus.length, ram := some w.rams.length }) := by
    simp only [Computer.configure, Computer.setCPU, hc, Bool.false_eq_true, if_false, CPU.new,
      e1, e2, Computer.setRAM, Computer.installOS, modify_append_length, CPUObject.setRAM,
      CPU.clearRegisters, Memory.clear, List.map_replicate, System.fresh,
      List.length_append, List.length_singleton]
  refine ⟨_, _, hcfg, ?_, ?_⟩
  · simp only [World.system, getElem?_append_new, hs]
    rfl
  · intro t
    simp only [World.update, World.registers, World.memory, modify_append_length,
      getElem?_append_new, Option.map_some', set_append_length, and_self]

/-- C31: determinism.  Take two computers that are not locked, each in any
world of objects, and give each `register_count` registers with `setCPU`,
`size` cells of RAM with `setRAM` and an OS with `installOS`, with scheduling
algorithms of the same class (and quantum) in any state.  Then
`executePrograms` on the same list of program texts ends on both, with the same
outcome (the same fault if any), adds the same lines to the output, and leaves
the same registers and the same RAM, whatever the computers, the schedulers and
the worlds held before. -/
theorem determinism (w1 w2 : World) (c1 c2 : Computer) (alg1 alg2 : Nat)
    (sch1 sch2 : Scheduler) (register_count size : Nat) (programs : List (List Char))
    (hc1 : c1.changes_disabled = false) (hc2 : c2.changes_disabled = false)
    (hn : 0 < register_count) (hm : 0 < size)
    (hs1 : w1.schedulers[alg1]? = some sch1) (hs2 : w2.schedulers[alg2]? = some sch2)
    (hst : sch1.strategy = sch2.strategy) :
    ∃ os1 W1 C1 os2 W2 C2,
      Computer.configure w1 c1 register_count size alg1 = (.ok os1, W1, C1) ∧
      Computer.configure w2 c2 register_count size alg2 = (.ok os2, W2, C2) ∧
      ∃ fuel0, ∀ fuel, fuel0 ≤ fuel → ∃ x V1 V2 lines regs ram,
        OS.executePrograms fuel W1 os1 programs = some (x, V1) ∧
        OS.executePrograms fuel W2 os2 programs = some (x, V2) ∧
        V1.out = w1.out ++ lines ∧ V2.out = w2.out ++ lines ∧
        V1.registers C1 = some regs ∧ V2.registers C2 = some regs ∧
        V1.memory C1 = some ram ∧ V2.memory C2 = some ram := by
  obtain ⟨W1, C1, ha1, hb1, hd1⟩ :=
    Computer.configure_spec w1 c1 register_count size alg1 sch1 hc1 hn hm hs1
  obtain ⟨W2, C2, ha2, hb2, hd2⟩ :=
    Computer.configure_spec w2 c2 register_count size alg2 sch2 hc2 hn hm hs2
  refine ⟨_, W1, C1, _, W2, C2, ha1, ha2, ?_⟩
  obtain ⟨f1, h1⟩ := System.executePrograms_fresh
    { cpu := (System.fresh register_count size sch1.strategy).cpu,
      ram := (System.fresh register_count size sch1.strategy).ram,
      scheduler := sch1, processes := w1.processes, out := w1.out,
      executed := w1.executed } register_count size rfl rfl programs
  obtain ⟨f2, h2⟩ := System.executePrograms_fresh
    { cpu := (System.fresh register_count size sch2.strategy).cpu,
      ram := (System.fresh register_count size sch2.strategy).ram,
      scheduler := sch2, processes := w2.processes, out := w2.out,
      executed := w2.executed } register_count size rfl rfl programs
  refine ⟨max f1 f2, fun fuel hf => ?_⟩
  obtain ⟨x1, t1, u1, p1, q1, r1, m1, o1, _⟩ := h1 fuel (by omega)
  obtain ⟨x2, t2, u2, p2, q2, r2, m2, o2, _⟩ := h2 fuel (by omega)
  simp only [] at q1 q2 o1 o2
  rw [hst, q2] at q1
  simp only [Option.some.injEq, Prod.mk.injEq] at q1
  obtain ⟨rfl, rfl⟩ := q1
  refine ⟨x2, W1.update { cpu := w1.cpus.length, scheduler := alg1 } t1,
    W2.update { cpu := w2.cpus.length, scheduler := alg2 } t2, u2.out, t1.cpu.registers,
    t1.ram, ?_, ?_, ?_, ?_, (hd1 t1).2.1, ?_, (hd1 t1).2.2, ?_⟩
  · simp only [OS.executePrograms, hb1, p1]
  · simp only [OS.executePrograms, hb2, p2]
  · rw [(hd1 t1).1, o1]
  · rw [(hd2 t2).1, o2]
  · rw [(hd2 t2).2.1, r1, r2]
  · rw [(hd2 t2).2.2, m1, m2]

theorem determinism_witness :
    ∃ os1 W1 C1 os2 W2 C2,
      Computer.configure (World.empty.createScheduling (.rr 1)).2 Computer.new
        (2 : Nat) (1 : Nat) 0 = (.ok os1, W1, C1) ∧
      Computer.configure (Computer.lockedExample.1.createScheduling (.rr 1)).2
        { changes_disabled := false, cpu := some 0, ram := some 0 }
        (2 : Nat) (1 : Nat) 1 = (.ok os2, W2, C2) ∧
      ∃ fuel0, ∀ fuel, fuel0 ≤ fuel → ∃ x V1 V2 lines regs ram,
        OS.executePrograms fuel W1 os1
          ["SET R1 1\nPRINTLN R1".toList, "SET R1 2\nPRINTLN R1".toList] = some (x, V1) ∧
        OS.executePrograms fuel W2 os2
          ["SET R1 1\nPRINTLN R1".toList, "SET R1 2\nPRINTLN R1".toList] = some (x, V2) ∧
        V1.out = (World.empty.createScheduling (.rr 1)).2.out ++ lines ∧
        V2.out = (Computer.lockedExample.1.createScheduling (.rr 1)).2.out ++ lines ∧
        V1.registers C1 = some regs ∧ V2.registers C2 = some regs ∧
        V1.memory C1 = some ram ∧ V2.memory C2 = some ram :=
  determinism (World.empty.createScheduling (.rr 1)).2
    (Computer.lockedExample.1.createScheduling (.rr 1)).2 Computer.new
    { changes_disabled := false, cpu := some 0, ram := some 0 } 0 1
    { strategy := .rr 1, active := [], current := 0 }
    { strategy := .rr 1, active := [], current := 0 } 2 1
    ["SET R1 1\nPRINTLN R1".toList, "SET R1 2\nPRINTLN R1".toList]
    rfl rfl (by decide) (by decide) rfl rfl rfl

/-! ## The levels of the passes of the loop -/

/-- The handler `schedule` touches neither the registers, the RAM, the output,
the `Process` objects nor the record of executed instructions, whether a call
of it throws or not, and leaves the level of the CPU as it is. -/
theorem System.schedule_frame (s : System) :
    (s.schedule).2.machine = s.machine ∧ (s.schedule).2.processes = s.processes ∧
    (s.schedule).2.executed = s.executed ∧
    (s.schedule).2.cpu.current_level = s.cpu.current_level := by
  obtain ⟨cpu, ram, sched, procs, out, ex⟩ := s
  obtain ⟨regs, timer, ta, ih, job, awake, level⟩ := cpu
  unfold System.schedule
  rcases hsch : sched.schedule procs with ⟨⟨op, q⟩, sch⟩
  simp only []
  cases op with
  | none => cases level <;> exact ⟨rfl, rfl, rfl, rfl⟩
  | some p =>
    by_cases hq : q = WITHOUT_TIMER
    · cases level <;>
        simp [hq, CPU.disableTimer, CPU.requireLevel, CPU.setJob, ProtectionLevel.toNat,
          System.machine]
    · cases level <;>
        simp [hq, CPU.setTimer, CPU.requireLevel, CPU.setJob, ProtectionLevel.toNat,
          System.machine]

/-- The method `interrupt` touches neither the registers, the RAM, the output,
the `Process` objects nor the record of executed instructions; when it returns
the CPU is at user level. -/
theorem System.interrupt_frame (s : System) :
    (s.interrupt).2.machine = s.machine ∧ (s.interrupt).2.processes = s.processes ∧
    (s.interrupt).2.executed = s.executed ∧
    ((s.interrupt).1 = .ok () → (s.interrupt).2.cpu.current_level = .RING3) := by
  have h := System.schedule_frame { s with cpu := { s.cpu with current_level := .RING0 } }
  obtain ⟨cpu, ram, sched, procs, out, ex⟩ := s
  obtain ⟨regs, timer, ta, ih, job, awake, level⟩ := cpu
  unfold System.interrupt
  simp only [] at h ⊢
  cases ih with
  | false => exact ⟨rfl, rfl, rfl, fun e => by cases e⟩
  | true =>
    simp only [Bool.not_true, Bool.false_eq_true, if_false]
    rcases hs : System.schedule
      { cpu := { registers := regs, timer := timer, timer_active := ta,
                 interrupt_handler := true, job := job, awake := awake,
                 current_level := .RING0 },
        ram := ram, scheduler := sched, processes := procs, out := out, executed := ex }
      with ⟨r, t⟩
    rw [hs] at h
    cases r with
    | error f => exact ⟨h.1, h.2.1, h.2.2.1, fun e => by cases e⟩
    | ok u => exact ⟨h.1, h.2.1, h.2.2.1, fun _ => rfl⟩

/-- When `schedule` returns no process, every process of the active list was
exhausted. -/
theorem Scheduler.schedule_none (ps : List Process) (s : Scheduler)
    (hc : s.current ≤ s.active.length) (h : (s.schedule ps).1.1 = none) :
    ∀ p ∈ s.active, exhausted ps p = true := by
  obtain ⟨h1, h2, _⟩ := Scheduler.schedule_shape ps s hc
  have he : (s.schedule ps).2.active = [] := by
    by_contra hne
    have h3 := congrArg (fun x => x.1.1) h1
    simp only [hne, if_false] at h3
    rw [h3, Scheduler.pickProcess_fst, List.getElem?_eq_getElem (h2 hne)] at h
    cases h
  rw [Scheduler.schedule_active] at he
  obtain ⟨ha, hb⟩ := List.append_eq_nil.1 he
  have hd : s.active.drop s.current = s.active := by
    rcases List.take_eq_nil_iff.1 ha with h0 | h0
    · rw [h0]; rfl
    · rw [h0]; simp
  rw [hd] at hb
  intro p hp
  have := List.dropWhile_eq_nil_iff.1 hb p hp
  exact this

/-- When `schedule` returns a process, it is a process of the active list. -/
theorem Scheduler.schedule_some (ps : List Process) (s : Scheduler) (p : Nat)
    (h : (s.schedule ps).1.1 = some p) : p ∈ (s.schedule ps).2.active := by
  have h2 : (s.schedule ps).1.1 = none ∨
      (s.schedule ps).1.1 = (s.schedule ps).2.active[(s.schedule ps).2.current]? := by
    unfold Scheduler.schedule
    simp only []
    split
    · left; rfl
    · right; simp only [Scheduler.pickProcess_fst]
  rcases h2 with h2 | h2
  · rw [h2] at h; cases h
  · rw [h2] at h
    exact List.getElem?_mem h

/-- What the handler `schedule` leaves when none of its calls throws: the CPU
asleep with the job it had, every process of the active list having been
exhausted, or the CPU with a job of the active list. -/
theorem System.schedule_rest (s : System)
    (hc : s.scheduler.current ≤ s.scheduler.active.length) (hok : (s.schedule).1 = .ok ()) :
    (s.schedule).2.scheduler.current ≤ (s.schedule).2.scheduler.active.length ∧
    (((s.schedule).2.cpu.awake = false ∧ (s.schedule).2.cpu.job = s.cpu.job ∧
        ∀ p ∈ s.scheduler.active, exhausted s.processes p = true) ∨
     ((s.schedule).2.cpu.awake = s.cpu.awake ∧
        ∃ p, (s.schedule).2.cpu.job = some p ∧ p ∈ (s.schedule).2.scheduler.active)) := by
  have hshape := Scheduler.schedule_shape s.processes s.scheduler hc
  have hnone := Scheduler.schedule_none s.processes s.scheduler hc
  have hsome := Scheduler.schedule_some s.processes s.scheduler
  have hcur : (s.scheduler.schedule s.processes).2.current ≤
      (s.scheduler.schedule s.processes).2.active.length := by
    by_cases he : (s.scheduler.schedule s.processes).2.active = []
    · rw [hshape.2.2 he]; exact Nat.zero_le _
    · exact Nat.le_of_lt (hshape.2.1 he)
  clear hshape
  cases hl : s.cpu.current_level with
  | RING3 =>
    exfalso
    obtain ⟨cpu, ram, sched, procs, out, ex⟩ := s
    obtain ⟨regs, timer, ta, ih, job, awake, level⟩ := cpu
    simp only [] at hl
    subst hl
    unfold System.schedule at hok
    rcases hsch : sched.schedule procs with ⟨⟨op, q⟩, sch⟩
    rw [hsch] at hok
    simp only [] at hok
    cases op with
    | none => simp [CPU.sleep, CPU.requireLevel, ProtectionLevel.toNat] at hok
    | some p =>
      by_cases hq : q = WITHOUT_TIMER
      · simp [hq, CPU.disableTimer, CPU.requireLevel, ProtectionLevel.toNat] at hok
      · simp [hq, CPU.setTimer, CPU.requireLevel, ProtectionLevel.toNat] at hok
  | RING0 =>
    rw [System.schedule_eq s hl]
    unfold System.scheduled
    rcases hsch : s.scheduler.schedule s.processes with ⟨⟨op, q⟩, sch⟩
    rw [hsch] at hnone hsome hcur
    cases op with
    | none => exact ⟨hcur, Or.inl ⟨rfl, rfl, hnone rfl⟩⟩
    | some p => exact ⟨hcur, Or.inr ⟨rfl, p, rfl, hsome p rfl⟩⟩

/-- What `interrupt` leaves when it returns: as the handler `schedule`. -/
theorem System.interrupt_rest (s : System)
    (hc : s.scheduler.current ≤ s.scheduler.active.length)
    (hok : (s.interrupt).1 = .ok ()) :
    (s.interrupt).2.scheduler.current ≤ (s.interrupt).2.scheduler.active.length ∧
    (((s.interrupt).2.cpu.awake = false ∧ (s.interrupt).2.cpu.job = s.cpu.job ∧
        ∀ p ∈ s.scheduler.active, exhausted s.processes p = true) ∨
     ((s.interrupt).2.cpu.awake = s.cpu.awake ∧
        ∃ p, (s.interrupt).2.cpu.job = some p ∧ p ∈ (s.interrupt).2.scheduler.active)) := by
  have h := System.schedule_rest { s with cpu := { s.cpu with current_level := .RING0 } } hc
  obtain ⟨cpu, ram, sched, procs, out, ex⟩ := s
  obtain ⟨regs, timer, ta, ih, job, awake, level⟩ := cpu
  unfold System.interrupt at hok ⊢
  simp only [] at h hok ⊢
  cases ih with
  | false => simp at hok
  | true =>
    simp only [Bool.not_true, Bool.false_eq_true, if_false] at hok ⊢
    rcases hs : System.schedule
      { cpu := { registers := regs, timer := timer, timer_active := ta,
                 interrupt_handler := true, job := job, awake := awake,
                 current_level := .RING0 },
        ram := ram, scheduler := sched, processes := procs, out := out, executed := ex }
      with ⟨r, t⟩
    rw [hs] at h hok
    cases r with
    | error f => simp at hok
    | ok u => exact h rfl

/-- A pass of the loop of `awaken` that goes on to the head of the loop: if the
CPU is still awake the timer times a job of the active list again, and if it is
asleep its job has no instruction left. -/
theorem System.awakenBody_rest (s t : System) (haw : s.cpu.awake = true) (hI : s.timed)
    (h : s.awakenBody = some (.ok (), t)) :
    (t.cpu.awake = true → t.timed) ∧ (t.cpu.awake = false → t.rested) := by
  obtain ⟨hc, htm⟩ := hI
  -- what an interrupt in the state `u` gives
  have key : ∀ u : System, u.cpu.awake = true →
      u.scheduler.current ≤ u.scheduler.active.length →
      u.interrupt = (.ok (), t) →
      ((∀ p ∈ u.scheduler.active, exhausted u.processes p = true) → u.rested) →
      (t.cpu.awake = true → t.timed) ∧ (t.cpu.awake = false → t.rested) := by
    intro u hua huc hu hur
    have hr := System.interrupt_rest u huc (by rw [hu])
    have hf := System.interrupt_frame u
    rw [hu] at hr hf
    simp only [] at hr hf
    obtain ⟨hr1, hr2⟩ := hr
    rcases hr2 with ⟨a1, a2, a3⟩ | ⟨a1, p, a2, a3⟩
    · refine ⟨fun e => ?_, fun _ => ?_⟩
      · rw [a1] at e; cases e
      · intro r hr
        rw [a2] at hr
        obtain ⟨pr, hp1, hp2⟩ := hur a3 r hr
        exact ⟨pr, by rw [hf.2.1]; exact hp1, hp2⟩
    · refine ⟨fun _ => ⟨hr1, fun _ => ⟨p, a2, a3⟩⟩, fun e => ?_⟩
      rw [a1, hua] at e
      cases e
  unfold System.awakenBody at h
  cases hjob : s.cpu.job with
  | none =>
    rw [hjob] at h
    simp only [Option.some.injEq] at h
    refine key s haw hc h (fun _ r hr => ?_)
    rw [hjob] at hr
    cases hr
  | some j =>
    rw [hjob] at h
    simp only [] at h
    cases hpr : s.processes[j]? with
    | none => rw [hpr] at h; cases h
    | some pr =>
      rw [hpr] at h
      simp only [] at h
      by_cases hn : pr.hasNext = true
      · simp only [hn, Bool.not_true, Bool.false_eq_true, if_false] at h
        cases hnx : pr.next.1 with
        | none =>
          have : pr.next = (none, pr.next.2) := by rw [← hnx]
          rw [this] at h
          cases h
        | some i =>
          have : pr.next = (some i, pr.next.2) := by rw [← hnx]
          rw [this] at h
          simp only [] at h
          rcases hex : i.execute (System.machine
            { s with processes := s.processes.set j pr.next.2,
                     executed := s.executed ++ [(j, i)] }) with ⟨x, m⟩
          rw [hex] at h
          cases x with
          | error f => simp at h
          | ok v =>
            simp only [Option.some.injEq] at h
            unfold System.timerTick at h
            have hjl : j < s.processes.length := lt_of_getElem? _ _ _ hpr
            by_cases hta : s.cpu.timer_active = true
            · obtain ⟨r, hr1, hr2⟩ := htm hta
              rw [hjob] at hr1
              cases hr1
              have e1 : (System.setMachine
                { s with processes := s.processes.set j pr.next.2,
                         executed := s.executed ++ [(j, i)] } m).cpu.timer_active = true := hta
              rw [if_pos e1] at h
              simp only [] at h
              split at h
              · refine key _ (by exact haw) (by exact hc) h (fun hall r hr => ?_)
                have hr0 : s.cpu.job = some r := hr
                rw [hjob] at hr0
                cases hr0
                have hx := hall j hr2
                refine ⟨pr.next.2, ?_, ?_⟩
                · show (s.processes.set j pr.next.2)[j]? = _
                  rw [List.getElem?_set_self hjl]
                · have hx1 : exhausted (s.processes.set j pr.next.2) j = true := hx
                  unfold exhausted hasNextAt at hx1
                  rw [List.getElem?_set_self hjl] at hx1
                  simpa using hx1
              · simp only [Prod.mk.injEq, true_and] at h
                subst h
                exact ⟨fun _ => ⟨hc, fun _ => ⟨j, hjob, hr2⟩⟩, fun e => by
                  have e2 : s.cpu.awake = false := e
                  rw [haw] at e2; cases e2⟩
            · simp only [Bool.not_eq_true] at hta
              have e1 : (System.setMachine
                { s with processes := s.processes.set j pr.next.2,
                         executed := s.executed ++ [(j, i)] } m).cpu.timer_active = false := hta
              rw [e1] at h
              simp only [Bool.false_eq_true, if_false, Prod.mk.injEq, true_and] at h
              subst h
              exact ⟨fun _ => ⟨hc, fun e => by rw [e1] at e; cases e⟩, fun e => by
                have e2 : s.cpu.awake = false := e
                rw [haw] at e2; cases e2⟩
      · simp only [Bool.not_eq_true] at hn
        simp only [hn, Bool.not_false, if_true, Option.some.injEq] at h
        refine key s haw hc h (fun _ r hr => ?_)
        rw [hjob] at hr
        cases hr
        exact ⟨pr, hpr, hn⟩

/-- When the loop of `awaken`, entered with the CPU awake, ends without a fault,
the job of the CPU has no instruction left. -/
theorem System.awakenLoop_rest : ∀ (fuel : Nat) (s t : System), s.cpu.awake = true →
    s.timed → System.awakenLoop fuel s = some (.ok (), t) → t.rested := by
  intro fuel
  induction fuel with
  | zero => intro s t _ _ h; cases h
  | succ fuel ih =>
    intro s t haw hI h
    simp only [System.awakenLoop, haw, Bool.not_true, Bool.false_eq_true, if_false] at h
    cases hb : s.awakenBody with
    | none => rw [hb] at h; cases h
    | some y =>
      obtain ⟨r, u⟩ := y
      rw [hb] at h
      cases r with
      | error f => simp at h
      | ok v =>
        simp only [] at h
        obtain ⟨h1, h2⟩ := System.awakenBody_rest s u haw hI hb
        by_cases hu : u.cpu.awake = true
        · exact ih u t hu (h1 hu) h
        · simp only [Bool.not_eq_true] at hu
          cases fuel with
          | zero => cases h
          | succ fuel =>
            simp only [System.awakenLoop, hu, Bool.not_false, if_true, Option.some.injEq,
              Prod.mk.injEq, true_and] at h
            subst h
            exact h2 hu

theorem System.started_timed (s : System) (list : List Process) :
    (s.started list).timed ∧ (s.started list).cpu.awake = true := by
  refine ⟨?_, rfl⟩
  have hc0 : (s.loaded list).scheduler.current ≤ (s.loaded list).scheduler.active.length := by
    show (Scheduler.setList _ _ _).current ≤ (Scheduler.setList _ _ _).active.length
    rw [Scheduler.setList_eq]
    exact Nat.sub_le _ _
  have hshape := Scheduler.schedule_shape (s.loaded list).processes (s.loaded list).scheduler hc0
  have hsome := Scheduler.schedule_some (s.loaded list).processes (s.loaded list).scheduler
  have hcur : ((s.loaded list).scheduler.schedule (s.loaded list).processes).2.current ≤
      ((s.loaded list).scheduler.schedule (s.loaded list).processes).2.active.length := by
    by_cases he : ((s.loaded list).scheduler.schedule (s.loaded list).processes).2.active = []
    · rw [hshape.2.2 he]; exact Nat.zero_le _
    · exact Nat.le_of_lt (hshape.2.1 he)
  clear hshape
  unfold System.started System.scheduled System.timed
  rcases hsch : (s.loaded list).scheduler.schedule (s.loaded list).processes with ⟨⟨op, q⟩, sch⟩
  rw [hsch] at hsome hcur
  cases op with
  | none => exact ⟨hcur, fun e => by cases e⟩
  | some p => exact ⟨hcur, fun _ => ⟨p, rfl, hsome p rfl⟩⟩

/-- A call of `executePrograms` that returns without a fault leaves the CPU at
supervisor level with no job or a job with no instruction left. -/
theorem System.executePrograms_rested (s : System) (hl : s.cpu.current_level = .RING0)
    (fuel : Nat) (programs : List (List Char)) (t : System)
    (h : s.executePrograms fuel programs = some (.ok (), t)) :
    t.rested ∧ t.cpu.current_level = .RING0 := by
  cases hmk : System.makeProcesses programs with
  | error f =>
    unfold System.executePrograms at h
    rw [hmk] at h
    simp at h
  | ok list =>
    rw [System.executePrograms_eq fuel s hl programs list hmk] at h
    cases hloop : System.awakenLoop fuel (s.started list) with
    | none => rw [hloop] at h; cases h
    | some y =>
      obtain ⟨r, u⟩ := y
      rw [hloop] at h
      cases r with
      | error f => simp at h
      | ok v =>
        simp only [Option.some.injEq, Prod.mk.injEq, true_and] at h
        subst h
        obtain ⟨h1, h2⟩ := System.started_timed s list
        have hr := System.awakenLoop_rest fuel _ u h2 h1 hloop
        exact ⟨hr, rfl⟩

theorem strategyOrder_nil (ps : List Process) (st : Strategy) : strategyOrder ps st [] = [] := by
  cases st <;> rfl

/-- The method `executePrograms` on no program, called at supervisor level on a
CPU with no job or a job with no instruction left: it returns, the handler
having found nothing to run, and nothing is executed. -/
theorem System.executePrograms_nil (s : System) (hl : s.cpu.current_level = .RING0)
    (hr : s.rested) (fuel : Nat) :
    s.executePrograms (fuel + 2) [] =
      some (.ok (),
        { s with
          cpu := { s.cpu with timer_active := false, interrupt_handler := false,
                              awake := false },
          scheduler := { strategy := s.scheduler.strategy, active := [], current := 0 } }) := by
  rw [System.executePrograms_eq (fuel + 2) s hl [] [] rfl]
  obtain ⟨cpu, ram, sched, procs, out, ex⟩ := s
  obtain ⟨regs, timer, ta, ih, job, awake, level⟩ := cpu
  simp only [] at hl
  subst hl
  have hst : System.started
      { cpu := { registers := regs, timer := timer, timer_active := ta,
                 interrupt_handler := ih, job := job, awake := awake,
                 current_level := .RING0 },
        ram := ram, scheduler := sched, processes := procs, out := out, executed := ex } [] =
      { cpu := { registers := regs, timer := timer, timer_active := false,
                 interrupt_handler := true, job := job, awake := true,
                 current_level := .RING0 },
        ram := ram, scheduler := { strategy := sched.strategy, active := [], current := 0 },
        processes := procs, out := out, executed := ex } := by
    simp [System.started, System.loaded, System.scheduled, Scheduler.setList_eq,
      strategyOrder_nil, Scheduler.schedule, Scheduler.eraseLoop]
  rw [hst]
  have hbody : System.awakenBody
      { cpu := { registers := regs, timer := timer, timer_active := false,
                 interrupt_handler := true, job := job, awake := true,
                 current_level := .RING0 },
        ram := ram, scheduler := { strategy := sched.strategy, active := [], current := 0 },
        processes := procs, out := out, executed := ex } =
      some (.ok (),
        { cpu := { registers := regs, timer := timer, timer_active := false,
                   interrupt_handler := true, job := job, awake := false,
                   current_level := .RING3 },
          ram := ram, scheduler := { strategy := sched.strategy, active := [], current := 0 },
          processes := procs, out := out, executed := ex }) := by
    have hint : System.interrupt
        { cpu := { registers := regs, timer := timer, timer_active := false,
                   interrupt_handler := true, job := job, awake := true,
                   current_level := .RING0 },
          ram := ram, scheduler := { strategy := sched.strategy, active := [], current := 0 },
          processes := procs, out := out, executed := ex } =
        (.ok (),
          { cpu := { registers := regs, timer := timer, timer_active := false,
                     interrupt_handler := true, job := job, awake := false,
                     current_level := .RING3 },
            ram := ram, scheduler := { strategy := sched.strategy, active := [], current := 0 },
            processes := procs, out := out, executed := ex }) := by
      simp [System.interrupt, System.schedule, Scheduler.schedule, Scheduler.eraseLoop,
        CPU.sleep, CPU.requireLevel, ProtectionLevel.toNat]
    unfold System.awakenBody
    cases job with
    | none => simp only []; rw [hint]
    | some r =>
      obtain ⟨pr, hp1, hp2⟩ := hr r rfl
      simp only [] at hp1 ⊢
      rw [hp1]
      simp only [hp2, Bool.not_false, if_true]
      rw [hint]
  simp only [System.awakenLoop, Bool.not_true, Bool.false_eq_true, if_false, hbody,
    Bool.not_false, if_true, CPU.restorer]

/-- An empty run executes nothing when the CPU has no live job.
Called at supervisor level on a CPU with no job or a job with no instruction
left, `executePrograms` with no program returns without a fault, executes no
instruction, writes nothing and leaves the registers, the RAM and the `Process`
objects as they were.  The CPU is in such a state on a freshly installed OS,
after every call of `executePrograms` that returned without a fault, and after
a call that a compilation fault ended, which leaves the state it found. -/
theorem empty_run (s : System) (hl : s.cpu.current_level = .RING0) :
    (s.rested → ∀ fuel, ∃ t, s.executePrograms (fuel + 2) [] = some (.ok (), t) ∧
      t.executed = s.executed ∧ t.out = s.out ∧ t.cpu.registers = s.cpu.registers ∧
      t.ram = s.ram ∧ t.processes = s.processes ∧
      t.rested ∧ t.cpu.current_level = .RING0) ∧
    (∀ fuel programs t, s.executePrograms fuel programs = some (.ok (), t) →
      t.rested ∧ t.cpu.current_level = .RING0) ∧
    (∀ fuel programs f, System.makeProcesses programs = .error f →
      s.executePrograms fuel programs = some (.error f, s)) ∧
    (∀ (register_count size : Nat) (strategy : Strategy),
      (System.fresh register_count size strategy).rested ∧
      (System.fresh register_count size strategy).cpu.current_level = .RING0) := by
  refine ⟨fun hr fuel => ?_, fun fuel programs t h =>
    System.executePrograms_rested s hl fuel programs t h, fun fuel programs f hmk => ?_,
    fun n m st => ⟨fun r h => (by cases h), rfl⟩⟩
  · refine ⟨_, System.executePrograms_nil s hl hr fuel, rfl, rfl, rfl, rfl, rfl, hr, hl⟩
  · unfold System.executePrograms
    rw [hmk]

theorem empty_run_witness :
    (∃ u, (System.fresh 2 1 .fcfs).executePrograms 2 [] = some (.ok (), u) ∧
      u.executed = (System.fresh 2 1 .fcfs).executed ∧ u.out = (System.fresh 2 1 .fcfs).out ∧
      u.cpu.registers = (System.fresh 2 1 .fcfs).cpu.registers ∧
      u.ram = (System.fresh 2 1 .fcfs).ram ∧
      u.processes = (System.fresh 2 1 .fcfs).processes ∧
      u.rested ∧ u.cpu.current_level = .RING0) ∧
    (∃ t, (System.fresh 2 1 (.rr 1)).executePrograms 20
        ["SET R1 1\nPRINTLN R1".toList, "SET R1 2\nPRINTLN R1".toList] = some (.ok (), t) ∧
      t.rested ∧ t.cpu.current_level = .RING0) :=
  ⟨(empty_run (System.fresh 2 1 .fcfs) rfl).1 (fun r h => (by cases h)) 0,
    (((System.fresh 2 1 (.rr 1)).executePrograms 20
      ["SET R1 1\nPRINTLN R1".toList, "SET R1 2\nPRINTLN R1".toList]).get (by decide)).2,
    by decide,
    (empty_run (System.fresh 2 1 (.rr 1)) rfl).2.1 20
      ["SET R1 1\nPRINTLN R1".toList, "SET R1 2\nPRINTLN R1".toList] _ (by decide)⟩

/-- C38, the code at the failing input: on a freshly installed OS the program
`SET R1 5`, `DIV R1 R2`, `PRINTLN R1` is run and the division by zero ends the
run; the CPU keeps the faulting job, and `executePrograms` with no program,
called next, executes the instruction left in it, `PRINTLN R1`, and writes 5,
where an empty run is to execute nothing and write nothing. -/
theorem empty_run_after_fault :
    (World.installed .fcfs 2 1).1 = .ok { cpu := 0, scheduler := 0 } ∧
    (OS.executePrograms 10 (World.installed .fcfs 2 1).2.1 { cpu := 0, scheduler := 0 }
      ["SET R1 5\nDIV R1 R2\nPRINTLN R1".toList]).map (fun r => (r.1, r.2.out, r.2.executed))
      = some (.error .divisionByZero, [], [(0, .set 1 5), (0, .div 1 2)]) ∧
    ((OS.executePrograms 10 (World.installed .fcfs 2 1).2.1 { cpu := 0, scheduler := 0 }
      ["SET R1 5\nDIV R1 R2\nPRINTLN R1".toList]).bind
        (fun r => OS.executePrograms 10 r.2 { cpu := 0, scheduler := 0 } [])).map
      (fun r => (r.1, r.2.out, r.2.executed))
      = some (.ok (), [5], [(0, .set 1 5), (0, .div 1 2), (0, .println 1)]) :=
  ⟨by decide, by decide, by decide⟩

/-- What an OS acts on after a run is what the run left: the next call of
`executePrograms` of the OS starts from the registers, the RAM, the job and the
`Process` objects of the state the run left. -/
theorem World.system_update (w : World) (os : OS) (s t : System)
    (h : w.system os = some s) : (w.update os t).system os = some t := by
  unfold World.system at h ⊢
  cases ho : w.cpus[os.cpu]? with
  | none => rw [ho] at h; cases h
  | some object =>
    rw [ho] at h
    simp only [] at h
    cases hr : object.ram with
    | none => rw [hr] at h; cases h
    | some r =>
      rw [hr] at h
      simp only [] at h
      cases hm : w.rams[r]? with
      | none => rw [hm] at h; cases h
      | some memory =>
        cases hs : w.schedulers[os.scheduler]? with
        | none => rw [hm, hs] at h; cases h
        | some scheduler =>
          have h1 : (w.update os t).cpus[os.cpu]? = some { object with cpu := t.cpu } := by
            simp only [World.update, List.getElem?_modify_eq, ho, Option.map_eq_map,
              Option.map_some']
          have h2 : (w.update os t).rams[r]? = some t.ram := by
            simp only [World.update, ho, hr]
            exact List.getElem?_set_self (lt_of_getElem? _ _ _ hm)
          have h3 : (w.update os t).schedulers[os.scheduler]? = some t.scheduler := by
            simp only [World.update]
            exact List.getElem?_set_self (lt_of_getElem? _ _ _ hs)
          rw [h1]
          simp only [hr, h2, h3]
          rfl

/-- C39: no register is saved or restored on a context switch.  The handler
and `interrupt`, which change the job, touch neither the registers nor the RAM
nor the output.  So a run executes its instructions, whichever process each
belongs to, one after the other on one machine: the record `d` of the run,
replayed from the machine the run found, gives the outcome and the machine the
run leaves, each instruction acting on what the one before it left.  What a
run leaves is what the next call of `executePrograms` of the OS finds.  Under
round-robin with quantum 1 the programs `SET R1 1`, `PRINTLN R1` and
`SET R1 2`, `PRINTLN R1` write 2 and 2. -/
theorem no_context_save (s : System) (hl : s.cpu.current_level = .RING0)
    (hpv : pointersValid s.processes) (hr : s.rested)
    (programs : List (List Char)) (list : List Process)
    (hmk : System.makeProcesses programs = .ok list) :
    (∀ u : System, (u.interrupt).2.machine = u.machine ∧ (u.schedule).2.machine = u.machine) ∧
    (∃ fuel0, ∀ fuel, fuel0 ≤ fuel → ∃ x t d,
      s.executePrograms fuel programs = some (x, t) ∧ t.executed = s.executed ++ d ∧
      Spec.replay d s.machine = (x, t.machine, d)) ∧
    (∀ (w : World) (os : OS) (t : System) (fuel : Nat) (next : List (List Char)),
      w.system os = some s →
      (w.update os t).system os = some t ∧
      OS.executePrograms fuel (w.update os t) os next =
        (t.executePrograms fuel next).map (fun r => (r.1, (w.update os t).update os r.2))) ∧
    ((System.fresh 1 1 (.rr 1)).executePrograms 20
        ["SET R1 1\nPRINTLN R1".toList, "SET R1 2\nPRINTLN R1".toList]).map
      (fun r => (r.1, r.2.out, r.2.executed)) =
      some (.ok (), [2, 2],
        [(0, .set 1 1), (1, .set 1 2), (0, .println 1), (1, .println 1)]) := by
  refine ⟨fun u => ⟨(System.interrupt_frame u).1, (System.schedule_frame u).1⟩, ?_, ?_,
    by decide⟩
  · obtain ⟨fuel0, h⟩ := System.executePrograms_halts s hl hpv hr programs list hmk
    refine ⟨fuel0, fun fuel hf => ?_⟩
    obtain ⟨x, t, d, h1, h2, h3, _⟩ := h fuel hf
    exact ⟨x, t, d, h1, h2, h3⟩
  · intro w os t fuel next hw
    have hu := World.system_update w os s t hw
    refine ⟨hu, ?_⟩
    unfold OS.executePrograms
    rw [hu]
    simp only []
    cases hx : t.executePrograms fuel next with
    | none => rfl
    | some r => rfl

theorem no_context_save_witness :
    (∃ fuel0, ∀ fuel, fuel0 ≤ fuel → ∃ x t d,
      (System.fresh 1 1 (.rr 1)).executePrograms fuel
        ["SET R1 1\nPRINTLN R1".toList, "SET R1 2\nPRINTLN R1".toList] = some (x, t) ∧
      t.executed = (System.fresh 1 1 (.rr 1)).executed ++ d ∧
      Spec.replay d (System.fresh 1 1 (.rr 1)).machine = (x, t.machine, d)) ∧
    ((System.fresh 1 1 .fcfs).executePrograms 20 ["SET R1 7".toList]).bind
      (fun r => (r.2.executePrograms 20 ["PRINTLN R1".toList]).map
        (fun q => (r.1, q.1, q.2.out))) = some (.ok (), .ok (), [7]) :=
  ⟨(no_context_save (System.fresh 1 1 (.rr 1)) rfl (fun p q h => (by cases h))
      (fun r h => (by cases h))
      ["SET R1 1\nPRINTLN R1".toList, "SET R1 2\nPRINTLN R1".toList]
      [Process.new [.set 1 1, .println 1], Process.new [.set 1 2, .println 1]]
      (by decide)).2.1,
    by decide⟩

/-! ## A fault ends the run, from every state -/

/-- The loop on an awake CPU whose scheduler has nothing to run and whose timer
is off, the CPU still holding a job with `n` instructions left: the job runs
them, then one interrupt puts the CPU to sleep. -/
theorem System.runs_stale : ∀ (n : Nat) (u : System) (r : Nat) (pr : Process),
    u.cpu.awake = true → u.cpu.interrupt_handler = true → u.scheduler.active = [] →
    u.scheduler.current = 0 → u.cpu.timer_active = false →
    u.cpu.job = some r → u.processes[r]? = some pr →
    pr.instruction_pointer + n = pr.text.length → u.halts := by
  intro n
  induction n with
  | zero =>
    intro u r pr haw hh hact hcur _ hjob hpr hn
    have hno : pr.hasNext = false := by
      simp only [Process.hasNext, decide_eq_false_iff_not, not_not]
      omega
    refine ⟨[], rfl, System.runs_empty u haw hh hact hcur (fun r2 h2 => ?_)⟩
    rw [hjob] at h2
    cases h2
    exact ⟨pr, hpr, hno⟩
  | succ n ih =>
    intro u r pr haw hh hact hcur hta hjob hpr hn
    have hlt : pr.instruction_pointer < pr.text.length := by omega
    rcases execute_cases (pr.text.get ⟨pr.instruction_pointer, hlt⟩) u.machine with
      ⟨f, m1, he⟩ | ⟨m1, he⟩
    · refine ⟨[(r, pr.text.get ⟨pr.instruction_pointer, hlt⟩)], ?_, ?_⟩
      · rw [Spec.replay_cons_fault _ _ _ _ _ _ he]
      · rw [Spec.replay_cons_fault _ _ _ _ _ _ he]
        exact System.step_fault u r pr m1 f haw hjob hpr hlt he
    · obtain ⟨v, hb, v1, v2, v3, v4, v5, _, v7, v8, v9⟩ :=
        System.step_ok u r pr m1 hjob hpr hlt he (fun h => by rw [hta] at h; cases h)
      have hrl : r < u.processes.length := lt_of_getElem? _ _ _ hpr
      have hpr2 : v.processes[r]? = some pr.next.2 := by
        rw [v9]
        exact List.getElem?_set_self hrl
      obtain ⟨d, hd, hruns⟩ := ih v r pr.next.2 (v2.trans haw) (v3.trans hh)
        (by rw [v1]; exact hact) (by rw [v1]; exact hcur) (v5.trans hta) (v4.trans hjob) hpr2
        (by simp only [Process.next]; omega)
      rw [v7] at hd hruns
      refine ⟨(r, pr.text.get ⟨pr.instruction_pointer, hlt⟩) :: d, ?_, ?_⟩
      · rw [Spec.replay_cons_ok _ _ _ _ _ he, hd]
      · rw [Spec.replay_cons_ok _ _ _ _ _ he]
        exact System.runs_body_ok u v [_] _ haw hb v8 (by rw [v9, List.length_set])
          (by rw [v1]) hruns

/-- The loop of `awaken` in `executePrograms` ends, whatever the strategy and
whatever job the CPU holds at the call. -/
theorem System.started_ends (s : System) (hpv : pointersValid s.processes)
    (hjob : ∀ r, s.cpu.job = some r → r < s.processes.length)
    (list : List Process) (hlist : ∀ q ∈ list, q.instruction_pointer ≤ q.text.length) :
    (s.started list).halts := by
  obtain ⟨hpv2, hnd2, hpid2⟩ := System.loaded_fit s list hpv hlist
  have hsch := System.loaded_scheduler s list
  generalize horder : strategyOrder (s.processes ++ list) s.scheduler.strategy
    ((List.range list.length).map (fun i => s.processes.length + i)) = order at hsch
  have hact0 : (s.loaded list).scheduler.active = order := by rw [hsch]
  have hcur0 : (s.loaded list).scheduler.current = order.length - 1 := by rw [hsch]
  have hcur : (s.loaded list).scheduler.current ≤ (s.loaded list).scheduler.active.length := by
    rw [hact0, hcur0]; omega
  obtain ⟨hshape, hvalid, hzero⟩ :=
    Scheduler.schedule_shape (s.loaded list).processes (s.loaded list).scheduler hcur
  have hframe : (s.loaded list).scheduled.processes = s.processes ++ list ∧
      (s.loaded list).scheduled.cpu.interrupt_handler = true := by
    unfold System.scheduled
    split <;> exact ⟨rfl, rfl⟩
  obtain ⟨f1, f4⟩ := hframe
  by_cases h0 : ((s.loaded list).scheduler.schedule (s.loaded list).processes).2.active = []
  · have hsl := System.scheduled_sleep (s.loaded list) hcur h0
    have hact : (s.started list).scheduler.active = [] := by
      show (s.loaded list).scheduled.scheduler.active = []
      rw [System.scheduled_scheduler, h0]
    have hc0 : (s.started list).scheduler.current = 0 := by
      show (s.loaded list).scheduled.scheduler.current = 0
      rw [System.scheduled_scheduler]; exact hzero h0
    have hj : (s.started list).cpu.job = s.cpu.job := by
      show (s.loaded list).scheduled.cpu.job = _
      rw [hsl]
      rfl
    have hta : (s.started list).cpu.timer_active = false := by
      show (s.loaded list).scheduled.cpu.timer_active = _
      rw [hsl]
      rfl
    cases hr : s.cpu.job with
    | none =>
      exact ⟨[], rfl, System.runs_empty (s.started list) rfl f4 hact hc0
        (fun r h => by rw [hj, hr] at h; cases h)⟩
    | some r =>
      have hrl := hjob r hr
      have hpr : (s.started list).processes[r]? = some (s.processes.get ⟨r, hrl⟩) := by
        show (s.loaded list).scheduled.processes[r]? = _
        rw [f1, List.getElem?_append_left hrl]
        exact List.getElem?_eq_getElem hrl
      have hle := hpv r _ (List.getElem?_eq_getElem hrl)
      exact System.runs_stale
        ((s.processes.get ⟨r, hrl⟩).text.length - (s.processes.get ⟨r, hrl⟩).instruction_pointer)
        (s.started list) r _ rfl f4 hact hc0 hta (hj.trans hr) hpr
        (by have : (s.processes.get ⟨r, hrl⟩).instruction_pointer
              ≤ (s.processes.get ⟨r, hrl⟩).text.length := hle
            omega)
  · have ho : order ≠ [] := by
      intro ho
      apply h0
      rw [Scheduler.schedule_end _ _ (by rw [hact0, hcur0, ho]; rfl)]
      rw [hact0, ho]
    obtain ⟨pre, r, hsplit, hlen⟩ := split_last order ho
    obtain ⟨_, _, _, _, _, hcase⟩ := System.scheduled_wired (s.loaded list) hpv2 hnd2 hpid2
      pre [] r (by rw [hact0, hsplit]) (by rw [hcur0, hlen])
    rcases hcase with ⟨e1, _⟩ | ⟨g1, g2, _, g4, g5, _⟩
    · rw [System.scheduled_scheduler] at e1
      exact absurd e1 h0
    · have hw : (s.started list).wired :=
        ⟨by show pointersValid (s.loaded list).scheduled.processes
            rw [f1]; exact hpv2,
         g1,
         by show ∀ p ∈ (s.loaded list).scheduled.scheduler.active,
              p < (s.loaded list).scheduled.processes.length
            rw [f1]; exact g2,
         rfl, f4, g4, g5⟩
      exact System.wired_halts _ _ (Nat.le_refl _) hw

/-- A run of `executePrograms` whose programs compile ends, whatever the
strategy, its quantum and the job the CPU holds at the call, given enough
passes of the loop: what it executed, replayed on the machine it started on,
gives its outcome and the machine it leaves. -/
theorem System.executePrograms_ends (s : System) (hl : s.cpu.current_level = .RING0)
    (hpv : pointersValid s.processes)
    (hjob : ∀ r, s.cpu.job = some r → r < s.processes.length)
    (programs : List (List Char)) (list : List Process)
    (hmk : System.makeProcesses programs = .ok list) :
    ∃ fuel0, ∀ fuel, fuel0 ≤ fuel → ∃ x t d,
      s.executePrograms fuel programs = some (x, t) ∧
      t.executed = s.executed ++ d ∧ Spec.replay d s.machine = (x, t.machine, d) := by
  obtain ⟨d, hd, fuel0, u, hloop, hex, hm, _, _, hok⟩ :=
    System.started_ends s hpv hjob list (System.makeProcesses_pointers programs list hmk)
  have hms : (s.started list).machine = s.machine := by
    show (s.loaded list).scheduled.machine = _
    unfold System.scheduled
    split <;> rfl
  have hexs : (s.started list).executed = s.executed := by
    show (s.loaded list).scheduled.executed = _
    unfold System.scheduled
    split <;> rfl
  rw [hms] at hd hloop hex hm hok
  rw [hexs, hd] at hex
  have hrep : Spec.replay d s.machine = ((Spec.replay d s.machine).1, u.machine, d) := by
    rw [hm]
    exact Prod.ext rfl (Prod.ext rfl hd)
  refine ⟨fuel0, fun fuel hfuel => ?_⟩
  have hloop2 : System.awakenLoop fuel (s.started list)
      = some ((Spec.replay d s.machine).1, u) := by
    have := System.awakenLoop_mono fuel0 (s.started list) _ (fuel - fuel0) hloop
    rw [show fuel0 + (fuel - fuel0) = fuel by omega] at this
    exact this
  rw [System.executePrograms_eq fuel s hl programs list hmk, hloop2]
  rcases hx : (Spec.replay d s.machine).1 with f | v
  · rw [hx] at hrep
    exact ⟨_, _, d, rfl, hex, hrep⟩
  · rw [hx] at hrep
    exact ⟨_, _, d, rfl, hex, hrep⟩

/-- What the handler `schedule` changes besides the timer and the running flag:
the scheduler, and the job when a process was returned. -/
theorem System.schedule_parts (s : System) :
    (s.schedule).2.processes = s.processes ∧
    (s.schedule).2.scheduler = (s.scheduler.schedule s.processes).2 ∧
    ((s.schedule).2.cpu.job = s.cpu.job ∨
      ∃ p, (s.schedule).2.cpu.job = some p ∧ (s.scheduler.schedule s.processes).1.1 = some p) := by
  obtain ⟨cpu, ram, sched, procs, out, ex⟩ := s
  obtain ⟨regs, timer, ta, ih, job, awake, level⟩ := cpu
  unfold System.schedule
  rcases hsch : sched.schedule procs with ⟨⟨op, q⟩, sch⟩
  simp only []
  cases op with
  | none => cases level <;> exact ⟨rfl, rfl, Or.inl rfl⟩
  | some p =>
    by_cases hq : q = WITHOUT_TIMER
    · cases level
      · simp [hq, CPU.disableTimer, CPU.setJob, CPU.requireLevel, ProtectionLevel.toNat]
      · simp [hq, CPU.disableTimer, CPU.setJob, CPU.requireLevel, ProtectionLevel.toNat]
    · cases level
      · simp [hq, CPU.setTimer, CPU.setJob, CPU.requireLevel, ProtectionLevel.toNat]
      · simp [hq, CPU.setTimer, CPU.setJob, CPU.requireLevel, ProtectionLevel.toNat]

theorem System.schedule_linked (s : System) (h : s.linked) : (s.schedule).2.linked := by
  obtain ⟨h1, h2, h3⟩ := h
  obtain ⟨p1, p2, p3⟩ := System.schedule_parts s
  have hsub : ∀ p ∈ (s.scheduler.schedule s.processes).2.active, p ∈ s.scheduler.active := by
    intro p hp
    rw [Scheduler.schedule_active] at hp
    rcases List.mem_append.1 hp with hp | hp
    · exact List.mem_of_mem_take hp
    · exact List.mem_of_mem_drop ((List.dropWhile_sublist _).subset hp)
  refine ⟨by rw [p1]; exact h1, ?_, ?_⟩
  · rw [p1, p2]
    exact fun p hp => h2 p (hsub p hp)
  · rw [p1]
    rcases p3 with e | ⟨p, e1, e2⟩
    · rw [e]; exact h3
    · intro r hr
      rw [e1] at hr
      have hpr : p = r := Option.some.inj hr
      rw [← hpr]
      exact h2 p (hsub p (Scheduler.schedule_some s.processes s.scheduler p e2))

theorem System.interrupt_linked (s : System) (h : s.linked) : (s.interrupt).2.linked := by
  have hs := System.schedule_linked { s with cpu := { s.cpu with current_level := .RING0 } } h
  obtain ⟨cpu, ram, sched, procs, out, ex⟩ := s
  obtain ⟨regs, timer, ta, ih, job, awake, level⟩ := cpu
  unfold System.interrupt
  simp only [] at hs ⊢
  cases ih with
  | false =>
    simp only [Bool.not_false, if_true]
    exact h
  | true =>
    simp only [Bool.not_true, Bool.false_eq_true, if_false]
    rcases hx : System.schedule
      { cpu := { registers := regs, timer := timer, timer_active := ta,
                 interrupt_handler := true, job := job, awake := awake,
                 current_level := .RING0 },
        ram := ram, scheduler := sched, processes := procs, out := out, executed := ex }
      with ⟨r, t⟩
    rw [hx] at hs
    cases r with
    | error f => exact hs
    | ok u => exact hs

theorem System.timerTick_linked (s : System) (h : s.linked) : (s.timerTick).2.linked := by
  unfold System.timerTick
  by_cases ha : s.cpu.timer_active = true
  · rw [if_pos ha]
    simp only []
    split
    · exact System.interrupt_linked _ h
    · exact h
  · rw [if_neg ha]
    exact h

/-- A pass of the loop of `awaken` keeps every pointer on a `Process` object. -/
theorem System.awakenBody_linked (s t : System) (x : Except Fault Unit) (h : s.linked)
    (hb : s.awakenBody = some (x, t)) : t.linked := by
  unfold System.awakenBody at hb
  cases hjob : s.cpu.job with
  | none =>
    rw [hjob] at hb
    simp only [Option.some.injEq] at hb
    have := System.interrupt_linked s h
    rw [hb] at this
    exact this
  | some j =>
    rw [hjob] at hb
    simp only [] at hb
    cases hpr : s.processes[j]? with
    | none => rw [hpr] at hb; cases hb
    | some pr =>
      rw [hpr] at hb
      simp only [] at hb
      by_cases hn : pr.hasNext = true
      · simp only [hn, Bool.not_true, Bool.false_eq_true, if_false] at hb
        have hlt : pr.instruction_pointer < pr.text.length := by
          have := h.1 j pr hpr
          simp only [Process.hasNext, decide_eq_true_eq] at hn
          omega
        have hstep : ∀ (i : Instruction) (m : Machine), System.linked (System.setMachine
            { s with processes := s.processes.set j pr.next.2,
                     executed := s.executed ++ [(j, i)] } m) := by
          intro i m
          refine ⟨pointersValid_step s.processes h.1 j pr hpr hlt, ?_, ?_⟩
          · intro p hp
            show p < (s.processes.set j pr.next.2).length
            rw [List.length_set]
            exact h.2.1 p hp
          · intro r hr
            show r < (s.processes.set j pr.next.2).length
            rw [List.length_set]
            exact h.2.2 r hr
        cases hnx : pr.next.1 with
        | none =>
          have : pr.next = (none, pr.next.2) := by rw [← hnx]
          rw [this] at hb
          cases hb
        | some i =>
          have : pr.next = (some i, pr.next.2) := by rw [← hnx]
          rw [this] at hb
          simp only [] at hb
          rcases hex : i.execute (System.machine
            { s with processes := s.processes.set j pr.next.2,
                     executed := s.executed ++ [(j, i)] }) with ⟨y, m⟩
          rw [hex] at hb
          cases y with
          | error f =>
            simp only [Option.some.injEq, Prod.mk.injEq] at hb
            rw [← hb.2]
            exact hstep i m
          | ok v =>
            simp only [Option.some.injEq] at hb
            have := System.timerTick_linked _ (hstep i m)
            rw [hb] at this
            exact this
      · simp only [Bool.not_eq_true] at hn
        simp only [hn, Bool.not_false, if_true, Option.some.injEq] at hb
        have := System.interrupt_linked s h
        rw [hb] at this
        exact this

theorem System.awakenLoop_linked : ∀ (fuel : Nat) (s t : System) (x : Except Fault Unit),
    s.linked → System.awakenLoop fuel s = some (x, t) → t.linked := by
  intro fuel
  induction fuel with
  | zero => intro s t x _ h; cases h
  | succ fuel ih =>
    intro s t x hs h
    simp only [System.awakenLoop] at h
    by_cases haw : s.cpu.awake = true
    · simp only [haw, Bool.not_true, Bool.false_eq_true, if_false] at h
      cases hb : s.awakenBody with
      | none => rw [hb] at h; cases h
      | some y =>
        obtain ⟨r, u⟩ := y
        rw [hb] at h
        have hu := System.awakenBody_linked s u r hs hb
        cases r with
        | error f =>
          simp only [Option.some.injEq, Prod.mk.injEq] at h
          rw [← h.2]
          exact hu
        | ok v => exact ih u t x hu h
    · simp only [Bool.not_eq_true] at haw
      simp only [haw, Bool.not_false, if_true, Option.some.injEq, Prod.mk.injEq] at h
      rw [← h.2]
      exact hs

/-- Whatever a call of `executePrograms` does, with or without a fault, it leaves
the OS in a state in which it can be called again. -/
theorem System.executePrograms_consistent (s : System) (hs : s.consistent) (fuel : Nat)
    (programs : List (List Char)) (x : Except Fault Unit) (t : System)
    (h : s.executePrograms fuel programs = some (x, t)) : t.consistent := by
  obtain ⟨hl, hpv, hjob⟩ := hs
  cases hmk : System.makeProcesses programs with
  | error f =>
    unfold System.executePrograms at h
    rw [hmk] at h
    simp only [Option.some.injEq, Prod.mk.injEq] at h
    rw [← h.2]
    exact ⟨hl, hpv, hjob⟩
  | ok list =>
    rw [System.executePrograms_eq fuel s hl programs list hmk] at h
    obtain ⟨hpv2, _, hpid2⟩ :=
      System.loaded_fit s list hpv (System.makeProcesses_pointers programs list hmk)
    have hll : (s.loaded list).linked := by
      refine ⟨hpv2, hpid2, fun r hr => ?_⟩
      show r < (s.processes ++ list).length
      rw [List.length_append]
      exact Nat.lt_of_lt_of_le (hjob r hr) (Nat.le_add_right _ _)
    have hsl : (s.started list).linked := by
      have := System.schedule_linked (s.loaded list) hll
      rw [System.schedule_eq _ (show (s.loaded list).cpu.current_level = .RING0 from hl)] at this
      exact this
    cases hloop : System.awakenLoop fuel (s.started list) with
    | none => rw [hloop] at h; cases h
    | some y =>
      obtain ⟨r, u⟩ := y
      rw [hloop] at h
      have hu := System.awakenLoop_linked fuel _ u r hsl hloop
      cases r with
      | error f =>
        simp only [Option.some.injEq, Prod.mk.injEq] at h
        rw [← h.2]
        exact ⟨rfl, hu.1, hu.2.2⟩
      | ok v =>
        simp only [Option.some.injEq, Prod.mk.injEq] at h
        rw [← h.2]
        exact ⟨rfl, hu.1, hu.2.2⟩

theorem System.fresh_consistent (register_count size : Nat) (strategy : Strategy) :
    (System.fresh register_count size strategy).consistent :=
  ⟨rfl, fun p q h => by simp [System.fresh] at h, fun r h => by cases h⟩

/-- The handler `schedule` when the active list holds one process, which has a
next instruction: the list stays, and the process is the job again. -/
theorem System.scheduled_single (s : System) (n : Nat) (hact : s.scheduler.active = [n])
    (hcur : s.scheduler.current = 0) (hp : exhausted s.processes n = false) :
    s.scheduled.scheduler.active = [n] ∧ s.scheduled.scheduler.current = 0 ∧
    s.scheduled.cpu.job = some n ∧ s.scheduled.cpu.awake = s.cpu.awake ∧
    s.scheduled.cpu.interrupt_handler = s.cpu.interrupt_handler ∧
    s.scheduled.processes = s.processes ∧ s.scheduled.machine = s.machine ∧
    s.scheduled.executed = s.executed ∧
    s.scheduled.scheduler.strategy = s.scheduler.strategy := by
  have h := Scheduler.schedule_live s.processes s.scheduler [] [] n (by simpa using hact)
    (by simpa using hcur) hp
  simp only [if_true] at h
  have hpick : Scheduler.pickProcess { s.scheduler with current := 0 }
      = (some n, s.scheduler.strategy.quantum) := by
    rw [Scheduler.pickProcess_eq]
    simp [hact]
  rw [hpick] at h
  unfold System.scheduled
  rw [h]
  exact ⟨hact, rfl, rfl, rfl, rfl, rfl, rfl, rfl, rfl⟩

/-- One process alone in the active list, whose remaining instructions, run one
after the other from the machine of `s`, end in a fault: the loop runs them up
to the fault, whatever the timer does. -/
theorem System.single_runs : ∀ (k : Nat) (s : System) (n : Nat) (pr : Process),
    s.cpu.awake = true → s.cpu.interrupt_handler = true → s.scheduler.active = [n] →
    s.scheduler.current = 0 → s.cpu.job = some n → s.processes[n]? = some pr →
    pr.instruction_pointer + k = pr.text.length →
    (Spec.replay ((pr.text.drop pr.instruction_pointer).map (fun i => (n, i))) s.machine).1
      ≠ .ok () →
    s.runs (Spec.replay ((pr.text.drop pr.instruction_pointer).map (fun i => (n, i)))
      s.machine) := by
  intro k
  induction k with
  | zero =>
    intro s n pr _ _ _ _ _ _ hk hne
    exfalso
    apply hne
    have : pr.text.drop pr.instruction_pointer = [] := List.drop_eq_nil_iff.2 (by omega)
    rw [this]
    rfl
  | succ k ih =>
    intro s n pr haw hh hact hcur hjob hpr hk hne
    have hlt : pr.instruction_pointer < pr.text.length := by omega
    have hdrop : pr.text.drop pr.instruction_pointer
        = pr.text.get ⟨pr.instruction_pointer, hlt⟩ :: pr.text.drop (pr.instruction_pointer + 1) :=
      List.drop_eq_getElem_cons hlt
    rw [hdrop, List.map_cons] at hne ⊢
    rcases execute_cases (pr.text.get ⟨pr.instruction_pointer, hlt⟩) s.machine with
      ⟨f, m1, he⟩ | ⟨m1, he⟩
    · rw [Spec.replay_cons_fault _ _ _ _ _ _ he]
      exact System.step_fault s n pr m1 f haw hjob hpr hlt he
    · rw [Spec.replay_cons_ok _ _ _ _ _ he] at hne ⊢
      simp only [] at hne
      have hnl : n < s.processes.length := lt_of_getElem? _ _ _ hpr
      have hlive : pr.instruction_pointer + 1 < pr.text.length := by
        rcases Nat.lt_or_ge (pr.instruction_pointer + 1) pr.text.length with h | h
        · exact h
        · exfalso
          apply hne
          have : pr.text.drop (pr.instruction_pointer + 1) = [] := List.drop_eq_nil_iff.2 h
          rw [this]
          rfl
      have hbody := System.awakenBody_live s n pr hjob hpr hlt
      rw [he] at hbody
      simp only [] at hbody
      obtain ⟨e1, e2, e3, e4, e5, e6, e7, e8, e9, e10⟩ :=
        System.stepped_facts s n pr (pr.text.get ⟨pr.instruction_pointer, hlt⟩) m1
      obtain ⟨v, hv, v1, v2, v3, v4, v5, v6, v7⟩ := System.timerTick_cases
        (s.stepped n pr (pr.text.get ⟨pr.instruction_pointer, hlt⟩) m1) (e3.trans hh)
      have hvp : v.processes[n]? = some pr.next.2 := by
        rw [v2, e10]
        exact List.getElem?_set_self hnl
      have hnext : pr.next.2.instruction_pointer + k = pr.next.2.text.length := by
        simp only [Process.next]; omega
      have hrest : pr.next.2.text.drop pr.next.2.instruction_pointer
          = pr.text.drop (pr.instruction_pointer + 1) := rfl
      have hvlen : v.processes.length = s.processes.length := by
        rw [v2, e10, List.length_set]
      rcases hv with hv | hv
      · rw [hv] at hbody
        have hr := ih v n pr.next.2 (by rw [v5, e2, haw]) (by rw [v6, e3, hh])
          (by rw [v1, e1, hact]) (by rw [v1, e1, hcur]) (by rw [v7, e4, hjob]) hvp hnext
          (by rw [hrest, v4, e8]; exact hne)
        rw [hrest, v4, e8] at hr
        exact System.runs_body_ok s v [_] _ haw hbody (by rw [v3, e9]) hvlen
          (by rw [v1, e1]) hr
      · rw [hv] at hbody
        have hex : exhausted v.processes n = false := by
          unfold exhausted hasNextAt
          rw [hvp]
          simp only [Process.hasNext, Process.next, Bool.not_eq_false', decide_eq_true_eq]
          omega
        obtain ⟨g1, g2, g3, g4, g5, g6, g7, g8, g9⟩ := System.scheduled_single
          { v with cpu := { v.cpu with current_level := .RING0 } } n
          (by show v.scheduler.active = [n]; rw [v1, e1, hact])
          (by show v.scheduler.current = 0; rw [v1, e1, hcur]) hex
        have hr := ih v.interrupted n pr.next.2
          (by show (System.scheduled _).cpu.awake = true
              rw [g4]; show v.cpu.awake = true; rw [v5, e2, haw])
          (by show (System.scheduled _).cpu.interrupt_handler = true
              rw [g5]; show v.cpu.interrupt_handler = true; rw [v6, e3, hh])
          g1 g2 g3
          (by show (System.scheduled _).processes[n]? = _
              rw [g6]; exact hvp)
          hnext
          (by rw [hrest]
              show (Spec.replay _ (System.scheduled _).machine).1 ≠ _
              rw [g7]
              show (Spec.replay _ v.machine).1 ≠ _
              rw [v4, e8]; exact hne)
        rw [hrest] at hr
        have hm : v.interrupted.machine = m1 := by
          rw [(System.interrupted_frame v).2.2.1, v4, e8]
        rw [hm] at hr
        exact System.runs_body_ok s v.interrupted [_] _ haw hbody
          (by rw [(System.interrupted_frame v).2.1, v3, e9])
          (by rw [(System.interrupted_frame v).1, hvlen])
          (by rw [(System.interrupted_frame v).2.2.2, v1, e1]) hr

/-- The state in which the loop of `awaken` starts when `executePrograms` is
given one program with an instruction in it: the new process is alone in the
active list and is the job, whatever job the CPU held. -/
theorem System.started_single (s : System) (P : Process) (hP : P.hasNext = true) :
    (s.started [P]).cpu.awake = true ∧ (s.started [P]).cpu.interrupt_handler = true ∧
    (s.started [P]).scheduler.active = [s.processes.length] ∧
    (s.started [P]).scheduler.current = 0 ∧
    (s.started [P]).cpu.job = some s.processes.length ∧
    (s.started [P]).processes[s.processes.length]? = some P ∧
    (s.started [P]).machine = s.machine ∧ (s.started [P]).executed = s.executed := by
  have hsch := System.loaded_scheduler s [P]
  have hord : strategyOrder (s.processes ++ [P]) s.scheduler.strategy
      ((List.range [P].length).map (fun i => s.processes.length + i)) = [s.processes.length] :=
    List.perm_singleton.1 (strategyOrder_perm _ _ _)
  rw [hord] at hsch
  have hget : (s.loaded [P]).processes[s.processes.length]? = some P := by
    show (s.processes ++ [P])[s.processes.length]? = some P
    rw [List.getElem?_append_right (Nat.le_refl _)]
    simp
  have hex : exhausted (s.loaded [P]).processes s.processes.length = false := by
    unfold exhausted hasNextAt
    rw [hget]
    simp [hP]
  obtain ⟨g1, g2, g3, _, g5, g6, g7, g8, _⟩ := System.scheduled_single (s.loaded [P])
    s.processes.length (by rw [hsch]) (by rw [hsch]; rfl) hex
  refine ⟨rfl, g5, g1, g2, g3, ?_, g7, g8⟩
  show (s.loaded [P]).scheduled.processes[s.processes.length]? = some P
  rw [g6]
  exact hget

/-- What the loop of `awaken` does from `System.started` is what
`executePrograms` does, given enough passes of the loop. -/
theorem System.executePrograms_runs (s : System) (hl : s.cpu.current_level = .RING0)
    (programs : List (List Char)) (list : List Process)
    (hmk : System.makeProcesses programs = .ok list)
    (x : Except Fault Unit × Machine × List (Nat × Instruction))
    (hx : (s.started list).runs x) :
    ∃ fuel0, ∀ fuel, fuel0 ≤ fuel → ∃ t,
      s.executePrograms fuel programs = some (x.1, t) ∧
      t.executed = (s.started list).executed ++ x.2.2 ∧ t.machine = x.2.1 := by
  obtain ⟨fuel0, u, hloop, hex, hm, _, _, _⟩ := hx
  refine ⟨fuel0, fun fuel hfuel => ?_⟩
  have hloop2 : System.awakenLoop fuel (s.started list) = some (x.1, u) := by
    have := System.awakenLoop_mono fuel0 (s.started list) _ (fuel - fuel0) hloop
    rw [show fuel0 + (fuel - fuel0) = fuel by omega] at this
    exact this
  rw [System.executePrograms_eq fuel s hl programs list hmk, hloop2]
  rcases hx1 : x.1 with f | v
  · exact ⟨_, rfl, hex, hm⟩
  · exact ⟨_, rfl, hex, hm⟩

theorem Instruction.execute_set (reg val : Int) (m : Machine) :
    (Instruction.set reg val).execute m
      = ((RegisterSet.store m.regs reg val).1,
          { m with regs := (RegisterSet.store m.regs reg val).2 }) := rfl

/-- The positions of the registers `R1` and `R2` in a register file with at
least two registers. -/
theorem Memory.get_low (m : Memory) (h2 : 2 ≤ m.mem.length) (h31 : m.mem.length < 2147483648) :
    Memory.get 1 Fault.invalidRegister m 1 = .ok 0 ∧
    Memory.get 1 Fault.invalidRegister m 2 = .ok 1 := by
  have hw : wrap32 (m.mem.length : Int) = m.mem.length := by
    unfold wrap32; omega
  have h0 : wrap32 ((1 : Int) - ((1 : Nat) : Int)) = 0 := by unfold wrap32; omega
  have h1 : wrap32 ((2 : Int) - ((1 : Nat) : Int)) = 1 := by unfold wrap32; omega
  unfold Memory.get
  simp only []
  rw [h0, h1, hw, if_neg (by omega), if_neg (by omega)]
  exact ⟨rfl, rfl⟩

/-- Writing and reading the registers `R1` and `R2` of a register file with at
least two registers. -/
theorem RegisterSet.low (m : Memory) (v : Int) (h2 : 2 ≤ m.mem.length)
    (h31 : m.mem.length < 2147483648) :
    RegisterSet.store m 1 v = (.ok (), { mem := m.mem.set 0 v }) ∧
    RegisterSet.store m 2 v = (.ok (), { mem := m.mem.set 1 v }) ∧
    (RegisterSet.load m 1).1 = .ok (m.mem.getD 0 0) ∧
    (RegisterSet.load m 2).1 = .ok (m.mem.getD 1 0) := by
  obtain ⟨g1, g2⟩ := Memory.get_low m h2 h31
  unfold RegisterSet.store RegisterSet.load
  rw [Memory.store_eq, Memory.store_eq, Memory.load_fst, Memory.load_fst, g1, g2]
  exact ⟨rfl, rfl, rfl, rfl⟩

theorem getD_set_low (l : List Int) (a b : Int) (h2 : 2 ≤ l.length) :
    ((l.set 0 a).set 1 b).getD 0 0 = a ∧ ((l.set 0 a).set 1 b).getD 1 0 = b := by
  rw [List.getD_eq_getElem?_getD, List.getD_eq_getElem?_getD,
    List.getElem?_set_ne (by omega), List.getElem?_set_self (by omega),
    List.getElem?_set_self (by rw [List.length_set]; omega)]
  exact ⟨rfl, rfl⟩

/-- The program `SET R1 5`, `SET R2 0`, `DIV R1 R2` run on a machine with at
least two registers: the division raises the division-by-zero fault, and
nothing is written. -/
theorem Spec.replay_division (n : Nat) (m : Machine) (h2 : 2 ≤ m.regs.mem.length)
    (h31 : m.regs.mem.length < 2147483648) :
    ∃ m2, Spec.replay [(n, .set 1 5), (n, .set 2 0), (n, .div 1 2)] m
        = (.error .divisionByZero, m2, [(n, .set 1 5), (n, .set 2 0), (n, .div 1 2)]) ∧
      m2.out = m.out := by
  obtain ⟨regs, ram, out⟩ := m
  have a2 : 2 ≤ (regs.mem.set 0 5).length := by rw [List.length_set]; exact h2
  have a31 : (regs.mem.set 0 5).length < 2147483648 := by rw [List.length_set]; exact h31
  have b2 : 2 ≤ ((regs.mem.set 0 5).set 1 0).length := by rw [List.length_set]; exact a2
  have b31 : ((regs.mem.set 0 5).set 1 0).length < 2147483648 := by
    rw [List.length_set]; exact a31
  have hs1 : (Instruction.set 1 5).execute { regs := regs, ram := ram, out := out }
      = (.ok (), { regs := { mem := regs.mem.set 0 5 }, ram := ram, out := out }) := by
    rw [Instruction.execute_set, (RegisterSet.low regs 5 h2 h31).1]
  have hs2 : (Instruction.set 2 0).execute
        { regs := { mem := regs.mem.set 0 5 }, ram := ram, out := out }
      = (.ok (), { regs := { mem := (regs.mem.set 0 5).set 1 0 }, ram := ram, out := out }) := by
    rw [Instruction.execute_set, (RegisterSet.low { mem := regs.mem.set 0 5 } 0 a2 a31).2.1]
  have hl1 : (RegisterSet.load ({ mem := (regs.mem.set 0 5).set 1 0 } : Memory) 1).1
      = .ok 5 := by
    rw [(RegisterSet.low { mem := (regs.mem.set 0 5).set 1 0 } 0 b2 b31).2.2.1,
      (getD_set_low regs.mem 5 0 h2).1]
  have hl2 : (RegisterSet.load ({ mem := (regs.mem.set 0 5).set 1 0 } : Memory) 2).1
      = .ok 0 := by
    rw [(RegisterSet.low { mem := (regs.mem.set 0 5).set 1 0 } 0 b2 b31).2.2.2,
      (getD_set_low regs.mem 5 0 h2).2]
  obtain ⟨d1, _, d3⟩ := division_by_zero_atomic
    { regs := { mem := (regs.mem.set 0 5).set 1 0 }, ram := ram, out := out } 1 2 5 0 hl1 hl2
  have e1 := d1.2 rfl
  have e2 := (d3 _ e1).2
  refine ⟨{ regs := { mem := (regs.mem.set 0 5).set 1 0 }, ram := ram, out := out }, ?_, rfl⟩
  rw [Spec.replay_cons_ok _ _ _ _ _ hs1, Spec.replay_cons_ok _ _ _ _ _ hs2,
    Spec.replay_cons_fault n (.div 1 2) [] _ _ .divisionByZero (Prod.ext e1 e2)]

/-- C20: a runtime fault ends the run.  In every state an OS can be in between
two calls of `executePrograms`, a run that a fault ended before included, and
under every strategy, a run whose programs compile ends, and what it executed,
replayed one instruction after the other from the machine the run found, gives
its outcome and the machine it leaves.  Every instruction executed before
another one raised no fault; an executed instruction that raises a fault on the
machine left by the instructions executed before it is the last instruction
executed, of whatever process, the run raises that very fault, and the output
is the output as it was before that instruction; a fault the run raises is the
fault of the last instruction executed.  On a computer with at least two
registers the program `SET R1 5`, `SET R2 0`, `DIV R1 R2` raises the
division-by-zero fault after these three instructions, with nothing written.
The states meant are closed under `executePrograms`, whatever its outcome, and
hold the freshly installed OS. -/
theorem fault_ends_run (s : System) (hs : s.consistent)
    (programs : List (List Char)) (list : List Process)
    (hmk : System.makeProcesses programs = .ok list) :
    (∃ fuel0, ∀ fuel, fuel0 ≤ fuel → ∃ x t d,
      s.executePrograms fuel programs = some (x, t) ∧ t.executed = s.executed ++ d ∧
      Spec.replay d s.machine = (x, t.machine, d) ∧
      (∀ pre e post, d = pre ++ e :: post →
        (Spec.replay pre s.machine).1 = .ok () ∧
        ∀ f, (e.2.execute (Spec.replay pre s.machine).2.1).1 = .error f →
          post = [] ∧ x = .error f ∧ t.out = (Spec.replay pre s.machine).2.1.out) ∧
      (∀ f, x = .error f → ∃ pre e, d = pre ++ [e] ∧
        (e.2.execute (Spec.replay pre s.machine).2.1).1 = .error f)) ∧
    (2 ≤ s.cpu.registers.mem.length → s.cpu.registers.mem.length < 2147483648 →
      ∃ fuel0, ∀ fuel, fuel0 ≤ fuel → ∃ t,
        s.executePrograms fuel ["SET R1 5\nSET R2 0\nDIV R1 R2".toList]
          = some (.error .divisionByZero, t) ∧
        t.executed = s.executed ++ [(s.processes.length, .set 1 5),
          (s.processes.length, .set 2 0), (s.processes.length, .div 1 2)] ∧
        t.out = s.out) ∧
    (∀ fuel texts x t, s.executePrograms fuel texts = some (x, t) → t.consistent) ∧
    (∀ (register_count size : Nat) (strategy : Strategy),
      (System.fresh register_count size strategy).consistent) := by
  refine ⟨?_, fun h2 h31 => ?_, fun fuel texts x t h =>
    System.executePrograms_consistent s hs fuel texts x t h,
    fun n m st => System.fresh_consistent n m st⟩
  · obtain ⟨fuel0, h⟩ := System.executePrograms_ends s hs.1 hs.2.1 hs.2.2 programs list hmk
    refine ⟨fuel0, fun fuel hfuel => ?_⟩
    obtain ⟨x, t, d, h1, h2, h3⟩ := h fuel hfuel
    have hd : (Spec.replay d s.machine).2.2 = d := by rw [h3]
    refine ⟨x, t, d, h1, h2, h3, fun pre e post hsplit => ?_, fun f hf => ?_⟩
    · obtain ⟨g1, g2⟩ := Spec.replay_fault_last pre d s.machine e post hd hsplit
      refine ⟨g1, fun f hf => ?_⟩
      obtain ⟨k1, k2, k3⟩ := g2 f hf
      rw [h3] at k2 k3
      exact ⟨k1, k2, k3⟩
    · have hf2 : (Spec.replay d s.machine).1 = .error f := by rw [h3]; exact hf
      obtain ⟨pre, e, k1, _, k3⟩ := Spec.replay_fault_source d s.machine f hd hf2
      exact ⟨pre, e, k1, k3⟩
  · obtain ⟨a1, a2, a3, a4, a5, a6, a7, a8⟩ :=
      System.started_single s (Process.new [.set 1 5, .set 2 0, .div 1 2]) (by decide)
    obtain ⟨m2, hrep, hout⟩ := Spec.replay_division s.processes.length s.machine h2 h31
    have hruns := System.single_runs 3
      (s.started [Process.new [.set 1 5, .set 2 0, .div 1 2]]) s.processes.length
      (Process.new [.set 1 5, .set 2 0, .div 1 2]) a1 a2 a3 a4 a5 a6 rfl
      (by rw [a7]
          show (Spec.replay [(s.processes.length, Instruction.set 1 5),
            (s.processes.length, .set 2 0), (s.processes.length, .div 1 2)] s.machine).1 ≠ _
          rw [hrep]
          exact fun h => by cases h)
    rw [a7] at hruns
    have hruns2 : (s.started [Process.new [.set 1 5, .set 2 0, .div 1 2]]).runs
        (.error .divisionByZero, m2, [(s.processes.length, .set 1 5),
          (s.processes.length, .set 2 0), (s.processes.length, .div 1 2)]) := by
      rw [← hrep]
      exact hruns
    obtain ⟨fuel0, h⟩ := System.executePrograms_runs s hs.1
      ["SET R1 5\nSET R2 0\nDIV R1 R2".toList]
      [Process.new [.set 1 5, .set 2 0, .div 1 2]] (by decide) _ hruns2
    refine ⟨fuel0, fun fuel hfuel => ?_⟩
    obtain ⟨t, h1, h2, h3⟩ := h fuel hfuel
    refine ⟨t, h1, by rw [h2, a8], ?_⟩
    have : t.out = t.machine.out := rfl
    rw [this, h3, hout]
    rfl

theorem fault_ends_run_witness :
    (System.faultedExample.scheduler.strategy, System.faultedExample.cpu.job,
      System.faultedExample.processes.map (fun p => p.hasNext),
      System.faultedExample.cpu.interrupt_handler)
      = (.rr (-3), some 0, [true], true) ∧
    (System.faultedExample.executePrograms 20
        ["SET R1 5\nPRINTLN R1\nPRINTLN R1".toList,
         "SET R2 0\nDIV R1 R2\nPRINTLN R1".toList]).map
      (fun r => (r.1, r.2.executed.drop 2, r.2.out))
      = some (.error .divisionByZero,
          [(1, .set 1 5), (1, .println 1), (1, .println 1), (2, .set 2 0), (2, .div 1 2)],
          [5, 5]) ∧
    (∃ fuel0, ∀ fuel, fuel0 ≤ fuel → ∃ x t d,
      System.faultedExample.executePrograms fuel
          ["SET R1 5\nPRINTLN R1\nPRINTLN R1".toList,
           "SET R2 0\nDIV R1 R2\nPRINTLN R1".toList] = some (x, t) ∧
      t.executed = System.faultedExample.executed ++ d ∧
      Spec.replay d System.faultedExample.machine = (x, t.machine, d) ∧
      (∀ pre e post, d = pre ++ e :: post →
        (Spec.replay pre System.faultedExample.machine).1 = .ok () ∧
        ∀ f, (e.2.execute (Spec.replay pre System.faultedExample.machine).2.1).1 = .error f →
          post = [] ∧ x = .error f ∧
          t.out = (Spec.replay pre System.faultedExample.machine).2.1.out) ∧
      (∀ f, x = .error f → ∃ pre e, d = pre ++ [e] ∧
        (e.2.execute (Spec.replay pre System.faultedExample.machine).2.1).1 = .error f)) ∧
    (∃ fuel0, ∀ fuel, fuel0 ≤ fuel → ∃ t,
      System.faultedExample.executePrograms fuel ["SET R1 5\nSET R2 0\nDIV R1 R2".toList]
        = some (.error .divisionByZero, t) ∧
      t.executed = System.faultedExample.executed ++ [(1, .set 1 5), (1, .set 2 0),
        (1, .div 1 2)] ∧
      t.out = System.faultedExample.out) :=
  have hs : System.faultedExample.consistent :=
    System.executePrograms_consistent (System.fresh 2 1 (.rr (-3)))
      (System.fresh_consistent 2 1 (.rr (-3))) 20
      ["SET R1 5\nDIV R1 R2\nPRINTLN R1".toList] (.error .divisionByZero) _ (by decide)
  have h := fault_ends_run System.faultedExample hs
    ["SET R1 5\nPRINTLN R1\nPRINTLN R1".toList, "SET R2 0\nDIV R1 R2\nPRINTLN R1".toList]
    [Process.new [.set 1 5, .println 1, .println 1],
     Process.new [.set 2 0, .div 1 2, .println 1]] (by decide)
  ⟨by decide, by decide, h.1, h.2.1 (by decide) (by decide)⟩

end Computer
